import Mathlib

/-!
# Intercept code generation core: a shallow embedding

The definitions below follow `src/codegen.c` (AST to IR lowering, the driver and
the name mangler), `src/codegen/machine_ir.c` (IR to MIR translation) and
`src/parser.c` (the lexer and the integer parser).
C strings and string buffers are lists of characters, pointers are indices into
explicit stores, `usz` values are natural numbers. A fatal internal error of the
C program (`ICE`, `ASSERT`, `TODO`, `UNREACHABLE`) is an `Except.error`.
-/

namespace Intercept

/-- A C string (`span` / `string`): its bytes; `size` is the length of the list. -/
abbrev CStr := List Char

/-! ## Formatting helpers used by the mangler -/

/-- Modelled from the spec: the `%Z` directive of `format_to` (not part of the sources at hand)
prints an unsigned size in decimal, without leading zeros. -/
def format_Z (n : Nat) : List Char := Nat.toDigits 10 n

/-- Modelled from the spec: `number_width` (a utility outside the sources at hand) is the
digit-count of its argument in decimal. -/
def number_width (n : Nat) : Nat := (Nat.toDigits 10 n).length

/-! ## Types (shared with the AST) -/

/-- The type variant of the AST, as far as code generation reads it. `named` carries the
resolution of the alias (`t->named->val.type`, null when unresolved); `struct` carries the
name of the declaration it points to (empty for an anonymous struct). -/
inductive Ty where
  | primitive (name : CStr)
  | named (name : CStr) (val : Option Ty)
  | pointer (to_ : Ty)
  | reference (to_ : Ty)
  | array (of_ : Ty) (size : Nat)
  | function (return_type : Ty) (parameters : List (CStr × Ty))
  | struct (name : CStr)
  | integer (is_signed : Bool) (bit_width : Nat)

/-- Linkage of a symbol (`SymbolLinkage`). -/
inductive SymbolLinkage where
  | LINKAGE_LOCALVAR | LINKAGE_USED | LINKAGE_INTERNAL | LINKAGE_EXPORTED
  | LINKAGE_IMPORTED | LINKAGE_REEXPORTED
deriving DecidableEq

/-- An IR function: name, type, linkage, attribute flags, parameter instructions and blocks
(both as indices into the stores of the codegen context). -/
structure IRFunction where
  name : CStr
  type : Ty
  linkage : SymbolLinkage := .LINKAGE_INTERNAL
  attr_nomangle : Bool := false
  attr_forceinline : Bool := false
  attr_noreturn : Bool := false
  attr_pure : Bool := false
  attr_leaf : Bool := false
  attr_consteval : Bool := false
  is_definition : Bool := true
  parameters : List Nat := []
  blocks : List Nat := []

/-! ## Name mangling (`codegen.c`, `mangle_type_to` and `mangle_function_name`) -/

/-- The function `mangle_type_to`: appends the encoding of `t` to `buf`. The static counter
`struct_count` of the anonymous-struct branch is threaded through as state. -/
def mangle_type_to (buf : List Char) (struct_count : Nat) (t : Ty) : List Char × Nat :=
  match t with
  | .struct name =>
      if name.length ≠ 0 then (buf ++ format_Z name.length ++ name, struct_count)
      else
        (buf ++ format_Z (number_width struct_count) ++ format_Z struct_count,
          (struct_count + 1) % 2 ^ 64)
  | .primitive name => (buf ++ format_Z name.length ++ name, struct_count)
  | .named name none => (buf ++ format_Z name.length ++ name, struct_count)
  | .named _ (some val) => mangle_type_to buf struct_count val
  | .integer is_signed bit_width =>
      let length := 1 + number_width bit_width
      (buf ++ format_Z length ++ [if is_signed then 's' else 'u'] ++ format_Z bit_width,
        struct_count)
  | .pointer to_ => mangle_type_to (buf ++ ['P']) struct_count to_
  | .reference to_ => mangle_type_to (buf ++ ['R']) struct_count to_
  | .array of_ size => mangle_type_to (buf ++ ['A'] ++ format_Z size ++ ['E']) struct_count of_
  | .function return_type parameters =>
      let r := mangle_type_to (buf ++ ['F']) struct_count return_type
      let p := mangle_params r.1 r.2 parameters
      (p.1 ++ ['E'], p.2)
where
  /-- The loop `foreach (param, t->function.parameters) mangle_type_to(buf, param->type)`. -/
  mangle_params (buf : List Char) (struct_count : Nat) (ps : List (CStr × Ty)) : List Char × Nat :=
    match ps with
    | [] => (buf, struct_count)
    | param :: rest =>
        let r := mangle_type_to buf struct_count param.2
        mangle_params r.1 r.2 rest

/-- The function `mangle_function_name`: the new state of the function and of the
anonymous-struct counter. -/
def mangle_function_name (struct_count : Nat) (function : IRFunction) : IRFunction × Nat :=
  if function.attr_nomangle then (function, struct_count)
  else
    let name := function.name
    let buf : List Char := ['_', 'X', 'F'] ++ format_Z name.length ++ name
    let r := mangle_type_to buf struct_count function.type
    ({ function with name := r.1 }, r.2)

/-! ### The encoding as the specification words it -/

/-- Decimal numeral of a natural number, as the specification uses the word. -/
def spec_decimal (n : Nat) : List Char := (Nat.repr n).data

/-- The recursive encoding `enc` in the words of the specification (anonymous structs are
not covered by those words). -/
def spec_enc : Ty → List Char
  | .primitive name => spec_decimal name.length ++ name
  | .struct name => spec_decimal name.length ++ name
  | .named name none => spec_decimal name.length ++ name
  | .named _ (some val) => spec_enc val
  | .integer is_signed bit_width =>
      spec_decimal (1 + (spec_decimal bit_width).length) ++ [if is_signed then 's' else 'u']
        ++ spec_decimal bit_width
  | .pointer to_ => ['P'] ++ spec_enc to_
  | .reference to_ => ['R'] ++ spec_enc to_
  | .array of_ size => ['A'] ++ spec_decimal size ++ ['E'] ++ spec_enc of_
  | .function return_type parameters =>
      ['F'] ++ spec_enc return_type ++ spec_enc_params parameters ++ ['E']
where
  /-- Encodings of the parameter types, in order. -/
  spec_enc_params : List (CStr × Ty) → List Char
    | [] => []
    | p :: ps => spec_enc p.2 ++ spec_enc_params ps

/-- Whether an anonymous struct (a struct whose declaration has an empty name) occurs in
the part of the type tree that the mangler visits. -/
def has_anonymous_struct : Ty → Bool
  | .struct name => name.length == 0
  | .primitive _ => false
  | .named _ none => false
  | .named _ (some val) => has_anonymous_struct val
  | .integer _ _ => false
  | .pointer to_ => has_anonymous_struct to_
  | .reference to_ => has_anonymous_struct to_
  | .array of_ _ => has_anonymous_struct of_
  | .function return_type parameters => has_anonymous_struct return_type || any_param parameters
where
  /-- Some parameter type holds an anonymous struct. -/
  any_param : List (CStr × Ty) → Bool
    | [] => false
    | p :: ps => has_anonymous_struct p.2 || any_param ps

/-- A decimal digit character. -/
def is_digit (c : Char) : Bool := decide ('0' ≤ c) && decide (c ≤ '9')

/-- A name as an identifier: not empty and not beginning with a decimal digit. -/
def name_ok (n : CStr) : Bool :=
  match n with
  | [] => false
  | c :: _ => !is_digit c

/-- Well-formed type tree for the mangler: every primitive, struct and unresolved alias
that the mangler visits carries an identifier as its name (so no struct is anonymous). -/
def well_formed : Ty → Bool
  | .struct name => name_ok name
  | .primitive name => name_ok name
  | .named name none => name_ok name
  | .named _ (some val) => well_formed val
  | .integer _ _ => true
  | .pointer to_ => well_formed to_
  | .reference to_ => well_formed to_
  | .array of_ _ => well_formed of_
  | .function return_type parameters => well_formed return_type && all_params parameters
where
  /-- Every parameter type is well formed. -/
  all_params : List (CStr × Ty) → Bool
    | [] => true
    | p :: ps => well_formed p.2 && all_params ps

/-- What the encoding keeps of a type tree: atoms (the text that follows a length prefix)
and the four structural constructors. -/
inductive Shape where
  | atom (text : CStr)
  | pointer (to_ : Shape)
  | reference (to_ : Shape)
  | array (size : Nat) (of_ : Shape)
  | function (return_type : Shape) (parameters : List Shape)

/-- Erasure of a type tree to its shape: resolved aliases are replaced by their underlying
type, parameter names are dropped, a primitive, named struct or unresolved alias becomes the
atom of its name and an integer type the atom `s<width>` or `u<width>`. -/
def erase : Ty → Shape
  | .struct name => .atom name
  | .primitive name => .atom name
  | .named name none => .atom name
  | .named _ (some val) => erase val
  | .integer is_signed bit_width => .atom ((if is_signed then 's' else 'u') :: format_Z bit_width)
  | .pointer to_ => .pointer (erase to_)
  | .reference to_ => .reference (erase to_)
  | .array of_ size => .array size (erase of_)
  | .function return_type parameters => .function (erase return_type) (erase_params parameters)
where
  /-- Erasure of a parameter list. -/
  erase_params : List (CStr × Ty) → List Shape
    | [] => []
    | p :: ps => erase p.2 :: erase_params ps

/-- Encoding of a shape. -/
def enc_shape : Shape → List Char
  | .atom text => format_Z text.length ++ text
  | .pointer s => 'P' :: enc_shape s
  | .reference s => 'R' :: enc_shape s
  | .array n s => 'A' :: (format_Z n ++ 'E' :: enc_shape s)
  | .function r ps => 'F' :: (enc_shape r ++ (enc_shapes ps ++ ['E']))
where
  /-- Encodings of a list of shapes, concatenated. -/
  enc_shapes : List Shape → List Char
    | [] => []
    | p :: ps => enc_shape p ++ enc_shapes ps

/-- Shapes whose atoms do not begin with a digit and are not empty. -/
def shape_ok : Shape → Bool
  | .atom text => name_ok text
  | .pointer s => shape_ok s
  | .reference s => shape_ok s
  | .array _ s => shape_ok s
  | .function r ps => shape_ok r && shapes_ok ps
where
  /-- All shapes of a list are fine. -/
  shapes_ok : List Shape → Bool
    | [] => true
    | p :: ps => shape_ok p && shapes_ok ps

/-- Decimal digits by plain recursion on the number (a characterisation of `format_Z`
that is convenient in proofs). -/
def dec (n : Nat) : List Char :=
  if _h : n < 10 then [Nat.digitChar n] else dec (n / 10) ++ [Nat.digitChar (n % 10)]
decreasing_by omega

/-- Value of a digit character. -/
def digit_value (c : Char) : Nat := c.toNat - 48

/-- Value of a digit string. -/
def value_of (l : List Char) : Nat := l.foldl (fun a c => 10 * a + digit_value c) 0

/-- The 64-bit signed integer type. -/
def t_s64 : Ty := .integer true 64

/-- The 8-bit unsigned integer type. -/
def t_u8 : Ty := .integer false 8

/-- The type `(a: integer, b: pointer to byte) -> integer`. -/
def foo_type : Ty := .function t_s64 [("a".toList, t_s64), ("b".toList, .pointer t_u8)]

/-- The IR function `foo` of that type, without attributes. -/
def foo_function : IRFunction := { name := "foo".toList, type := foo_type }


/-! ## The IR (`ir/ir.h` is outside the sources at hand: the data model follows §3.2 of the
specification and the accessors that `codegen.c` and `machine_ir.c` call) -/

/-- A fatal stop of the compiler: internal compiler error, failed assertion, `TODO`,
`UNREACHABLE`, the rejected insertion into a closed block, or the use of a null pointer. -/
inductive Fatal where
  | ice | assertion | todo | unreachable | closed_block | null_pointer
deriving DecidableEq

/-- Kinds of IR instructions (`IRType`, `IR_COUNT == 40`). -/
inductive IRType where
  | IR_IMMEDIATE | IR_INTRINSIC | IR_CALL | IR_NOT | IR_ZERO_EXTEND | IR_SIGN_EXTEND
  | IR_TRUNCATE | IR_BITCAST | IR_COPY | IR_LOAD | IR_RETURN | IR_BRANCH
  | IR_BRANCH_CONDITIONAL | IR_ADD | IR_SUB | IR_MUL | IR_DIV | IR_MOD | IR_SHL | IR_SAR
  | IR_SHR | IR_AND | IR_OR | IR_LT | IR_LE | IR_GT | IR_GE | IR_EQ | IR_NE | IR_STATIC_REF
  | IR_FUNC_REF | IR_STORE | IR_ALLOCA | IR_PHI | IR_REGISTER | IR_UNREACHABLE | IR_PARAMETER
  | IR_LIT_INTEGER | IR_LIT_STRING | IR_POISON
deriving DecidableEq

/-- Modelled from the spec: a terminator is a Branch, CondBranch, Return or Unreachable. -/
def is_terminator (k : IRType) : Bool :=
  k == .IR_BRANCH || k == .IR_BRANCH_CONDITIONAL || k == .IR_RETURN || k == .IR_UNREACHABLE

/-- Intrinsics (`IntrinsicKind`). -/
inductive IntrinsicKind where
  | INTRIN_BUILTIN_SYSCALL | INTRIN_BUILTIN_INLINE | INTRIN_BUILTIN_LINE
  | INTRIN_BUILTIN_FILENAME | INTRIN_BUILTIN_DEBUGTRAP | INTRIN_BUILTIN_MEMCPY
  | INTRIN_BACKEND_COUNT | INTRIN_COUNT
deriving DecidableEq

/-- Modelled from the spec: `t_void`, the primitive type named `void`. -/
def t_void : Ty := .primitive "void".toList

/-- Modelled from the spec: `t_integer`, which §8 (S6) takes as the 64-bit signed integer. -/
def t_integer : Ty := .integer true 64

/-- An IR instruction: kind, producing type, owning block and the payload of its kind.
Pointers to instructions, blocks, functions and static variables are indices into the
stores of the codegen context; `none` is the null pointer. -/
structure IRInstruction where
  kind : IRType
  type : Ty := t_void
  parent_block : Option Nat := none
  /-- Value of an Immediate; index of a Parameter. -/
  imm : Nat := 0
  /-- Operand of a unary instruction, Copy, Load (address) and Return (value). -/
  operand : Option Nat := none
  lhs : Option Nat := none
  rhs : Option Nat := none
  store_value : Option Nat := none
  store_addr : Option Nat := none
  cond : Option Nat := none
  then_ : Option Nat := none
  else_ : Option Nat := none
  dest : Option Nat := none
  /-- Arguments of a Phi: pairs (predecessor block, value). -/
  phi_args : List (Nat × Option Nat) := []
  call_is_direct : Bool := false
  callee_func : Option Nat := none
  callee_inst : Option Nat := none
  call_args : List (Option Nat) := []
  call_force_inline : Bool := false
  intrinsic_kind : IntrinsicKind := .INTRIN_COUNT
  static_ref_var : Option Nat := none
  func_ref_func : Option Nat := none
  /-- Pinned physical register (`ir_register`), 0 when there is none. -/
  register : Nat := 0
  /-- Frame offset of an Alloca, set by the MIR translator (`none` is the sentinel). -/
  alloca_offset : Option Nat := none
  /-- Byte size allocated by an Alloca. -/
  alloca_size : Nat := 0

/-- An IR block: its instructions in order and the function it is attached to. -/
structure IRBlock where
  instructions : List Nat := []
  function : Option Nat := none

/-- Initialiser of a static variable. -/
inductive StaticInit where
  | int_lit (value : Nat)
  | str_lit (string_index : Nat)
deriving DecidableEq

/-- A static variable: name, type, declaring node and initialiser. -/
structure IRStaticVariable where
  name : CStr
  type : Ty
  decl : Nat
  init : Option StaticInit := none

/-- Calling conventions (`CG_CALL_CONV_COUNT == 2`; the last value stands for any
unrecognised one). -/
inductive CodegenCallingConvention where
  | CG_CALL_CONV_MSWIN | CG_CALL_CONV_SYSV | CG_CALL_CONV_COUNT
deriving DecidableEq

/-- Severities of diagnostics. -/
inductive DiagnosticSeverity where
  | DIAG_NOTE | DIAG_WARN | DIAG_ERR | DIAG_ICE | DIAG_SORRY
deriving DecidableEq

/-- The codegen context together with the fields of the AST nodes that lowering writes
(`emitted`, `ir`, `address`, `function.ir`, keyed by node), the string table of the AST, the
diagnostics issued so far and the static counter of string-literal names. -/
structure CodegenContext where
  instructions : List IRInstruction := []
  blocks : List IRBlock := []
  functions : List IRFunction := []
  static_vars : List IRStaticVariable := []
  insert_point : Nat := 0
  function : Nat := 0
  has_err : Bool := false
  call_convention : CodegenCallingConvention := .CG_CALL_CONV_SYSV
  strings : List CStr := []
  diagnostics : List DiagnosticSeverity := []
  string_literal_count : Nat := 0
  node_emitted : Nat → Bool := fun _ => false
  node_ir : Nat → Option Nat := fun _ => none
  node_address : Nat → Option Nat := fun _ => none
  function_ir : Nat → Option Nat := fun _ => none

/-- Tokens that code generation distinguishes (`TokenType`); `TK_INVALID` stands for every
other token. -/
inductive TokenType where
  | TK_INVALID | TK_NUMBER | TK_STRING | TK_LBRACK | TK_COLON_EQ | TK_LT | TK_LE | TK_GT
  | TK_GE | TK_EQ | TK_NE | TK_PLUS | TK_MINUS | TK_STAR | TK_SLASH | TK_PERCENT | TK_SHL
  | TK_SHR | TK_AMPERSAND | TK_PIPE | TK_AT | TK_TILDE
deriving DecidableEq

/-- Kinds of AST nodes (`NODE_COUNT == 19`). -/
inductive NodeKind where
  | NODE_ROOT | NODE_FUNCTION | NODE_DECLARATION | NODE_IF | NODE_WHILE | NODE_FOR
  | NODE_RETURN | NODE_BLOCK | NODE_CALL | NODE_INTRINSIC_CALL | NODE_CAST | NODE_BINARY
  | NODE_UNARY | NODE_LITERAL | NODE_VARIABLE_REFERENCE | NODE_MODULE_REFERENCE
  | NODE_FUNCTION_REFERENCE | NODE_STRUCTURE_DECLARATION | NODE_MEMBER_ACCESS
deriving DecidableEq

/-- AST nodes. Every node carries `id`, its identity (the key of its `emitted`, `ir` and
`address` fields in the context), and its resolved type. A variable reference names the
declaration it binds by `decl` (`var->val.node`); a direct callee is the function node
itself, of which a call reads only the identity. `attr_inline` of a function node is the
attribute bit of its function type. -/
inductive Node where
  | root (id : Nat) (type : Ty) (children : List Node)
  | function (id : Nat) (type : Ty) (name : CStr) (linkage : SymbolLinkage)
      (attr_inline : Bool) (param_decls : List Node) (body : Option Node)
  | declaration (id : Nat) (type : Ty) (name : CStr) (linkage : SymbolLinkage)
      (init : Option Node)
  | if_ (id : Nat) (type : Ty) (condition : Node) (then_ : Node) (else_ : Option Node)
  | while_ (id : Nat) (type : Ty) (condition : Node) (body : Node)
  | for_ (id : Nat) (type : Ty) (init : Node) (condition : Node) (iterator : Node) (body : Node)
  | return_ (id : Nat) (type : Ty) (value : Option Node)
  | block (id : Nat) (type : Ty) (children : List Node)
  | call (id : Nat) (type : Ty) (callee : Node) (arguments : List Node)
      (intrinsic : IntrinsicKind)
  | intrinsic_call (id : Nat) (type : Ty) (callee : Node) (arguments : List Node)
      (intrinsic : IntrinsicKind)
  | cast (id : Nat) (type : Ty) (value : Node)
  | binary (id : Nat) (type : Ty) (op : TokenType) (lhs : Node) (rhs : Node)
  | unary (id : Nat) (type : Ty) (op : TokenType) (postfix_ : Bool) (value : Node)
  | literal (id : Nat) (type : Ty) (lit_type : TokenType) (integer : Nat)
      (string_index : Nat) (compound : List Node)
  | variable_reference (id : Nat) (type : Ty) (decl : Nat)
  | module_reference (id : Nat) (type : Ty)
  | function_reference (id : Nat) (type : Ty)
  | structure_declaration (id : Nat) (type : Ty)
  | member_access (id : Nat) (type : Ty) (struct_ : Node) (member_byte_offset : Nat)
      (member_type : Ty)

/-- Identity of a node. -/
def Node.id : Node → Nat
  | .root id .. | .function id .. | .declaration id .. | .if_ id .. | .while_ id ..
  | .for_ id .. | .return_ id .. | .block id .. | .call id .. | .intrinsic_call id ..
  | .cast id .. | .binary id .. | .unary id .. | .literal id .. | .variable_reference id ..
  | .module_reference id .. | .function_reference id .. | .structure_declaration id ..
  | .member_access id .. => id

/-- Resolved type of a node (`expr->type`). -/
def Node.type : Node → Ty
  | .root _ t .. | .function _ t .. | .declaration _ t .. | .if_ _ t .. | .while_ _ t ..
  | .for_ _ t .. | .return_ _ t .. | .block _ t .. | .call _ t .. | .intrinsic_call _ t ..
  | .cast _ t .. | .binary _ t .. | .unary _ t .. | .literal _ t .. | .variable_reference _ t ..
  | .module_reference _ t .. | .function_reference _ t .. | .structure_declaration _ t ..
  | .member_access _ t .. => t

/-- Kind of a node (`expr->kind`). -/
def Node.kind : Node → NodeKind
  | .root .. => .NODE_ROOT
  | .function .. => .NODE_FUNCTION
  | .declaration .. => .NODE_DECLARATION
  | .if_ .. => .NODE_IF
  | .while_ .. => .NODE_WHILE
  | .for_ .. => .NODE_FOR
  | .return_ .. => .NODE_RETURN
  | .block .. => .NODE_BLOCK
  | .call .. => .NODE_CALL
  | .intrinsic_call .. => .NODE_INTRINSIC_CALL
  | .cast .. => .NODE_CAST
  | .binary .. => .NODE_BINARY
  | .unary .. => .NODE_UNARY
  | .literal .. => .NODE_LITERAL
  | .variable_reference .. => .NODE_VARIABLE_REFERENCE
  | .module_reference .. => .NODE_MODULE_REFERENCE
  | .function_reference .. => .NODE_FUNCTION_REFERENCE
  | .structure_declaration .. => .NODE_STRUCTURE_DECLARATION
  | .member_access .. => .NODE_MEMBER_ACCESS

/-- The field `literal.type` of a literal node (`TK_INVALID` on any other node). -/
def Node.literal_type : Node → TokenType
  | .literal _ _ lit_type .. => lit_type
  | _ => .TK_INVALID

/-- The field `literal.integer` of a literal node. -/
def Node.literal_integer : Node → Nat
  | .literal _ _ _ integer .. => integer
  | _ => 0

/-- The field `literal.string_index` of a literal node. -/
def Node.literal_string_index : Node → Nat
  | .literal _ _ _ _ string_index _ => string_index
  | _ => 0

/-- The size of `block.children` of a block node; `none` on a node that is not a block. -/
def Node.block_children_size : Node → Option Nat
  | .block _ _ children => some children.length
  | _ => none

/-- The queries on types and nodes that live outside the sources at hand (`type_sizeof`,
`type_is_signed`, `type_is_void` and `is_lvalue` of the AST module): lowering is stated for
any such functions. -/
structure Queries where
  type_sizeof : Ty → Nat
  type_is_signed : Ty → Bool
  type_is_void : Ty → Bool
  is_lvalue : Node → Bool

/-- Modelled from the spec: the type an alias resolves to (`named`: alias resolvable to an
underlying type); an unresolved alias stays. -/
def type_canonical : Ty → Ty
  | .named _ (some val) => type_canonical val
  | t => t

/-- Modelled from the spec: `is_pointer(T)`. -/
def type_is_pointer (t : Ty) : Bool :=
  match type_canonical t with
  | .pointer _ => true
  | _ => false

/-- Modelled from the spec: `is_reference(T)`. -/
def type_is_reference (t : Ty) : Bool :=
  match type_canonical t with
  | .reference _ => true
  | _ => false

/-- Modelled from the spec: `is_array(T)`. -/
def type_is_array (t : Ty) : Bool :=
  match type_canonical t with
  | .array _ _ => true
  | _ => false

/-- Modelled from the spec: `strip_references(T)`. -/
def type_strip_references : Ty → Ty
  | .reference to_ => type_strip_references to_
  | .named n (some val) =>
      match type_strip_references val with
      | .named _ none => .named n (some val)
      | t => t
  | t => t

/-- Modelled from the spec: `element_of(pointer/array T)`; a fatal error on other types. -/
def type_get_element (t : Ty) : Except Fatal Ty :=
  match type_canonical t with
  | .pointer to_ => .ok to_
  | .reference to_ => .ok to_
  | .array of_ _ => .ok of_
  | _ => .error .ice

/-- The field `pointer.to` (also `reference.to`) of a type. -/
def Ty.pointer_to (t : Ty) : Ty :=
  match type_canonical t with
  | .pointer to_ => to_
  | .reference to_ => to_
  | t => t

/-- The field `array.of` of a type. -/
def Ty.array_of (t : Ty) : Ty :=
  match type_canonical t with
  | .array of_ _ => of_
  | t => t

/-- The field `function.return_type` of a type. -/
def Ty.function_return_type (t : Ty) : Ty :=
  match t with
  | .function return_type _ => return_type
  | t => t

/-- The field `function.parameters` of a type. -/
def Ty.function_parameters (t : Ty) : List (CStr × Ty) :=
  match t with
  | .function _ parameters => parameters
  | _ => []

/-- The test `type->kind == TYPE_POINTER && type->pointer.to->kind == TYPE_FUNCTION` on the
type itself (no alias is resolved). -/
def type_is_function_pointer (t : Ty) : Bool :=
  match t with
  | .pointer (.function _ _) => true
  | _ => false

/-- Modelled from the spec: `ast_make_type_pointer`. -/
def ast_make_type_pointer (t : Ty) : Ty := .pointer t

/-! ### Accessors and builder operations of the IR -/

/-- Write the `emitted` flag of a node. -/
def CodegenContext.set_emitted (ctx : CodegenContext) (id : Nat) : CodegenContext :=
  { ctx with node_emitted := fun n => if n = id then true else ctx.node_emitted n }

/-- Write the `ir` field of a node. -/
def CodegenContext.set_ir (ctx : CodegenContext) (id : Nat) (v : Option Nat) : CodegenContext :=
  { ctx with node_ir := fun n => if n = id then v else ctx.node_ir n }

/-- Write the `address` field of a node. -/
def CodegenContext.set_address (ctx : CodegenContext) (id : Nat) (v : Option Nat) :
    CodegenContext :=
  { ctx with node_address := fun n => if n = id then v else ctx.node_address n }

/-- Kind of the instruction behind a pointer (`ir_kind`); a null pointer is fatal. -/
def ir_kind (ctx : CodegenContext) (inst : Option Nat) : Except Fatal IRType :=
  match inst with
  | none => .error .null_pointer
  | some i =>
      match ctx.instructions[i]? with
      | none => .error .null_pointer
      | some x => .ok x.kind

/-- Type of the instruction behind a pointer (`ir_typeof`); a null pointer is fatal. -/
def ir_typeof (ctx : CodegenContext) (inst : Option Nat) : Except Fatal Ty :=
  match inst with
  | none => .error .null_pointer
  | some i =>
      match ctx.instructions[i]? with
      | none => .error .null_pointer
      | some x => .ok x.type

/-- Last instruction of a block, if the block has one. -/
def block_last (ctx : CodegenContext) (block : Nat) : Option IRInstruction :=
  match ctx.blocks[block]? with
  | none => none
  | some b =>
      match b.instructions.getLast? with
      | none => none
      | some i => ctx.instructions[i]?

/-- Modelled from the spec: a block is closed when its last instruction is a terminator
(`ir_is_closed`). -/
def ir_is_closed (ctx : CodegenContext) (block : Nat) : Bool :=
  match block_last ctx block with
  | none => false
  | some x => is_terminator x.kind

/-- Modelled from the spec: `ir_block` creates a fresh, empty block that is attached to
no function yet. -/
def ir_block (ctx : CodegenContext) : CodegenContext × Nat :=
  ({ ctx with blocks := ctx.blocks ++ [{}] }, ctx.blocks.length)

/-- Append a block to the block list of a function. -/
def push_block (fs : List IRFunction) (f : Nat) (block : Nat) : List IRFunction :=
  match fs[f]? with
  | none => fs
  | some x => fs.set f { x with blocks := x.blocks ++ [block] }

/-- Modelled from the spec: `ir_block_attach` appends the block to the current function
and makes it the insertion point. -/
def ir_block_attach (ctx : CodegenContext) (block : Nat) : CodegenContext :=
  { ctx with
    blocks :=
      match ctx.blocks[block]? with
      | none => ctx.blocks
      | some b => ctx.blocks.set block { b with function := some ctx.function }
    functions := push_block ctx.functions ctx.function block
    insert_point := block }

/-- Allocate an instruction (not yet in any block); the result is its pointer. -/
def ir_create (ctx : CodegenContext) (inst : IRInstruction) : CodegenContext × Nat :=
  ({ ctx with instructions := ctx.instructions ++ [inst] }, ctx.instructions.length)

/-- Modelled from the spec: `ir_insert` appends an instruction to the block at the
insertion point; insertion into a closed block is rejected (a fatal error). -/
def ir_insert (ctx : CodegenContext) (inst : Nat) : Except Fatal CodegenContext :=
  if ir_is_closed ctx ctx.insert_point then .error .closed_block
  else
    match ctx.blocks[ctx.insert_point]? with
    | none => .error .null_pointer
    | some b =>
        .ok { ctx with
          blocks := ctx.blocks.set ctx.insert_point
            { b with instructions := b.instructions ++ [inst] }
          instructions :=
            match ctx.instructions[inst]? with
            | none => ctx.instructions
            | some x => ctx.instructions.set inst { x with parent_block := some ctx.insert_point } }

/-- Create an instruction and insert it at the insertion point (the `ir_insert_*`
family): the result is the new context and the pointer to the instruction. As in
`ir_insert`, a closed block at the insertion point rejects the insertion. -/
def ir_insert_new (ctx : CodegenContext) (inst : IRInstruction) :
    Except Fatal (CodegenContext × Nat) :=
  if ir_is_closed ctx ctx.insert_point then .error .closed_block
  else
    match ctx.blocks[ctx.insert_point]? with
    | none => .error .null_pointer
    | some b =>
        .ok ({ ctx with
            blocks := ctx.blocks.set ctx.insert_point
              { b with instructions := b.instructions ++ [ctx.instructions.length] }
            instructions :=
              ctx.instructions ++ [{ inst with parent_block := some ctx.insert_point }] },
          ctx.instructions.length)

/-- Type of an operand, `t_void` for a null operand. -/
def operand_type (ctx : CodegenContext) (inst : Option Nat) : Ty :=
  match ir_typeof ctx inst with
  | .ok t => t
  | .error _ => t_void

/-- The function `ir_insert_immediate`. -/
def ir_insert_immediate (ctx : CodegenContext) (type : Ty) (imm : Nat) :=
  ir_insert_new ctx { kind := .IR_IMMEDIATE, type := type, imm := imm }

/-- The function `ir_insert_alloca`: the producing type is pointer-to-allocated-type. -/
def ir_insert_alloca (q : Queries) (ctx : CodegenContext) (type : Ty) :=
  ir_insert_new ctx
    { kind := .IR_ALLOCA, type := ast_make_type_pointer type, alloca_size := q.type_sizeof type }

/-- The function `ir_insert_load`. -/
def ir_insert_load (ctx : CodegenContext) (type : Ty) (address : Option Nat) :=
  ir_insert_new ctx { kind := .IR_LOAD, type := type, operand := address }

/-- The function `ir_insert_store`. -/
def ir_insert_store (ctx : CodegenContext) (value : Option Nat) (address : Option Nat) :=
  ir_insert_new ctx { kind := .IR_STORE, store_value := value, store_addr := address }

/-- The function `ir_insert_copy`. -/
def ir_insert_copy (ctx : CodegenContext) (value : Option Nat) :=
  ir_insert_new ctx { kind := .IR_COPY, type := operand_type ctx value, operand := value }

/-- The function `ir_insert_not`. -/
def ir_insert_not (ctx : CodegenContext) (value : Option Nat) :=
  ir_insert_new ctx { kind := .IR_NOT, type := operand_type ctx value, operand := value }

/-- The conversions `ir_insert_bitcast`, `ir_insert_sext`, `ir_insert_zext` and
`ir_insert_trunc`, by kind. -/
def ir_insert_conversion (ctx : CodegenContext) (kind : IRType) (to_type : Ty) (value : Option Nat) :=
  ir_insert_new ctx { kind := kind, type := to_type, operand := value }

/-- The binary instructions `ir_insert_add`, `ir_insert_lt` and so on, by kind. -/
def ir_insert_binary (ctx : CodegenContext) (kind : IRType) (lhs rhs : Option Nat) :=
  ir_insert_new ctx { kind := kind, type := operand_type ctx lhs, lhs := lhs, rhs := rhs }

/-- The function `ir_insert_br`. -/
def ir_insert_br (ctx : CodegenContext) (dest : Nat) :=
  ir_insert_new ctx { kind := .IR_BRANCH, dest := some dest }

/-- The function `ir_insert_cond_br`. -/
def ir_insert_cond_br (ctx : CodegenContext) (cond : Option Nat) (then_ else_ : Nat) :=
  ir_insert_new ctx
    { kind := .IR_BRANCH_CONDITIONAL, cond := cond, then_ := some then_, else_ := some else_ }

/-- The function `ir_insert_return`. -/
def ir_insert_return (ctx : CodegenContext) (value : Option Nat) :=
  ir_insert_new ctx { kind := .IR_RETURN, operand := value }

/-- The function `ir_insert_phi`: a phi without arguments. -/
def ir_insert_phi (ctx : CodegenContext) (type : Ty) :=
  ir_insert_new ctx { kind := .IR_PHI, type := type }

/-- The function `ir_phi_add_arg`. -/
def ir_phi_add_arg (ctx : CodegenContext) (phi : Nat) (block : Nat) (value : Option Nat) :
    CodegenContext :=
  match ctx.instructions[phi]? with
  | none => ctx
  | some x =>
      { ctx with
        instructions := ctx.instructions.set phi { x with phi_args := x.phi_args ++ [(block, value)] } }

/-- The function `ir_set_type`; a null instruction is fatal. -/
def ir_set_type (ctx : CodegenContext) (inst : Option Nat) (type : Ty) :
    Except Fatal CodegenContext :=
  match inst with
  | none => .error .null_pointer
  | some i =>
      match ctx.instructions[i]? with
      | none => .error .null_pointer
      | some x => .ok { ctx with instructions := ctx.instructions.set i { x with type := type } }

/-- The function `ir_create_static`. -/
def ir_create_static (ctx : CodegenContext) (decl : Nat) (type : Ty) (name : CStr) :
    CodegenContext × Nat :=
  ({ ctx with static_vars := ctx.static_vars ++ [{ name := name, type := type, decl := decl }] },
    ctx.static_vars.length)

/-- The function `ir_static_var_init`. -/
def ir_static_var_init (ctx : CodegenContext) (var : Nat) (init : StaticInit) : CodegenContext :=
  match ctx.static_vars[var]? with
  | none => ctx
  | some v => { ctx with static_vars := ctx.static_vars.set var { v with init := some init } }

/-- Type of a static variable. -/
def static_var_type (ctx : CodegenContext) (var : Nat) : Ty :=
  match ctx.static_vars[var]? with
  | none => t_void
  | some v => v.type

/-- The function `ir_insert_static_ref`. -/
def ir_insert_static_ref (ctx : CodegenContext) (var : Nat) :=
  ir_insert_new ctx
    { kind := .IR_STATIC_REF, type := ast_make_type_pointer (static_var_type ctx var),
      static_ref_var := some var }

/-- The function `ir_static_ref_var`. -/
def ir_static_ref_var (ctx : CodegenContext) (inst : Option Nat) : Except Fatal Nat :=
  match inst with
  | none => .error .null_pointer
  | some i =>
      match ctx.instructions[i]? with
      | none => .error .null_pointer
      | some x =>
          match x.static_ref_var with
          | none => .error .null_pointer
          | some v => .ok v

/-- Type of an IR function. -/
def function_type (ctx : CodegenContext) (f : Option Nat) : Ty :=
  match f with
  | none => t_void
  | some i =>
      match ctx.functions[i]? with
      | none => t_void
      | some x => x.type

/-- The function `ir_insert_func_ref`. -/
def ir_insert_func_ref (ctx : CodegenContext) (f : Option Nat) :=
  ir_insert_new ctx
    { kind := .IR_FUNC_REF, type := ast_make_type_pointer (function_type ctx f),
      func_ref_func := f }

/-- The function `ir_create_call` for a direct call (the callee is an IR function). -/
def ir_create_call_direct (ctx : CodegenContext) (callee : Option Nat) : CodegenContext × Nat :=
  ir_create ctx
    { kind := .IR_CALL, type := (function_type ctx callee).function_return_type,
      call_is_direct := true, callee_func := callee }

/-- The function `ir_create_call` for an indirect call (the callee is a value). -/
def ir_create_call_indirect (ctx : CodegenContext) (callee : Option Nat) : CodegenContext × Nat :=
  ir_create ctx
    { kind := .IR_CALL,
      type := (operand_type ctx callee).pointer_to.function_return_type,
      call_is_direct := false, callee_inst := callee }

/-- The function `ir_create_intrinsic`. -/
def ir_create_intrinsic (ctx : CodegenContext) (type : Ty) (intrinsic : IntrinsicKind) :
    CodegenContext × Nat :=
  ir_create ctx { kind := .IR_INTRINSIC, type := type, intrinsic_kind := intrinsic }

/-- The function `ir_insert_intrinsic`. -/
def ir_insert_intrinsic (ctx : CodegenContext) (type : Ty) (intrinsic : IntrinsicKind) :=
  ir_insert_new ctx { kind := .IR_INTRINSIC, type := type, intrinsic_kind := intrinsic }

/-- The function `ir_call_add_arg`. -/
def ir_call_add_arg (ctx : CodegenContext) (call : Nat) (arg : Option Nat) : CodegenContext :=
  match ctx.instructions[call]? with
  | none => ctx
  | some x =>
      { ctx with
        instructions := ctx.instructions.set call { x with call_args := x.call_args ++ [arg] } }

/-- The function `ir_call_force_inline`; a null instruction is fatal. -/
def ir_call_force_inline (ctx : CodegenContext) (call : Option Nat) (force : Bool) :
    Except Fatal CodegenContext :=
  match call with
  | none => .error .null_pointer
  | some i =>
      match ctx.instructions[i]? with
      | none => .error .null_pointer
      | some x =>
          .ok { ctx with instructions := ctx.instructions.set i { x with call_force_inline := force } }

/-- The function `ir_entry_block`: the first block of a function. -/
def ir_entry_block (ctx : CodegenContext) (f : Nat) : Except Fatal Nat :=
  match ctx.functions[f]? with
  | none => .error .null_pointer
  | some x =>
      match x.blocks with
      | [] => .error .null_pointer
      | b :: _ => .ok b

/-- The function `ir_parameter`: the i-th parameter instruction of a function. -/
def ir_parameter (ctx : CodegenContext) (f : Nat) (i : Nat) : Except Fatal Nat :=
  match ctx.functions[f]? with
  | none => .error .null_pointer
  | some x =>
      match x.parameters[i]? with
      | none => .error .null_pointer
      | some p => .ok p

/-- The macro `DIAG(sev, loc, ...)`: sets the error flag and issues a diagnostic; the
severity it passes on to `issue_diagnostic` is `DIAG_ERR` whatever `sev` is. The `return`
of the macro is the caller's part. -/
def DIAG (ctx : CodegenContext) (_sev : DiagnosticSeverity) : CodegenContext :=
  { ctx with has_err := true, diagnostics := ctx.diagnostics ++ [.DIAG_ERR] }

/-- The macro `ERR(...)`. -/
def ERR (ctx : CodegenContext) : CodegenContext := DIAG ctx .DIAG_ERR

/-- The IR instruction of a binary operator token (the final `switch` of `NODE_BINARY`). -/
def binary_op_kind : TokenType → Except Fatal IRType
  | .TK_LBRACK => .error .unreachable
  | .TK_LT => .ok .IR_LT
  | .TK_LE => .ok .IR_LE
  | .TK_GT => .ok .IR_GT
  | .TK_GE => .ok .IR_GE
  | .TK_EQ => .ok .IR_EQ
  | .TK_NE => .ok .IR_NE
  | .TK_PLUS => .ok .IR_ADD
  | .TK_MINUS => .ok .IR_SUB
  | .TK_STAR => .ok .IR_MUL
  | .TK_SLASH => .ok .IR_DIV
  | .TK_PERCENT => .ok .IR_MOD
  | .TK_SHL => .ok .IR_SHL
  | .TK_SHR => .ok .IR_SAR
  | .TK_AMPERSAND => .ok .IR_AND
  | .TK_PIPE => .ok .IR_OR
  | _ => .error .ice

/-- The function `parameter_is_passed_as_pointer`. -/
def parameter_is_passed_as_pointer (q : Queries) (ctx : CodegenContext) (function : Nat)
    (parameter_index : Nat) : Except Fatal Bool :=
  let type := function_type ctx (some function)
  match type.function_parameters[parameter_index]? with
  | none => .error .null_pointer
  | some p =>
      match ctx.call_convention with
      | .CG_CALL_CONV_MSWIN => .ok (decide (q.type_sizeof p.2 > 8))
      | .CG_CALL_CONV_SYSV => .ok (decide (q.type_sizeof p.2 > 16))
      | .CG_CALL_CONV_COUNT => .error .ice

/-! ## AST to IR lowering (`codegen.c`)

Each case of the two `switch` statements is a definition of its own; where a case lowers a
child node, the recursive call is passed in as a function on contexts (`emit_...`), and
`codegen_lvalue` and `codegen_expr` below tie the knot. -/

/-- Result of lowering: a fatal error or the next context. -/
abbrev Lowering := CodegenContext → Except Fatal CodegenContext

/-- The case `NODE_DECLARATION` of `codegen_lvalue`; `emit_init` is
`codegen_expr(ctx, lval->declaration.init)`. -/
def codegen_lvalue_declaration (q : Queries) (ctx : CodegenContext) (id : Nat) (type : Ty)
    (name : CStr) (linkage : SymbolLinkage) (init : Option Node) (emit_init : Lowering) :
    Except Fatal CodegenContext :=
  if linkage ≠ .LINKAGE_LOCALVAR then do
    let sv := ir_create_static ctx id type name
    let r ← ir_insert_static_ref sv.1 sv.2
    let ctx := r.1.set_address id (some r.2)
    match init with
    | none => pure ctx
    | some i =>
        if i.kind = .NODE_LITERAL ∧ i.literal_type ≠ .TK_LBRACK then
          if i.literal_type = .TK_NUMBER then
            pure (ir_static_var_init ctx sv.2 (.int_lit i.literal_integer))
          else if i.literal_type = .TK_STRING then
            pure (ir_static_var_init ctx sv.2 (.str_lit i.literal_string_index))
          else .error .ice
        else do
          let ctx ← emit_init ctx
          let r ← ir_insert_store ctx (ctx.node_ir i.id) (ctx.node_address id)
          pure r.1
  else do
    let r ← ir_insert_alloca q ctx type
    let ctx := r.1.set_address id (some r.2)
    match init with
    | none => pure ctx
    | some i => do
        let ctx ← emit_init ctx
        let r ← ir_insert_store ctx (ctx.node_ir i.id) (ctx.node_address id)
        pure r.1

/-- The case `NODE_MEMBER_ACCESS` of `codegen_lvalue`; `emit_struct` is
`codegen_lvalue(ctx, lval->member_access.struct_)`. -/
def codegen_lvalue_member_access (ctx : CodegenContext) (id : Nat) (struct_id : Nat)
    (member_byte_offset : Nat) (member_type : Ty) (emit_struct : Lowering) :
    Except Fatal CodegenContext := do
  let ctx ← emit_struct ctx
  let r ← (if member_byte_offset ≠ 0 then do
      let imm ← ir_insert_immediate ctx t_integer member_byte_offset
      ir_insert_binary imm.1 .IR_ADD (imm.1.node_address struct_id) (some imm.2)
    else ir_insert_copy ctx (ctx.node_address struct_id))
  let ctx := r.1.set_address id (some r.2)
  ir_set_type ctx (ctx.node_address id) (ast_make_type_pointer member_type)

/-- The case `NODE_UNARY` of `codegen_lvalue`; `emit_value` is
`codegen_expr(ctx, lval->unary.value)`. -/
def codegen_lvalue_unary (ctx : CodegenContext) (id : Nat) (op : TokenType) (postfix_ : Bool)
    (value_id : Nat) (emit_value : Lowering) : Except Fatal CodegenContext :=
  if !postfix_ && op == .TK_AT then do
    let ctx ← emit_value ctx
    pure (ctx.set_address id (ctx.node_ir value_id))
  else .error .ice

/-- The case `NODE_VARIABLE_REFERENCE` of `codegen_lvalue`. -/
def codegen_lvalue_variable_reference (ctx : CodegenContext) (id : Nat) (decl : Nat) :
    Except Fatal CodegenContext :=
  match ctx.node_address decl with
  | none => .error .assertion
  | some a => do
      let k ← ir_kind ctx (some a)
      if k = .IR_STATIC_REF then do
        let v ← ir_static_ref_var ctx (some a)
        let r ← ir_insert_static_ref ctx v
        pure (r.1.set_address id (some r.2))
      else pure (ctx.set_address id (some a))

/-- The case `NODE_CAST` of `codegen_lvalue`; `emit_value` is
`codegen_lvalue(ctx, lval->cast.value)`. -/
def codegen_lvalue_cast (ctx : CodegenContext) (id : Nat) (value_id : Nat)
    (emit_value : Lowering) : Except Fatal CodegenContext := do
  let ctx ← emit_value ctx
  pure (ctx.set_address id (ctx.node_address value_id))

/-- The case `NODE_FUNCTION` of `codegen_expr`. -/
def codegen_expr_function (ctx : CodegenContext) (id : Nat) (attr_inline : Bool) :
    Except Fatal CodegenContext := do
  let r ← ir_insert_func_ref ctx (ctx.function_ir id)
  let ctx := r.1.set_ir id (some r.2)
  if attr_inline then pure (ERR ctx) else pure ctx

/-- The case `NODE_ROOT` of `codegen_expr`; `emit_children` is the loop over the
children. -/
def codegen_expr_root (ctx : CodegenContext) (children : List Node) (emit_children : Lowering) :
    Except Fatal CodegenContext := do
  let ctx ← emit_children ctx
  if !ir_is_closed ctx ctx.insert_point then
    match children.getLast? with
    | none => .error .null_pointer
    | some last => do
        let r ← ir_insert_return ctx (ctx.node_ir last.id)
        pure r.1
  else pure ctx

/-- The cases `NODE_MEMBER_ACCESS` and `NODE_VARIABLE_REFERENCE` of `codegen_expr`;
`emit_lvalue` is `codegen_lvalue(ctx, expr)`. -/
def codegen_expr_load (ctx : CodegenContext) (id : Nat) (emit_lvalue : Lowering) :
    Except Fatal CodegenContext := do
  let ctx ← emit_lvalue ctx
  let ty ← ir_typeof ctx (ctx.node_address id)
  let e ← type_get_element ty
  let r ← ir_insert_load ctx e (ctx.node_address id)
  pure (r.1.set_ir id (some r.2))

/-- The statement `if (!ir_is_closed(ctx->insert_point)) ir_insert_br(ctx, block);`. -/
def branch_if_open (ctx : CodegenContext) (block : Nat) : Except Fatal CodegenContext :=
  if !ir_is_closed ctx ctx.insert_point then do
    let r ← ir_insert_br ctx block
    pure r.1
  else pure ctx

/-- The case `NODE_IF` of `codegen_expr`; `emit_condition`, `emit_then` and `emit_else` are
the calls of `codegen_expr` on the condition and the two arms, `then_id` and `else_id` the
identities of the arms (`else_id` is `none` when there is no else arm). -/
def codegen_expr_if (q : Queries) (ctx : CodegenContext) (id : Nat) (type : Ty)
    (condition_id : Nat) (then_id : Nat) (else_id : Option Nat)
    (emit_condition emit_then emit_else : Lowering) : Except Fatal CodegenContext := do
  let ctx ← emit_condition ctx
  let then_block := ir_block ctx
  let else_block := ir_block then_block.1
  let join_block := ir_block else_block.1
  let r ← ir_insert_cond_br join_block.1 (join_block.1.node_ir condition_id)
    then_block.2 else_block.2
  let ctx := ir_block_attach r.1 then_block.2
  let ctx ← emit_then ctx
  let last_then_block := ctx.insert_point
  let ctx ← branch_if_open ctx join_block.2
  let ctx := ir_block_attach ctx else_block.2
  let e ← (match else_id with
    | some _ => do
        let ctx ← emit_else ctx
        pure (ctx, ctx.insert_point)
    | none => pure (ctx, else_block.2))
  let last_else_block := e.2
  let ctx ← branch_if_open e.1 join_block.2
  let ctx := ir_block_attach ctx join_block.2
  if !q.type_is_void type then do
    let phi ← ir_insert_phi ctx type
    let ctx := ir_phi_add_arg phi.1 phi.2 last_then_block (phi.1.node_ir then_id)
    match else_id with
    | none => .error .null_pointer
    | some e =>
        pure ((ir_phi_add_arg ctx phi.2 last_else_block (ctx.node_ir e)).set_ir id (some phi.2))
  else pure ctx

/-- The case `NODE_WHILE` of `codegen_expr`; `body_size` is
`expr->while_.body->block.children.size` (`none` when the body is not a block). -/
def codegen_expr_while (ctx : CodegenContext) (condition_id : Nat) (body_size : Option Nat)
    (emit_condition emit_body : Lowering) : Except Fatal CodegenContext := do
  let while_cond_block := ir_block ctx
  let join_block := ir_block while_cond_block.1
  let r ← ir_insert_br join_block.1 while_cond_block.2
  let ctx := ir_block_attach r.1 while_cond_block.2
  let ctx ← emit_condition ctx
  match body_size with
  | none => .error .null_pointer
  | some size =>
      if size = 0 then do
        let r ← ir_insert_cond_br ctx (ctx.node_ir condition_id) while_cond_block.2 join_block.2
        pure (ir_block_attach r.1 join_block.2)
      else do
        let while_body_block := ir_block ctx
        let r ← ir_insert_cond_br while_body_block.1 (while_body_block.1.node_ir condition_id)
          while_body_block.2 join_block.2
        let ctx := ir_block_attach r.1 while_body_block.2
        let ctx ← emit_body ctx
        let ctx ← branch_if_open ctx while_cond_block.2
        pure (ir_block_attach ctx join_block.2)

/-- The case `NODE_BLOCK` of `codegen_expr`; `emit_children` is the loop over the children;
`last` is the last child that is not a function. -/
def codegen_expr_block (q : Queries) (ctx : CodegenContext) (id : Nat) (type : Ty)
    (children : List Node) (emit_children : Lowering) : Except Fatal CodegenContext := do
  let ctx ← emit_children ctx
  if !q.type_is_void type then
    match (children.filter (fun child => child.kind ≠ .NODE_FUNCTION)).getLast? with
    | none => .error .assertion
    | some last =>
        match ctx.node_ir last.id with
        | none => .error .assertion
        | some v => pure (ctx.set_ir id (some v))
  else pure ctx

/-- The case `NODE_CALL` of `codegen_expr`; `emit_callee` is `codegen_expr(ctx, callee)` and
`emit_arguments call` the loop over the arguments for the call instruction `call`. -/
def codegen_expr_call (ctx : CodegenContext) (id : Nat) (callee : Node)
    (intrinsic : IntrinsicKind) (emit_callee : Lowering) (emit_arguments : Nat → Lowering) :
    Except Fatal CodegenContext :=
  if intrinsic ≠ .INTRIN_COUNT then .error .assertion
  else do
    let c ← (if callee.kind = .NODE_FUNCTION then
        pure (ir_create_call_direct ctx (ctx.function_ir callee.id))
      else do
        let ctx ← emit_callee ctx
        pure (ir_create_call_indirect ctx (ctx.node_ir callee.id)))
    let ctx ← emit_arguments c.2 c.1
    let ctx ← ir_insert ctx c.2
    pure (ctx.set_ir id (some c.2))

/-- The case `NODE_INTRINSIC_CALL` of `codegen_expr`; `first_argument` is
`expr->call.arguments.data[0]` and `emit_first` its lowering by `codegen_expr`. -/
def codegen_expr_intrinsic_call (ctx : CodegenContext) (id : Nat) (intrinsic : IntrinsicKind)
    (first_argument : Option Node) (emit_first : Lowering) (emit_arguments : Nat → Lowering) :
    Except Fatal CodegenContext :=
  match intrinsic with
  | .INTRIN_COUNT => .error .ice
  | .INTRIN_BACKEND_COUNT => .error .ice
  | .INTRIN_BUILTIN_LINE => .error .unreachable
  | .INTRIN_BUILTIN_FILENAME => .error .unreachable
  | .INTRIN_BUILTIN_SYSCALL =>
      if ctx.call_convention = .CG_CALL_CONV_MSWIN then pure (ERR ctx)
      else do
        let c := ir_create_intrinsic ctx t_integer intrinsic
        let ctx := c.1.set_ir id (some c.2)
        let ctx ← emit_arguments c.2 ctx
        ir_insert ctx c.2
  | .INTRIN_BUILTIN_INLINE =>
      match first_argument with
      | none => .error .null_pointer
      | some call => do
          let ctx ← emit_first ctx
          let ctx ← ir_call_force_inline ctx (ctx.node_ir call.id) true
          pure ((ctx.set_ir id (ctx.node_ir call.id)).set_address id (ctx.node_address call.id))
  | .INTRIN_BUILTIN_DEBUGTRAP => do
      let r ← ir_insert_intrinsic ctx t_void intrinsic
      pure (r.1.set_ir id (some r.2))
  | .INTRIN_BUILTIN_MEMCPY => do
      let c := ir_create_intrinsic ctx t_void intrinsic
      let ctx := c.1.set_ir id (some c.2)
      let ctx ← emit_arguments c.2 ctx
      ir_insert ctx c.2

/-- The case `NODE_CAST` of `codegen_expr`; `emit_value` is
`codegen_expr(ctx, expr->cast.value)`. -/
def codegen_expr_cast (q : Queries) (ctx : CodegenContext) (id : Nat) (type : Ty)
    (value : Node) (emit_value : Lowering) : Except Fatal CodegenContext := do
  let t_to := type
  let t_from := value.type
  let to_sz := q.type_sizeof t_to
  let from_sz := q.type_sizeof t_from
  let from_signed := q.type_is_signed t_from
  let ctx ← emit_value ctx
  if from_sz = to_sz then do
    let r ← ir_insert_conversion ctx .IR_BITCAST t_to (ctx.node_ir value.id)
    pure (r.1.set_ir id (some r.2))
  else if from_sz < to_sz then
    if from_signed then do
      let r ← ir_insert_conversion ctx .IR_SIGN_EXTEND t_to (ctx.node_ir value.id)
      pure (r.1.set_ir id (some r.2))
    else do
      let r ← ir_insert_conversion ctx .IR_ZERO_EXTEND t_to (ctx.node_ir value.id)
      pure (r.1.set_ir id (some r.2))
  else if from_sz > to_sz then do
    let r ← ir_insert_conversion ctx .IR_TRUNCATE t_to (ctx.node_ir value.id)
    pure (r.1.set_ir id (some r.2))
  else .error .unreachable

/-- The base address of a subscript whose left side is a variable reference
(`lhs->kind == NODE_VARIABLE_REFERENCE`): the new context and `subs_lhs`, or `none` when the
error path was taken. -/
def subscript_variable_base (ctx : CodegenContext) (decl : Nat) :
    Except Fatal (CodegenContext × Option (Option Nat)) := do
  let var_decl := ctx.node_address decl
  let kind ← ir_kind ctx var_decl
  let ty ← ir_typeof ctx var_decl
  if kind = .IR_PARAMETER ∨ kind = .IR_STATIC_REF ∨ kind = .IR_ALLOCA then
    if type_is_pointer ty && type_is_pointer ty.pointer_to then do
      let e ← type_get_element ty
      let r ← ir_insert_load ctx e var_decl
      pure (r.1, some (some r.2))
    else pure (ctx, some var_decl)
  else pure (ERR ctx, none)

/-- The block `Subscript of array should result in pointer to base type` of the subscript
case: a bitcast of the base address from pointer-to-array to pointer-to-element. -/
def subscript_array_decay (ctx : CodegenContext) (subs_lhs : Option Nat) :
    Except Fatal (CodegenContext × Option Nat) := do
  let ty ← ir_typeof ctx subs_lhs
  if (type_is_pointer ty || type_is_reference ty) && type_is_array ty.pointer_to then do
    let element_ptr := ast_make_type_pointer ty.pointer_to.array_of
    let r ← ir_insert_conversion ctx .IR_BITCAST element_ptr subs_lhs
    pure (r.1, some r.2)
  else pure (ctx, subs_lhs)

/-- The variable that a variable-reference node binds (`none` on other nodes). -/
def Node.variable_decl : Node → Option Nat
  | .variable_reference _ _ decl => some decl
  | _ => none

/-- The base address of a subscript (the chain of `if`s on `lhs` in the subscript case):
the new context and `subs_lhs`, or `none` when the case has returned (after an error or
after the result for a string literal with a literal index has been set).
`emit_lhs_lvalue` and `emit_lhs` are `codegen_lvalue` and `codegen_expr` on `lhs`. -/
def subscript_base (q : Queries) (ctx : CodegenContext) (id : Nat) (lhs rhs : Node)
    (emit_lhs_lvalue emit_lhs : Lowering) :
    Except Fatal (CodegenContext × Option (Option Nat)) :=
  match lhs.variable_decl with
  | some decl => subscript_variable_base ctx decl
  | none =>
      if q.is_lvalue lhs then do
        let ctx ← emit_lhs_lvalue ctx
        pure (ctx, some (ctx.node_address lhs.id))
      else if lhs.kind = .NODE_LITERAL ∧ lhs.literal_type = .TK_STRING then do
        let ctx ← emit_lhs ctx
        if rhs.kind = .NODE_LITERAL ∧ rhs.literal_type = .TK_NUMBER then
          match ctx.strings[lhs.literal_string_index]? with
          | none => .error .null_pointer
          | some str =>
              if rhs.literal_integer ≥ str.length then pure (ERR ctx, none)
              else if rhs.literal_integer ≠ 0 then do
                let imm ← ir_insert_immediate ctx t_integer rhs.literal_integer
                let r ← ir_insert_binary imm.1 .IR_ADD (imm.1.node_ir lhs.id) (some imm.2)
                pure (r.1.set_ir id (some r.2), none)
              else pure (ctx.set_ir id (ctx.node_ir lhs.id), none)
        else pure (ctx, some (ctx.node_ir lhs.id))
      else pure (ERR ctx, none)

/-- The subscript case (`TK_LBRACK`) of `NODE_BINARY`; `emit_rhs` is
`codegen_expr(ctx, rhs)`. -/
def codegen_expr_subscript (q : Queries) (ctx : CodegenContext) (id : Nat) (lhs rhs : Node)
    (emit_lhs_lvalue emit_lhs emit_rhs : Lowering) : Except Fatal CodegenContext :=
  let reference_stripped_lhs_type := type_strip_references lhs.type
  if !type_is_array reference_stripped_lhs_type && !type_is_pointer reference_stripped_lhs_type
  then pure (ERR ctx)
  else do
    let base ← subscript_base q ctx id lhs rhs emit_lhs_lvalue emit_lhs
    match base.2 with
    | none => pure base.1
    | some subs_lhs => do
        let d ← subscript_array_decay base.1 subs_lhs
        if rhs.kind = .NODE_LITERAL ∧ rhs.literal_type = .TK_NUMBER ∧ rhs.literal_integer = 0 then
          pure (d.1.set_ir id d.2)
        else do
          let ctx ← emit_rhs d.1
          if type_is_array reference_stripped_lhs_type then do
            let immediate ← ir_insert_immediate ctx t_integer
              (q.type_sizeof reference_stripped_lhs_type.array_of)
            let scaled_rhs ← ir_insert_binary immediate.1 .IR_MUL (immediate.1.node_ir rhs.id)
              (some immediate.2)
            let r ← ir_insert_binary scaled_rhs.1 .IR_ADD d.2 (some scaled_rhs.2)
            pure (r.1.set_ir id (some r.2))
          else if type_is_pointer reference_stripped_lhs_type then do
            let immediate ← ir_insert_immediate ctx t_integer
              (q.type_sizeof reference_stripped_lhs_type.pointer_to)
            let scaled_rhs ← ir_insert_binary immediate.1 .IR_MUL (immediate.1.node_ir rhs.id)
              (some immediate.2)
            let r ← ir_insert_binary scaled_rhs.1 .IR_ADD d.2 (some scaled_rhs.2)
            pure (r.1.set_ir id (some r.2))
          else do
            let r ← ir_insert_binary ctx .IR_ADD d.2 none
            pure (r.1.set_ir id (some r.2))

/-- The case `NODE_BINARY` of `codegen_expr`; `emit_lhs_lvalue` is `codegen_lvalue` on the
left side, `emit_lhs` and `emit_rhs` are `codegen_expr` on the two sides. -/
def codegen_expr_binary (q : Queries) (ctx : CodegenContext) (id : Nat) (op : TokenType)
    (lhs rhs : Node) (emit_lhs_lvalue emit_lhs emit_rhs : Lowering) :
    Except Fatal CodegenContext :=
  if op = .TK_COLON_EQ then do
    let ctx ← emit_rhs ctx
    let ctx ← emit_lhs_lvalue ctx
    let r ← ir_insert_store ctx (ctx.node_ir rhs.id) (ctx.node_address lhs.id)
    pure (r.1.set_ir id (some r.2))
  else if op = .TK_LBRACK then
    codegen_expr_subscript q ctx id lhs rhs emit_lhs_lvalue emit_lhs emit_rhs
  else do
    let ctx ← emit_lhs ctx
    let ctx ← emit_rhs ctx
    let kind ← binary_op_kind op
    let r ← ir_insert_binary ctx kind (ctx.node_ir lhs.id) (ctx.node_ir rhs.id)
    pure (r.1.set_ir id (some r.2))

/-- The case `NODE_UNARY` of `codegen_expr`; `emit_value_lvalue` and `emit_value` are
`codegen_lvalue` and `codegen_expr` on the operand. The test `expr->literal.type ==
TK_STRING` of the source reads the storage that the node shares with `expr->unary.op`. -/
def codegen_expr_unary (ctx : CodegenContext) (id : Nat) (op : TokenType) (postfix_ : Bool)
    (value : Node) (emit_value_lvalue emit_value : Lowering) : Except Fatal CodegenContext :=
  if op = .TK_AMPERSAND ∧ postfix_ = false then
    if op = .TK_STRING then .error .todo
    else do
      let ctx ← emit_value_lvalue ctx
      pure (ctx.set_ir id (ctx.node_address value.id))
  else do
    let ctx ← emit_value ctx
    if postfix_ = false then
      match op with
      | .TK_AT =>
          if type_is_function_pointer value.type then
            pure (ctx.set_ir id (ctx.node_ir value.id))
          else do
            let ty ← ir_typeof ctx (ctx.node_ir value.id)
            let e ← type_get_element ty
            let r ← ir_insert_load ctx e (ctx.node_ir value.id)
            pure (r.1.set_ir id (some r.2))
      | .TK_TILDE => do
          let r ← ir_insert_not ctx (ctx.node_ir value.id)
          pure (r.1.set_ir id (some r.2))
      | _ => .error .ice
    else .error .ice

/-- The case `NODE_LITERAL` of `codegen_expr`; `emit_elements address` is the loop over the
elements of an array literal, starting at the element pointer `address`. -/
def codegen_expr_literal (q : Queries) (ctx : CodegenContext) (id : Nat) (type : Ty)
    (lit_type : TokenType) (integer : Nat) (string_index : Nat)
    (emit_elements : Option Nat → Lowering) : Except Fatal CodegenContext :=
  match lit_type with
  | .TK_NUMBER => do
      let r ← ir_insert_immediate ctx type integer
      pure (r.1.set_ir id (some r.2))
  | .TK_STRING => do
      let name := "__str_lit".toList ++ format_Z ctx.string_literal_count
      let ctx := { ctx with string_literal_count := (ctx.string_literal_count + 1) % 2 ^ 64 }
      let var := ir_create_static ctx id type name
      let r ← ir_insert_static_ref var.1 var.2
      let ctx := r.1.set_ir id (some r.2)
      pure (ir_static_var_init ctx var.2 (.str_lit string_index))
  | .TK_LBRACK => do
      let r ← ir_insert_alloca q ctx type
      let ctx := r.1.set_ir id (some r.2)
      let address ← ir_insert_copy ctx (ctx.node_ir id)
      let ctx ← ir_set_type address.1 (some address.2) (ast_make_type_pointer type.array_of)
      let ctx ← emit_elements (some address.2) ctx
      let ty ← ir_typeof ctx (ctx.node_ir id)
      let e ← type_get_element ty
      let r ← ir_insert_load ctx e (ctx.node_ir id)
      pure (r.1.set_ir id (some r.2))
  | _ => pure (DIAG ctx .DIAG_SORRY)

/-- The case `NODE_FOR` of `codegen_expr`; the four functions are `codegen_expr` on the
initialiser, the condition, the body and the iterator. -/
def codegen_expr_for (ctx : CodegenContext) (condition_id : Nat)
    (emit_init emit_condition emit_body emit_iterator : Lowering) :
    Except Fatal CodegenContext := do
  let cond_block := ir_block ctx
  let body_block := ir_block cond_block.1
  let join_block := ir_block body_block.1
  let ctx ← emit_init join_block.1
  let r ← ir_insert_br ctx cond_block.2
  let ctx := ir_block_attach r.1 cond_block.2
  let ctx ← emit_condition ctx
  let r ← ir_insert_cond_br ctx (ctx.node_ir condition_id) body_block.2 join_block.2
  let ctx := ir_block_attach r.1 body_block.2
  let ctx ← emit_body ctx
  let ctx ← emit_iterator ctx
  let r ← ir_insert_br ctx cond_block.2
  pure (ir_block_attach r.1 join_block.2)

/-- The case `NODE_RETURN` of `codegen_expr`; `value_id` is the identity of the returned
expression (`none` when there is none) and `emit_value` its lowering. -/
def codegen_expr_return (ctx : CodegenContext) (id : Nat) (value_id : Option Nat)
    (emit_value : Lowering) : Except Fatal CodegenContext :=
  match value_id with
  | some v => do
      let ctx ← emit_value ctx
      let r ← ir_insert_return ctx (ctx.node_ir v)
      pure (r.1.set_ir id (some r.2))
  | none => do
      let r ← ir_insert_return ctx none
      pure (r.1.set_ir id (some r.2))

/-- One step of the loop over call arguments, after the argument has been emitted: add it
to the call (`ir_call_add_arg`), by address for a reference and by value otherwise. -/
def call_add_argument (ctx : CodegenContext) (call : Nat) (arg : Node) : CodegenContext :=
  if type_is_reference arg.type then ir_call_add_arg ctx call (ctx.node_address arg.id)
  else ir_call_add_arg ctx call (ctx.node_ir arg.id)

/-- One step of the loop over the elements of an array literal, after the element has been
emitted: store it at `address` and, unless it is the last element (`index == size - 1`),
advance the address by the element size. The result is the new context and the next
address, `none` after the `break`. -/
def array_store_element (ctx : CodegenContext) (element_size : Nat) (address : Option Nat)
    (index : Nat) (size : Nat) (node_id : Nat) :
    Except Fatal (CodegenContext × Option (Option Nat)) := do
  let r ← ir_insert_store ctx (ctx.node_ir node_id) address
  if index = size - 1 then pure (r.1, none)
  else do
    let element_byte_size ← ir_insert_immediate r.1 t_integer element_size
    let a ← ir_insert_binary element_byte_size.1 .IR_ADD address (some element_byte_size.2)
    pure (a.1, some (some a.2))

mutual

/-- The function `codegen_lvalue`: emit an lvalue. -/
def codegen_lvalue (q : Queries) (ctx : CodegenContext) (lval : Node) :
    Except Fatal CodegenContext :=
  if (ctx.node_address lval.id).isSome then .ok ctx
  else
    match lval with
    | .declaration id type name linkage init =>
        codegen_lvalue_declaration q ctx id type name linkage init
          (fun c => codegen_optional q c init)
    | .member_access id _ struct_ member_byte_offset member_type =>
        codegen_lvalue_member_access ctx id struct_.id member_byte_offset member_type
          (fun c => codegen_lvalue q c struct_)
    | .if_ .. => .error .todo
    | .unary id _ op postfix_ value =>
        codegen_lvalue_unary ctx id op postfix_ value.id (fun c => codegen_expr q c value)
    | .variable_reference id _ decl => codegen_lvalue_variable_reference ctx id decl
    | .cast id _ value => codegen_lvalue_cast ctx id value.id (fun c => codegen_lvalue q c value)
    | _ => .error .ice

/-- The function `codegen_expr`: emit an expression. In the cases that begin with
`codegen_lvalue(ctx, expr)` the address test of `codegen_lvalue` is written out. -/
def codegen_expr (q : Queries) (ctx : CodegenContext) (expr : Node) :
    Except Fatal CodegenContext :=
  if ctx.node_emitted expr.id then .ok ctx
  else
    match expr with
    | .function id _ _ _ attr_inline _ _ =>
        codegen_expr_function (ctx.set_emitted id) id attr_inline
    | .module_reference id _ => pure (ERR (ctx.set_emitted id))
    | .root id _ children =>
        codegen_expr_root (ctx.set_emitted id) children (fun c => codegen_children q c children)
    | .declaration id type name linkage init =>
        if ((ctx.set_emitted id).node_address id).isSome then .ok (ctx.set_emitted id)
        else
          codegen_lvalue_declaration q (ctx.set_emitted id) id type name linkage init
            (fun c => codegen_optional q c init)
    | .member_access id _ struct_ member_byte_offset member_type =>
        codegen_expr_load (ctx.set_emitted id) id (fun c =>
          if (c.node_address id).isSome then .ok c
          else
            codegen_lvalue_member_access c id struct_.id member_byte_offset member_type
              (fun c => codegen_lvalue q c struct_))
    | .variable_reference id _ decl =>
        codegen_expr_load (ctx.set_emitted id) id (fun c =>
          if (c.node_address id).isSome then .ok c
          else codegen_lvalue_variable_reference c id decl)
    | .structure_declaration id _ => pure (ctx.set_emitted id)
    | .if_ id type condition then_ else_ =>
        codegen_expr_if q (ctx.set_emitted id) id type condition.id then_.id
          (else_.map (fun e => e.id)) (fun c => codegen_expr q c condition)
          (fun c => codegen_expr q c then_) (fun c => codegen_optional q c else_)
    | .while_ id _ condition body =>
        codegen_expr_while (ctx.set_emitted id) condition.id body.block_children_size
          (fun c => codegen_expr q c condition) (fun c => codegen_expr q c body)
    | .block id type children =>
        codegen_expr_block q (ctx.set_emitted id) id type children
          (fun c => codegen_children q c children)
    | .call id _ callee arguments intrinsic =>
        codegen_expr_call (ctx.set_emitted id) id callee intrinsic
          (fun c => codegen_expr q c callee)
          (fun call c => codegen_call_arguments q c call arguments)
    | .intrinsic_call id _ _ arguments intrinsic =>
        codegen_expr_intrinsic_call (ctx.set_emitted id) id intrinsic arguments.head?
          (fun c => codegen_first q c arguments)
          (fun call c => codegen_call_arguments q c call arguments)
    | .cast id type value =>
        codegen_expr_cast q (ctx.set_emitted id) id type value (fun c => codegen_expr q c value)
    | .binary id _ op lhs rhs =>
        codegen_expr_binary q (ctx.set_emitted id) id op lhs rhs
          (fun c => codegen_lvalue q c lhs) (fun c => codegen_expr q c lhs)
          (fun c => codegen_expr q c rhs)
    | .unary id _ op postfix_ value =>
        codegen_expr_unary (ctx.set_emitted id) id op postfix_ value
          (fun c => codegen_lvalue q c value) (fun c => codegen_expr q c value)
    | .literal id type lit_type integer string_index compound =>
        codegen_expr_literal q (ctx.set_emitted id) id type lit_type integer string_index
          (fun address c =>
            codegen_array_elements q c (q.type_sizeof type.array_of) address 0 compound.length
              compound)
    | .for_ id _ init condition iterator body =>
        codegen_expr_for (ctx.set_emitted id) condition.id (fun c => codegen_expr q c init)
          (fun c => codegen_expr q c condition) (fun c => codegen_expr q c body)
          (fun c => codegen_expr q c iterator)
    | .return_ id _ value =>
        codegen_expr_return (ctx.set_emitted id) id (value.map (fun v => v.id))
          (fun c => codegen_optional q c value)
    | .function_reference .. => .error .unreachable

/-- The call `codegen_expr(ctx, node)` on a child that may be absent (nothing is emitted
for a null child). -/
def codegen_optional (q : Queries) (ctx : CodegenContext) (node : Option Node) :
    Except Fatal CodegenContext :=
  match node with
  | none => .ok ctx
  | some n => codegen_expr q ctx n

/-- The call `codegen_expr(ctx, expr->call.arguments.data[0])`. -/
def codegen_first (q : Queries) (ctx : CodegenContext) (arguments : List Node) :
    Except Fatal CodegenContext :=
  match arguments with
  | [] => .error .null_pointer
  | call :: _ => codegen_expr q ctx call

/-- The loop `foreach_val (child, children)` of `NODE_ROOT` and `NODE_BLOCK`: emit
everything that is not a function. -/
def codegen_children (q : Queries) (ctx : CodegenContext) (children : List Node) :
    Except Fatal CodegenContext :=
  match children with
  | [] => .ok ctx
  | child :: rest =>
      if child.kind = .NODE_FUNCTION then codegen_children q ctx rest
      else do
        let ctx ← codegen_expr q ctx child
        codegen_children q ctx rest

/-- The loop `foreach_val (arg, arguments)` of a call or intrinsic: emit each argument, as
an lvalue when its type is a reference, and add it to the call. -/
def codegen_call_arguments (q : Queries) (ctx : CodegenContext) (call : Nat)
    (arguments : List Node) : Except Fatal CodegenContext :=
  match arguments with
  | [] => .ok ctx
  | arg :: rest => do
      let ctx ← (if type_is_reference arg.type then codegen_lvalue q ctx arg
        else codegen_expr q ctx arg)
      codegen_call_arguments q (call_add_argument ctx call arg) call rest

/-- The loop `foreach_val (node, expr->literal.compound)` of an array literal: emit each
element and store it at `address`, which advances by the element size; `size` is the
number of elements of the literal and `index` counts the stores done. -/
def codegen_array_elements (q : Queries) (ctx : CodegenContext) (element_size : Nat)
    (address : Option Nat) (index : Nat) (size : Nat) (nodes : List Node) :
    Except Fatal CodegenContext :=
  match nodes with
  | [] => .ok ctx
  | node :: rest => do
      let ctx ← codegen_expr q ctx node
      let r ← array_store_element ctx element_size address index size node.id
      match r.2 with
      | none => pure r.1
      | some next => codegen_array_elements q r.1 element_size next (index + 1) size rest

end

/-- The loop `foreach_index(i, node->function.param_decls)` of `codegen_function`, from
index `i` on. -/
def codegen_function_params (q : Queries) (ctx : CodegenContext) (i : Nat)
    (param_decls : List Node) : Except Fatal CodegenContext :=
  match param_decls with
  | [] => .ok ctx
  | decl :: rest => do
      let p ← ir_parameter ctx ctx.function i
      if type_is_reference decl.type then
        codegen_function_params q (ctx.set_address decl.id (some p)) (i + 1) rest
      else do
        let by_pointer ← parameter_is_passed_as_pointer q ctx ctx.function i
        if by_pointer then do
          let ty ← ir_typeof ctx (some p)
          let ctx ← ir_set_type ctx (some p) (ast_make_type_pointer ty)
          codegen_function_params q (ctx.set_address decl.id (some p)) (i + 1) rest
        else do
          let ctx ← codegen_lvalue q ctx decl
          let r ← ir_insert_store ctx (some p) (ctx.node_address decl.id)
          codegen_function_params q r.1 (i + 1) rest

/-- The function `codegen_function`: emit a function. -/
def codegen_function (q : Queries) (ctx : CodegenContext) (node : Node) :
    Except Fatal CodegenContext :=
  match node with
  | .function id type _ _ _ param_decls body =>
      match body with
      | none => .error .assertion
      | some body =>
          match ctx.function_ir id with
          | none => .error .null_pointer
          | some f => do
              let entry ← ir_entry_block ctx f
              let ctx := { ctx with insert_point := entry, function := f }
              let ctx ← codegen_function_params q ctx 0 param_decls
              let ctx ← codegen_expr q ctx body
              if !ir_is_closed ctx ctx.insert_point then do
                let r ← ir_insert_return ctx
                  (if !q.type_is_void type.function_return_type then ctx.node_ir body.id else none)
                pure r.1
              else pure ctx
  | _ => .error .assertion

/-! ## The driver (`codegen.c`, the functions `codegen_lower`, `codegen_early_lowering`,
`codegen_emit` and `codegen`)

The output file, the lifetime of the context and the passes that live outside the sources
at hand are seen through the list of events that the driver leaves, in order. -/

/-- Source languages (`CodegenLanguage`); the last value stands for any unrecognised one. -/
inductive CodegenLanguage where
  | LANG_FUN | LANG_IR | LANG_COUNT
deriving DecidableEq

/-- Architectures (`CodegenArchitecture`, `ARCH_COUNT == 2`). -/
inductive CodegenArchitecture where
  | ARCH_NONE | ARCH_X86_64 | ARCH_COUNT
deriving DecidableEq

/-- Modelled from the spec: the target format is LLVM or native code (the driver tests for
`TARGET_LLVM` only; `TARGET_NATIVE` stands for every other target). -/
inductive CodegenTarget where
  | TARGET_LLVM | TARGET_NATIVE
deriving DecidableEq

/-- The AST handle (`Module`) as far as the driver reads it; `imports` holds, for each
imported module, the nodes it exports. -/
structure Module where
  is_module : Bool := false
  module_name : CStr := []
  strings : List CStr := []
  functions : List Node := []
  imports : List (List Node) := []
  root : Node

/-- The global flags that the driver reads. -/
structure DriverFlags where
  debug_ir : Bool := false
  print_ir2 : Bool := false
  optimise : Bool := false
  print_dot_dj : Bool := false
  print_dot_cfg : Bool := false

/-- The collaborators of the driver that live outside the sources at hand: the driver is
stated for any such functions. `fopen` tells whether the output file can be opened;
`ir_parse` and `codegen_process_inline_calls` give their verdict and the context they
leave; `cint_size` is `context->ffi.cint_size`; `shared_function_attributes` is the
expansion of `SHARED_FUNCTION_ATTRIBUTES` for an IR function and its AST node. -/
structure Collaborators where
  fopen : CStr → Bool
  cint_size : Nat
  ir_parse : CodegenContext → CStr → CStr → Bool × CodegenContext
  ir_create_function : CodegenContext → CStr → Ty → SymbolLinkage → CodegenContext × Nat
  shared_function_attributes : CodegenContext → Nat → Node → CodegenContext
  codegen_process_inline_calls : CodegenContext → Bool × CodegenContext
  codegen_lower_early_x86_64 : CodegenContext → CodegenContext
  codegen_optimise : CodegenContext → CodegenContext
  codegen_lower_x86_64 : CodegenContext → CodegenContext
  codegen_emit_llvm : CodegenContext → CodegenContext
  codegen_emit_x86_64 : CodegenContext → CodegenContext

/-- What the driver does to its surroundings: the calls that open and close the output
file, create and free the context, and run a pass or a printer. -/
inductive DriverEvent where
  | fopen | fclose | codegen_context_create | codegen_context_free | ir_parse
  | codegen_process_inline_calls | ir_print | codegen_early_lowering | codegen_optimise
  | ir_print_dot_dj | ir_print_dot_cfg | codegen_lower | codegen_emit
deriving DecidableEq

/-- How a call of `codegen` ends: it returns a value, it leaves the process by `exit`, or
it stops with a fatal error. -/
inductive DriverOutcome where
  | returned (value : Bool)
  | exited (status : Nat)
  | stopped (fatal : Fatal)
deriving DecidableEq

/-- A finished call of `codegen`: how it ended, the events it left in order, and the
context as it was last. -/
structure DriverResult where
  outcome : DriverOutcome
  events : List DriverEvent
  context : CodegenContext

/-- Modelled from the spec: `t_byte`, which §8 (S6) takes as the 8-bit unsigned integer. -/
def t_byte : Ty := .integer false 8

/-- Modelled from the spec: `codegen_context_create` makes the context of one compilation,
which holds the calling convention of the target and the AST handle (here its string
table), no IR and no error. The architecture and the target, which the context holds as
well, are passed beside it. -/
def codegen_context_create (ast : Module) (call_convention : CodegenCallingConvention) :
    CodegenContext :=
  { call_convention := call_convention, strings := ast.strings }

/-- Modelled from the spec: `ir_attribute(f, FUNC_ATTR_NOMANGLE, true)` sets the no-mangle
attribute of a function. -/
def ir_attribute_nomangle (ctx : CodegenContext) (f : Nat) : CodegenContext :=
  match ctx.functions[f]? with
  | none => ctx
  | some x => { ctx with functions := ctx.functions.set f { x with attr_nomangle := true } }

/-- Modelled from the spec: `ir_func_is_definition` tells whether a function is a
definition; a null function is fatal. -/
def ir_func_is_definition (ctx : CodegenContext) (f : Option Nat) : Except Fatal Bool :=
  match f with
  | none => .error .null_pointer
  | some i =>
      match ctx.functions[i]? with
      | none => .error .null_pointer
      | some x => .ok x.is_definition

/-- The function `codegen_lower`. -/
def codegen_lower (w : Collaborators) (arch : CodegenArchitecture) (context : CodegenContext) :
    Except Fatal CodegenContext :=
  match arch with
  | .ARCH_X86_64 => .ok (w.codegen_lower_x86_64 context)
  | _ => .error .todo

/-- The function `codegen_early_lowering`. -/
def codegen_early_lowering (w : Collaborators) (arch : CodegenArchitecture)
    (target : CodegenTarget) (context : CodegenContext) : Except Fatal CodegenContext :=
  if target = .TARGET_LLVM then .ok context
  else
    match arch with
    | .ARCH_X86_64 => .ok (w.codegen_lower_early_x86_64 context)
    | _ => .error .todo

/-- The function `codegen_emit`. -/
def codegen_emit (w : Collaborators) (arch : CodegenArchitecture) (target : CodegenTarget)
    (context : CodegenContext) : Except Fatal CodegenContext :=
  if target = .TARGET_LLVM then .ok (w.codegen_emit_llvm context)
  else
    match arch with
    | .ARCH_X86_64 => .ok (w.codegen_emit_x86_64 context)
    | .ARCH_NONE => .error .unreachable
    | .ARCH_COUNT => .error .unreachable

/-- The creation of the entry function in the case `LANG_FUN` of `codegen`: `main` for a
program, `__module<name>_entry` for a module. The result is the new context and
`context->entry`. -/
def codegen_create_entry (w : Collaborators) (ctx : CodegenContext) (ast : Module) :
    CodegenContext × Nat :=
  if !ast.is_module then
    let c_int : Ty := .integer true w.cint_size
    let argc : CStr × Ty := ("__argc__".toList, c_int)
    let argv : CStr × Ty :=
      ("__argv__".toList, ast_make_type_pointer (ast_make_type_pointer t_byte))
    let envp : CStr × Ty :=
      ("__envp__".toList, ast_make_type_pointer (ast_make_type_pointer t_byte))
    let main_type : Ty := .function t_integer [argc, argv, envp]
    w.ir_create_function ctx "main".toList main_type .LINKAGE_EXPORTED
  else
    let entry_type : Ty := .function t_void []
    w.ir_create_function ctx ("__module".toList ++ ast.module_name ++ "_entry".toList)
      entry_type .LINKAGE_EXPORTED

/-- The loop `foreach_val (func, ast->functions)` of `codegen` that creates the IR function
of every function node and records it in the node (`func->function.ir`). A node of another
kind has no such fields and is taken as a fatal stop; source locations (`ir_location`) are
not modelled. -/
def codegen_create_functions (w : Collaborators) (ctx : CodegenContext) :
    List Node → Except Fatal CodegenContext
  | [] => .ok ctx
  | func :: rest =>
      match func with
      | .function id type name linkage _ _ _ =>
          let r := w.ir_create_function ctx name type linkage
          let ctx : CodegenContext :=
            { r.1 with function_ir := fun n => if n = id then some r.2 else r.1.function_ir n }
          codegen_create_functions w (w.shared_function_attributes ctx r.2 func) rest
      | _ => .error .assertion

/-- The inner loop `foreach_val (n, import->exports)` of `codegen`: every exported
declaration is emitted as an lvalue. -/
def codegen_import_declarations (q : Queries) (ctx : CodegenContext) :
    List Node → Except Fatal CodegenContext
  | [] => .ok ctx
  | n :: rest =>
      if n.kind = .NODE_DECLARATION then do
        let ctx ← codegen_lvalue q ctx n
        codegen_import_declarations q ctx rest
      else codegen_import_declarations q ctx rest

/-- The loop `foreach_val (import, context->ast->imports)` of `codegen`. -/
def codegen_imports (q : Queries) (ctx : CodegenContext) :
    List (List Node) → Except Fatal CodegenContext
  | [] => .ok ctx
  | exports :: rest => do
      let ctx ← codegen_import_declarations q ctx exports
      codegen_imports q ctx rest

/-- The loop `foreach_val (func, ast->functions)` of `codegen` that emits every function
that is a definition. -/
def codegen_functions (q : Queries) (ctx : CodegenContext) :
    List Node → Except Fatal CodegenContext
  | [] => .ok ctx
  | func :: rest => do
      let is_definition ← ir_func_is_definition ctx (ctx.function_ir func.id)
      if is_definition then do
        let ctx ← codegen_function q ctx func
        codegen_functions q ctx rest
      else codegen_functions q ctx rest

/-- The case `LANG_FUN` of `codegen`: AST lowering of a whole program. -/
def codegen_lang_fun (w : Collaborators) (q : Queries) (ctx : CodegenContext) (ast : Module) :
    Except Fatal CodegenContext := do
  let entry := codegen_create_entry w ctx ast
  let ctx := ir_attribute_nomangle entry.1 entry.2
  let ctx ← codegen_create_functions w ctx ast.functions
  let ctx ← codegen_imports q ctx ast.imports
  let block ← ir_entry_block ctx entry.2
  let ctx : CodegenContext := { ctx with insert_point := block, function := entry.2 }
  let ctx ← codegen_expr q ctx ast.root
  codegen_functions q ctx ast.functions

/-- The end of `codegen`, from the test of the target before `codegen_lower` on: lowering
unless the target is LLVM, emission, and the release of the context and of the file. -/
def codegen_finish (w : Collaborators) (flags : DriverFlags) (arch : CodegenArchitecture)
    (target : CodegenTarget) (events : List DriverEvent) (context : CodegenContext) :
    DriverResult :=
  let lowered : Except Fatal (CodegenContext × List DriverEvent) :=
    if target ≠ .TARGET_LLVM then
      match codegen_lower w arch context with
      | .error f => .error f
      | .ok c =>
          .ok (c, events ++ [.codegen_lower] ++ (if flags.debug_ir then [.ir_print] else []))
    else .ok (context, events)
  match lowered with
  | .error f => { outcome := .stopped f, events := events ++ [.codegen_lower], context := context }
  | .ok l =>
      match codegen_emit w arch target l.1 with
      | .error f => { outcome := .stopped f, events := l.2 ++ [.codegen_emit], context := l.1 }
      | .ok c =>
          { outcome := .returned true
            events := l.2 ++ [.codegen_emit, .codegen_context_free, .fclose]
            context := c }

/-- The statements of `codegen` that follow the `switch` on the language: the test of the
error flag, mandatory inlining, early lowering, optimisation, the debug dumps that leave
the process with status 42, and the end of the function. Output on `stdout` other than the
calls of `ir_print` is not recorded. -/
def codegen_passes (w : Collaborators) (flags : DriverFlags) (arch : CodegenArchitecture)
    (target : CodegenTarget) (events : List DriverEvent) (context : CodegenContext) :
    DriverResult :=
  if context.has_err then { outcome := .returned false, events := events, context := context }
  else
    let inlined := w.codegen_process_inline_calls context
    let events := events ++ [.codegen_process_inline_calls]
    if !inlined.1 then { outcome := .returned false, events := events, context := inlined.2 }
    else
      let events := if flags.debug_ir || flags.print_ir2 then events ++ [.ir_print] else events
      let events := events ++ [.codegen_early_lowering]
      match codegen_early_lowering w arch target inlined.2 with
      | .error f => { outcome := .stopped f, events := events, context := inlined.2 }
      | .ok context =>
          let optimised : CodegenContext × List DriverEvent :=
            if flags.optimise then
              (w.codegen_optimise context,
                events ++ [.codegen_optimise]
                  ++ (if flags.debug_ir || flags.print_ir2 then [.ir_print] else []))
            else (context, events)
          if flags.print_dot_dj then
            { outcome := .exited 42
              events := optimised.2 ++ [.ir_print_dot_dj]
              context := optimised.1 }
          else if flags.print_dot_cfg then
            { outcome := .exited 42
              events := optimised.2 ++ [.ir_print_dot_cfg]
              context := optimised.1 }
          else if flags.print_ir2 then
            { outcome := .exited 42, events := optimised.2, context := optimised.1 }
          else codegen_finish w flags arch target optimised.2 optimised.1

/-- The function `codegen`, the driver; `outfile` is `none` for a null path. -/
def codegen (w : Collaborators) (flags : DriverFlags) (q : Queries) (lang : CodegenLanguage)
    (arch : CodegenArchitecture) (target : CodegenTarget)
    (call_convention : CodegenCallingConvention) (infile : CStr) (outfile : Option CStr)
    (ast : Module) (ir : CStr) : DriverResult :=
  match outfile with
  | none => { outcome := .stopped .ice, events := [], context := {} }
  | some path =>
      if !w.fopen path then { outcome := .stopped .ice, events := [.fopen], context := {} }
      else
        let context := codegen_context_create ast call_convention
        let events : List DriverEvent := [.fopen, .codegen_context_create]
        match lang with
        | .LANG_IR =>
            let parsed := w.ir_parse context infile ir
            if !parsed.1 then
              { outcome := .returned false
                events := events ++ [.ir_parse, .fclose]
                context := parsed.2 }
            else codegen_passes w flags arch target (events ++ [.ir_parse]) parsed.2
        | .LANG_FUN =>
            match codegen_lang_fun w q context ast with
            | .error f => { outcome := .stopped f, events := events, context := context }
            | .ok c => codegen_passes w flags arch target events c
        | .LANG_COUNT => { outcome := .stopped .ice, events := events, context := context }

/-! ## The lexer and the integer parser (`parser.c`)

A `char *` into the source text is an offset into the buffer `buf`, which holds the
characters of the C string before its terminating NUL; the offset `buf.length` points at the
NUL. A null pointer is `none`. -/

/-- The error types that `parser.c` names (`error.h` is outside the sources at hand). -/
inductive ErrorType where
  | ERROR_NONE | ERROR_ARGUMENTS | ERROR_TYPE
deriving DecidableEq

/-- The string `whitespace`. -/
def whitespace : CStr := [' ', '\r', '\n']

/-- The string `delimiters`. -/
def delimiters : CStr := [' ', '\r', '\n', ',', '(', ')', ':']

/-- The C library function `strspn` (outside the sources at hand, after the C standard):
the length of the longest initial segment of `s` made of characters of `accept`. -/
def strspn (s accept : CStr) : Nat := (s.takeWhile (fun c => accept.contains c)).length

/-- The C library function `strcspn` (outside the sources at hand, after the C standard):
the length of the longest initial segment of `s` made of characters not in `reject`. -/
def strcspn (s reject : CStr) : Nat := (s.takeWhile (fun c => !reject.contains c)).length

/-- A token (`Token`): the pointers `beginning` and `end` into the source text. -/
structure Token where
  beginning : Nat := 0
  end_ : Nat := 0
deriving DecidableEq

/-- The text of a token: the characters from its beginning up to its end. -/
def Token.text (buf : CStr) (token : Token) : CStr :=
  (buf.drop token.beginning).take (token.end_ - token.beginning)

/-- The function `lex`: the type of the error it returns and the token behind the pointer
`token` afterwards. -/
def lex (buf : CStr) (source : Option Nat) (token : Option Token) : ErrorType × Option Token :=
  match source, token with
  | some source, some _ =>
      let beginning := source + strspn (buf.drop source) whitespace
      match buf[beginning]? with
      | none => (.ERROR_NONE, some { beginning := beginning, end_ := beginning })
      | some _ =>
          let end_ := beginning + strcspn (buf.drop beginning) delimiters
          if end_ = beginning then (.ERROR_NONE, some { beginning := beginning, end_ := end_ + 1 })
          else (.ERROR_NONE, some { beginning := beginning, end_ := end_ })
  | _, _ => (.ERROR_ARGUMENTS, token)

/-- The loop of `token_string_equalp`: `string` is what is left of the string and `beg` the
pointer into the source text. The loop goes on while `token->beginning < token->end`. -/
def token_string_equalp_loop (buf : CStr) (token : Token) : CStr → Nat → Int
  | [], _ => 1
  | c :: string, beg =>
      if token.beginning < token.end_ then
        if buf[beg]? ≠ some c then 0
        else token_string_equalp_loop buf token string (beg + 1)
      else 1

/-- The function `token_string_equalp`. -/
def token_string_equalp (buf : CStr) (string : Option CStr) (token : Option Token) : Int :=
  match string, token with
  | some string, some token => token_string_equalp_loop buf token string token.beginning
  | _, _ => 0

/-- The node types of `parser.c` (`NODE_TYPE_MAX == 7`). -/
inductive NodeType where
  | NODE_TYPE_NONE | NODE_TYPE_INTEGER | NODE_TYPE_SYMBOL | NODE_TYPE_VARIABLE_DECLARATION
  | NODE_TYPE_VARIABLE_DECLARATION_INITIALIZED | NODE_TYPE_BINARY_OPERATOR | NODE_TYPE_PROGRAM
  | NODE_TYPE_MAX
deriving DecidableEq

/-- The struct `Node` of `parser.c`, as far as `parse_integer` writes it: the type and the
integer value (the name `Node` is the AST node of the code generator here). -/
structure ParseNode where
  type : NodeType := .NODE_TYPE_NONE
  integer : Int := 0
deriving DecidableEq

/-- The C library predicate `isspace` in the C locale (outside the sources at hand, after
the C standard): space, `\t`, `\n`, `\v`, `\f` and `\r`. -/
def isspace (c : Char) : Bool :=
  c == ' ' || c == '\t' || c == '\n' || c == Char.ofNat 11 || c == Char.ofNat 12 || c == '\r'

/-- The largest `long long`. -/
def LLONG_MAX : Int := 2 ^ 63 - 1

/-- The smallest `long long`. -/
def LLONG_MIN : Int := -(2 ^ 63)

/-- The value that `strtoll` returns for the mathematical value `v`: out of range it is the
nearest bound. -/
def clamp_long_long (v : Int) : Int :=
  if v > LLONG_MAX then LLONG_MAX else if v < LLONG_MIN then LLONG_MIN else v

/-- The C library function `strtoll(nptr, &end, 10)` (outside the sources at hand, after the
C standard): skip white space, read an optional sign and the longest run of decimal digits.
The result is the value and `end - nptr`; without a digit no conversion is performed, the
value is zero and `end` is `nptr`. -/
def strtoll (nptr : CStr) : Int × Nat :=
  let blank := (nptr.takeWhile isspace).length
  let rest := nptr.drop blank
  let sign := if rest.head? = some '-' ∨ rest.head? = some '+' then 1 else 0
  let digits := (rest.drop sign).takeWhile is_digit
  if digits = [] then (0, 0)
  else
    let magnitude : Int := (value_of digits : Nat)
    (clamp_long_long (if rest.head? = some '-' then -magnitude else magnitude),
      blank + sign + digits.length)

/-- The function `parse_integer`: its result and the node behind the pointer `node`
afterwards. -/
def parse_integer (buf : CStr) (token : Option Token) (node : Option ParseNode) :
    Int × Option ParseNode :=
  match token, node with
  | some token, some node =>
      if (token.end_ : Int) - token.beginning = 1 ∧ buf[token.beginning]? = some '0' then
        (1, some { node with type := .NODE_TYPE_INTEGER, integer := 0 })
      else
        let r := strtoll (buf.drop token.beginning)
        let node := { node with integer := r.1 }
        if r.1 ≠ 0 then
          if token.beginning + r.2 ≠ token.end_ then (0, some node)
          else (1, some { node with type := .NODE_TYPE_INTEGER })
        else (0, some node)
  | _, _ => (0, node)

/-! ## Machine IR (`codegen/machine_ir.c`; `machine_ir.h` is outside the sources at hand,
the data model follows §3.3 of the specification) -/

/-- A MIR operand (`MIROperand`); pointers to MIR blocks and functions and to IR
instructions are indices. -/
inductive MIROperand where
  | none
  | register (value : Nat) (size : Nat) (defining_use : Bool)
  | immediate (imm : Int)
  | block (block : Nat)
  | function (function : Nat)
  | name (name : CStr)
  | static_ref (static_ref : Nat)
  | local_ref (local_ref : Nat)
  | op_ref (pattern_instruction_index : Nat) (operand_index : Nat)
  | inst_ref (inst_ref : Nat)
deriving DecidableEq

/-- The inline operand capacity of an instruction (`MIR_OPERAND_SSO_THRESHOLD`, four by
§3.3 of the specification). -/
def MIR_OPERAND_SSO_THRESHOLD : Nat := 4

/-- A MIR opcode: one of the common opcodes, which mirror the IR kinds, or an opcode of
the architecture-specific space (at or above `MIR_ARCH_START`). -/
inductive MIROpcode where
  | common (kind : IRType)
  | arch (code : Nat)
deriving DecidableEq

/-- A MIR instruction. The operands live in the inline array `operands_arr` while there
are at most four of them and in the vector `operands_vec` afterwards. -/
structure MIRInstruction where
  id : Nat := 0
  opcode : MIROpcode
  operand_count : Nat := 0
  operands_arr : List MIROperand := [.none, .none, .none, .none]
  operands_vec : List MIROperand := []
  block : Option Nat := none
  reg : Nat := 0
  origin : Option Nat := none
  lowered : Option Nat := none
  clobbers : List Nat := []
deriving DecidableEq

/-- A MIR block. -/
structure MIRBlock where
  name : CStr := []
  function : Option Nat := none
  origin : Option Nat := none
  instructions : List Nat := []
  is_entry : Bool := false
  is_exit : Bool := false
  predecessors : List Nat := []
  successors : List Nat := []
  lowered : Option Nat := none
deriving DecidableEq

/-- A frame object: size, lowered index and offset (`none` and `-1` are the sentinels). -/
structure MIRFrameObject where
  size : Nat
  lowered : Option Nat := none
  offset : Int := -1
deriving DecidableEq

/-- A MIR function. -/
structure MIRFunction where
  name : CStr := []
  origin : Nat
  blocks : List Nat := []
  frame_objects : List MIRFrameObject := []
  inst_count : Nat := 0
deriving DecidableEq

/-- State of the MIR translation: the IR it reads (and whose Alloca offsets it writes),
the stores of MIR instructions, blocks and functions, the links `ir_mir` from IR
instructions, blocks and functions to their MIR counterparts, and the static counter
`mir_alloc_id`. -/
structure MIRContext where
  ir : CodegenContext
  instructions : List MIRInstruction := []
  blocks : List MIRBlock := []
  functions : List MIRFunction := []
  inst_mir : Nat → Option Nat := fun _ => none
  block_mir : Nat → Option Nat := fun _ => none
  function_mir : Nat → Option Nat := fun _ => none
  mir_alloc_id : Nat := 0

/-- Read a MIR instruction; a null or dangling pointer is fatal. -/
def MIRContext.inst (st : MIRContext) (i : Nat) : Except Fatal MIRInstruction :=
  match st.instructions[i]? with
  | none => .error .null_pointer
  | some x => .ok x

/-- Write a MIR instruction. -/
def MIRContext.set_inst (st : MIRContext) (i : Nat) (x : MIRInstruction) : MIRContext :=
  { st with instructions := st.instructions.set i x }

/-- Read a MIR block. -/
def MIRContext.get_block (st : MIRContext) (b : Nat) : Except Fatal MIRBlock :=
  match st.blocks[b]? with
  | none => .error .null_pointer
  | some x => .ok x

/-- Write a MIR block. -/
def MIRContext.set_block (st : MIRContext) (b : Nat) (x : MIRBlock) : MIRContext :=
  { st with blocks := st.blocks.set b x }

/-- Read a MIR function. -/
def MIRContext.get_function (st : MIRContext) (f : Nat) : Except Fatal MIRFunction :=
  match st.functions[f]? with
  | none => .error .null_pointer
  | some x => .ok x

/-- Write a MIR function. -/
def MIRContext.set_function (st : MIRContext) (f : Nat) (x : MIRFunction) : MIRContext :=
  { st with functions := st.functions.set f x }

/-- Read an IR instruction; a null or dangling pointer is fatal. -/
def ir_inst (ctx : CodegenContext) (inst : Option Nat) : Except Fatal IRInstruction :=
  match inst with
  | none => .error .null_pointer
  | some i =>
      match ctx.instructions[i]? with
      | none => .error .null_pointer
      | some x => .ok x

/-- The cast `(i64)` of an unsigned 64-bit value. -/
def to_i64 (n : Nat) : Int :=
  if n % 2 ^ 64 < 2 ^ 63 then (n % 2 ^ 64 : Nat) else ((n % 2 ^ 64 : Nat) : Int) - 2 ^ 64

/-- The function `mir_op_function`. -/
def mir_op_function (f : Option Nat) : Except Fatal MIROperand :=
  match f with
  | none => .error .assertion
  | some f => .ok (.function f)

/-- The function `mir_op_block`. -/
def mir_op_block (block : Option Nat) : Except Fatal MIROperand :=
  match block with
  | none => .error .assertion
  | some b => .ok (.block b)

/-- The loop `while (inst->lowered) inst = inst->lowered` of `mir_op_reference`; the fuel
bounds the length of the chain. -/
def mir_follow_lowered (st : MIRContext) (fuel : Nat) (inst : Nat) : Except Fatal Nat :=
  match fuel with
  | 0 => .error .unreachable
  | fuel + 1 => do
      let x ← st.inst inst
      match x.lowered with
      | none => pure inst
      | some l => mir_follow_lowered st fuel l

/-- The function `mir_op_reference`. -/
def mir_op_reference (q : Queries) (st : MIRContext) (inst : Option Nat) :
    Except Fatal MIROperand :=
  match inst with
  | none => .error .assertion
  | some i => do
      let last ← mir_follow_lowered st (st.instructions.length + 1) i
      let x ← st.inst last
      match x.origin with
      | none => pure (.register x.reg 0 false)
      | some o => do
          let ty ← ir_typeof st.ir (some o)
          pure (.register x.reg (q.type_sizeof ty % 2 ^ 16) false)

/-- The function `mir_op_register`. -/
def mir_op_register (reg : Nat) (size : Nat) (defining_use : Bool) : MIROperand :=
  .register reg size defining_use

/-- The function `mir_op_immediate`. -/
def mir_op_immediate (imm : Int) : MIROperand := .immediate imm

/-- The function `mir_op_static_ref`. -/
def mir_op_static_ref (static_ref : Nat) : MIROperand := .static_ref static_ref

/-- Write the offset of an Alloca (`ir_alloca_offset(alloca, value)`). -/
def ir_set_alloca_offset (ctx : CodegenContext) (alloca : Nat) (offset : Option Nat) :
    CodegenContext :=
  match ctx.instructions[alloca]? with
  | none => ctx
  | some x => { ctx with instructions := ctx.instructions.set alloca { x with alloca_offset := offset } }

/-- The function `mir_op_local_ref_ir`. -/
def mir_op_local_ref_ir (st : MIRContext) (function : Nat) (alloca : Nat) :
    Except Fatal (MIRContext × MIROperand) := do
  let a ← ir_inst st.ir (some alloca)
  match a.alloca_offset with
  | some offset => pure (st, .local_ref offset)
  | none => do
      let f ← st.get_function function
      let local_ref := f.frame_objects.length
      let ir := ir_set_alloca_offset st.ir alloca (some local_ref)
      let frame_obj : MIRFrameObject := { size := a.alloca_size, lowered := none, offset := -1 }
      let st : MIRContext := { st with ir := ir }
      pure (st.set_function function { f with frame_objects := f.frame_objects ++ [frame_obj] },
        .local_ref local_ref)

/-- The function `mir_op_reference_ir`. -/
def mir_op_reference_ir (q : Queries) (st : MIRContext) (function : Nat) (inst : Option Nat) :
    Except Fatal (MIRContext × MIROperand) :=
  match inst with
  | none => .error .assertion
  | some i => do
      let x ← ir_inst st.ir (some i)
      if x.register ≠ 0 then
        pure (st, mir_op_register x.register (q.type_sizeof x.type % 2 ^ 16) false)
      else
        match x.kind with
        | .IR_IMMEDIATE => pure (st, mir_op_immediate (to_i64 x.imm))
        | .IR_ALLOCA => mir_op_local_ref_ir st function i
        | .IR_STATIC_REF => pure (st, mir_op_static_ref i)
        | .IR_FUNC_REF =>
            match x.func_ref_func with
            | none => .error .null_pointer
            | some f => do
                let op ← mir_op_function (st.function_mir f)
                pure (st, op)
        | _ =>
            match st.inst_mir i with
            | none => .error .ice
            | some m => do
                let op ← mir_op_reference q st (some m)
                pure (st, op)

/-- The function `mir_makenew`: allocate an instruction, the result is its pointer. -/
def mir_makenew (st : MIRContext) (opcode : MIROpcode) : MIRContext × Nat :=
  ({ st with
      instructions := st.instructions ++ [{ id := st.mir_alloc_id + 1, opcode := opcode }]
      mir_alloc_id := st.mir_alloc_id + 1 },
    st.instructions.length)

/-- The function `mir_op_clear`. -/
def mir_op_clear (inst : MIRInstruction) : MIRInstruction :=
  { inst with operand_count := 0, operands_arr := inst.operands_arr.set 0 .none }

/-- The function `mir_add_op` on the instruction itself. -/
def mir_add_op_inst (inst : MIRInstruction) (op : MIROperand) : Except Fatal MIRInstruction :=
  if op = .none then .error .assertion
  else if inst.operand_count < MIR_OPERAND_SSO_THRESHOLD then
    .ok { inst with
      operands_arr := inst.operands_arr.set inst.operand_count op
      operand_count := inst.operand_count + 1 }
  else if inst.operand_count = MIR_OPERAND_SSO_THRESHOLD then
    .ok { inst with
      operands_vec := inst.operands_arr.take MIR_OPERAND_SSO_THRESHOLD ++ [op]
      operand_count := inst.operand_count + 1 }
  else
    .ok { inst with
      operands_vec := inst.operands_vec ++ [op]
      operand_count := inst.operand_count + 1 }

/-- The function `mir_add_op` through the pointer. -/
def mir_add_op (st : MIRContext) (inst : Nat) (op : MIROperand) : Except Fatal MIRContext := do
  let x ← st.inst inst
  let x ← mir_add_op_inst x op
  pure (st.set_inst inst x)

/-- The function `mir_get_op`: the operand at an index. -/
def mir_get_op (inst : MIRInstruction) (index : Nat) : Except Fatal MIROperand :=
  if index < inst.operand_count then
    if inst.operand_count ≤ MIR_OPERAND_SSO_THRESHOLD then
      match inst.operands_arr[index]? with
      | none => .error .assertion
      | some op => .ok op
    else
      match inst.operands_vec[index]? with
      | none => .error .assertion
      | some op => .ok op
  else .error .assertion

/-- Overwrite the operand that `mir_get_op` points to (`*op = value`). -/
def mir_set_op (inst : MIRInstruction) (index : Nat) (op : MIROperand) : MIRInstruction :=
  if inst.operand_count ≤ MIR_OPERAND_SSO_THRESHOLD then
    { inst with operands_arr := inst.operands_arr.set index op }
  else { inst with operands_vec := inst.operands_vec.set index op }

/-- The width of `MIRRegister` in bits. The type is declared in a header outside the
sources at hand; `machine_ir.c` converts a `size_t` to it with the cast `(MIRRegister)`,
and it is taken here to be a 32-bit unsigned integer, as the opcode is. -/
def MIRRegister_bits : Nat := 32

/-- The conversion of a `size_t` to `MIRRegister`: the cast `(MIRRegister)`, and the
conversion of an argument passed for a parameter of that type. -/
def to_MIRRegister (n : Nat) : Nat := n % 2 ^ MIRRegister_bits

/-- The function `mir_push_with_reg_into_block`; the counter `inst_count` is a `size_t`, on
which `++` wraps. -/
def mir_push_with_reg_into_block (st : MIRContext) (f : Nat) (block : Nat) (mi : Nat)
    (reg : Nat) : Except Fatal MIRContext := do
  let b ← st.get_block block
  let st := st.set_block block { b with instructions := b.instructions ++ [mi] }
  let x ← st.inst mi
  let st := st.set_inst mi { x with block := some block, reg := reg }
  let fn ← st.get_function f
  pure (st.set_function f { fn with inst_count := (fn.inst_count + 1) % 2 ^ 64 })

/-- The pinned register of the origin of a MIR instruction (0 when there is no origin or
no pinned register). -/
def origin_register (st : MIRContext) (x : MIRInstruction) : Nat :=
  match x.origin with
  | none => 0
  | some o =>
      match st.ir.instructions[o]? with
      | none => 0
      | some i => i.register

/-- The function `mir_push_into_block`; `arch_start` is the constant `MIR_ARCH_START`. The sum
`f->inst_count + (size_t)MIR_ARCH_START` is computed in `size_t` and cast to
`MIRRegister`. -/
def mir_push_into_block (arch_start : Nat) (st : MIRContext) (f : Nat) (block : Nat)
    (mi : Nat) : Except Fatal MIRContext := do
  let x ← st.inst mi
  if origin_register st x ≠ 0 then
    mir_push_with_reg_into_block st f block mi (origin_register st x)
  else do
    let fn ← st.get_function f
    mir_push_with_reg_into_block st f block mi
      (to_MIRRegister ((fn.inst_count + arch_start) % 2 ^ 64))

/-- The function `mir_function`. -/
def mir_function (st : MIRContext) (ir_f : Nat) : Except Fatal (MIRContext × Nat) :=
  match st.ir.functions[ir_f]? with
  | none => .error .null_pointer
  | some x =>
      .ok ({ st with
          functions := st.functions ++ [{ origin := ir_f, name := x.name }]
          function_mir := fun n => if n = ir_f then some st.functions.length else st.function_mir n },
        st.functions.length)

/-- The function `mir_block_makenew`. -/
def mir_block_makenew (st : MIRContext) (function : Nat) (name : CStr) :
    Except Fatal (MIRContext × Nat) := do
  let fn ← st.get_function function
  let bb := st.blocks.length
  let st : MIRContext :=
    { st with blocks := st.blocks ++ [{ function := some function, name := name }] }
  pure (st.set_function function { fn with blocks := fn.blocks ++ [bb] }, bb)

/-- The function `mir_block`. -/
def mir_block (st : MIRContext) (function : Nat) (ir_bb : Nat) :
    Except Fatal (MIRContext × Nat) := do
  let r ← mir_block_makenew st function []
  let b ← r.1.get_block r.2
  let st := r.1.set_block r.2 { b with origin := some ir_bb }
  pure ({ st with block_mir := fun n => if n = ir_bb then some r.2 else st.block_mir n }, r.2)

/-- Modelled from the spec: the recorded use count of an instruction is the number of
operand slots, over all instructions, that reference it (`ir_use_count`). -/
def ir_use_count (ctx : CodegenContext) (inst : Nat) : Nat :=
  (ctx.instructions.map (fun (x : IRInstruction) =>
    ([x.operand, x.lhs, x.rhs, x.store_value, x.store_addr, x.cond, x.callee_inst]
      ++ x.call_args ++ x.phi_args.map (fun a => a.2)).count (some inst))).sum

/-- The function `needs_register`. -/
def needs_register (ctx : CodegenContext) (instruction : Option Nat) : Except Fatal Bool := do
  let x ← ir_inst ctx instruction
  match x.kind with
  | .IR_LOAD | .IR_PHI | .IR_COPY | .IR_IMMEDIATE | .IR_INTRINSIC | .IR_CALL | .IR_REGISTER
  | .IR_NOT | .IR_ZERO_EXTEND | .IR_SIGN_EXTEND | .IR_TRUNCATE | .IR_BITCAST
  | .IR_ADD | .IR_SUB | .IR_MUL | .IR_DIV | .IR_MOD | .IR_SHL | .IR_SAR | .IR_SHR | .IR_AND
  | .IR_OR | .IR_LT | .IR_LE | .IR_GT | .IR_GE | .IR_EQ | .IR_NE => pure true
  | .IR_POISON => .error .ice
  | .IR_PARAMETER => .error .ice
  | .IR_ALLOCA | .IR_STATIC_REF | .IR_FUNC_REF =>
      match instruction with
      | none => pure false
      | some i => pure (decide (ir_use_count ctx i ≠ 0))
  | _ => pure false

/-- Modelled from the spec: `vector_remove_element` removes the first occurrence of the
element, if there is one. -/
def vector_remove_element (v : List Nat) (element : Nat) : List Nat := v.erase element

/-- The second loop of `remove_inlined` and of `phi2copy`: remove every gathered
instruction from the block. -/
def remove_gathered (instructions : List Nat) (to_remove : List Nat) : List Nat :=
  match to_remove with
  | [] => instructions
  | x :: rest => remove_gathered (vector_remove_element instructions x) rest

/-- Whether a MIR instruction is one that `remove_inlined` gathers. -/
def is_inlined (st : MIRContext) (i : Nat) : Bool :=
  match st.instructions[i]? with
  | none => false
  | some x => x.opcode = .common .IR_IMMEDIATE || x.opcode = .common .IR_FUNC_REF

/-- The body of the block loop of `remove_inlined`. -/
def remove_inlined_block (st : MIRContext) (block : Nat) : Except Fatal MIRContext := do
  let b ← st.get_block block
  let instructions_to_remove := b.instructions.filter (fun i => is_inlined st i)
  pure (st.set_block block
    { b with instructions := remove_gathered b.instructions instructions_to_remove })

/-- The block loop of `remove_inlined`. -/
def remove_inlined_blocks (st : MIRContext) (blocks : List Nat) : Except Fatal MIRContext :=
  match blocks with
  | [] => .ok st
  | block :: rest => do
      let st ← remove_inlined_block st block
      remove_inlined_blocks st rest

/-- The function `remove_inlined`. -/
def remove_inlined (st : MIRContext) (function : Nat) : Except Fatal MIRContext := do
  let f ← st.get_function function
  remove_inlined_blocks st f.blocks

/-- Modelled from the spec: `ir_terminator`, the last instruction of a block when it is a
terminator, null otherwise. -/
def ir_terminator (ctx : CodegenContext) (block : Nat) : Option Nat :=
  match ctx.blocks[block]? with
  | none => none
  | some b =>
      match b.instructions.getLast? with
      | none => none
      | some i =>
          match ctx.instructions[i]? with
          | none => none
          | some x => if is_terminator x.kind then some i else none

/-- Modelled from the spec: `vector_insert` at a position. -/
def vector_insert (v : List Nat) (index : Nat) (element : Nat) : List Nat :=
  v.take index ++ [element] ++ v.drop index

/-- The body of the argument loop of `phi2copy` for one phi argument `(block, value)`:
the new state and whether the phi was pushed on `instructions_to_remove` (it is not when
the `switch` leaves by `continue`). `instruction` is the MIR phi, `phi` its origin. -/
def phi2copy_argument (q : Queries) (arch_start : Nat) (st : MIRContext) (function : Nat)
    (instruction : Nat) (phi : Nat) (arg : Nat × Option Nat) :
    Except Fatal (MIRContext × Bool) := do
  let branch := ir_terminator st.ir arg.1
  let kind ← ir_kind st.ir branch
  match kind with
  | .IR_UNREACHABLE => pure (st, false)
  | .IR_RETURN => pure (st, false)
  | .IR_BRANCH => do
      let needs ← needs_register st.ir arg.2
      if needs then do
        let mk := mir_makenew st (.common .IR_COPY)
        let copy := mk.2
        let value ← (match arg.2 with
          | none => .error .null_pointer
          | some v => pure v)
        let value_mir ← (match mk.1.inst_mir value with
          | none => .error .assertion
          | some m => pure m)
        let vm ← mk.1.inst value_mir
        let value_block ← (match vm.block with
          | none => .error .assertion
          | some b => pure b)
        let phi_mir ← mk.1.inst instruction
        let c ← mk.1.inst copy
        let st := mk.1.set_inst copy { c with block := some value_block, reg := phi_mir.reg }
        let r ← mir_op_reference_ir q st function arg.2
        let st ← mir_add_op r.1 copy r.2
        let b ← st.get_block value_block
        pure (st.set_block value_block
          { b with instructions := vector_insert b.instructions (b.instructions.length - 1) copy },
          true)
      else .error .ice
  | .IR_BRANCH_CONDITIONAL => do
      let mk := mir_makenew st (.common .IR_COPY)
      let copy := mk.2
      let r ← mir_op_reference_ir q mk.1 function arg.2
      let st ← mir_add_op r.1 copy r.2
      let phi_mir ← st.inst instruction
      let c ← st.inst copy
      let st := st.set_inst copy { c with reg := phi_mir.reg }
      let t ← mir_block_makenew st function []
      let critical_edge_trampoline := t.2
      let st ← mir_push_into_block arch_start t.1 function critical_edge_trampoline copy
      let mk := mir_makenew st (.common .IR_BRANCH)
      let critical_edge_branch := mk.2
      let phi_mir ← mk.1.inst instruction
      let ceb ← mk.1.inst critical_edge_branch
      let st := mk.1.set_inst critical_edge_branch { ceb with block := phi_mir.block }
      let st ← mir_push_into_block arch_start st function critical_edge_trampoline
        critical_edge_branch
      let p ← ir_inst st.ir (some phi)
      let phi_parent := p.parent_block
      let branch_mir ← (match branch with
        | none => .error .null_pointer
        | some b =>
            match st.inst_mir b with
            | none => .error .null_pointer
            | some m => pure m)
      let bm ← st.inst branch_mir
      let branch_then ← mir_get_op bm 1
      let branch_else ← mir_get_op bm 2
      let then_origin ← (match branch_then with
        | .block b => do
            let x ← st.get_block b
            pure x.origin
        | _ => .error .null_pointer)
      if then_origin = phi_parent then do
        let tramp ← mir_op_block (some critical_edge_trampoline)
        pure (st.set_inst branch_mir (mir_set_op bm 1 tramp), true)
      else do
        let else_origin ← (match branch_else with
          | .block b => do
              let x ← st.get_block b
              pure x.origin
          | _ => .error .null_pointer)
        if else_origin = phi_parent then do
          let tramp ← mir_op_block (some critical_edge_trampoline)
          pure (st.set_inst branch_mir (mir_set_op bm 2 tramp), true)
        else .error .assertion
  | _ => .error .unreachable

/-- The loop `for (usz i = 0; i < args_count; i++)` of `phi2copy` over the arguments of
a phi; `to_remove` is the vector `instructions_to_remove`. -/
def phi2copy_arguments (q : Queries) (arch_start : Nat) (st : MIRContext) (function : Nat)
    (instruction : Nat) (phi : Nat) (to_remove : List Nat) (args : List (Nat × Option Nat)) :
    Except Fatal (MIRContext × List Nat) :=
  match args with
  | [] => .ok (st, to_remove)
  | arg :: rest => do
      let r ← phi2copy_argument q arch_start st function instruction phi arg
      phi2copy_arguments q arch_start r.1 function instruction phi
        (if r.2 then to_remove ++ [instruction] else to_remove) rest

/-- The body of the instruction loop of `phi2copy` for the instruction `instruction` of
the block `block`: the new state, the new `last_block` and the new
`instructions_to_remove`. -/
def phi2copy_instruction (q : Queries) (arch_start : Nat) (st : MIRContext) (function : Nat)
    (block : Nat) (last_block : Option Nat) (to_remove : List Nat) (instruction : Nat) :
    Except Fatal (MIRContext × Option Nat × List Nat) := do
  let x ← st.inst instruction
  if x.opcode ≠ .common .IR_PHI then pure (st, last_block, to_remove)
  else do
    let phi ← (match x.origin with
      | none => .error .null_pointer
      | some o => pure o)
    let p ← ir_inst st.ir (some phi)
    if p.parent_block = last_block then .error .assertion
    else do
      let last_block := p.parent_block
      let args_count := p.phi_args.length
      if args_count = 1 then do
        let x := mir_op_clear { x with opcode := .common .IR_COPY }
        let st := st.set_inst instruction x
        let value ← (match p.phi_args[0]? with
          | none => .error .null_pointer
          | some a => pure a.2)
        let r ← mir_op_reference_ir q st function value
        let st ← mir_add_op r.1 instruction r.2
        pure (st, last_block, to_remove)
      else do
        let r ← phi2copy_arguments q arch_start st function instruction phi to_remove p.phi_args
        let b ← r.1.get_block block
        pure (r.1.set_block block { b with instructions := remove_gathered b.instructions r.2 },
          last_block, r.2)

/-- The loop `foreach_val (instruction, block->instructions)` of `phi2copy`, from
position `index` on; the vector is read afresh at every step, as the body changes it. The
fuel bounds the number of steps. -/
def phi2copy_instructions (q : Queries) (arch_start : Nat) (fuel : Nat) (st : MIRContext)
    (function : Nat) (block : Nat) (last_block : Option Nat) (to_remove : List Nat)
    (index : Nat) : Except Fatal (MIRContext × Option Nat) :=
  match fuel with
  | 0 => .error .unreachable
  | fuel + 1 => do
      let b ← st.get_block block
      match b.instructions[index]? with
      | none => pure (st, last_block)
      | some instruction => do
          let r ← phi2copy_instruction q arch_start st function block last_block to_remove
            instruction
          phi2copy_instructions q arch_start fuel r.1 function block r.2.1 r.2.2 (index + 1)

/-- The loop `foreach_val (block, function->blocks)` of `phi2copy`, from position `index`
on; the vector of blocks is read afresh at every step, as trampolines are appended to
it. -/
def phi2copy_blocks (q : Queries) (arch_start : Nat) (fuel : Nat) (st : MIRContext)
    (function : Nat) (last_block : Option Nat) (index : Nat) : Except Fatal MIRContext :=
  match fuel with
  | 0 => .error .unreachable
  | fuel + 1 => do
      let f ← st.get_function function
      match f.blocks[index]? with
      | none => pure st
      | some block => do
          let r ← phi2copy_instructions q arch_start fuel st function block last_block [] 0
          phi2copy_blocks q arch_start fuel r.1 function r.2 (index + 1)

/-- The function `phi2copy`; `fuel` bounds the number of loop steps of the model. -/
def phi2copy (q : Queries) (arch_start : Nat) (fuel : Nat) (st : MIRContext) (function : Nat) :
    Except Fatal MIRContext :=
  phi2copy_blocks q arch_start fuel st function none 0

/-- Set the origin of a MIR instruction (`mir->origin = inst`). -/
def mir_set_origin (st : MIRContext) (mir : Nat) (inst : Nat) : Except Fatal MIRContext := do
  let x ← st.inst mir
  pure (st.set_inst mir { x with origin := some inst })

/-- Record the MIR instruction of an IR instruction (`ir_mir(inst, mir)`). -/
def ir_set_mir (st : MIRContext) (inst : Nat) (mir : Nat) : MIRContext :=
  { st with inst_mir := fun n => if n = inst then some mir else st.inst_mir n }

/-- Numeric value of an intrinsic kind (the order of the enumeration). -/
def intrinsic_code : IntrinsicKind → Int
  | .INTRIN_BUILTIN_SYSCALL => 0
  | .INTRIN_BUILTIN_INLINE => 1
  | .INTRIN_BUILTIN_LINE => 2
  | .INTRIN_BUILTIN_FILENAME => 3
  | .INTRIN_BUILTIN_DEBUGTRAP => 4
  | .INTRIN_BUILTIN_MEMCPY => 5
  | .INTRIN_BACKEND_COUNT => 6
  | .INTRIN_COUNT => 7

/-- The loop that adds one operand per call argument. -/
def mir_add_call_args (q : Queries) (st : MIRContext) (function : Nat) (mir : Nat)
    (args : List (Option Nat)) : Except Fatal MIRContext :=
  match args with
  | [] => .ok st
  | arg :: rest => do
      let r ← mir_op_reference_ir q st function arg
      let st ← mir_add_op r.1 mir r.2
      mir_add_call_args q st function mir rest

/-- Mark a MIR block as an exit (`mir_bb->is_exit = true`). -/
def mir_set_exit (st : MIRContext) (mir_bb : Nat) : Except Fatal MIRContext := do
  let b ← st.get_block mir_bb
  pure (st.set_block mir_bb { b with is_exit := true })

/-- Record a control-flow edge: `vector_push(from->successors, to)` and
`vector_push(to->predecessors, from)`. -/
def mir_add_successor (st : MIRContext) (src : Nat) (dst : Nat) : Except Fatal MIRContext := do
  let b ← st.get_block src
  pure (st.set_block src { b with successors := b.successors ++ [dst] })

/-- Record a predecessor (`vector_push(to->predecessors, from)`). -/
def mir_add_predecessor (st : MIRContext) (dst : Nat) (src : Nat) : Except Fatal MIRContext := do
  let b ← st.get_block dst
  pure (st.set_block dst { b with predecessors := b.predecessors ++ [src] })

/-- The MIR block of an IR block (`ir_mir(block)`); the IR block must not be null. -/
def ir_block_mir (st : MIRContext) (block : Option Nat) : Except Fatal (Option Nat) :=
  match block with
  | none => .error .null_pointer
  | some b => .ok (st.block_mir b)

/-- The body of the loop `FOREACH_INSTRUCTION(inst, bb)` of `mir_from_ir`: the translation
of one IR instruction into the MIR block `mir_bb` of the MIR function `function`. -/
def mir_translate_instruction (q : Queries) (arch_start : Nat) (st : MIRContext)
    (function : Nat) (mir_bb : Nat) (inst : Nat) : Except Fatal MIRContext := do
  let x ← ir_inst st.ir (some inst)
  match x.kind with
  | .IR_POISON => .error .ice
  | .IR_IMMEDIATE => do
      let mk := mir_makenew st (.common .IR_IMMEDIATE)
      let st ← mir_set_origin mk.1 mk.2 inst
      let st := ir_set_mir st inst mk.2
      mir_push_into_block arch_start st function mir_bb mk.2
  | .IR_FUNC_REF => do
      let mk := mir_makenew st (.common .IR_FUNC_REF)
      let st := ir_set_mir mk.1 inst mk.2
      let st ← mir_set_origin st mk.2 inst
      let r ← mir_op_reference_ir q st function (some inst)
      let st ← mir_add_op r.1 mk.2 r.2
      mir_push_into_block arch_start st function mir_bb mk.2
  | .IR_REGISTER => pure st
  | .IR_PHI => do
      let mk := mir_makenew st (.common .IR_PHI)
      let st ← mir_set_origin mk.1 mk.2 inst
      let st := ir_set_mir st inst mk.2
      mir_push_into_block arch_start st function mir_bb mk.2
  | .IR_INTRINSIC => do
      let mk := mir_makenew st (.common .IR_INTRINSIC)
      let st ← mir_set_origin mk.1 mk.2 inst
      let st := ir_set_mir st inst mk.2
      let st ← mir_add_op st mk.2 (mir_op_immediate (intrinsic_code x.intrinsic_kind))
      let st ← mir_add_call_args q st function mk.2 x.call_args
      mir_push_into_block arch_start st function mir_bb mk.2
  | .IR_CALL => do
      let mk := mir_makenew st (.common .IR_CALL)
      let st ← mir_set_origin mk.1 mk.2 inst
      let st := ir_set_mir st inst mk.2
      let st ← (if !x.call_is_direct then do
          let r ← mir_op_reference_ir q st function x.callee_inst
          mir_add_op r.1 mk.2 r.2
        else
          match x.callee_func with
          | none => .error .null_pointer
          | some f => do
              let op ← mir_op_function (st.function_mir f)
              mir_add_op st mk.2 op)
      let st ← mir_add_call_args q st function mk.2 x.call_args
      mir_push_into_block arch_start st function mir_bb mk.2
  | .IR_LOAD => do
      let mk := mir_makenew st (.common .IR_LOAD)
      let st ← mir_set_origin mk.1 mk.2 inst
      let addr ← mir_op_reference_ir q st function x.operand
      let st ← mir_add_op addr.1 mk.2 addr.2
      let st ← (match addr.2 with
        | .register .. => mir_add_op st mk.2 (mir_op_immediate (to_i64 (q.type_sizeof x.type)))
        | _ => pure st)
      let st := ir_set_mir st inst mk.2
      mir_push_into_block arch_start st function mir_bb mk.2
  | .IR_NOT | .IR_BITCAST => do
      let mk := mir_makenew st (.common x.kind)
      let st ← mir_set_origin mk.1 mk.2 inst
      let r ← mir_op_reference_ir q st function x.operand
      let st ← mir_add_op r.1 mk.2 r.2
      let st := ir_set_mir st inst mk.2
      mir_push_into_block arch_start st function mir_bb mk.2
  | .IR_ZERO_EXTEND | .IR_SIGN_EXTEND | .IR_TRUNCATE => do
      let mk := mir_makenew st (.common x.kind)
      let st ← mir_set_origin mk.1 mk.2 inst
      let r ← mir_op_reference_ir q st function x.operand
      let st ← mir_add_op r.1 mk.2 r.2
      let from_type ← ir_typeof st.ir x.operand
      let st ← mir_add_op st mk.2 (mir_op_immediate (to_i64 (q.type_sizeof from_type)))
      let st ← mir_add_op st mk.2 (mir_op_immediate (to_i64 (q.type_sizeof x.type)))
      let st := ir_set_mir st inst mk.2
      mir_push_into_block arch_start st function mir_bb mk.2
  | .IR_COPY => do
      -- `mir_from_ir_copy`
      let mk := mir_makenew st (.common .IR_COPY)
      let st ← mir_set_origin mk.1 mk.2 inst
      let r ← mir_op_reference_ir q st function x.operand
      let st ← mir_add_op r.1 mk.2 r.2
      let st := ir_set_mir st inst mk.2
      mir_push_into_block arch_start st function mir_bb mk.2
  | .IR_RETURN => do
      let mk := mir_makenew st (.common .IR_RETURN)
      let st ← mir_set_origin mk.1 mk.2 inst
      let st ← (match x.operand with
        | none => pure st
        | some o => do
            let r ← mir_op_reference_ir q st function (some o)
            mir_add_op r.1 mk.2 r.2)
      let st := ir_set_mir st inst mk.2
      let st ← mir_push_into_block arch_start st function mir_bb mk.2
      mir_set_exit st mir_bb
  | .IR_BRANCH => do
      let mk := mir_makenew st (.common .IR_BRANCH)
      let dest ← ir_block_mir mk.1 x.dest
      let st ← mir_set_origin mk.1 mk.2 inst
      let op ← mir_op_block dest
      let st ← mir_add_op st mk.2 op
      let st := ir_set_mir st inst mk.2
      let st ← mir_push_into_block arch_start st function mir_bb mk.2
      match dest with
      | none => .error .null_pointer
      | some d => do
          let st ← mir_add_successor st mir_bb d
          mir_add_predecessor st d mir_bb
  | .IR_BRANCH_CONDITIONAL => do
      let mk := mir_makenew st (.common .IR_BRANCH_CONDITIONAL)
      let mir_then ← ir_block_mir mk.1 x.then_
      let mir_else ← ir_block_mir mk.1 x.else_
      let st ← mir_set_origin mk.1 mk.2 inst
      let r ← mir_op_reference_ir q st function x.cond
      let st ← mir_add_op r.1 mk.2 r.2
      let op_then ← mir_op_block mir_then
      let st ← mir_add_op st mk.2 op_then
      let op_else ← mir_op_block mir_else
      let st ← mir_add_op st mk.2 op_else
      let st := ir_set_mir st inst mk.2
      let st ← mir_push_into_block arch_start st function mir_bb mk.2
      match mir_then, mir_else with
      | some t, some e => do
          let st ← mir_add_successor st mir_bb t
          let st ← mir_add_successor st mir_bb e
          let st ← mir_add_predecessor st t mir_bb
          mir_add_predecessor st e mir_bb
      | _, _ => .error .null_pointer
  | .IR_ADD | .IR_SUB | .IR_MUL | .IR_DIV | .IR_MOD | .IR_SHL | .IR_SAR | .IR_SHR | .IR_AND
  | .IR_OR | .IR_LT | .IR_LE | .IR_GT | .IR_GE | .IR_EQ | .IR_NE => do
      let mk := mir_makenew st (.common x.kind)
      let st ← mir_set_origin mk.1 mk.2 inst
      let l ← mir_op_reference_ir q st function x.lhs
      let st ← mir_add_op l.1 mk.2 l.2
      let r ← mir_op_reference_ir q st function x.rhs
      let st ← mir_add_op r.1 mk.2 r.2
      let st := ir_set_mir st inst mk.2
      mir_push_into_block arch_start st function mir_bb mk.2
  | .IR_STATIC_REF => do
      let mk := mir_makenew st (.common .IR_STATIC_REF)
      let st := ir_set_mir mk.1 inst mk.2
      let st ← mir_set_origin st mk.2 inst
      let r ← mir_op_reference_ir q st function (some inst)
      let st ← mir_add_op r.1 mk.2 r.2
      mir_push_into_block arch_start st function mir_bb mk.2
  | .IR_STORE => do
      let mk := mir_makenew st (.common .IR_STORE)
      let st ← mir_set_origin mk.1 mk.2 inst
      let value ← mir_op_reference_ir q st function x.store_value
      let addr ← mir_op_reference_ir q value.1 function x.store_addr
      let st ← mir_add_op addr.1 mk.2 value.2
      let st ← mir_add_op st mk.2 addr.2
      let st ← (match addr.2, value.2 with
        | .register .., .immediate _ => do
            let ty ← ir_typeof st.ir x.store_value
            mir_add_op st mk.2 (mir_op_immediate (to_i64 (q.type_sizeof ty)))
        | _, _ => pure st)
      let st := ir_set_mir st inst mk.2
      mir_push_into_block arch_start st function mir_bb mk.2
  | .IR_ALLOCA => do
      let mk := mir_makenew st (.common .IR_ALLOCA)
      let st ← mir_set_origin mk.1 mk.2 inst
      let st : MIRContext := { st with ir := ir_set_alloca_offset st.ir inst none }
      let r ← mir_op_local_ref_ir st function inst
      let st ← mir_add_op r.1 mk.2 r.2
      let st := ir_set_mir st inst mk.2
      mir_push_into_block arch_start st function mir_bb mk.2
  | .IR_UNREACHABLE => do
      let mk := mir_makenew st (.common .IR_UNREACHABLE)
      let st ← mir_set_origin mk.1 mk.2 inst
      let st := ir_set_mir st inst mk.2
      let st ← mir_push_into_block arch_start st function mir_bb mk.2
      mir_set_exit st mir_bb
  | .IR_PARAMETER | .IR_LIT_INTEGER | .IR_LIT_STRING => .error .unreachable

/-- The loop `FOREACH_INSTRUCTION(inst, bb)` of `mir_from_ir`. -/
def mir_translate_instructions (q : Queries) (arch_start : Nat) (st : MIRContext)
    (function : Nat) (mir_bb : Nat) (insts : List Nat) : Except Fatal MIRContext :=
  match insts with
  | [] => .ok st
  | inst :: rest => do
      let st ← mir_translate_instruction q arch_start st function mir_bb inst
      mir_translate_instructions q arch_start st function mir_bb rest

/-- The loop `foreach_val (mir_bb, function->blocks)` of `mir_from_ir`. -/
def mir_translate_blocks (q : Queries) (arch_start : Nat) (st : MIRContext) (function : Nat)
    (blocks : List Nat) : Except Fatal MIRContext :=
  match blocks with
  | [] => .ok st
  | mir_bb :: rest => do
      let b ← st.get_block mir_bb
      match b.origin with
      | none => .error .assertion
      | some bb =>
          match st.ir.blocks[bb]? with
          | none => .error .null_pointer
          | some irb => do
              let st ← mir_translate_instructions q arch_start st function mir_bb irb.instructions
              mir_translate_blocks q arch_start st function rest

/-- The body of the second loop of `mir_from_ir` for one MIR function: translation of the
instructions, then `phi2copy`, then `remove_inlined`. -/
def mir_from_ir_function (q : Queries) (arch_start : Nat) (fuel : Nat) (st : MIRContext)
    (function : Nat) : Except Fatal MIRContext := do
  let f ← st.get_function function
  match st.ir.functions[f.origin]? with
  | none => .error .null_pointer
  | some irf =>
      if !irf.is_definition then pure st
      else
        match f.blocks with
        | [] => .error .assertion
        | front :: _ => do
            let b ← st.get_block front
            let st := st.set_block front { b with is_entry := true }
            let st ← mir_translate_blocks q arch_start st function f.blocks
            let st ← phi2copy q arch_start fuel st function
            remove_inlined st function

/-- The loop `FOREACH_BLOCK(bb, function->origin) (void)mir_block(function, bb)`. -/
def mir_create_blocks (st : MIRContext) (function : Nat) (blocks : List Nat) :
    Except Fatal MIRContext :=
  match blocks with
  | [] => .ok st
  | bb :: rest => do
      let r ← mir_block st function bb
      mir_create_blocks r.1 function rest

/-- The first loop of `mir_from_ir`: a MIR function with its (empty) blocks for every IR
function, from index `f` on. -/
def mir_create_functions (st : MIRContext) (f : Nat) (functions : List IRFunction) :
    Except Fatal MIRContext :=
  match functions with
  | [] => .ok st
  | x :: rest => do
      let r ← mir_function st f
      let st ← mir_create_blocks r.1 r.2 x.blocks
      mir_create_functions st (f + 1) rest

/-- The second loop of `mir_from_ir`, over the MIR functions. -/
def mir_from_ir_functions (q : Queries) (arch_start : Nat) (fuel : Nat) (st : MIRContext)
    (functions : List Nat) : Except Fatal MIRContext :=
  match functions with
  | [] => .ok st
  | function :: rest => do
      let st ← mir_from_ir_function q arch_start fuel st function
      mir_from_ir_functions q arch_start fuel st rest

/-- The function `mir_from_ir`; `fuel` bounds the loop steps of `phi2copy` in the model. -/
def mir_from_ir (q : Queries) (arch_start : Nat) (fuel : Nat) (context : CodegenContext) :
    Except Fatal MIRContext := do
  let st ← mir_create_functions { ir := context } 0 context.functions
  mir_from_ir_functions q arch_start fuel st (List.range st.functions.length)

/-! ## Insertion and removal of MIR instructions (`codegen/machine_ir.c`) -/

/-- The function `mir_insert_instruction_with_reg`; the counter `inst_count` is a `size_t`, on
which `++` wraps. -/
def mir_insert_instruction_with_reg (st : MIRContext) (bb : Nat) (mi : Nat) (index : Nat)
    (reg : Nat) : Except Fatal MIRContext := do
  let b ← st.get_block bb
  let st := st.set_block bb { b with instructions := vector_insert b.instructions index mi }
  let x ← st.inst mi
  let st := st.set_inst mi { x with block := some bb, reg := reg }
  match b.function with
  | none => pure st
  | some f => do
      let fn ← st.get_function f
      pure (st.set_function f { fn with inst_count := (fn.inst_count + 1) % 2 ^ 64 })

/-- The function `mir_remove_instruction`; the counter is a `usz`, on which `--` wraps
from zero to the largest value. -/
def mir_remove_instruction (st : MIRContext) (mi : Nat) : Except Fatal MIRContext := do
  let x ← st.inst mi
  match x.block with
  | none => .error .assertion
  | some bb => do
      let b ← st.get_block bb
      let st := st.set_block bb
        { b with instructions := vector_remove_element b.instructions mi }
      let st ← (match b.function with
        | none => pure st
        | some f => do
            let fn ← st.get_function f
            pure (st.set_function f
              { fn with
                inst_count := if fn.inst_count = 0 then 2 ^ 64 - 1 else fn.inst_count - 1 }))
      let x ← st.inst mi
      pure (st.set_inst mi { x with block := none })

/-- The function `mir_insert_instruction`; `arch_start` is the constant `MIR_ARCH_START`. The
sum `bb->function->inst_count + (size_t)MIR_ARCH_START` is computed in `size_t` and
converted to the `MIRRegister` parameter. -/
def mir_insert_instruction (arch_start : Nat) (st : MIRContext) (bb : Nat) (mi : Nat)
    (index : Nat) : Except Fatal MIRContext := do
  let b ← st.get_block bb
  match b.function with
  | some f => do
      let fn ← st.get_function f
      mir_insert_instruction_with_reg st bb mi index
        (to_MIRRegister ((fn.inst_count + arch_start) % 2 ^ 64))
  | none => do
      let x ← st.inst mi
      mir_insert_instruction_with_reg st bb mi index x.reg

/-! ## Concrete inputs -/

/-- A concrete choice of the type queries: an integer of `w` bits takes `ceil(w / 8)`
bytes, a pointer 8 bytes; the signed types are the signed integers; the void types are the
primitives; the lvalues are declarations and variable references. -/
def example_queries : Queries :=
  { type_sizeof := fun t =>
      match t with
      | .integer _ w => (w + 7) / 8
      | .pointer _ => 8
      | _ => 0
    type_is_signed := fun t =>
      match t with
      | .integer s _ => s
      | _ => false
    type_is_void := fun t =>
      match t with
      | .primitive _ => true
      | _ => false
    is_lvalue := fun n => n.kind == .NODE_DECLARATION || n.kind == .NODE_VARIABLE_REFERENCE }

/-- A context with one function whose entry block, block 0, is empty and is the insertion
point. -/
def example_context : CodegenContext :=
  { blocks := [{ function := some 0 }]
    functions := [{ name := "main".toList, type := .function t_integer [], blocks := [0] }] }

/-- The integer literal `n` as the node `id`. -/
def number_literal (id n : Nat) : Node := .literal id t_integer .TK_NUMBER n 0 []

/-- The error of a result, if it is one. -/
def fatal_of {α : Type} (r : Except Fatal α) : Option Fatal :=
  match r with
  | .error e => some e
  | .ok _ => none

/-- The loop `for 0, 1, 2 { return 7 }`: a `for` whose body ends in a Return. -/
def for_with_return_body : Node :=
  .for_ 1 t_void (number_literal 2 0) (number_literal 3 1) (number_literal 4 2)
    (.block 5 t_void [.return_ 6 t_void (some (number_literal 7 7))])

/-- The same loop with a body that does not return: `for 0, 1, 2 { 7 }`. -/
def for_with_open_body : Node :=
  .for_ 1 t_void (number_literal 2 0) (number_literal 3 1) (number_literal 4 2)
    (.block 5 t_void [number_literal 7 7])

/-- The expression `if 1 then { return 7 } else 2`, of void type: the sibling case `NODE_IF`
on an arm that ends in a Return. -/
def if_with_return_arm : Node :=
  .if_ 1 t_void (number_literal 2 1)
    (.block 5 t_void [.return_ 6 t_void (some (number_literal 7 7))])
    (some (number_literal 8 2))

/-- An IR function of four blocks: block 0 branches on an immediate to blocks 1 and 2,
which both return an immediate, and block 3 holds a phi with the two arguments
`(block 1, ...)`, `(block 2, ...)` followed by a Return of the phi. It is the IR that
`codegen_expr` produces for a root holding `if 1 then return 10 else return 20` of type
integer. -/
def phi_of_returning_blocks : CodegenContext :=
  { instructions :=
      [ { kind := .IR_IMMEDIATE, type := t_integer, imm := 1, parent_block := some 0 },
        { kind := .IR_BRANCH_CONDITIONAL, cond := some 0, then_ := some 1, else_ := some 2,
          parent_block := some 0 },
        { kind := .IR_IMMEDIATE, type := t_integer, imm := 10, parent_block := some 1 },
        { kind := .IR_RETURN, operand := some 2, parent_block := some 1 },
        { kind := .IR_IMMEDIATE, type := t_integer, imm := 20, parent_block := some 2 },
        { kind := .IR_RETURN, operand := some 4, parent_block := some 2 },
        { kind := .IR_PHI, type := t_integer, phi_args := [(1, some 3), (2, some 5)],
          parent_block := some 3 },
        { kind := .IR_RETURN, operand := some 6, parent_block := some 3 } ]
    blocks :=
      [ { instructions := [0, 1], function := some 0 },
        { instructions := [2, 3], function := some 0 },
        { instructions := [4, 5], function := some 0 },
        { instructions := [6, 7], function := some 0 } ]
    functions :=
      [{ name := "main".toList, type := .function t_integer [], blocks := [0, 1, 2, 3] }]
    insert_point := 3 }

/-- The opcodes of the instructions of a MIR block, in order. -/
def mir_block_opcodes (st : MIRContext) (block : Nat) : List (Option MIROpcode) :=
  match st.blocks[block]? with
  | none => []
  | some b => b.instructions.map (fun i => (st.instructions[i]?).map (fun x => x.opcode))

/-- The opcodes of the blocks of a translation result (`none` when the translation
stopped with a fatal error). -/
def mir_result_opcodes (r : Except Fatal MIRContext) (block : Nat) :
    Option (List (Option MIROpcode)) :=
  match r with
  | .error _ => none
  | .ok st => some (mir_block_opcodes st block)

/-- The context of a result (the empty context when the result is an error). -/
def result_context (r : Except Fatal CodegenContext) : CodegenContext :=
  match r with
  | .error _ => {}
  | .ok c => c

/-- The cast of the 64-bit literal `5` to the signed 32-bit integer type. -/
def cast_of_literal : Node := .cast 1 (.integer true 32) (number_literal 2 5)

/-- The expression `if 1 then 10 else 20` of integer type. -/
def if_with_open_arms : Node :=
  .if_ 1 t_integer (number_literal 2 1) (number_literal 3 10) (some (number_literal 4 20))

/-- The expression `if 1 then { return 7 } else 2` of integer type. -/
def if_with_returning_arm : Node :=
  .if_ 1 t_integer (number_literal 2 1)
    (.block 5 t_integer [.return_ 6 t_integer (some (number_literal 7 7))])
    (some (number_literal 8 2))

/-- The terminator of block `a` transfers control to block `b`: it is a Branch to `b` or a
CondBranch with `b` as one of its two targets. -/
def is_predecessor (c : CodegenContext) (a b : Nat) : Bool :=
  match block_last c a with
  | none => false
  | some t =>
      match t.kind with
      | .IR_BRANCH => t.dest == some b
      | .IR_BRANCH_CONDITIONAL => t.then_ == some b || t.else_ == some b
      | _ => false

/-- Number of predecessors of block `b`. -/
def predecessor_count (c : CodegenContext) (b : Nat) : Nat :=
  ((List.range c.blocks.length).filter (fun a => is_predecessor c a b)).length

/-- The block of every argument of the phi `x` is a predecessor of the block that owns
`x`. -/
def phi_args_are_predecessors (c : CodegenContext) (x : IRInstruction) : Bool :=
  match x.parent_block with
  | none => false
  | some b => x.phi_args.all (fun a => is_predecessor c a.1 b)

/-- The IR of `if 1 then { return 7 } else 2`. -/
def lowered_if_with_returning_arm : CodegenContext :=
  result_context (codegen_expr example_queries example_context if_with_returning_arm)

/-- The context and the instruction of an insertion (the empty context when the result is
an error). -/
def result_inserted (r : Except Fatal (CodegenContext × Nat)) : CodegenContext × Nat :=
  match r with
  | .error _ => ({}, 0)
  | .ok x => x

/-- Lowering `if 1 then 10 else 20`: the context after the condition. -/
def if_example_condition : CodegenContext :=
  result_context (codegen_expr example_queries (example_context.set_emitted 1)
    (number_literal 2 1))

/-- Lowering `if 1 then 10 else 20`: the three blocks and the conditional branch. -/
def if_example_branch : CodegenContext × Nat :=
  result_inserted (ir_insert_cond_br (ir_block (ir_block (ir_block if_example_condition).1).1).1
    (if_example_condition.node_ir 2) if_example_condition.blocks.length
    (if_example_condition.blocks.length + 1))

/-- Lowering `if 1 then 10 else 20`: the context after the then arm. -/
def if_example_then : CodegenContext :=
  result_context (codegen_expr example_queries
    (ir_block_attach if_example_branch.1 if_example_condition.blocks.length)
    (number_literal 3 10))

/-- Lowering `if 1 then 10 else 20`: the context after the branch that ends the then arm. -/
def if_example_then_end : CodegenContext :=
  result_context (branch_if_open if_example_then (if_example_condition.blocks.length + 2))

/-- Lowering `if 1 then 10 else 20`: the context after the else arm. -/
def if_example_else : CodegenContext :=
  result_context (codegen_expr example_queries
    (ir_block_attach if_example_then_end (if_example_condition.blocks.length + 1))
    (number_literal 4 20))

/-- Lowering `if 1 then 10 else 20`: the context after the branch that ends the else arm. -/
def if_example_else_end : CodegenContext :=
  result_context (branch_if_open if_example_else (if_example_condition.blocks.length + 2))

/-! ## Concrete inputs of the MIR translation -/

/-- The operands of a MIR instruction, in order: the first `operand_count` entries of the
inline array, or of the vector when there are more than four. -/
def mir_operand_list (x : MIRInstruction) : List MIROperand :=
  if x.operand_count ≤ MIR_OPERAND_SSO_THRESHOLD then x.operands_arr.take x.operand_count
  else x.operands_vec.take x.operand_count

/-- What is observed of a MIR instruction: opcode, register and operands. -/
structure MIRView where
  opcode : MIROpcode
  reg : Nat
  operands : List MIROperand
deriving DecidableEq

/-- Opcode, register and operands of the instructions of a MIR block, in order. -/
def mir_block_view (st : MIRContext) (block : Nat) : List (Option MIRView) :=
  match st.blocks[block]? with
  | none => []
  | some b =>
      b.instructions.map (fun i =>
        (st.instructions[i]?).map (fun x =>
          { opcode := x.opcode, reg := x.reg, operands := mir_operand_list x }))

/-- The view of a block of a translation result (`none` when the translation stopped with
a fatal error). -/
def mir_result_view (r : Except Fatal MIRContext) (block : Nat) :
    Option (List (Option MIRView)) :=
  match r with
  | .error _ => none
  | .ok st => some (mir_block_view st block)

/-- Successors and predecessors of a block of a translation result. -/
def mir_result_edges (r : Except Fatal MIRContext) (block : Nat) :
    Option (List Nat × List Nat) :=
  match r with
  | .error _ => none
  | .ok st => (st.blocks[block]?).map (fun b => (b.successors, b.predecessors))

/-- Number of MIR blocks of a translation result. -/
def mir_result_block_count (r : Except Fatal MIRContext) : Option Nat :=
  match r with
  | .error _ => none
  | .ok st => some st.blocks.length

/-- An IR function in which a phi argument is defined outside its predecessor block:
block 0 holds an immediate, a copy `v` of it and a conditional branch to blocks 1 and 2;
block 1 holds a copy `w` and a Branch to block 3; block 2 holds only a Branch to block 3;
block 3 holds the phi `((block 1, w), (block 2, v))` and a Return of the phi. -/
def phi_of_outer_value : CodegenContext :=
  { instructions :=
      [ { kind := .IR_IMMEDIATE, type := t_integer, imm := 1, parent_block := some 0 },
        { kind := .IR_COPY, type := t_integer, operand := some 0, parent_block := some 0 },
        { kind := .IR_BRANCH_CONDITIONAL, cond := some 0, then_ := some 1, else_ := some 2,
          parent_block := some 0 },
        { kind := .IR_COPY, type := t_integer, operand := some 0, parent_block := some 1 },
        { kind := .IR_BRANCH, dest := some 3, parent_block := some 1 },
        { kind := .IR_BRANCH, dest := some 3, parent_block := some 2 },
        { kind := .IR_PHI, type := t_integer, phi_args := [(1, some 3), (2, some 1)],
          parent_block := some 3 },
        { kind := .IR_RETURN, operand := some 6, parent_block := some 3 } ]
    blocks :=
      [ { instructions := [0, 1, 2], function := some 0 },
        { instructions := [3, 4], function := some 0 },
        { instructions := [5], function := some 0 },
        { instructions := [6, 7], function := some 0 } ]
    functions :=
      [{ name := "main".toList, type := .function t_integer [], blocks := [0, 1, 2, 3] }]
    insert_point := 3 }

/-- An IR function with a critical edge into a phi block: block 0 holds an immediate and a
conditional branch whose then-target is block 2 and whose else-target is block 1; block 1
holds an immediate and a Branch to block 2; block 2 holds the phi
`((block 0, ...), (block 1, ...))` and a Return of the phi. -/
def phi_across_critical_edge : CodegenContext :=
  { instructions :=
      [ { kind := .IR_IMMEDIATE, type := t_integer, imm := 1, parent_block := some 0 },
        { kind := .IR_BRANCH_CONDITIONAL, cond := some 0, then_ := some 2, else_ := some 1,
          parent_block := some 0 },
        { kind := .IR_IMMEDIATE, type := t_integer, imm := 20, parent_block := some 1 },
        { kind := .IR_BRANCH, dest := some 2, parent_block := some 1 },
        { kind := .IR_PHI, type := t_integer, phi_args := [(0, some 0), (1, some 2)],
          parent_block := some 2 },
        { kind := .IR_RETURN, operand := some 4, parent_block := some 2 } ]
    blocks :=
      [ { instructions := [0, 1], function := some 0 },
        { instructions := [2, 3], function := some 0 },
        { instructions := [4, 5], function := some 0 } ]
    functions :=
      [{ name := "main".toList, type := .function t_integer [], blocks := [0, 1, 2] }]
    insert_point := 2 }

/-- The function `phi_across_critical_edge` with a conditional branch whose two targets are
both the phi block, block 2. -/
def phi_across_double_edge : CodegenContext :=
  { phi_across_critical_edge with
    instructions :=
      [ { kind := .IR_IMMEDIATE, type := t_integer, imm := 1, parent_block := some 0 },
        { kind := .IR_BRANCH_CONDITIONAL, cond := some 0, then_ := some 2, else_ := some 2,
          parent_block := some 0 },
        { kind := .IR_IMMEDIATE, type := t_integer, imm := 20, parent_block := some 1 },
        { kind := .IR_BRANCH, dest := some 2, parent_block := some 1 },
        { kind := .IR_PHI, type := t_integer, phi_args := [(0, some 0), (1, some 2)],
          parent_block := some 2 },
        { kind := .IR_RETURN, operand := some 4, parent_block := some 2 } ] }

/-- The state of a translation result (a state without IR when the result is an error). -/
def result_mir (r : Except Fatal MIRContext) : MIRContext :=
  match r with
  | .error _ => { ir := {} }
  | .ok st => st

/-- A state and an operand of a result (a state without IR and no operand on an error). -/
def result_operand (r : Except Fatal (MIRContext × MIROperand)) : MIRContext × MIROperand :=
  match r with
  | .error _ => ({ ir := {} }, .none)
  | .ok x => x

/-- A translated function before phi lowering, written out by hand: block 0 holds an
Immediate 7 and a Branch to block 1; block 1 holds a phi whose only argument is
`(block 0, the immediate)` and a Return of the phi. -/
def mir_single_phi : MIRContext :=
  { ir :=
      { instructions :=
          [ { kind := .IR_IMMEDIATE, type := t_integer, imm := 7, parent_block := some 0 },
            { kind := .IR_BRANCH, dest := some 1, parent_block := some 0 },
            { kind := .IR_PHI, type := t_integer, phi_args := [(0, some 0)],
              parent_block := some 1 },
            { kind := .IR_RETURN, operand := some 2, parent_block := some 1 } ]
        blocks :=
          [ { instructions := [0, 1], function := some 0 },
            { instructions := [2, 3], function := some 0 } ]
        functions :=
          [{ name := "main".toList, type := .function t_integer [], blocks := [0, 1] }]
        insert_point := 1 }
    instructions :=
      [ { id := 0, opcode := .common .IR_IMMEDIATE, origin := some 0, reg := 1000,
          block := some 0, operand_count := 1,
          operands_arr := [.immediate 7, .none, .none, .none] },
        { id := 1, opcode := .common .IR_BRANCH, origin := some 1, reg := 1001,
          block := some 0, operand_count := 1,
          operands_arr := [.block 1, .none, .none, .none] },
        { id := 2, opcode := .common .IR_PHI, origin := some 2, reg := 1002,
          block := some 1 },
        { id := 3, opcode := .common .IR_RETURN, origin := some 3, reg := 1003,
          block := some 1, operand_count := 1,
          operands_arr := [.register 1002 8 false, .none, .none, .none] } ]
    blocks :=
      [ { name := "bb0".toList, function := some 0, origin := some 0, instructions := [0, 1],
          is_entry := true, successors := [1] },
        { name := "bb1".toList, function := some 0, origin := some 1, instructions := [2, 3],
          is_exit := true, predecessors := [0] } ]
    functions := [{ name := "main".toList, origin := 0, blocks := [0, 1], inst_count := 4 }]
    inst_mir := fun i => if i < 4 then some i else none
    block_mir := fun b => if b < 2 then some b else none
    function_mir := fun f => if f < 1 then some f else none
    mir_alloc_id := 4 }

/-- The function `phi_across_double_edge` after the translation of its instructions and
before phi lowering. -/
def mir_double_edge : MIRContext :=
  result_mir (do
    let st ← mir_create_functions { ir := phi_across_double_edge } 0
      phi_across_double_edge.functions
    mir_translate_blocks example_queries 1000 st 0 [0, 1, 2])

/-- The function `phi_across_critical_edge` after the translation of its instructions and
before phi lowering. -/
def mir_critical_edge : MIRContext :=
  result_mir (do
    let st ← mir_create_functions { ir := phi_across_critical_edge } 0
      phi_across_critical_edge.functions
    mir_translate_blocks example_queries 1000 st 0 [0, 1, 2])

/-- Type sizes that count arrays: an integer of `w` bits takes `ceil(w / 8)` bytes, a pointer
8 bytes and an array its length times the size of an element. -/
def sizeof_with_arrays : Ty → Nat
  | .integer _ w => (w + 7) / 8
  | .pointer _ => 8
  | .array of_ size => size * sizeof_with_arrays of_
  | _ => 0

/-- The type queries of `example_queries` with the sizes of `sizeof_with_arrays`. -/
def queries_with_arrays : Queries :=
  { example_queries with type_sizeof := sizeof_with_arrays }

/-- A state whose IR holds one instruction: a Load of an array of 8192 integers, which
takes 65536 bytes, pinned to the physical register 3. -/
def mir_pinned_array : MIRContext :=
  { ir :=
      { instructions :=
          [{ kind := .IR_LOAD, type := .array t_integer 8192, register := 3 }] } }

/-- The MIR functions and blocks of `phi_of_outer_value`, before the translation of its
instructions. -/
def mir_outer_value_start : MIRContext :=
  result_mir (mir_create_functions { ir := phi_of_outer_value } 0 phi_of_outer_value.functions)

/-- The registers of the MIR instructions of a state, in the order of the store. -/
def mir_registers (st : MIRContext) : List Nat :=
  st.instructions.map (fun y => y.reg)

/-- A context under the SysV convention with one function `f(r: &integer, big: s256,
n: integer)`: its parameter instructions are the instructions 0, 1 and 2, and its entry
block, block 0, is empty and is the insertion point. -/
def context_with_parameters : CodegenContext :=
  { instructions :=
      [ { kind := .IR_PARAMETER, type := .reference t_integer, imm := 0 },
        { kind := .IR_PARAMETER, type := .integer true 256, imm := 1 },
        { kind := .IR_PARAMETER, type := t_integer, imm := 2 } ]
    blocks := [{ function := some 0 }]
    functions :=
      [ { name := "f".toList
          type := .function t_integer
            [("r".toList, .reference t_integer), ("big".toList, .integer true 256),
              ("n".toList, t_integer)]
          parameters := [0, 1, 2]
          blocks := [0] } ] }

/-- The declaration of the parameter `r` of `context_with_parameters`. -/
def parameter_r : Node := .declaration 10 (.reference t_integer) "r".toList .LINKAGE_LOCALVAR none

/-- The declaration of the parameter `big` of `context_with_parameters`. -/
def parameter_big : Node := .declaration 11 (.integer true 256) "big".toList .LINKAGE_LOCALVAR none

/-- The declaration of the parameter `n` of `context_with_parameters`. -/
def parameter_n : Node := .declaration 12 t_integer "n".toList .LINKAGE_LOCALVAR none

/-- A function node `f` whose type is marked inline. -/
def inline_function : Node :=
  .function 1 (.function t_integer []) "f".toList .LINKAGE_INTERNAL true [] none

/-- A literal whose token type is neither a number nor a string nor an array. -/
def unsupported_literal : Node := .literal 1 t_integer .TK_INVALID 0 0 []

/-- The kinds of the instructions of a context, in order. -/
def instruction_kinds (c : CodegenContext) : List IRType := c.instructions.map (fun x => x.kind)

/-- A concrete choice of the collaborators of the driver: the output file can be opened;
`ir_parse` fails; `ir_create_function` adds a function with an empty entry block (and no
parameter instructions); mandatory inlining succeeds; every pass leaves the context as it
is. -/
def example_collaborators : Collaborators :=
  { fopen := fun _ => true
    cint_size := 32
    ir_parse := fun c _ _ => (false, c)
    ir_create_function := fun c name type linkage =>
      ({ c with
          blocks := c.blocks ++ [{ function := some c.functions.length }]
          functions := c.functions ++
            [{ name := name, type := type, linkage := linkage, blocks := [c.blocks.length] }] },
        c.functions.length)
    shared_function_attributes := fun c _ _ => c
    codegen_process_inline_calls := fun c => (true, c)
    codegen_lower_early_x86_64 := fun c => c
    codegen_optimise := fun c => c
    codegen_lower_x86_64 := fun c => c
    codegen_emit_llvm := fun c => c
    codegen_emit_x86_64 := fun c => c }

/-- The same collaborators with a mandatory inlining that fails. -/
def collaborators_without_inlining : Collaborators :=
  { example_collaborators with codegen_process_inline_calls := fun c => (false, c) }

/-- A program whose root holds a module reference, which lowering reports as an error. -/
def faulty_program : Module := { root := .root 1 t_integer [.module_reference 2 t_integer] }

/-- A program whose root holds the literal `7`. -/
def literal_program : Module := { root := .root 1 t_integer [number_literal 2 7] }

/-- The error flag of a lowering result (`none` when lowering stopped with a fatal
error). -/
def result_has_err (r : Except Fatal CodegenContext) : Option Bool :=
  match r with
  | .error _ => none
  | .ok c => some c.has_err

/-- The context `example_context` with the string table `["hello"]`. -/
def context_with_string : CodegenContext := { example_context with strings := ["hello".toList] }

/-- The string literal `"hello"`, of type array of five bytes, as the node 2. -/
def hello_literal : Node := .literal 2 (.array t_byte 5) .TK_STRING 0 0 []

/-- The subscript `"hello"[i]` as the node 1, with the index as the node 3. -/
def hello_subscript (i : Nat) : Node :=
  .binary 1 t_byte .TK_LBRACK hello_literal (number_literal 3 i)

/-- The loop `while 1 { }`: a `while` whose body has no children. -/
def while_with_empty_body : Node := .while_ 1 t_void (number_literal 2 1) (.block 3 t_void [])

/-- Lowering `while 1 { }`: the two blocks and the branch to the condition block. -/
def while_example_branch : CodegenContext × Nat :=
  result_inserted (ir_insert_br (ir_block (ir_block (example_context.set_emitted 1)).1).1
    example_context.blocks.length)

/-- Lowering `while 1 { }`: the context after the condition. -/
def while_example_condition : CodegenContext :=
  result_context (codegen_expr example_queries
    (ir_block_attach while_example_branch.1 example_context.blocks.length) (number_literal 2 1))

/-- The declaration of a local variable `r` of type reference to integer, as the node 10. -/
def reference_variable : Node :=
  .declaration 10 (.reference t_integer) "r".toList .LINKAGE_LOCALVAR none

/-- The call `g(r, 7)` as the node 1: the callee is the function node 2, the first argument
is a reference to the variable `r` (node 3, of reference type) and the second the literal
`7` (node 4). -/
def call_with_reference : Node :=
  .call 1 t_integer
    (.function 2 (.function t_integer []) "g".toList .LINKAGE_INTERNAL false [] none)
    [.variable_reference 3 (.reference t_integer) 10, number_literal 4 7] .INTRIN_COUNT

/-- A context in which the variable `r` has been declared: an Alloca, instruction 0, in the
entry block is its address. -/
def context_with_variable : CodegenContext :=
  result_context (codegen_lvalue example_queries example_context reference_variable)

/-- Lowering `g(r, 7)`: the context after the arguments. -/
def call_example_arguments : CodegenContext :=
  result_context (codegen_call_arguments example_queries
    (ir_create_call_direct (context_with_variable.set_emitted 1)
      ((context_with_variable.set_emitted 1).function_ir 2)).1
    (ir_create_call_direct (context_with_variable.set_emitted 1)
      ((context_with_variable.set_emitted 1).function_ir 2)).2
    [.variable_reference 3 (.reference t_integer) 10, number_literal 4 7])

/-- The call arguments of the instruction `i` of a context (`none` when there is no such
instruction). -/
def call_args_of (c : CodegenContext) (i : Nat) : Option (List (Option Nat)) :=
  (c.instructions[i]?).map (fun x => x.call_args)

/-- The array literal `[10, 20, 30]` of type array of three integers, as the node 1. -/
def array_literal : Node :=
  .literal 1 (.array t_integer 3) .TK_LBRACK 0 0
    [number_literal 2 10, number_literal 3 20, number_literal 4 30]

/-- Lowering `[10, 20, 30]`: the Alloca. -/
def array_example_alloca : CodegenContext × Nat :=
  result_inserted (ir_insert_alloca example_queries (example_context.set_emitted 1)
    (.array t_integer 3))

/-- Lowering `[10, 20, 30]`: the Copy of the Alloca. -/
def array_example_copy : CodegenContext × Nat :=
  result_inserted (ir_insert_copy (array_example_alloca.1.set_ir 1 (some array_example_alloca.2))
    (some array_example_alloca.2))

/-- Lowering `[10, 20, 30]`: the Copy retyped to the element pointer. -/
def array_example_pointer : CodegenContext :=
  result_context (ir_set_type array_example_copy.1 (some array_example_copy.2)
    (ast_make_type_pointer t_integer))

/-- Lowering `[10, 20, 30]`: the context after the elements. -/
def array_example_elements : CodegenContext :=
  result_context (codegen_array_elements example_queries array_example_pointer 8
    (some array_example_copy.2) 0 3
    [number_literal 2 10, number_literal 3 20, number_literal 4 30])

/-! ## More concrete inputs -/

/-- A MIR function with one empty block, and three instructions that `mir_makenew` has
allocated and that are in no block yet. -/
def mir_three_instructions : MIRContext :=
  (mir_makenew (mir_makenew (mir_makenew
    { ir := {}, blocks := [{ function := some 0 }], functions := [{ origin := 0, blocks := [0] }] }
    (.common .IR_ADD)).1 (.common .IR_ADD)).1 (.common .IR_ADD)).1

/-- The instructions 0 and 1 are pushed into the block with the register that the counter
gives, then instruction 0 is removed, then instruction 2 is inserted at the front of the
block with `mir_insert_instruction`. -/
def mir_insert_after_remove (arch_start : Nat) : Except Fatal MIRContext := do
  let st ← mir_push_into_block arch_start mir_three_instructions 0 0 0
  let st ← mir_push_into_block arch_start st 0 0 1
  let st ← mir_remove_instruction st 0
  mir_insert_instruction arch_start st 0 2 0

/-- The register of a MIR instruction of a state. -/
def mir_register_of (st : MIRContext) (i : Nat) : Option Nat :=
  (st.instructions[i]?).map (fun x => x.reg)

/-- The instructions of a MIR block of a state, in order. -/
def mir_block_instructions (st : MIRContext) (b : Nat) : Option (List Nat) :=
  (st.blocks[b]?).map (fun x => x.instructions)

/-- A function node `f` that has no value of its own (it is never emitted as an rvalue). -/
def plain_function : Node :=
  .function 3 (.function t_integer []) "f".toList .LINKAGE_INTERNAL false [] none

/-- A root whose last child is a function node: the expression `5`, then the function `f`. -/
def root_ending_in_function : Node :=
  .root 1 t_integer [number_literal 2 5, plain_function]

/-- The operands of the Return instructions of a context, in order. -/
def return_operands (c : CodegenContext) : List (Option Nat) :=
  (c.instructions.filter (fun x => x.kind = .IR_RETURN)).map (fun x => x.operand)

/-- The declaration of a local variable `a` of type array of three integers, as the
node 10. -/
def array_variable : Node :=
  .declaration 10 (.array t_integer 3) "a".toList .LINKAGE_LOCALVAR none

/-- A context in which the variable `a` has been declared: an Alloca, instruction 0, in the
entry block is its address. -/
def context_with_array : CodegenContext :=
  result_context (codegen_lvalue example_queries example_context array_variable)

/-- The subscript `a[i]` as the node 1: the left side is a reference to the variable `a`
(node 3) and the index the literal `i` (node 4). -/
def array_subscript (i : Nat) : Node :=
  .binary 1 t_integer .TK_LBRACK (.variable_reference 3 (.array t_integer 3) 10)
    (number_literal 4 i)

/-- The context and the value of a result (the empty context when the result is an
error). -/
def result_value (r : Except Fatal (CodegenContext × Option Nat)) : CodegenContext × Option Nat :=
  match r with
  | .error _ => ({}, none)
  | .ok x => x

/-- Lowering `a[i]`: the base address after the decay to a pointer to the element. -/
def subscript_example_decay : CodegenContext × Option Nat :=
  result_value (subscript_array_decay (context_with_array.set_emitted 1) (some 0))

/-- Lowering `a[2]`: the context after the index. -/
def subscript_example_index : CodegenContext :=
  result_context (codegen_expr example_queries subscript_example_decay.1 (number_literal 4 2))

/-- The immediate values of the instructions of a context, in order. -/
def instruction_immediates (c : CodegenContext) : List Nat := c.instructions.map (fun x => x.imm)

/-- The names of the static variables of a context, in the order of their creation. -/
def static_names (c : CodegenContext) : List CStr := c.static_vars.map (fun v => v.name)

/-- A declaration at global scope (its linkage is not `LINKAGE_LOCALVAR`) of a variable
whose name is `__str_lit0`, as the node 2. -/
def global_named_like_a_literal : Node :=
  .declaration 2 t_integer "__str_lit0".toList .LINKAGE_INTERNAL none

/-- A root that holds the declaration of the global variable `__str_lit0` and then the
string literal `"hello"` (node 3). -/
def root_with_clashing_names : Node :=
  .root 1 t_integer
    [global_named_like_a_literal, .literal 3 (.array t_byte 5) .TK_STRING 0 0 []]

/-! ## Invariants of lowering -/

/-- What no lowering changes of an instruction that exists already: everything but the
type, the call arguments and the force-inline flag. -/
def IRInstruction.core (x : IRInstruction) : IRInstruction :=
  { x with type := t_void, call_args := [], call_force_inline := false }

/-- The instructions of a block, in order (`none` when there is no such block). -/
def block_instructions (c : CodegenContext) (b : Nat) : Option (List Nat) :=
  (c.blocks[b]?).map (fun x => x.instructions)

/-- The frame of a lowering that starts in `c0` and has reached `c`: blocks and
instructions are only added; a block that existed in `c0` and was not its insertion point
has the instructions it had; the block that was the insertion point has only grown at its
end, and not at all if it was closed; the instructions that existed keep their core; the
insertion point is the old one or a block created since, and it exists. -/
structure Reaches (c0 c : CodegenContext) : Prop where
  blocks_le : c0.blocks.length ≤ c.blocks.length
  insts_le : c0.instructions.length ≤ c.instructions.length
  frozen : ∀ b, b < c0.blocks.length → b ≠ c0.insert_point →
    block_instructions c b = block_instructions c0 b
  grown : ∀ l, block_instructions c0 c0.insert_point = some l →
    ∃ l', block_instructions c c0.insert_point = some l' ∧ l <+: l' ∧
      (ir_is_closed c0 c0.insert_point = true → l' = l)
  insts : ∀ i, i < c0.instructions.length →
    (c.instructions[i]?).map IRInstruction.core = (c0.instructions[i]?).map IRInstruction.core
  next : c.insert_point = c0.insert_point ∨ c0.blocks.length ≤ c.insert_point
  valid : c.insert_point < c.blocks.length

/-- The insertion point is open or ends in a Return. -/
def ReturnOrOpen (c : CodegenContext) : Prop :=
  ∀ x : IRInstruction, block_last c c.insert_point = some x → is_terminator x.kind = true →
    x.kind = .IR_RETURN

/-- Every argument of every phi comes from a block that is closed, either by a Branch to
the block of the phi (the block is a predecessor of the phi's block) or by a Return (the
edge is dead). -/
def PhiArgsClosed (c : CodegenContext) : Prop :=
  ∀ (p : Nat) (x : IRInstruction), c.instructions[p]? = some x → x.kind = .IR_PHI →
    ∀ a ∈ x.phi_args, ∃ t, block_last c a.1 = some t ∧
      ((t.kind = .IR_BRANCH ∧ t.dest = x.parent_block) ∨ t.kind = .IR_RETURN)

/-- The context `c` lies within a lowering that started in `c0`: it is in the frame of `c0`,
its phi arguments are fine, and its insertion point is open or ends in a Return if that was
so in `c0`. -/
structure Within (c0 c : CodegenContext) : Prop where
  reaches : Reaches c0 c
  phi : PhiArgsClosed c
  open_ : ReturnOrOpen c0 → ReturnOrOpen c

/-- A lowering function keeps the invariants: from a context with a valid insertion point
in which the phi arguments are fine it reaches, if it does not stop with a fatal error, a
context within the lowering. -/
def Sound (k : Lowering) : Prop :=
  ∀ c c', c.insert_point < c.blocks.length → PhiArgsClosed c → k c = .ok c' → Within c c'

/-- A change of the instruction store that keeps the length and every core, with the
blocks and the insertion point as they were. -/
structure CoreStep (c c' : CodegenContext) : Prop where
  blocks : c'.blocks = c.blocks
  point : c'.insert_point = c.insert_point
  length : c'.instructions.length = c.instructions.length
  cores : ∀ i : Nat, (c'.instructions[i]?).map IRInstruction.core
    = (c.instructions[i]?).map IRInstruction.core

/-- The context `c'` is `c` after the instruction `x` has been created as instruction `i`
and appended to the block at the insertion point, which was open. -/
structure Inserted (c : CodegenContext) (x : IRInstruction) (c' : CodegenContext) (i : Nat) :
    Prop where
  index : i = c.instructions.length
  was_open : ir_is_closed c c.insert_point = false
  point : c'.insert_point = c.insert_point
  blocks_length : c'.blocks.length = c.blocks.length
  instructions : c'.instructions
    = c.instructions ++ [{ x with parent_block := some c.insert_point }]
  block_at : ∃ l, block_instructions c c.insert_point = some l ∧
    block_instructions c' c.insert_point = some (l ++ [i])
  block_other : ∀ b, b ≠ c.insert_point → block_instructions c' b = block_instructions c b
  node_ir : c'.node_ir = c.node_ir
  node_address : c'.node_address = c.node_address
  node_emitted : c'.node_emitted = c.node_emitted
  functions : c'.functions = c.functions
  function : c'.function = c.function

/-- The block `b` ends in a branch to `target` or in a return. -/
def EndsAt (c : CodegenContext) (b : Nat) (target : Option Nat) : Prop :=
  ∃ t, block_last c b = some t ∧
    ((t.kind = .IR_BRANCH ∧ t.dest = target) ∨ t.kind = .IR_RETURN)

/-- The part of `Within` that also holds between the steps of a control-flow case, where
the insertion block may be closed by a branch. -/
structure Framed (c0 c : CodegenContext) : Prop where
  reaches : Reaches c0 c
  phi : PhiArgsClosed c

/-- The block `b` has been created and is still empty, and it is not the insertion point
(the state of a join block while the arms are lowered). -/
structure Reserved (c : CodegenContext) (b : Nat) : Prop where
  empty : block_instructions c b = some []
  apart : c.insert_point ≠ b

/-- The block `b` holds the instructions `l` followed by the instruction `i`, which is a
terminator that agrees with `t` up to the type annotation. -/
structure Sealed (c : CodegenContext) (b : Nat) (l : List Nat) (i : Nat) (t : IRInstruction) :
    Prop where
  instructions : block_instructions c b = some (l ++ [i])
  last : ∃ x, c.instructions[i]? = some x ∧ x.core = t.core
  terminator : is_terminator t.kind = true

/-! ## Specification of the MIR translation -/

/-- The instruction `last` is reached from the instruction `m` along the `lowered` links
and has no `lowered` link itself; `path` lists the instructions on the way, `m` first. -/
inductive LoweredChain (st : MIRContext) : Nat → Nat → List Nat → Prop
  | last (m : Nat) (x : MIRInstruction) :
      st.instructions[m]? = some x → x.lowered = none → LoweredChain st m m [m]
  | step (m l last : Nat) (path : List Nat) (x : MIRInstruction) :
      st.instructions[m]? = some x → x.lowered = some l → LoweredChain st l last path →
      LoweredChain st m last (m :: path)

/-- An IR instruction without its Alloca offset. -/
def IRInstruction.without_offset (x : IRInstruction) : IRInstruction :=
  { x with alloca_offset := none }

/-- A MIR function without its frame objects. -/
def MIRFunction.without_frame (f : MIRFunction) : MIRFunction :=
  { f with frame_objects := [] }

/-- The part of the state that building an operand cannot change: everything except the
offsets of the Allocas and the frame objects of the functions. -/
def MIRContext.skeleton (st : MIRContext) : MIRContext :=
  { st with
    ir := { st.ir with instructions := st.ir.instructions.map IRInstruction.without_offset }
    functions := st.functions.map MIRFunction.without_frame }

/-- The operand slots of an IR instruction (the uses that `ir_use_count` counts). -/
def IRInstruction.uses (x : IRInstruction) : List (Option Nat) :=
  [x.operand, x.lhs, x.rhs, x.store_value, x.store_addr, x.cond, x.callee_inst]
    ++ x.call_args ++ x.phi_args.map (fun a => a.2)

/-- The value `o` can be referenced without a new frame object: if it is an Alloca, its
offset is set. -/
def Ready (ir : CodegenContext) (o : Option Nat) : Prop :=
  ∀ i x, o = some i → ir.instructions[i]? = some x → x.kind = .IR_ALLOCA →
    x.alloca_offset ≠ none

/-- A state `s` that extends `st`: it has `di` more MIR instructions and `db` more MIR
blocks, the instructions and blocks of `st` are unchanged in it, it has as many functions,
the same links from IR instructions to MIR instructions, and the same IR up to Alloca
offsets. -/
structure Mid (st s : MIRContext) (di db : Nat) : Prop where
  ilen : s.instructions.length = st.instructions.length + di
  blen : s.blocks.length = st.blocks.length + db
  insts : ∀ i, i < st.instructions.length → s.instructions[i]? = st.instructions[i]?
  blocks : ∀ b, b < st.blocks.length → s.blocks[b]? = st.blocks[b]?
  flen : s.functions.length = st.functions.length
  inst_mir : s.inst_mir = st.inst_mir
  ir : s.skeleton.ir = st.skeleton.ir

/-- Partial correctness of a fallible computation: when it returns, the result satisfies
`P`. -/
def Post {α : Type} (m : Except Fatal α) (P : α → Prop) : Prop := ∀ a, m = .ok a → P a

/-- The IR instruction `x` at `inst` is not an Alloca, and every value that its translation
references can be referenced without a new frame object. -/
def Settled (ir : CodegenContext) (inst : Nat) (x : IRInstruction) : Prop :=
  x.kind ≠ .IR_ALLOCA ∧ ∀ v, v ∈ some inst :: x.uses → Ready ir v

/-- A state `s` in the middle of the translation of the IR instruction `x` at `inst`, which
started in `s0`: the MIR instruction has been allocated with opcode `op` and its origin is
set; nothing else has changed but Alloca offsets and frame objects, and not even those when
the instruction is settled. -/
structure Building (inst : Nat) (op : MIROpcode) (x : IRInstruction) (s0 s : MIRContext) :
    Prop where
  ilen : s.instructions.length = s0.instructions.length + 1
  insts : ∀ i, i < s0.instructions.length → s.instructions[i]? = s0.instructions[i]?
  made : ∃ y, s.instructions[s0.instructions.length]? = some y ∧ y.opcode = op ∧
    y.origin = some inst
  blocks : s.blocks = s0.blocks
  funs : s.skeleton.functions = s0.skeleton.functions
  ir : s.skeleton.ir = s0.skeleton.ir
  exact : Settled s0.ir inst x → s.ir = s0.ir ∧ s.functions = s0.functions

/-- The value of a `size_t` counter that stood at `c` after `n` increments, each of which
wraps. -/
def counter_after (c n : Nat) : Nat := if n = 0 then c else (c + n) % 2 ^ 64

/-- The register that `mir_push_into_block` gives to an instruction without pinned origin
when the instruction counter stands at `c`. -/
def counter_register (arch_start c : Nat) : Nat := to_MIRRegister ((c + arch_start) % 2 ^ 64)

/-- The effect of the translation of the IR instruction `x` at `inst` into the MIR block
`mir_bb` of the MIR function `function`: one MIR instruction is added to the store and
pushed on the block, the instruction counter of the function grows by one, and the IR
changes in Alloca offsets at most. -/
structure Emitted (arch_start function mir_bb inst : Nat) (x : IRInstruction)
    (s0 s : MIRContext) : Prop where
  ilen : s.instructions.length = s0.instructions.length + 1
  insts : ∀ i, i < s0.instructions.length → s.instructions[i]? = s0.instructions[i]?
  made : ∃ y, s.instructions[s0.instructions.length]? = some y ∧
    y.opcode = .common x.kind ∧ y.origin = some inst ∧ y.block = some mir_bb ∧
    ∀ fn, s0.functions[function]? = some fn →
      y.reg = if x.register ≠ 0 then x.register else counter_register arch_start fn.inst_count
  blen : s.blocks.length = s0.blocks.length
  blocks : ∀ b B, s0.blocks[b]? = some B → ∃ B', s.blocks[b]? = some B' ∧
    B'.origin = B.origin ∧
    B'.instructions
      = if b = mir_bb then B.instructions ++ [s0.instructions.length] else B.instructions
  flen : s.functions.length = s0.functions.length
  funs : ∀ (g : Nat) (fn : MIRFunction), s0.functions[g]? = some fn →
    ∃ fn' : MIRFunction, s.functions[g]? = some fn' ∧
      fn'.without_frame
        = MIRFunction.without_frame
            (if g = function then { fn with inst_count := (fn.inst_count + 1) % 2 ^ 64 }
             else fn)
  ir : s.skeleton.ir = s0.skeleton.ir
  exact : Settled s0.ir inst x → s.ir = s0.ir ∧
    ∀ (g : Nat) (fn fn' : MIRFunction), s0.functions[g]? = some fn →
      s.functions[g]? = some fn' → fn'.frame_objects = fn.frame_objects

/-- The effect of the translation of the IR instructions `L` into the MIR function
`function`: every MIR instruction added to the store has one of them as origin, carries
its kind as opcode, and has as register the pinned register of the origin or else the
register made from the value of the instruction counter when it was pushed; the counter
has been incremented once for every added instruction; every block has kept its old instructions
and received added ones only. -/
structure Grown (arch_start function : Nat) (L : List Nat) (s0 s : MIRContext) : Prop where
  ilen : s0.instructions.length ≤ s.instructions.length
  insts : ∀ i, i < s0.instructions.length → s.instructions[i]? = s0.instructions[i]?
  made : ∀ (i : Nat) (y : MIRInstruction), s0.instructions.length ≤ i →
    s.instructions[i]? = some y →
    ∃ (o : Nat) (x : IRInstruction), y.origin = some o ∧ o ∈ L ∧
      s0.ir.instructions[o]? = some x ∧ y.opcode = .common x.kind ∧
      ∀ fn : MIRFunction, s0.functions[function]? = some fn →
        y.reg = if x.register ≠ 0 then x.register
          else counter_register arch_start
            (counter_after fn.inst_count (i - s0.instructions.length))
  blen : s.blocks.length = s0.blocks.length
  blocks : ∀ (b : Nat) (B : MIRBlock), s0.blocks[b]? = some B →
    ∃ (B' : MIRBlock) (added : List Nat), s.blocks[b]? = some B' ∧ B'.origin = B.origin ∧
      B'.instructions = B.instructions ++ added ∧ ∀ i, i ∈ added → s0.instructions.length ≤ i
  flen : s.functions.length = s0.functions.length
  funs : ∀ (g : Nat) (fn : MIRFunction), s0.functions[g]? = some fn →
    ∃ fn' : MIRFunction, s.functions[g]? = some fn' ∧
      fn'.without_frame
        = MIRFunction.without_frame
            (if g = function then
              { fn with inst_count :=
                  counter_after fn.inst_count (s.instructions.length - s0.instructions.length) }
             else fn)
  ir : s.skeleton.ir = s0.skeleton.ir

/-- The IR instructions of the IR block from which the MIR block `b` originates. -/
def block_order (st : MIRContext) (b : Nat) : List Nat :=
  match st.blocks[b]? with
  | none => []
  | some B =>
      match B.origin with
      | none => []
      | some bb =>
          match st.ir.blocks[bb]? with
          | none => []
          | some irb => irb.instructions

/-- The IR instructions that the translation of the MIR blocks `blocks` visits, in the
order of the visit. -/
def translation_order (st : MIRContext) (blocks : List Nat) : List Nat :=
  match blocks with
  | [] => []
  | b :: rest => block_order st b ++ translation_order st rest

/-- Whether the IR instruction at `i` is an Alloca. -/
def is_alloca (ir : CodegenContext) (i : Nat) : Bool :=
  match ir.instructions[i]? with
  | none => false
  | some x => decide (x.kind = .IR_ALLOCA)

/-- The allocated size of the IR instruction at `i` (0 when there is none). -/
def alloca_size_of (ir : CodegenContext) (i : Nat) : Nat :=
  match ir.instructions[i]? with
  | none => 0
  | some x => x.alloca_size

/-- The Alloca offsets and the frame objects after the translation of the IR instructions
`L`, when no reference creates a frame object: each Alloca gets a new frame object of its
size and the index of that object as offset. -/
def place (ir : CodegenContext) (frames : List MIRFrameObject) :
    List Nat → CodegenContext × List MIRFrameObject
  | [] => (ir, frames)
  | i :: rest =>
      if is_alloca ir i then
        place (ir_set_alloca_offset ir i (some frames.length))
          (frames ++ [{ size := alloca_size_of ir i, lowered := none, offset := -1 }]) rest
      else place ir frames rest

/-- The instruction at `i` can be translated without a reference creating a frame object:
unless it is an Alloca itself, every value it uses is ready. -/
def Usable (ir : CodegenContext) (i : Nat) : Prop :=
  ∀ x, ir.instructions[i]? = some x → x.kind ≠ .IR_ALLOCA → ∀ v, v ∈ x.uses → Ready ir v

/-- Every instruction of `L` is usable at the time of its translation. -/
def Orderly (ir : CodegenContext) (frames : List MIRFrameObject) : List Nat → Prop
  | [] => True
  | i :: rest =>
      Usable ir i ∧ Orderly (place ir frames [i]).1 (place ir frames [i]).2 rest

/-- The offset of the IR instruction at `i` (`none` when it is the sentinel or there is no
such instruction). -/
def offset_of (ir : CodegenContext) (i : Nat) : Option Nat :=
  match ir.instructions[i]? with
  | none => none
  | some x => x.alloca_offset

/-- What no lowering changes of an instruction that exists already: everything but the
force-inline flag of a call. -/
def IRInstruction.settled (x : IRInstruction) : IRInstruction :=
  { x with call_force_inline := false }

/-- The context `c` comes after `c0` in a lowering: the instructions of `c0` are still
there, unchanged up to the force-inline flag, and the nodes that were emitted in `c0` are
still emitted and have the value (`ir`) they had. -/
structure Kept (c0 c : CodegenContext) : Prop where
  insts_le : c0.instructions.length ≤ c.instructions.length
  insts : ∀ i, i < c0.instructions.length →
    (c.instructions[i]?).map IRInstruction.settled
      = (c0.instructions[i]?).map IRInstruction.settled
  emitted : ∀ n, c0.node_emitted n = true → c.node_emitted n = true
  node_ir : ∀ n, c0.node_emitted n = true → c.node_ir n = c0.node_ir n

/-- A lowering function keeps the older state. -/
def Keeping (k : Lowering) : Prop := ∀ c c', k c = .ok c' → Kept c c'

/-- The lowering of the node `id`, which starts by setting the `emitted` flag of the node,
keeps the older state when the node was not emitted before. -/
def KeepingAt (id : Nat) (k : Lowering) : Prop :=
  ∀ c c', c.node_emitted id = false → k (c.set_emitted id) = .ok c' → Kept c c'

/-- The loop over the arguments of a call keeps the older state, apart from the call
instruction itself, which did not exist at the start `c0`. -/
def KeepingCall (ka : Nat → Lowering) : Prop :=
  ∀ (call : Nat) (c0 c c' : CodegenContext), Kept c0 c → c0.instructions.length ≤ call →
    ka call c = .ok c' → Kept c0 c'

/-! ## Specification of the loops over call arguments and array elements -/

/-- The operand that a call receives for the argument `arg`, read in the context `d` that
the emission of the argument has left: the address of the argument when its type is a
reference, its value otherwise. -/
def call_operand (d : CodegenContext) (arg : Node) : Option Nat :=
  if type_is_reference arg.type then d.node_address arg.id else d.node_ir arg.id

/-- The arguments of a call are emitted one after the other from the context `c` to the
context `c'`, in the order of the list, each as an lvalue when its type is a reference and
as an rvalue otherwise; `operands` lists, in the same order, the operand of each argument
as read right after its emission; between two arguments nothing changes but the argument
list of the instruction `call`, which receives the operand. -/
inductive ArgumentsEmitted (q : Queries) (call : Nat) :
    CodegenContext → List Node → List (Option Nat) → CodegenContext → Prop
  | done (c : CodegenContext) : ArgumentsEmitted q call c [] [] c
  | step (c d c' : CodegenContext) (arg : Node) (rest : List Node)
      (operands : List (Option Nat)) :
      (if type_is_reference arg.type then codegen_lvalue q c arg else codegen_expr q c arg)
        = .ok d →
      ArgumentsEmitted q call (ir_call_add_arg d call (call_operand d arg)) rest operands c' →
      ArgumentsEmitted q call c (arg :: rest) (call_operand d arg :: operands) c'

/-- One round of the loop over the elements of an array literal: the value of the element
as read right after its emission, the Store that the round inserts, and the element
pointer that the Store writes to. -/
structure ElementRound where
  value : Option Nat
  store : Nat
  pointer : Option Nat

/-- The elements of an array literal are stored one after the other from the context `c`
to the context `c'`, in the order of the list, starting at the element pointer `address`:
each element is emitted as an rvalue, then one Store of its value to the current element
pointer is inserted; between two elements the pointer advances: an Immediate that holds the
element size and an Add of the pointer and that Immediate are inserted, and the Add is the
next element pointer; after the last element nothing is inserted. `rounds` lists the
rounds in order. -/
inductive ElementsStored (q : Queries) (element_size : Nat) :
    Option Nat → List Node → CodegenContext → List ElementRound → CodegenContext → Prop
  | last (address : Option Nat) (c d : CodegenContext) (s : CodegenContext × Nat)
      (node : Node) :
      codegen_expr q c node = .ok d →
      ir_insert_store d (d.node_ir node.id) address = .ok s →
      ElementsStored q element_size address [node] c
        [{ value := d.node_ir node.id, store := s.2, pointer := address }] s.1
  | step (address : Option Nat) (c d c' : CodegenContext) (s imm a : CodegenContext × Nat)
      (node next : Node) (rest : List Node) (rounds : List ElementRound) :
      codegen_expr q c node = .ok d →
      ir_insert_store d (d.node_ir node.id) address = .ok s →
      ir_insert_immediate s.1 t_integer element_size = .ok imm →
      ir_insert_binary imm.1 .IR_ADD address (some imm.2) = .ok a →
      ElementsStored q element_size (some a.2) (next :: rest) a.1 rounds c' →
      ElementsStored q element_size address (node :: next :: rest) c
        ({ value := d.node_ir node.id, store := s.2, pointer := address } :: rounds) c'

/-! ## Words of the claims on the parser and the mangler -/

/-- A decimal integer literal: an optional sign, then one or more decimal digits, and
nothing else. The result is the number that the text denotes, `none` when the text is no
such literal. -/
def decimal_literal (text : CStr) : Option Int :=
  let sign := if text.head? = some '-' ∨ text.head? = some '+' then 1 else 0
  let digits := text.drop sign
  if digits ≠ [] ∧ digits.all is_digit = true then
    some (if text.head? = some '-' then -((value_of digits : Nat) : Int)
      else ((value_of digits : Nat) : Int))
  else none

/-- A type tree built only from integer, pointer, reference, array and function types. -/
def is_structural : Ty → Bool
  | .integer _ _ => true
  | .pointer to_ => is_structural to_
  | .reference to_ => is_structural to_
  | .array of_ _ => is_structural of_
  | .function return_type parameters => is_structural return_type && all_params parameters
  | .primitive _ => false
  | .named _ _ => false
  | .struct _ => false
where
  /-- Every parameter type is such a tree. -/
  all_params : List (CStr × Ty) → Bool
    | [] => true
    | p :: ps => is_structural p.2 && all_params ps

/-- A type tree after the names of function parameters have been erased (every parameter
name is replaced by the empty name). -/
def erase_parameter_names : Ty → Ty
  | .integer is_signed bit_width => .integer is_signed bit_width
  | .pointer to_ => .pointer (erase_parameter_names to_)
  | .reference to_ => .reference (erase_parameter_names to_)
  | .array of_ size => .array (erase_parameter_names of_) size
  | .function return_type parameters =>
      .function (erase_parameter_names return_type) (erase_names parameters)
  | .primitive name => .primitive name
  | .named name none => .named name none
  | .named name (some val) => .named name (some (erase_parameter_names val))
  | .struct name => .struct name
where
  /-- The parameter list without the names. -/
  erase_names : List (CStr × Ty) → List (CStr × Ty)
    | [] => []
    | p :: ps => ([], erase_parameter_names p.2) :: erase_names ps

/-! ## The parameters of a function -/

/-- Whether the loop of `codegen_function` gives the parameter at position `i`, declared by
`decl`, a variable of its own: the type of the declaration is no reference and the calling
convention does not pass the parameter as a pointer. -/
def parameter_gets_variable (q : Queries) (ctx : CodegenContext) (i : Nat) (decl : Node) :
    Bool :=
  match type_is_reference decl.type, parameter_is_passed_as_pointer q ctx ctx.function i with
  | false, .ok false => true
  | _, _ => false

/-- The number of parameters that get a variable of their own among the declarations
`decls`, which stand at the positions from `i` on. -/
def variables_among (q : Queries) (ctx : CodegenContext) : Nat → List Node → Nat
  | _, [] => 0
  | i, decl :: rest =>
      (if parameter_gets_variable q ctx i decl then 1 else 0)
        + variables_among q ctx (i + 1) rest

/-! ## The `emitted` flags in a lowering -/

/-- The context `c` comes after `c0` in a lowering as far as the `emitted` flags go: every
node that was emitted in `c0` is emitted in `c`. -/
def Marked (c0 c : CodegenContext) : Prop :=
  ∀ n, c0.node_emitted n = true → c.node_emitted n = true

/-- A lowering function clears no `emitted` flag. -/
def Marking (k : Lowering) : Prop := ∀ c c', k c = .ok c' → Marked c c'

/-! ## Lemmas on decimal numerals -/

theorem toDigitsCore_eq_dec : ∀ (fuel n : Nat) (ds : List Char), n < fuel →
    Nat.toDigitsCore 10 fuel n ds = dec n ++ ds := by
  intro fuel
  induction fuel with
  | zero => intro n ds h; omega
  | succ f ih =>
    intro n ds h
    rw [dec]
    by_cases hn : n < 10
    · have h0 : n / 10 = 0 := by omega
      have h1 : n % 10 = n := by omega
      simp [Nat.toDigitsCore, h0, h1, hn]
    · have h0 : n / 10 ≠ 0 := by omega
      have h2 : n / 10 < f := by omega
      simp [Nat.toDigitsCore, h0, hn, ih _ _ h2]

theorem format_Z_eq_dec (n : Nat) : format_Z n = dec n := by
  simp [format_Z, Nat.toDigits, toDigitsCore_eq_dec (n+1) n [] (by omega)]

theorem digitChar_is_digit (d : Nat) (h : d < 10) : is_digit (Nat.digitChar d) = true := by
  interval_cases d <;> decide

theorem digit_value_digitChar (d : Nat) (h : d < 10) : digit_value (Nat.digitChar d) = d := by
  interval_cases d <;> decide

theorem dec_ne_nil (n : Nat) : dec n ≠ [] := by
  rw [dec]; split <;> simp

theorem dec_all_digits (n : Nat) : ∀ c ∈ dec n, is_digit c = true := by
  induction n using Nat.strong_induction_on with
  | _ n ih =>
    rw [dec]
    split
    · intro c hc
      simp at hc
      subst hc
      exact digitChar_is_digit n (by omega)
    · intro c hc
      simp at hc
      rcases hc with hc | hc
      · exact ih (n / 10) (by omega) c hc
      · subst hc
        exact digitChar_is_digit _ (by omega)

theorem value_of_dec (n : Nat) : value_of (dec n) = n := by
  induction n using Nat.strong_induction_on with
  | _ n ih =>
    rw [dec]
    split
    · simp [value_of, digit_value_digitChar n (by omega)]
    · have := ih (n / 10) (by omega)
      simp only [value_of] at this
      simp [value_of, List.foldl_append, this, digit_value_digitChar (n % 10) (by omega)]
      omega

theorem dec_inj {a b : Nat} (h : dec a = dec b) : a = b := by
  have := congrArg value_of h
  simpa [value_of_dec] using this

theorem format_Z_ne_nil (n : Nat) : format_Z n ≠ [] := by
  rw [format_Z_eq_dec]; exact dec_ne_nil n

theorem format_Z_all_digits (n : Nat) : ∀ c ∈ format_Z n, is_digit c = true := by
  rw [format_Z_eq_dec]; exact dec_all_digits n

theorem format_Z_inj {a b : Nat} (h : format_Z a = format_Z b) : a = b := by
  rw [format_Z_eq_dec, format_Z_eq_dec] at h; exact dec_inj h

/-- A run of digits followed by a non-digit is determined by the whole string. -/
theorem digit_run_unique : ∀ (d1 d2 r1 r2 : List Char),
    (∀ c ∈ d1, is_digit c = true) → (∀ c ∈ d2, is_digit c = true) →
    (∀ c ∈ r1.head?, is_digit c = false) → (∀ c ∈ r2.head?, is_digit c = false) →
    r1 ≠ [] → r2 ≠ [] →
    d1 ++ r1 = d2 ++ r2 → d1 = d2 ∧ r1 = r2 := by
  intro d1
  induction d1 with
  | nil =>
    intro d2 r1 r2 _ h2 hr1 _ hne1 _ h
    cases d2 with
    | nil => simpa using h
    | cons c d2 =>
      exfalso
      cases r1 with
      | nil => exact hne1 rfl
      | cons x r1 =>
        simp at h
        have := hr1 x (by simp)
        have h3 := h2 c (by simp)
        rw [h.1] at this
        simp [this] at h3
  | cons c d1 ih =>
    intro d2 r1 r2 h1 h2 hr1 hr2 hne1 hne2 h
    cases d2 with
    | nil =>
      exfalso
      cases r2 with
      | nil => exact hne2 rfl
      | cons x r2 =>
        simp at h
        have := hr2 x (by simp)
        have h3 := h1 c (by simp)
        rw [h.1] at h3
        simp [this] at h3
    | cons c2 d2 =>
      simp at h
      have := ih d2 r1 r2 (fun c hc => h1 c (by simp [hc])) (fun c hc => h2 c (by simp [hc]))
        hr1 hr2 hne1 hne2 h.2
      simp [h.1, this.1, this.2]

/-! ## Lemmas on the encoding -/

theorem name_ok_cons {n : List Char} (h : name_ok n = true) :
    ∃ c t, n = c :: t ∧ is_digit c = false := by
  cases n with
  | nil => simp [name_ok] at h
  | cons c t => exact ⟨c, t, rfl, by simpa [name_ok] using h⟩

/-- An encoding begins with a digit or with one of `P`, `R`, `A`, `F`: never with `E`. -/
theorem enc_shape_head (s : Shape) : ∃ c t, enc_shape s = c :: t ∧ c ≠ 'E' := by
  cases s with
  | atom text =>
    have hne := format_Z_ne_nil text.length
    have hd := format_Z_all_digits text.length
    cases h : format_Z text.length with
    | nil => exact absurd h hne
    | cons c t =>
      refine ⟨c, t ++ text, by simp [enc_shape, h], ?_⟩
      intro hc
      have := hd c (by simp [h])
      rw [hc] at this
      revert this
      decide
  | pointer s => exact ⟨'P', _, rfl, by decide⟩
  | reference s => exact ⟨'R', _, rfl, by decide⟩
  | array n s => exact ⟨'A', _, rfl, by decide⟩
  | function r ps => exact ⟨'F', _, rfl, by decide⟩

/-- An atom never begins like a structural constructor. -/
theorem atom_head_digit (text r l : List Char) (c : Char) (hc : is_digit c = false)
    (h : format_Z text.length ++ r = c :: l) : False := by
  cases hh : format_Z text.length with
  | nil => exact format_Z_ne_nil _ hh
  | cons d t =>
    have := format_Z_all_digits text.length d (by simp [hh])
    simp [hh] at h
    rw [h.1] at this
    simp [this] at hc

/-- The encoding of shapes is a prefix code: an encoding followed by anything determines
the shape and the rest. -/
theorem enc_shape_prefix_free (s1 : Shape) : ∀ (s2 : Shape) (r1 r2 : List Char),
    shape_ok s1 = true → shape_ok s2 = true →
    enc_shape s1 ++ r1 = enc_shape s2 ++ r2 → s1 = s2 ∧ r1 = r2 := by
  match s1 with
  | .atom t1 =>
    intro s2 r1 r2 w1 w2 h
    obtain ⟨c1, u1, e1, n1⟩ := name_ok_cons (by simpa [shape_ok] using w1)
    cases s2 with
    | atom t2 =>
      obtain ⟨c2, u2, e2, n2⟩ := name_ok_cons (by simpa [shape_ok] using w2)
      simp only [enc_shape, List.append_assoc] at h
      have := digit_run_unique _ _ (t1 ++ r1) (t2 ++ r2) (format_Z_all_digits _)
        (format_Z_all_digits _) (by simp [e1, n1]) (by simp [e2, n2]) (by simp [e1])
        (by simp [e2]) h
      have hl : t1.length = t2.length := format_Z_inj this.1
      have := List.append_inj this.2 hl
      simp [this.1, this.2]
    | pointer s =>
      exact (atom_head_digit t1 (t1 ++ r1) _ 'P' (by decide) (by simpa [enc_shape] using h)).elim
    | reference s =>
      exact (atom_head_digit t1 (t1 ++ r1) _ 'R' (by decide) (by simpa [enc_shape] using h)).elim
    | array n s =>
      exact (atom_head_digit t1 (t1 ++ r1) _ 'A' (by decide) (by simpa [enc_shape] using h)).elim
    | function r ps =>
      exact (atom_head_digit t1 (t1 ++ r1) _ 'F' (by decide) (by simpa [enc_shape] using h)).elim
  | .pointer a =>
    intro s2 r1 r2 w1 w2 h
    cases s2 with
    | pointer b =>
      simp [enc_shape] at h
      have := enc_shape_prefix_free a b r1 r2 (by simpa [shape_ok] using w1)
        (by simpa [shape_ok] using w2) h
      simp [this.1, this.2]
    | atom t2 =>
      exact (atom_head_digit t2 (t2 ++ r2) _ 'P' (by decide)
        (by simpa [enc_shape] using h.symm)).elim
    | reference s | array n s | function r ps => simp [enc_shape] at h
  | .reference a =>
    intro s2 r1 r2 w1 w2 h
    cases s2 with
    | reference b =>
      simp [enc_shape] at h
      have := enc_shape_prefix_free a b r1 r2 (by simpa [shape_ok] using w1)
        (by simpa [shape_ok] using w2) h
      simp [this.1, this.2]
    | atom t2 =>
      exact (atom_head_digit t2 (t2 ++ r2) _ 'R' (by decide)
        (by simpa [enc_shape] using h.symm)).elim
    | pointer s | array n s | function r ps => simp [enc_shape] at h
  | .array n1 a =>
    intro s2 r1 r2 w1 w2 h
    cases s2 with
    | array n2 b =>
      simp only [enc_shape, List.cons_append, List.append_assoc, List.cons.injEq, true_and] at h
      have := digit_run_unique _ _ _ _ (format_Z_all_digits n1) (format_Z_all_digits n2)
        (by simp; decide) (by simp; decide) (by simp) (by simp) h
      have hn : n1 = n2 := format_Z_inj this.1
      have h2 := this.2
      simp only [List.cons.injEq, true_and] at h2
      have := enc_shape_prefix_free a b r1 r2 (by simpa [shape_ok] using w1)
        (by simpa [shape_ok] using w2) h2
      simp [this.1, this.2, hn]
    | atom t2 =>
      exact (atom_head_digit t2 (t2 ++ r2) _ 'A' (by decide)
        (by simpa [enc_shape] using h.symm)).elim
    | pointer s | reference s | function r ps => simp [enc_shape] at h
  | .function ra pa =>
    intro s2 r1 r2 w1 w2 h
    cases s2 with
    | function rb pb =>
      simp only [enc_shape, List.cons_append, List.append_assoc, List.cons.injEq, true_and] at h
      simp only [shape_ok, Bool.and_eq_true] at w1 w2
      have hr := enc_shape_prefix_free ra rb _ _ w1.1 w2.1 h
      have hp := enc_shapes_prefix_free pa pb r1 r2 w1.2 w2.2 hr.2
      simp [hr.1, hp.1, hp.2]
    | atom t2 =>
      exact (atom_head_digit t2 (t2 ++ r2) _ 'F' (by decide)
        (by simpa [enc_shape] using h.symm)).elim
    | pointer s | reference s | array n s => simp [enc_shape] at h
where
  enc_shapes_prefix_free (p1 : List Shape) : ∀ (p2 : List Shape) (r1 r2 : List Char),
      shape_ok.shapes_ok p1 = true → shape_ok.shapes_ok p2 = true →
      enc_shape.enc_shapes p1 ++ 'E' :: r1 = enc_shape.enc_shapes p2 ++ 'E' :: r2 →
      p1 = p2 ∧ r1 = r2 := by
    match p1 with
    | [] =>
      intro p2 r1 r2 _ _ h
      cases p2 with
      | nil => simpa [enc_shape.enc_shapes] using h
      | cons b pb =>
        exfalso
        obtain ⟨c, t, e, ne⟩ := enc_shape_head b
        simp [enc_shape.enc_shapes, e] at h
        exact ne h.1.symm
    | a :: pa =>
      intro p2 r1 r2 w1 w2 h
      cases p2 with
      | nil =>
        exfalso
        obtain ⟨c, t, e, ne⟩ := enc_shape_head a
        simp [enc_shape.enc_shapes, e] at h
        exact ne h.1
      | cons b pb =>
        simp only [enc_shape.enc_shapes, List.append_assoc] at h
        simp only [shape_ok.shapes_ok, Bool.and_eq_true] at w1 w2
        have hh := enc_shape_prefix_free a b _ _ w1.1 w2.1 h
        have ht := enc_shapes_prefix_free pa pb r1 r2 w1.2 w2.2 hh.2
        simp [hh.1, ht.1, ht.2]

theorem name_ok_length {n : CStr} (h : name_ok n = true) : n.length ≠ 0 := by
  cases n with
  | nil => simp [name_ok] at h
  | cons c t => simp

/-- On well-formed trees the mangler appends the encoding of the erased shape and leaves
the anonymous-struct counter alone. -/
theorem mangle_type_to_eq_shape (t : Ty) : ∀ (buf : List Char) (sc : Nat),
    well_formed t = true → mangle_type_to buf sc t = (buf ++ enc_shape (erase t), sc) := by
  match t with
  | .primitive name => intro buf sc _; simp [mangle_type_to, erase, enc_shape]
  | .struct name =>
      intro buf sc h
      have := name_ok_length (by simpa [well_formed] using h)
      simp [mangle_type_to, erase, enc_shape, this]
  | .named name none => intro buf sc _; simp [mangle_type_to, erase, enc_shape]
  | .named _ (some val) =>
      intro buf sc h
      simp only [well_formed] at h
      simp [mangle_type_to, erase, mangle_type_to_eq_shape val buf sc h]
  | .integer s w =>
      intro buf sc _
      simp [mangle_type_to, erase, enc_shape, number_width, format_Z, Nat.add_comm]
  | .pointer to_ =>
      intro buf sc h
      simp only [well_formed] at h
      simp [mangle_type_to, erase, enc_shape, mangle_type_to_eq_shape to_ _ sc h]
  | .reference to_ =>
      intro buf sc h
      simp only [well_formed] at h
      simp [mangle_type_to, erase, enc_shape, mangle_type_to_eq_shape to_ _ sc h]
  | .array of_ size =>
      intro buf sc h
      simp only [well_formed] at h
      simp [mangle_type_to, erase, enc_shape, mangle_type_to_eq_shape of_ _ sc h]
  | .function r ps =>
      intro buf sc h
      simp only [well_formed, Bool.and_eq_true] at h
      simp [mangle_type_to, erase, enc_shape, mangle_type_to_eq_shape r _ sc h.1,
        mangle_params_eq_shape ps _ sc h.2]
where
  mangle_params_eq_shape (ps : List (CStr × Ty)) : ∀ (buf : List Char) (sc : Nat),
      well_formed.all_params ps = true →
      mangle_type_to.mangle_params buf sc ps
        = (buf ++ enc_shape.enc_shapes (erase.erase_params ps), sc) := by
    match ps with
    | [] => intro buf sc _; simp [mangle_type_to.mangle_params, erase.erase_params,
        enc_shape.enc_shapes]
    | p :: rest =>
        intro buf sc h
        simp only [well_formed.all_params, Bool.and_eq_true] at h
        simp [mangle_type_to.mangle_params, erase.erase_params, enc_shape.enc_shapes,
          mangle_type_to_eq_shape p.2 buf sc h.1, mangle_params_eq_shape rest _ sc h.2]

/-- The erased shape of a well-formed tree has identifier-like atoms. -/
theorem erase_shape_ok (t : Ty) : well_formed t = true → shape_ok (erase t) = true := by
  match t with
  | .primitive name => intro h; simpa [well_formed, erase, shape_ok] using h
  | .struct name => intro h; simpa [well_formed, erase, shape_ok] using h
  | .named name none => intro h; simpa [well_formed, erase, shape_ok] using h
  | .named _ (some val) =>
      intro h
      simp only [well_formed] at h
      simpa [erase] using erase_shape_ok val h
  | .integer s w =>
      intro _
      cases s <;> simp [erase, shape_ok, name_ok] <;> decide
  | .pointer to_ =>
      intro h
      simp only [well_formed] at h
      simpa [erase, shape_ok] using erase_shape_ok to_ h
  | .reference to_ =>
      intro h
      simp only [well_formed] at h
      simpa [erase, shape_ok] using erase_shape_ok to_ h
  | .array of_ size =>
      intro h
      simp only [well_formed] at h
      simpa [erase, shape_ok] using erase_shape_ok of_ h
  | .function r ps =>
      intro h
      simp only [well_formed, Bool.and_eq_true] at h
      simp [erase, shape_ok, erase_shape_ok r h.1, erase_params_ok ps h.2]
where
  erase_params_ok (ps : List (CStr × Ty)) :
      well_formed.all_params ps = true → shape_ok.shapes_ok (erase.erase_params ps) = true := by
    match ps with
    | [] => intro _; simp [erase.erase_params, shape_ok.shapes_ok]
    | p :: rest =>
        intro h
        simp only [well_formed.all_params, Bool.and_eq_true] at h
        simp [erase.erase_params, shape_ok.shapes_ok, erase_shape_ok p.2 h.1,
          erase_params_ok rest h.2]

theorem spec_decimal_eq (n : Nat) : spec_decimal n = format_Z n := by
  simp [spec_decimal, format_Z, Nat.repr, List.asString]

/-- Without anonymous structs the mangler appends exactly the encoding of the
specification and leaves the counter alone. -/
theorem mangle_type_to_eq_spec (t : Ty) : ∀ (buf : List Char) (sc : Nat),
    has_anonymous_struct t = false → mangle_type_to buf sc t = (buf ++ spec_enc t, sc) := by
  match t with
  | .primitive name =>
      intro buf sc _; simp [mangle_type_to, spec_enc, spec_decimal_eq]
  | .struct name =>
      intro buf sc h
      simp [has_anonymous_struct] at h
      simp [mangle_type_to, spec_enc, spec_decimal_eq, h]
  | .named name none =>
      intro buf sc _; simp [mangle_type_to, spec_enc, spec_decimal_eq]
  | .named _ (some val) =>
      intro buf sc h
      simp only [has_anonymous_struct] at h
      simp [mangle_type_to, spec_enc, mangle_type_to_eq_spec val buf sc h]
  | .integer s w =>
      intro buf sc _
      simp [mangle_type_to, spec_enc, spec_decimal_eq, number_width, format_Z]
  | .pointer to_ =>
      intro buf sc h
      simp only [has_anonymous_struct] at h
      simp [mangle_type_to, spec_enc, mangle_type_to_eq_spec to_ _ sc h]
  | .reference to_ =>
      intro buf sc h
      simp only [has_anonymous_struct] at h
      simp [mangle_type_to, spec_enc, mangle_type_to_eq_spec to_ _ sc h]
  | .array of_ size =>
      intro buf sc h
      simp only [has_anonymous_struct] at h
      simp [mangle_type_to, spec_enc, mangle_type_to_eq_spec of_ _ sc h, spec_decimal_eq]
  | .function r ps =>
      intro buf sc h
      simp only [has_anonymous_struct, Bool.or_eq_false_iff] at h
      simp [mangle_type_to, spec_enc, mangle_type_to_eq_spec r _ sc h.1,
        mangle_params_eq_spec ps _ sc h.2]
where
  mangle_params_eq_spec (ps : List (CStr × Ty)) : ∀ (buf : List Char) (sc : Nat),
      has_anonymous_struct.any_param ps = false →
      mangle_type_to.mangle_params buf sc ps = (buf ++ spec_enc.spec_enc_params ps, sc) := by
    match ps with
    | [] => intro buf sc _; simp [mangle_type_to.mangle_params, spec_enc.spec_enc_params]
    | p :: rest =>
        intro buf sc h
        simp only [has_anonymous_struct.any_param, Bool.or_eq_false_iff] at h
        simp [mangle_type_to.mangle_params, spec_enc.spec_enc_params,
          mangle_type_to_eq_spec p.2 buf sc h.1, mangle_params_eq_spec rest _ sc h.2]

/-- The mangler only ever appends to the buffer, and appends at least one character. -/
theorem mangle_type_to_length (t : Ty) : ∀ (buf : List Char) (sc : Nat),
    buf.length < (mangle_type_to buf sc t).1.length := by
  match t with
  | .primitive name =>
      intro buf sc
      have := List.length_pos.mpr (format_Z_ne_nil name.length)
      simp [mangle_type_to]; omega
  | .struct name =>
      intro buf sc
      have h1 := List.length_pos.mpr (format_Z_ne_nil name.length)
      have h2 := List.length_pos.mpr (format_Z_ne_nil sc)
      simp only [mangle_type_to]
      split <;> simp <;> omega
  | .named name none =>
      intro buf sc
      have := List.length_pos.mpr (format_Z_ne_nil name.length)
      simp [mangle_type_to]; omega
  | .named _ (some val) =>
      intro buf sc
      simpa [mangle_type_to] using mangle_type_to_length val buf sc
  | .integer s w =>
      intro buf sc
      simp [mangle_type_to]
  | .pointer to_ =>
      intro buf sc
      have := mangle_type_to_length to_ (buf ++ ['P']) sc
      simp [mangle_type_to] at this ⊢; omega
  | .reference to_ =>
      intro buf sc
      have := mangle_type_to_length to_ (buf ++ ['R']) sc
      simp [mangle_type_to] at this ⊢; omega
  | .array of_ size =>
      intro buf sc
      have := mangle_type_to_length of_ (buf ++ ['A'] ++ format_Z size ++ ['E']) sc
      simp [mangle_type_to] at this ⊢; omega
  | .function r ps =>
      intro buf sc
      have h1 := mangle_type_to_length r (buf ++ ['F']) sc
      have h2 := mangle_params_length ps (mangle_type_to (buf ++ ['F']) sc r).1
        (mangle_type_to (buf ++ ['F']) sc r).2
      simp [mangle_type_to] at h1 h2 ⊢; omega
where
  mangle_params_length (ps : List (CStr × Ty)) : ∀ (buf : List Char) (sc : Nat),
      buf.length ≤ (mangle_type_to.mangle_params buf sc ps).1.length := by
    match ps with
    | [] => intro buf sc; simp [mangle_type_to.mangle_params]
    | p :: rest =>
        intro buf sc
        have h1 := mangle_type_to_length p.2 buf sc
        have h2 := mangle_params_length rest (mangle_type_to buf sc p.2).1
          (mangle_type_to buf sc p.2).2
        simp [mangle_type_to.mangle_params] at h1 h2 ⊢; omega

/-! ## The name mangler: claims -/

/-- C1 (as stated, refuted): mangling `foo : (a: s64, b: *u8) -> s64` does not give the
string `_XF3fooF3s64P3u8E`. -/
theorem mangle_foo_is_not_spec_string :
    foo_function.attr_nomangle = false ∧
    (mangle_function_name 0 foo_function).1.name ≠ "_XF3fooF3s64P3u8E".toList := by
  decide

/-- C1 (amended): every function named `foo` of type `(a: s64, b: *u8) -> s64` without the
no-mangle attribute is renamed to `_XF3fooF3s643s64P2u8E`: the signature holds the return
type `3s64`, then every parameter type (`3s64`, `P2u8`), then `E`. -/
theorem mangle_foo (function : IRFunction) (struct_count : Nat)
    (hname : function.name = "foo".toList) (htype : function.type = foo_type)
    (hattr : function.attr_nomangle = false) :
    (mangle_function_name struct_count function).1.name = "_XF3fooF3s643s64P2u8E".toList := by
  simp only [mangle_function_name, hname, htype, hattr]
  rfl

theorem mangle_foo_witness :
    foo_function.name = "foo".toList ∧ foo_function.type = foo_type ∧
    foo_function.attr_nomangle = false ∧
    (mangle_function_name 0 foo_function).1.name = "_XF3fooF3s643s64P2u8E".toList :=
  ⟨rfl, rfl, rfl, mangle_foo foo_function 0 rfl rfl rfl⟩

/-- C2: for a function without the no-mangle attribute whose type holds no anonymous struct,
`mangle_function_name` sets the name to `_XF`, the decimal length of the old name, the old
name and the recursive encoding of the type that the specification describes. -/
theorem mangle_function_name_eq_spec (function : IRFunction) (struct_count : Nat)
    (hattr : function.attr_nomangle = false)
    (hanon : has_anonymous_struct function.type = false) :
    (mangle_function_name struct_count function).1.name
      = "_XF".toList ++ spec_decimal function.name.length ++ function.name
          ++ spec_enc function.type := by
  simp [mangle_function_name, hattr, mangle_type_to_eq_spec _ _ _ hanon, spec_decimal_eq]

theorem mangle_function_name_eq_spec_witness :
    foo_function.attr_nomangle = false ∧ has_anonymous_struct foo_function.type = false ∧
    (mangle_function_name 0 foo_function).1.name
      = "_XF".toList ++ spec_decimal foo_function.name.length ++ foo_function.name
          ++ spec_enc foo_function.type :=
  ⟨rfl, rfl, mangle_function_name_eq_spec foo_function 0 rfl rfl⟩

/-- C3 (as stated, refuted): a resolved alias and its underlying type, and a primitive and
a struct of the same name, are well-formed trees without anonymous structs that differ and
yet have the same encoding. -/
theorem mangle_type_not_injective :
    (well_formed (.named "T".toList (some t_s64)) = true ∧ well_formed t_s64 = true ∧
      has_anonymous_struct (.named "T".toList (some t_s64)) = false ∧
      has_anonymous_struct t_s64 = false ∧
      (mangle_type_to [] 0 (.named "T".toList (some t_s64))).1 = (mangle_type_to [] 0 t_s64).1 ∧
      Ty.named "T".toList (some t_s64) ≠ t_s64) ∧
    (well_formed (.primitive "byte".toList) = true ∧ well_formed (.struct "byte".toList) = true ∧
      (mangle_type_to [] 0 (.primitive "byte".toList)).1
        = (mangle_type_to [] 0 (.struct "byte".toList)).1 ∧
      Ty.primitive "byte".toList ≠ Ty.struct "byte".toList) := by
  refine ⟨⟨by decide, by decide, by decide, by decide, by decide, ?_⟩,
    ⟨by decide, by decide, by decide, ?_⟩⟩
  · intro h; cases h
  · intro h; cases h

/-- C3 (amended): on well-formed type trees (names are identifiers, so no struct is
anonymous) two trees have the same encoding exactly when they have the same erased shape,
that is when they are equal after resolved aliases are replaced by their underlying type,
parameter names are dropped and primitives, named structs, unresolved aliases and integer
types are identified with their atom text. -/
theorem mangle_type_injective_up_to_erasure (t1 t2 : Ty) (buf : List Char) (struct_count : Nat)
    (h1 : well_formed t1 = true) (h2 : well_formed t2 = true) :
    (mangle_type_to buf struct_count t1).1 = (mangle_type_to buf struct_count t2).1
      ↔ erase t1 = erase t2 := by
  rw [mangle_type_to_eq_shape t1 buf struct_count h1, mangle_type_to_eq_shape t2 buf struct_count h2]
  constructor
  · intro h
    have h' : enc_shape (erase t1) ++ [] = enc_shape (erase t2) ++ [] := by
      simpa using h
    exact (enc_shape_prefix_free _ _ [] [] (erase_shape_ok t1 h1) (erase_shape_ok t2 h2) h').1
  · intro h
    simp [h]

theorem mangle_type_injective_up_to_erasure_witness :
    well_formed (.named "T".toList (some t_s64)) = true ∧ well_formed t_s64 = true ∧
    ((mangle_type_to [] 0 (.named "T".toList (some t_s64))).1 = (mangle_type_to [] 0 t_s64).1
      ↔ erase (.named "T".toList (some t_s64)) = erase t_s64) :=
  ⟨by decide, by decide,
    mangle_type_injective_up_to_erasure _ _ [] 0 (by decide) (by decide)⟩

/-- C4 (as stated, refuted): the mangled `foo` has a name that begins with `_XF`, and a
second run of the mangler changes it again. -/
theorem remangle_changes_name :
    (mangle_function_name 0 foo_function).1.name.take 3 = "_XF".toList ∧
    (mangle_function_name 0 (mangle_function_name 0 foo_function).1).1.name
      ≠ (mangle_function_name 0 foo_function).1.name := by
  decide

/-- C4 (amended): on a function whose name begins with `_XF`, `mangle_function_name` leaves
the name unchanged exactly when the function carries the no-mangle attribute; without the
attribute the name is mangled again. -/
theorem mangle_unchanged_iff_nomangle (function : IRFunction) (struct_count : Nat)
    (hstart : function.name.take 3 = "_XF".toList) :
    (mangle_function_name struct_count function).1.name = function.name
      ↔ function.attr_nomangle = true := by
  constructor
  · intro h
    by_contra hn
    have hattr : function.attr_nomangle = false := by simpa using hn
    have hlen := mangle_type_to_length function.type
      (['_', 'X', 'F'] ++ format_Z function.name.length ++ function.name) struct_count
    have := congrArg List.length h
    simp [mangle_function_name, hattr] at this hlen
    omega
  · intro h
    simp [mangle_function_name, h]

theorem mangle_unchanged_iff_nomangle_witness :
    (mangle_function_name 0 foo_function).1.name.take 3 = "_XF".toList ∧
    ((mangle_function_name 0 (mangle_function_name 0 foo_function).1).1.name
        = (mangle_function_name 0 foo_function).1.name
      ↔ (mangle_function_name 0 foo_function).1.attr_nomangle = true) :=
  ⟨by decide, mangle_unchanged_iff_nomangle _ 0 (by decide)⟩

/-- C5: on a function that carries the no-mangle attribute `mangle_function_name` changes
nothing: the function (name and every other field) and the counter are returned as given. -/
theorem mangle_nomangle_unchanged (function : IRFunction) (struct_count : Nat)
    (hattr : function.attr_nomangle = true) :
    mangle_function_name struct_count function = (function, struct_count) := by
  simp [mangle_function_name, hattr]

theorem mangle_nomangle_unchanged_witness :
    ({ foo_function with attr_nomangle := true } : IRFunction).attr_nomangle = true ∧
    mangle_function_name 0 { foo_function with attr_nomangle := true }
      = ({ foo_function with attr_nomangle := true }, 0) :=
  ⟨rfl, mangle_nomangle_unchanged _ 0 rfl⟩

/-! ## AST to IR lowering: claims -/

/-- C9 (the code departs from the claim): lowering a `for` whose body ends in a Return stops
with the rejected insertion into a closed block: `NODE_FOR` inserts its back edge without
the `ir_is_closed` test that `NODE_IF` and `NODE_WHILE` make. The same loop with an open body
and the `if` with a returning arm are lowered without error. -/
theorem for_with_return_body_inserts_into_closed_block :
    fatal_of (codegen_expr example_queries example_context for_with_return_body)
      = some .closed_block ∧
    fatal_of (codegen_expr example_queries example_context for_with_open_body) = none ∧
    fatal_of (codegen_expr example_queries example_context if_with_return_arm) = none := by
  decide!

/-! ## Lemmas on the frame of lowering -/

theorem block_last_eq (c : CodegenContext) (b : Nat) :
    block_last c b = ((block_instructions c b).bind (fun l => l.getLast?)).bind
      (fun i => c.instructions[i]?) := by
  unfold block_last block_instructions
  cases c.blocks[b]? with
  | none => rfl
  | some B =>
    simp only [Option.map_some', Option.some_bind]
    cases B.instructions.getLast? <;> rfl

theorem core_kind {x y : IRInstruction} (h : x.core = y.core) : x.kind = y.kind :=
  by have := congrArg IRInstruction.kind h; exact this

theorem core_dest {x y : IRInstruction} (h : x.core = y.core) : x.dest = y.dest :=
  by have := congrArg IRInstruction.dest h; exact this

theorem core_parent {x y : IRInstruction} (h : x.core = y.core) :
    x.parent_block = y.parent_block :=
  by have := congrArg IRInstruction.parent_block h; exact this

theorem core_phi_args {x y : IRInstruction} (h : x.core = y.core) : x.phi_args = y.phi_args :=
  by have := congrArg IRInstruction.phi_args h; exact this

/-- An instruction that exists keeps its core: read as a statement on lookups. -/
theorem core_lookup {c c' : CodegenContext} {i : Nat} {x : IRInstruction}
    (h : (c'.instructions[i]?).map IRInstruction.core = (c.instructions[i]?).map IRInstruction.core)
    (hx : c.instructions[i]? = some x) :
    ∃ x', c'.instructions[i]? = some x' ∧ x'.core = x.core := by
  rw [hx] at h
  cases h' : c'.instructions[i]? with
  | none => rw [h'] at h; simp at h
  | some x' =>
    rw [h'] at h
    exact ⟨x', rfl, by simpa using h⟩

/-- The last instruction of a block whose instruction list is kept, in a context that
keeps the cores of the instructions. -/
theorem block_last_kept {c c' : CodegenContext} {b : Nat} {t : IRInstruction}
    (hb : block_instructions c' b = block_instructions c b)
    (hi : ∀ i, i < c.instructions.length →
      (c'.instructions[i]?).map IRInstruction.core = (c.instructions[i]?).map IRInstruction.core)
    (ht : block_last c b = some t) :
    ∃ t', block_last c' b = some t' ∧ t'.core = t.core := by
  rw [block_last_eq] at ht ⊢
  rw [hb]
  cases hl : block_instructions c b with
  | none => rw [hl] at ht; simp at ht
  | some l =>
    rw [hl] at ht
    simp only [Option.some_bind] at ht ⊢
    cases hg : l.getLast? with
    | none => rw [hg] at ht; simp at ht
    | some i =>
      rw [hg] at ht
      simp only [Option.some_bind] at ht ⊢
      have hlt : i < c.instructions.length := by
        by_contra hcon
        rw [List.getElem?_eq_none (by omega)] at ht
        exact Option.noConfusion ht
      exact core_lookup (hi i hlt) ht

theorem closed_kept {c c' : CodegenContext} {b : Nat}
    (hb : block_instructions c' b = block_instructions c b)
    (hi : ∀ i, i < c.instructions.length →
      (c'.instructions[i]?).map IRInstruction.core = (c.instructions[i]?).map IRInstruction.core)
    (hc : ir_is_closed c b = true) : ir_is_closed c' b = true := by
  unfold ir_is_closed at hc ⊢
  cases ht : block_last c b with
  | none => rw [ht] at hc; simp at hc
  | some t =>
    rw [ht] at hc
    obtain ⟨t', ht', hcore⟩ := block_last_kept hb hi ht
    rw [ht']
    simpa [core_kind hcore] using hc

theorem block_instructions_lt {c : CodegenContext} {b : Nat} {l : List Nat}
    (h : block_instructions c b = some l) : b < c.blocks.length := by
  unfold block_instructions at h
  by_contra hcon
  rw [List.getElem?_eq_none (by omega)] at h
  simp at h

theorem block_last_lt {c : CodegenContext} {b : Nat} {t : IRInstruction}
    (h : block_last c b = some t) : b < c.blocks.length := by
  rw [block_last_eq] at h
  cases hl : block_instructions c b with
  | none => rw [hl] at h; simp at h
  | some l => exact block_instructions_lt hl

theorem Reaches.refl_reaches (c : CodegenContext) (hv : c.insert_point < c.blocks.length) :
    Reaches c c :=
  { blocks_le := Nat.le_refl _
    insts_le := Nat.le_refl _
    frozen := fun _ _ _ => rfl
    grown := fun l hl => ⟨l, hl, List.prefix_refl l, fun _ => rfl⟩
    insts := fun _ _ => rfl
    next := Or.inl rfl
    valid := hv }

theorem Reaches.trans {c0 c1 c2 : CodegenContext} (hv : c0.insert_point < c0.blocks.length)
    (h1 : Reaches c0 c1) (h2 : Reaches c1 c2) : Reaches c0 c2 := by
  have hinsts : ∀ i, i < c0.instructions.length →
      (c2.instructions[i]?).map IRInstruction.core
        = (c0.instructions[i]?).map IRInstruction.core := by
    intro i hi
    rw [h2.insts i (by have := h1.insts_le; omega), h1.insts i hi]
  refine
    { blocks_le := Nat.le_trans h1.blocks_le h2.blocks_le
      insts_le := Nat.le_trans h1.insts_le h2.insts_le
      frozen := ?_
      grown := ?_
      insts := hinsts
      next := ?_
      valid := h2.valid }
  · intro b hb hne
    have hne1 : b ≠ c1.insert_point := by
      rcases h1.next with h | h
      · rw [h]; exact hne
      · omega
    rw [h2.frozen b (by have := h1.blocks_le; omega) hne1, h1.frozen b hb hne]
  · intro l hl
    obtain ⟨l1, hl1, hp1, hc1⟩ := h1.grown l hl
    rcases h1.next with h | h
    · have hl1' : block_instructions c1 c1.insert_point = some l1 := by rw [h]; exact hl1
      obtain ⟨l2, hl2, hp2, hc2⟩ := h2.grown l1 hl1'
      rw [h] at hl2
      refine ⟨l2, hl2, List.IsPrefix.trans hp1 hp2, ?_⟩
      intro hclosed
      have e1 := hc1 hclosed
      have hclosed1 : ir_is_closed c1 c1.insert_point = true := by
        rw [h]
        exact closed_kept (by rw [hl1, e1, hl]) h1.insts hclosed
      rw [hc2 hclosed1, e1]
    · have hne : c0.insert_point ≠ c1.insert_point := by omega
      have := h2.frozen c0.insert_point (by have := h1.blocks_le; omega) hne
      refine ⟨l1, by rw [this, hl1], hp1, hc1⟩
  · rcases h2.next with h | h
    · rw [h]; exact h1.next
    · right
      have := h1.blocks_le
      omega

/-! ### Steps of lowering and the frame -/

theorem bind_ok {α β : Type} {x : Except Fatal α} {f : α → Except Fatal β} {b : β}
    (h : (x >>= f) = .ok b) : ∃ a, x = .ok a ∧ f a = .ok b := by
  cases x with
  | error e => exact Except.noConfusion h
  | ok a => exact ⟨a, rfl, h⟩

theorem pure_ok {α : Type} {a b : α} (h : (pure a : Except Fatal α) = .ok b) : a = b := by
  cases h; rfl

theorem block_instructions_congr {c c' : CodegenContext} (h : c'.blocks = c.blocks) (b : Nat) :
    block_instructions c' b = block_instructions c b := by
  unfold block_instructions; rw [h]

theorem block_last_congr {c c' : CodegenContext} (hb : c'.blocks = c.blocks)
    (hi : c'.instructions = c.instructions) (b : Nat) : block_last c' b = block_last c b := by
  unfold block_last; rw [hb, hi]

theorem ir_is_closed_congr {c c' : CodegenContext} (hb : c'.blocks = c.blocks)
    (hi : c'.instructions = c.instructions) (b : Nat) : ir_is_closed c' b = ir_is_closed c b := by
  unfold ir_is_closed; rw [block_last_congr hb hi]

/-- A change of the context that touches neither blocks nor instructions nor the insertion
point keeps the frame. -/
theorem Reaches.congr_reaches {c0 c c' : CodegenContext} (h : Reaches c0 c) (hb : c'.blocks = c.blocks)
    (hi : c'.instructions = c.instructions) (hp : c'.insert_point = c.insert_point) :
    Reaches c0 c' :=
  { blocks_le := by rw [hb]; exact h.blocks_le
    insts_le := by rw [hi]; exact h.insts_le
    frozen := fun b h1 h2 => by rw [block_instructions_congr hb]; exact h.frozen b h1 h2
    grown := fun l hl => by
      obtain ⟨l', h1, h2⟩ := h.grown l hl
      exact ⟨l', by rw [block_instructions_congr hb]; exact h1, h2⟩
    insts := fun i hlt => by rw [hi]; exact h.insts i hlt
    next := by rw [hp]; exact h.next
    valid := by rw [hp, hb]; exact h.valid }

theorem PhiArgsClosed.congr_phis {c c' : CodegenContext} (h : PhiArgsClosed c)
    (hb : c'.blocks = c.blocks) (hi : c'.instructions = c.instructions) : PhiArgsClosed c' := by
  intro p x hx hk a ha
  rw [hi] at hx
  obtain ⟨t, ht, hd⟩ := h p x hx hk a ha
  exact ⟨t, by rw [block_last_congr hb hi]; exact ht, hd⟩

theorem ReturnOrOpen.congr_open {c c' : CodegenContext} (h : ReturnOrOpen c)
    (hb : c'.blocks = c.blocks) (hi : c'.instructions = c.instructions)
    (hp : c'.insert_point = c.insert_point) : ReturnOrOpen c' := by
  intro x hx
  rw [block_last_congr hb hi, hp] at hx
  exact h x hx

theorem CoreStep.block_last_core {c c' : CodegenContext} (h : CoreStep c c') {b : Nat}
    {t : IRInstruction} (ht : Intercept.block_last c b = some t) :
    ∃ t', Intercept.block_last c' b = some t' ∧ t'.core = t.core :=
  block_last_kept (block_instructions_congr h.blocks b) (fun i _ => h.cores i) ht

theorem CoreStep.symm {c c' : CodegenContext} (h : CoreStep c c') : CoreStep c' c :=
  { blocks := h.blocks.symm, point := h.point.symm, length := h.length.symm
    cores := fun i => (h.cores i).symm }

theorem CoreStep.reaches_core {c0 c c' : CodegenContext} (h : CoreStep c c') (hr : Reaches c0 c) :
    Reaches c0 c' :=
  { blocks_le := by rw [h.blocks]; exact hr.blocks_le
    insts_le := by rw [h.length]; exact hr.insts_le
    frozen := fun b h1 h2 => by rw [block_instructions_congr h.blocks]; exact hr.frozen b h1 h2
    grown := fun l hl => by
      obtain ⟨l', h1, h2⟩ := hr.grown l hl
      exact ⟨l', by rw [block_instructions_congr h.blocks]; exact h1, h2⟩
    insts := fun i hlt => by rw [h.cores i]; exact hr.insts i hlt
    next := by rw [h.point]; exact hr.next
    valid := by rw [h.point, h.blocks]; exact hr.valid }

theorem CoreStep.phi_core {c c' : CodegenContext} (h : CoreStep c c') (hp : PhiArgsClosed c) :
    PhiArgsClosed c' := by
  intro p x' hx' hk a ha
  obtain ⟨x, hx, hcore⟩ := core_lookup (h.symm.cores p) hx'
  have hk' : x.kind = .IR_PHI := by rw [core_kind hcore]; exact hk
  have ha' : a ∈ x.phi_args := by rw [core_phi_args hcore]; exact ha
  obtain ⟨t, ht, hd⟩ := hp p x hx hk' a ha'
  obtain ⟨t', ht', hc'⟩ := h.block_last_core ht
  refine ⟨t', ht', ?_⟩
  rw [core_kind hc', core_dest hc', ← core_parent hcore]
  exact hd

theorem CoreStep.return_or_open_core {c c' : CodegenContext} (h : CoreStep c c')
    (hr : ReturnOrOpen c) : ReturnOrOpen c' := by
  intro t' ht' hterm
  rw [h.point] at ht'
  obtain ⟨t, ht, hc⟩ := h.symm.block_last_core ht'
  rw [← core_kind hc]
  exact hr t ht (by rw [core_kind hc]; exact hterm)

theorem core_step_set {c : CodegenContext} {j : Nat} {x y : IRInstruction}
    (hx : c.instructions[j]? = some x) (hy : y.core = x.core) :
    CoreStep c { c with instructions := c.instructions.set j y } :=
  { blocks := rfl
    point := rfl
    length := by simp
    cores := fun i => by
      by_cases hij : j = i
      · subst hij
        have hlt : j < c.instructions.length := by
          by_contra hcon
          rw [List.getElem?_eq_none (by omega)] at hx
          exact Option.noConfusion hx
        simp [List.getElem?_set, hlt, hx, hy]
      · simp [List.getElem?_set, hij] }

theorem core_step_refl (c : CodegenContext) : CoreStep c c :=
  { blocks := rfl, point := rfl, length := rfl, cores := fun _ => rfl }

theorem ir_set_type_core {c c' : CodegenContext} {inst : Option Nat} {ty : Ty}
    (h : ir_set_type c inst ty = .ok c') : CoreStep c c' := by
  unfold ir_set_type at h
  cases inst with
  | none => exact Except.noConfusion h
  | some j =>
    simp only at h
    cases hx : c.instructions[j]? with
    | none => rw [hx] at h; exact Except.noConfusion h
    | some x =>
      rw [hx] at h
      cases h
      exact core_step_set hx rfl

theorem ir_call_add_arg_core (c : CodegenContext) (call : Nat) (arg : Option Nat) :
    CoreStep c (ir_call_add_arg c call arg) := by
  unfold ir_call_add_arg
  cases hx : c.instructions[call]? with
  | none => exact core_step_refl c
  | some x => exact core_step_set hx rfl

theorem ir_call_force_inline_core {c c' : CodegenContext} {call : Option Nat} {force : Bool}
    (h : ir_call_force_inline c call force = .ok c') : CoreStep c c' := by
  unfold ir_call_force_inline at h
  cases call with
  | none => exact Except.noConfusion h
  | some j =>
    simp only at h
    cases hx : c.instructions[j]? with
    | none => rw [hx] at h; exact Except.noConfusion h
    | some x =>
      rw [hx] at h
      cases h
      exact core_step_set hx rfl

/-! ### Insertion, block creation and attachment -/

theorem ir_insert_new_inserted {c : CodegenContext} {x : IRInstruction}
    {r : CodegenContext × Nat} (h : ir_insert_new c x = .ok r) : Inserted c x r.1 r.2 := by
  unfold ir_insert_new at h
  split at h
  · exact Except.noConfusion h
  · rename_i hopen
    split at h
    · exact Except.noConfusion h
    · rename_i B hB
      cases h
      have hlt : c.insert_point < c.blocks.length := by
        by_contra hcon
        rw [List.getElem?_eq_none (by omega)] at hB
        exact Option.noConfusion hB
      exact
        { index := rfl
          was_open := by simpa using hopen
          point := rfl
          blocks_length := by simp
          instructions := rfl
          block_at := ⟨B.instructions, by simp [block_instructions, hB],
            by simp [block_instructions, List.getElem?_set, hlt]⟩
          block_other := fun b hb => by
            simp [block_instructions, List.getElem?_set, Ne.symm hb]
          node_ir := rfl
          node_address := rfl
          node_emitted := rfl
          functions := rfl
          function := rfl }

theorem Inserted.lookup_old {c c' : CodegenContext} {x : IRInstruction} {i : Nat}
    (h : Inserted c x c' i) {j : Nat} (hj : j < c.instructions.length) :
    c'.instructions[j]? = c.instructions[j]? := by
  rw [h.instructions, List.getElem?_append_left hj]

theorem Inserted.lookup_new {c c' : CodegenContext} {x : IRInstruction} {i : Nat}
    (h : Inserted c x c' i) :
    c'.instructions[i]? = some { x with parent_block := some c.insert_point } := by
  rw [h.instructions, h.index]
  simp

theorem Inserted.length {c c' : CodegenContext} {x : IRInstruction} {i : Nat}
    (h : Inserted c x c' i) : c'.instructions.length = c.instructions.length + 1 := by
  rw [h.instructions]; simp

/-- The last instruction of a block before the insertion is what it was. -/
theorem Inserted.block_last_other {c c' : CodegenContext} {x : IRInstruction} {i : Nat}
    (h : Inserted c x c' i) {b : Nat} (hb : b ≠ c.insert_point) {t : IRInstruction}
    (ht : block_last c b = some t) : block_last c' b = some t := by
  rw [block_last_eq] at ht ⊢
  rw [h.block_other b hb]
  cases hl : block_instructions c b with
  | none => rw [hl] at ht; simp at ht
  | some l =>
    rw [hl] at ht
    simp only [Option.some_bind] at ht ⊢
    cases hg : l.getLast? with
    | none => rw [hg] at ht; simp at ht
    | some j =>
      rw [hg] at ht
      simp only [Option.some_bind] at ht ⊢
      have hlt : j < c.instructions.length := by
        by_contra hcon
        rw [List.getElem?_eq_none (by omega)] at ht
        exact Option.noConfusion ht
      rw [h.lookup_old hlt]
      exact ht

/-- The last instruction of the block at the insertion point is the inserted one. -/
theorem Inserted.block_last_at {c c' : CodegenContext} {x : IRInstruction} {i : Nat}
    (h : Inserted c x c' i) :
    block_last c' c.insert_point = some { x with parent_block := some c.insert_point } := by
  obtain ⟨l, _, hl'⟩ := h.block_at
  rw [block_last_eq, hl']
  simp only [Option.some_bind, List.getLast?_append, List.getLast?_singleton, Option.or_some]
  exact h.lookup_new

theorem Inserted.reaches_inserted {c0 c c' : CodegenContext} {x : IRInstruction} {i : Nat}
    (h : Inserted c x c' i) (hv : c0.insert_point < c0.blocks.length) (hr : Reaches c0 c) :
    Reaches c0 c' := by
  refine
    { blocks_le := by rw [h.blocks_length]; exact hr.blocks_le
      insts_le := by rw [h.length]; have := hr.insts_le; omega
      frozen := ?_
      grown := ?_
      insts := ?_
      next := by rw [h.point]; exact hr.next
      valid := by rw [h.point, h.blocks_length]; exact hr.valid }
  · intro b hb hne
    have : b ≠ c.insert_point := by
      rcases hr.next with e | e
      · rw [e]; exact hne
      · omega
    rw [h.block_other b this, hr.frozen b hb hne]
  · intro l hl
    obtain ⟨l1, hl1, hp1, hc1⟩ := hr.grown l hl
    rcases hr.next with e | e
    · obtain ⟨l2, hl2, hl2'⟩ := h.block_at
      rw [e] at hl2 hl2'
      rw [hl1] at hl2
      cases hl2
      refine ⟨l1 ++ [i], hl2', List.IsPrefix.trans hp1 (List.prefix_append l1 [i]), ?_⟩
      intro hclosed
      exfalso
      have hcl : ir_is_closed c c.insert_point = true := by
        rw [e]
        exact closed_kept (by rw [hl1, hc1 hclosed, hl]) hr.insts hclosed
      rw [h.was_open] at hcl
      exact Bool.noConfusion hcl
    · have : c0.insert_point ≠ c.insert_point := by omega
      exact ⟨l1, by rw [h.block_other _ this, hl1], hp1, hc1⟩
  · intro j hj
    rw [h.lookup_old (by have := hr.insts_le; omega)]
    exact hr.insts j hj

theorem Inserted.phi_inserted {c c' : CodegenContext} {x : IRInstruction} {i : Nat}
    (h : Inserted c x c' i) (hx : x.phi_args = []) (hp : PhiArgsClosed c) :
    PhiArgsClosed c' := by
  intro p y hy hk a ha
  by_cases hlt : p < c.instructions.length
  · rw [h.lookup_old hlt] at hy
    obtain ⟨t, ht, hd⟩ := hp p y hy hk a ha
    have hne : a.1 ≠ c.insert_point := by
      intro e
      have hcl : ir_is_closed c c.insert_point = true := by
        unfold ir_is_closed
        rw [← e, ht]
        rcases hd with hd | hd
        · simp [hd.1, is_terminator]
        · simp [hd, is_terminator]
      rw [h.was_open] at hcl
      exact Bool.noConfusion hcl
    exact ⟨t, h.block_last_other hne ht, hd⟩
  · have hpe : p = i := by
      have hlt' : p < c'.instructions.length := by
        by_contra hcon
        rw [List.getElem?_eq_none (by omega)] at hy
        exact Option.noConfusion hy
      rw [h.length] at hlt'
      rw [h.index]
      omega
    rw [hpe, h.lookup_new] at hy
    cases hy
    simp [hx] at ha

theorem Inserted.return_or_open_inserted {c c' : CodegenContext} {x : IRInstruction} {i : Nat}
    (h : Inserted c x c' i) (hx : is_terminator x.kind = true → x.kind = .IR_RETURN) :
    ReturnOrOpen c' := by
  intro t ht hterm
  rw [h.point, h.block_last_at] at ht
  cases ht
  exact hx hterm

theorem Inserted.closed_inserted {c c' : CodegenContext} {x : IRInstruction} {i : Nat}
    (h : Inserted c x c' i) : ir_is_closed c' c.insert_point = is_terminator x.kind := by
  unfold ir_is_closed
  rw [h.block_last_at]

/-! Blocks. -/

theorem ir_block_instructions (c : CodegenContext) (b : Nat) :
    block_instructions (ir_block c).1 b
      = if b = c.blocks.length then some [] else block_instructions c b := by
  unfold block_instructions ir_block
  by_cases h : b = c.blocks.length
  · subst h; simp
  · by_cases h2 : b < c.blocks.length
    · simp [List.getElem?_append_left h2, h]
    · have h3 : c.blocks.length < b := by omega
      rw [List.getElem?_eq_none (by simp; omega), List.getElem?_eq_none (by omega)]
      simp [h]

theorem ir_block_last (c : CodegenContext) {b : Nat} (hb : b < c.blocks.length) :
    block_last (ir_block c).1 b = block_last c b := by
  rw [block_last_eq, block_last_eq, ir_block_instructions]
  have : b ≠ c.blocks.length := by omega
  simp only [this, if_false]
  rfl

theorem ir_block_reaches {c0 c : CodegenContext} (hr : Reaches c0 c) :
    Reaches c0 (ir_block c).1 :=
  { blocks_le := by simp [ir_block]; have := hr.blocks_le; omega
    insts_le := hr.insts_le
    frozen := fun b h1 h2 => by
      have := hr.blocks_le
      rw [ir_block_instructions, if_neg (by omega)]
      exact hr.frozen b h1 h2
    grown := fun l hl => by
      obtain ⟨l', h1, h2⟩ := hr.grown l hl
      have := block_instructions_lt h1
      exact ⟨l', by rw [ir_block_instructions, if_neg (by omega)]; exact h1, h2⟩
    insts := hr.insts
    next := hr.next
    valid := by simp [ir_block]; have := hr.valid; omega }

theorem ir_block_phi {c : CodegenContext} (hp : PhiArgsClosed c) :
    PhiArgsClosed (ir_block c).1 := by
  intro p x hx hk a ha
  obtain ⟨t, ht, hd⟩ := hp p x hx hk a ha
  exact ⟨t, by rw [ir_block_last c (block_last_lt ht)]; exact ht, hd⟩

theorem ir_block_attach_instructions (c : CodegenContext) (block b : Nat) :
    block_instructions (ir_block_attach c block) b = block_instructions c b := by
  unfold block_instructions ir_block_attach
  simp only
  cases hB : c.blocks[block]? with
  | none => rfl
  | some B =>
    have hlt : block < c.blocks.length := by
      by_contra hcon
      rw [List.getElem?_eq_none (by omega)] at hB
      exact Option.noConfusion hB
    by_cases e : block = b
    · subst e
      simp [List.getElem?_set, hlt, hB]
    · simp [List.getElem?_set, e]

theorem ir_block_attach_blocks_length (c : CodegenContext) (block : Nat) :
    (ir_block_attach c block).blocks.length = c.blocks.length := by
  unfold ir_block_attach
  simp only
  cases c.blocks[block]? <;> simp

theorem ir_block_attach_last (c : CodegenContext) (block b : Nat) :
    block_last (ir_block_attach c block) b = block_last c b := by
  rw [block_last_eq, block_last_eq, ir_block_attach_instructions]
  rfl

theorem ir_block_attach_reaches {c0 c : CodegenContext} {block : Nat} (hr : Reaches c0 c)
    (h1 : c0.blocks.length ≤ block) (h2 : block < c.blocks.length) :
    Reaches c0 (ir_block_attach c block) :=
  { blocks_le := by rw [ir_block_attach_blocks_length]; exact hr.blocks_le
    insts_le := hr.insts_le
    frozen := fun b hb hne => by rw [ir_block_attach_instructions]; exact hr.frozen b hb hne
    grown := fun l hl => by
      obtain ⟨l', h1, h2⟩ := hr.grown l hl
      exact ⟨l', by rw [ir_block_attach_instructions]; exact h1, h2⟩
    insts := hr.insts
    next := Or.inr h1
    valid := by rw [ir_block_attach_blocks_length]; exact h2 }

theorem ir_block_attach_phi {c : CodegenContext} (block : Nat) (hp : PhiArgsClosed c) :
    PhiArgsClosed (ir_block_attach c block) := by
  intro p x hx hk a ha
  obtain ⟨t, ht, hd⟩ := hp p x hx hk a ha
  exact ⟨t, by rw [ir_block_attach_last]; exact ht, hd⟩

/-- Attaching an empty block leaves an open insertion point. -/
theorem ir_block_attach_open {c : CodegenContext} {block : Nat}
    (h : block_instructions c block = some []) :
    ReturnOrOpen (ir_block_attach c block) := by
  intro t ht
  have hp : (ir_block_attach c block).insert_point = block := rfl
  rw [hp, ir_block_attach_last, block_last_eq, h] at ht
  simp at ht

/-! ### Creation of instructions, insertion of an existing instruction -/

theorem ir_create_lookup_old (c : CodegenContext) (x : IRInstruction) {j : Nat}
    (hj : j < c.instructions.length) :
    (ir_create c x).1.instructions[j]? = c.instructions[j]? := by
  simp [ir_create, List.getElem?_append_left hj]

theorem ir_create_lookup_new (c : CodegenContext) (x : IRInstruction) :
    (ir_create c x).1.instructions[(ir_create c x).2]? = some x := by
  simp [ir_create]

theorem ir_create_block_last (c : CodegenContext) (x : IRInstruction) {b : Nat}
    {t : IRInstruction} (ht : block_last c b = some t) :
    block_last (ir_create c x).1 b = some t := by
  rw [block_last_eq] at ht ⊢
  have hb : block_instructions (ir_create c x).1 b = block_instructions c b := rfl
  rw [hb]
  cases hl : block_instructions c b with
  | none => rw [hl] at ht; simp at ht
  | some l =>
    rw [hl] at ht
    simp only [Option.some_bind] at ht ⊢
    cases hg : l.getLast? with
    | none => rw [hg] at ht; simp at ht
    | some j =>
      rw [hg] at ht
      simp only [Option.some_bind] at ht ⊢
      have hlt : j < c.instructions.length := by
        by_contra hcon
        rw [List.getElem?_eq_none (by omega)] at ht
        exact Option.noConfusion ht
      rw [ir_create_lookup_old c x hlt]
      exact ht

theorem ir_create_reaches {c0 c : CodegenContext} (x : IRInstruction) (hr : Reaches c0 c) :
    Reaches c0 (ir_create c x).1 :=
  { blocks_le := hr.blocks_le
    insts_le := by simp [ir_create]; have := hr.insts_le; omega
    frozen := hr.frozen
    grown := hr.grown
    insts := fun j hj => by
      rw [ir_create_lookup_old c x (by have := hr.insts_le; omega)]
      exact hr.insts j hj
    next := hr.next
    valid := hr.valid }

theorem ir_create_phi {c : CodegenContext} (x : IRInstruction) (hx : x.phi_args = [])
    (hp : PhiArgsClosed c) : PhiArgsClosed (ir_create c x).1 := by
  intro p y hy hk a ha
  by_cases hlt : p < c.instructions.length
  · rw [ir_create_lookup_old c x hlt] at hy
    obtain ⟨t, ht, hd⟩ := hp p y hy hk a ha
    exact ⟨t, ir_create_block_last c x ht, hd⟩
  · have hpe : p = c.instructions.length := by
      have hlt' : p < (ir_create c x).1.instructions.length := by
        by_contra hcon
        rw [List.getElem?_eq_none (by omega)] at hy
        exact Option.noConfusion hy
      simp [ir_create] at hlt'
      omega
    have := ir_create_lookup_new c x
    rw [show (ir_create c x).2 = c.instructions.length from rfl, ← hpe, hy] at this
    cases this
    simp [hx] at ha

theorem ir_create_return_or_open {c : CodegenContext} (x : IRInstruction)
    (hx : is_terminator x.kind = false) (hr : ReturnOrOpen c) :
    ReturnOrOpen (ir_create c x).1 := by
  intro t ht hterm
  have hp : (ir_create c x).1.insert_point = c.insert_point := rfl
  rw [hp, block_last_eq] at ht
  have hb : block_instructions (ir_create c x).1 c.insert_point
      = block_instructions c c.insert_point := rfl
  rw [hb] at ht
  cases hl : block_instructions c c.insert_point with
  | none => rw [hl] at ht; simp at ht
  | some l =>
    rw [hl] at ht
    simp only [Option.some_bind] at ht
    cases hg : l.getLast? with
    | none => rw [hg] at ht; simp at ht
    | some j =>
      rw [hg] at ht
      simp only [Option.some_bind] at ht
      by_cases hlt : j < c.instructions.length
      · rw [ir_create_lookup_old c x hlt] at ht
        refine hr t ?_ hterm
        rw [block_last_eq, hl]
        simp only [Option.some_bind, hg]
        exact ht
      · have hlt' : j < (ir_create c x).1.instructions.length := by
          by_contra hcon
          rw [List.getElem?_eq_none (by omega)] at ht
          exact Option.noConfusion ht
        have hje : j = (ir_create c x).2 := by
          simp [ir_create] at hlt' ⊢
          omega
        rw [hje, ir_create_lookup_new] at ht
        cases ht
        rw [hx] at hterm
        exact Bool.noConfusion hterm

/-- What `ir_insert` does to a context when it succeeds. -/
theorem ir_insert_ok {c c' : CodegenContext} {j : Nat} (h : ir_insert c j = .ok c') :
    ir_is_closed c c.insert_point = false ∧ c'.insert_point = c.insert_point ∧
    c'.blocks.length = c.blocks.length ∧ c'.instructions.length = c.instructions.length ∧
    (∃ l, block_instructions c c.insert_point = some l ∧
      block_instructions c' c.insert_point = some (l ++ [j])) ∧
    (∀ b, b ≠ c.insert_point → block_instructions c' b = block_instructions c b) ∧
    (∀ i, i ≠ j → c'.instructions[i]? = c.instructions[i]?) ∧
    (∀ x, c.instructions[j]? = some x →
      c'.instructions[j]? = some { x with parent_block := some c.insert_point }) := by
  unfold ir_insert at h
  split at h
  · exact Except.noConfusion h
  · rename_i hopen
    split at h
    · exact Except.noConfusion h
    · rename_i B hB
      cases h
      have hlt : c.insert_point < c.blocks.length := by
        by_contra hcon
        rw [List.getElem?_eq_none (by omega)] at hB
        exact Option.noConfusion hB
      refine ⟨by simpa using hopen, rfl, by simp, ?_, ?_, ?_, ?_, ?_⟩
      · simp only
        cases c.instructions[j]? <;> simp
      · exact ⟨B.instructions, by simp [block_instructions, hB],
          by simp [block_instructions, List.getElem?_set, hlt]⟩
      · intro b hb
        simp [block_instructions, List.getElem?_set, Ne.symm hb]
      · intro i hi
        simp only
        cases c.instructions[j]? with
        | none => rfl
        | some x => simp [List.getElem?_set, Ne.symm hi]
      · intro x hx
        have hj : j < c.instructions.length := by
          by_contra hcon
          rw [List.getElem?_eq_none (by omega)] at hx
          exact Option.noConfusion hx
        simp [hx, List.getElem?_set, hj]

/-! ### Contexts within a lowering -/

theorem Within.refl_within {c : CodegenContext} (hv : c.insert_point < c.blocks.length)
    (hp : PhiArgsClosed c) : Within c c :=
  { reaches := Reaches.refl_reaches c hv, phi := hp, open_ := fun h => h }

theorem Within.sub_within {c0 c c' : CodegenContext} {k : Lowering} (h : Within c0 c)
    (hv : c0.insert_point < c0.blocks.length) (hk : Sound k) (e : k c = .ok c') :
    Within c0 c' :=
  have w := hk c c' h.reaches.valid h.phi e
  { reaches := Reaches.trans hv h.reaches w.reaches
    phi := w.phi
    open_ := fun o => w.open_ (h.open_ o) }

theorem Within.inserted_within {c0 c c' : CodegenContext} {x : IRInstruction} {i : Nat}
    (h : Within c0 c) (hv : c0.insert_point < c0.blocks.length) (hi : Inserted c x c' i)
    (hx : x.phi_args = []) (ht : is_terminator x.kind = true → x.kind = .IR_RETURN) :
    Within c0 c' :=
  { reaches := hi.reaches_inserted hv h.reaches
    phi := hi.phi_inserted hx h.phi
    open_ := fun _ => hi.return_or_open_inserted ht }

theorem Within.congr_within {c0 c c' : CodegenContext} (h : Within c0 c) (hb : c'.blocks = c.blocks)
    (hi : c'.instructions = c.instructions) (hp : c'.insert_point = c.insert_point) :
    Within c0 c' :=
  { reaches := h.reaches.congr_reaches hb hi hp
    phi := h.phi.congr_phis hb hi
    open_ := fun o => (h.open_ o).congr_open hb hi hp }

theorem Within.core {c0 c c' : CodegenContext} (h : Within c0 c) (hs : CoreStep c c') :
    Within c0 c' :=
  { reaches := hs.reaches_core h.reaches
    phi := hs.phi_core h.phi
    open_ := fun o => hs.return_or_open_core (h.open_ o) }

theorem Within.created {c0 c : CodegenContext} (h : Within c0 c) (x : IRInstruction)
    (hx : x.phi_args = []) (hk : is_terminator x.kind = false) :
    Within c0 (ir_create c x).1 :=
  { reaches := ir_create_reaches x h.reaches
    phi := ir_create_phi x hx h.phi
    open_ := fun o => ir_create_return_or_open x hk (h.open_ o) }

theorem Within.insert_old {c0 c c' : CodegenContext} {j : Nat} (h : Within c0 c)
    (hv : c0.insert_point < c0.blocks.length) (e : ir_insert c j = .ok c')
    (hj : c0.instructions.length ≤ j)
    (hx : ∀ x, c.instructions[j]? = some x → x.phi_args = [] ∧ is_terminator x.kind = false) :
    Within c0 c' := by
  obtain ⟨hopen, hpoint, hbl, hil, ⟨l, hl, hl'⟩, hother, hold, hnew⟩ := ir_insert_ok e
  have hr := h.reaches
  -- the last instruction of a block other than the insertion point keeps kind and dest
  have hlast : ∀ b t, b ≠ c.insert_point → block_last c b = some t →
      ∃ t', block_last c' b = some t' ∧ t'.kind = t.kind ∧ t'.dest = t.dest := by
    intro b t hb ht
    rw [block_last_eq] at ht ⊢
    rw [hother b hb]
    cases hbl' : block_instructions c b with
    | none => rw [hbl'] at ht; simp at ht
    | some lb =>
      rw [hbl'] at ht
      simp only [Option.some_bind] at ht ⊢
      cases hg : lb.getLast? with
      | none => rw [hg] at ht; simp at ht
      | some i =>
        rw [hg] at ht
        simp only [Option.some_bind] at ht ⊢
        by_cases hij : i = j
        · subst hij
          exact ⟨_, hnew t ht, rfl, rfl⟩
        · exact ⟨t, by rw [hold i hij]; exact ht, rfl, rfl⟩
  refine ⟨?_, ?_, ?_⟩
  · refine
      { blocks_le := by rw [hbl]; exact hr.blocks_le
        insts_le := by rw [hil]; exact hr.insts_le
        frozen := ?_
        grown := ?_
        insts := ?_
        next := by rw [hpoint]; exact hr.next
        valid := by rw [hpoint, hbl]; exact hr.valid }
    · intro b hb hne
      have : b ≠ c.insert_point := by
        rcases hr.next with e' | e'
        · rw [e']; exact hne
        · omega
      rw [hother b this, hr.frozen b hb hne]
    · intro l0 hl0
      obtain ⟨l1, hl1, hp1, hc1⟩ := hr.grown l0 hl0
      rcases hr.next with e' | e'
      · rw [e'] at hl hl'
        have hll : l = l1 := by
          rw [hl1] at hl
          exact (Option.some.inj hl).symm
        rw [hll] at hl'
        refine ⟨l1 ++ [j], hl', List.IsPrefix.trans hp1 (List.prefix_append l1 [j]), ?_⟩
        intro hclosed
        exfalso
        have hcl : ir_is_closed c c.insert_point = true := by
          rw [e']
          exact closed_kept (by rw [hl1, hc1 hclosed, hl0]) hr.insts hclosed
        rw [hopen] at hcl
        exact Bool.noConfusion hcl
      · have : c0.insert_point ≠ c.insert_point := by omega
        exact ⟨l1, by rw [hother _ this, hl1], hp1, hc1⟩
    · intro i hi
      rw [hold i (by omega)]
      exact hr.insts i hi
  · intro p y hy hk a ha
    by_cases hpj : p = j
    · subst hpj
      cases hxj : c.instructions[p]? with
      | none =>
        have hlt : p < c'.instructions.length := by
          by_contra hcon
          rw [List.getElem?_eq_none (by omega)] at hy
          exact Option.noConfusion hy
        rw [hil] at hlt
        rw [List.getElem?_eq_getElem hlt] at hxj
        exact Option.noConfusion hxj
      | some x =>
        rw [hnew x hxj] at hy
        cases hy
        have := (hx x hxj).1
        simp only at ha
        rw [this] at ha
        simp at ha
    · rw [hold p hpj] at hy
      obtain ⟨t, ht, hd⟩ := h.phi p y hy hk a ha
      have hne : a.1 ≠ c.insert_point := by
        intro e'
        have hcl : ir_is_closed c c.insert_point = true := by
          unfold ir_is_closed
          rw [← e', ht]
          rcases hd with hd | hd
          · simp [hd.1, is_terminator]
          · simp [hd, is_terminator]
        rw [hopen] at hcl
        exact Bool.noConfusion hcl
      obtain ⟨t', ht', hk', hd'⟩ := hlast a.1 t hne ht
      exact ⟨t', ht', by rw [hk', hd']; exact hd⟩
  · intro _ t ht hterm
    rw [hpoint, block_last_eq, hl'] at ht
    simp only [Option.some_bind, List.getLast?_append, List.getLast?_singleton,
      Option.or_some] at ht
    cases hxj : c.instructions[j]? with
    | none =>
      have hlt : j < c'.instructions.length := by
        by_contra hcon
        rw [List.getElem?_eq_none (by omega)] at ht
        exact Option.noConfusion ht
      rw [hil] at hlt
      rw [List.getElem?_eq_getElem hlt] at hxj
      exact Option.noConfusion hxj
    | some x =>
      rw [hnew x hxj] at ht
      cases ht
      have := (hx x hxj).2
      simp only at hterm
      rw [this] at hterm
      exact Bool.noConfusion hterm

/-- The frame does not depend on the node fields of the context it starts from. -/
theorem Reaches.congr_left_reaches {c0 c0' c : CodegenContext} (h : Reaches c0 c)
    (hb : c0'.blocks = c0.blocks) (hi : c0'.instructions = c0.instructions)
    (hp : c0'.insert_point = c0.insert_point) : Reaches c0' c :=
  { blocks_le := by rw [hb]; exact h.blocks_le
    insts_le := by rw [hi]; exact h.insts_le
    frozen := fun b h1 h2 => by
      rw [block_instructions_congr hb]
      exact h.frozen b (by rw [← hb]; exact h1) (by rw [← hp]; exact h2)
    grown := fun l hl => by
      rw [hp] at hl ⊢
      rw [block_instructions_congr hb] at hl
      obtain ⟨l', h1, h2, h3⟩ := h.grown l hl
      exact ⟨l', h1, h2, fun hc => h3 (by rw [← ir_is_closed_congr hb hi]; exact hc)⟩
    insts := fun i hlt => by rw [hi] at hlt ⊢; exact h.insts i hlt
    next := by rw [hp, hb]; exact h.next
    valid := h.valid }

theorem Within.congr_left_within {c0 c0' c : CodegenContext} (h : Within c0 c)
    (hb : c0'.blocks = c0.blocks) (hi : c0'.instructions = c0.instructions)
    (hp : c0'.insert_point = c0.insert_point) : Within c0' c :=
  { reaches := h.reaches.congr_left_reaches hb hi hp
    phi := h.phi
    open_ := fun o => h.open_ (o.congr_open hb.symm hi.symm hp.symm) }

theorem binary_op_kind_ok {op : TokenType} {k : IRType} (h : binary_op_kind op = .ok k) :
    is_terminator k = false := by
  cases op <;> simp [binary_op_kind] at h <;> subst h <;> rfl

/-! ### The cases of lowering keep the invariants -/

theorem Within.insert_step_within {c0 c : CodegenContext} {x : IRInstruction}
    {r : CodegenContext × Nat} (h : Within c0 c) (hv : c0.insert_point < c0.blocks.length)
    (e : ir_insert_new c x = .ok r) (hx : x.phi_args = [])
    (hk : is_terminator x.kind = false ∨ x.kind = .IR_RETURN) : Within c0 r.1 :=
  h.inserted_within hv (ir_insert_new_inserted e) hx (fun ht => by
    rcases hk with hk | hk
    · rw [hk] at ht; exact Bool.noConfusion ht
    · exact hk)

/-- An insertion followed by bookkeeping outside the arenas. -/
theorem Within.insert_pure {c0 c c' : CodegenContext} {x : IRInstruction}
    (h : Within c0 c) (hv : c0.insert_point < c0.blocks.length)
    {f : CodegenContext × Nat → CodegenContext}
    (e : (ir_insert_new c x >>= fun r => pure (f r)) = .ok c')
    (hf : ∀ r, (f r).blocks = r.1.blocks ∧ (f r).instructions = r.1.instructions ∧
      (f r).insert_point = r.1.insert_point) (hx : x.phi_args = [])
    (hk : is_terminator x.kind = false ∨ x.kind = .IR_RETURN) : Within c0 c' := by
  obtain ⟨r, er, e⟩ := bind_ok e
  cases pure_ok e
  exact (h.insert_step_within hv er hx hk).congr_within (hf r).1 (hf r).2.1 (hf r).2.2

theorem Sound.set_emitted {k : Lowering} (hk : Sound k) (id : Nat) :
    Sound (fun c => k (c.set_emitted id)) := by
  intro c c' hv hp h
  exact (hk (c.set_emitted id) c' hv (hp.congr_phis rfl rfl) h).congr_left_within rfl rfl rfl

theorem ir_static_var_init_frame (c : CodegenContext) (var : Nat) (init : StaticInit) :
    (ir_static_var_init c var init).blocks = c.blocks ∧
    (ir_static_var_init c var init).instructions = c.instructions ∧
    (ir_static_var_init c var init).insert_point = c.insert_point := by
  unfold ir_static_var_init
  split <;> exact ⟨rfl, rfl, rfl⟩

theorem Within.static_init {c0 c : CodegenContext} (h : Within c0 c) (var : Nat)
    (init : StaticInit) : Within c0 (ir_static_var_init c var init) :=
  h.congr_within (ir_static_var_init_frame c var init).1 (ir_static_var_init_frame c var init).2.1
    (ir_static_var_init_frame c var init).2.2

theorem codegen_lvalue_declaration_sound (q : Queries) (id : Nat) (type : Ty) (name : CStr)
    (linkage : SymbolLinkage) (init : Option Node) {k : Lowering} (hk : Sound k) :
    Sound (fun c => codegen_lvalue_declaration q c id type name linkage init k) := by
  intro c c' hv hp h
  simp only [codegen_lvalue_declaration] at h
  split at h
  · obtain ⟨r, er, h⟩ := bind_ok h
    have w0 : Within c (ir_create_static c id type name).1 :=
      (Within.refl_within hv hp).congr_within rfl rfl rfl
    have w1 : Within c (r.1.set_address id (some r.2)) :=
      (w0.insert_step_within hv er rfl (Or.inl rfl)).congr_within rfl rfl rfl
    cases init with
    | none => cases pure_ok h; exact w1
    | some i =>
      simp only at h
      split at h
      · split at h
        · cases pure_ok h; exact w1.static_init _ _
        · split at h
          · cases pure_ok h; exact w1.static_init _ _
          · exact Except.noConfusion h
      · obtain ⟨c2, e2, h⟩ := bind_ok h
        exact (w1.sub_within hv hk e2).insert_pure hv h (fun _ => ⟨rfl, rfl, rfl⟩) rfl (Or.inl rfl)
  · obtain ⟨r, er, h⟩ := bind_ok h
    have w1 : Within c (r.1.set_address id (some r.2)) :=
      ((Within.refl_within hv hp).insert_step_within hv er rfl (Or.inl rfl)).congr_within rfl rfl rfl
    cases init with
    | none => cases pure_ok h; exact w1
    | some i =>
      simp only at h
      obtain ⟨c2, e2, h⟩ := bind_ok h
      exact (w1.sub_within hv hk e2).insert_pure hv h (fun _ => ⟨rfl, rfl, rfl⟩) rfl (Or.inl rfl)

theorem codegen_lvalue_member_access_sound (id struct_id off : Nat) (mty : Ty) {k : Lowering}
    (hk : Sound k) :
    Sound (fun c => codegen_lvalue_member_access c id struct_id off mty k) := by
  intro c c' hv hp h
  simp only [codegen_lvalue_member_access] at h
  obtain ⟨c1, e1, h⟩ := bind_ok h
  have w1 := (Within.refl_within hv hp).sub_within hv hk e1
  obtain ⟨r, er, h⟩ := bind_ok h
  have w2 : Within c r.1 := by
    split at er
    · obtain ⟨imm, ei, er⟩ := bind_ok er
      exact (w1.insert_step_within hv ei rfl (Or.inl rfl)).insert_step_within hv er rfl (Or.inl rfl)
    · exact w1.insert_step_within hv er rfl (Or.inl rfl)
  have w3 : Within c (r.1.set_address id (some r.2)) := w2.congr_within rfl rfl rfl
  exact w3.core (ir_set_type_core h)

theorem codegen_lvalue_unary_sound (id : Nat) (op : TokenType) (post : Bool) (value_id : Nat)
    {k : Lowering} (hk : Sound k) :
    Sound (fun c => codegen_lvalue_unary c id op post value_id k) := by
  intro c c' hv hp h
  simp only [codegen_lvalue_unary] at h
  split at h
  · obtain ⟨c1, e1, h⟩ := bind_ok h
    cases pure_ok h
    exact ((Within.refl_within hv hp).sub_within hv hk e1).congr_within rfl rfl rfl
  · exact Except.noConfusion h

theorem codegen_lvalue_variable_reference_sound (id decl : Nat) :
    Sound (fun c => codegen_lvalue_variable_reference c id decl) := by
  intro c c' hv hp h
  simp only [codegen_lvalue_variable_reference] at h
  split at h
  · exact Except.noConfusion h
  · obtain ⟨kd, _, h⟩ := bind_ok h
    split at h
    · obtain ⟨v, _, h⟩ := bind_ok h
      exact (Within.refl_within hv hp).insert_pure hv h (fun _ => ⟨rfl, rfl, rfl⟩) rfl (Or.inl rfl)
    · cases pure_ok h
      exact (Within.refl_within hv hp).congr_within rfl rfl rfl

theorem codegen_lvalue_cast_sound (id value_id : Nat) {k : Lowering} (hk : Sound k) :
    Sound (fun c => codegen_lvalue_cast c id value_id k) := by
  intro c c' hv hp h
  simp only [codegen_lvalue_cast] at h
  obtain ⟨c1, e1, h⟩ := bind_ok h
  cases pure_ok h
  exact ((Within.refl_within hv hp).sub_within hv hk e1).congr_within rfl rfl rfl

theorem codegen_expr_function_sound (id : Nat) (attr_inline : Bool) :
    Sound (fun c => codegen_expr_function c id attr_inline) := by
  intro c c' hv hp h
  simp only [codegen_expr_function] at h
  obtain ⟨r, er, h⟩ := bind_ok h
  have w := (Within.refl_within hv hp).insert_step_within hv er rfl (Or.inl rfl)
  split at h
  · cases pure_ok h; exact w.congr_within rfl rfl rfl
  · cases pure_ok h; exact w.congr_within rfl rfl rfl

theorem codegen_expr_root_sound (children : List Node) {k : Lowering} (hk : Sound k) :
    Sound (fun c => codegen_expr_root c children k) := by
  intro c c' hv hp h
  simp only [codegen_expr_root] at h
  obtain ⟨c1, e1, h⟩ := bind_ok h
  have w1 := (Within.refl_within hv hp).sub_within hv hk e1
  split at h
  · split at h
    · exact Except.noConfusion h
    · exact w1.insert_pure hv h (fun _ => ⟨rfl, rfl, rfl⟩) rfl (Or.inr rfl)
  · cases pure_ok h; exact w1

theorem codegen_expr_load_sound (id : Nat) {k : Lowering} (hk : Sound k) :
    Sound (fun c => codegen_expr_load c id k) := by
  intro c c' hv hp h
  simp only [codegen_expr_load] at h
  obtain ⟨c1, e1, h⟩ := bind_ok h
  obtain ⟨ty, _, h⟩ := bind_ok h
  obtain ⟨e, _, h⟩ := bind_ok h
  exact ((Within.refl_within hv hp).sub_within hv hk e1).insert_pure hv h (fun _ => ⟨rfl, rfl, rfl⟩) rfl
    (Or.inl rfl)

theorem codegen_expr_block_sound (q : Queries) (id : Nat) (type : Ty) (children : List Node)
    {k : Lowering} (hk : Sound k) :
    Sound (fun c => codegen_expr_block q c id type children k) := by
  intro c c' hv hp h
  simp only [codegen_expr_block] at h
  obtain ⟨c1, e1, h⟩ := bind_ok h
  have w1 := (Within.refl_within hv hp).sub_within hv hk e1
  split at h
  · split at h
    · exact Except.noConfusion h
    · split at h
      · exact Except.noConfusion h
      · cases pure_ok h; exact w1.congr_within rfl rfl rfl
  · cases pure_ok h; exact w1

theorem codegen_expr_cast_sound (q : Queries) (id : Nat) (type : Ty) (value : Node)
    {k : Lowering} (hk : Sound k) : Sound (fun c => codegen_expr_cast q c id type value k) := by
  intro c c' hv hp h
  simp only [codegen_expr_cast] at h
  obtain ⟨c1, e1, h⟩ := bind_ok h
  have w1 := (Within.refl_within hv hp).sub_within hv hk e1
  split at h
  · exact w1.insert_pure hv h (fun _ => ⟨rfl, rfl, rfl⟩) rfl (Or.inl rfl)
  · split at h
    · split at h
      · exact w1.insert_pure hv h (fun _ => ⟨rfl, rfl, rfl⟩) rfl (Or.inl rfl)
      · exact w1.insert_pure hv h (fun _ => ⟨rfl, rfl, rfl⟩) rfl (Or.inl rfl)
    · split at h
      · exact w1.insert_pure hv h (fun _ => ⟨rfl, rfl, rfl⟩) rfl (Or.inl rfl)
      · exact Except.noConfusion h

/-- An instruction that was created and is inserted after more lowering. -/
theorem Within.insert_created {c0 c1 c2 c' : CodegenContext} {j : Nat} {x : IRInstruction}
    {k : Lowering} (w : Within c0 c1) (hv : c0.insert_point < c0.blocks.length)
    (hj : c0.instructions.length ≤ j) (hx : c1.instructions[j]? = some x)
    (hphi : x.phi_args = []) (hterm : is_terminator x.kind = false) (hk : Sound k)
    (e : k c1 = .ok c2) (ei : ir_insert c2 j = .ok c') : Within c0 c' := by
  have w2 := w.sub_within hv hk e
  have r := (hk c1 c2 w.reaches.valid w.phi e).reaches
  refine w2.insert_old hv ei hj ?_
  intro y hy
  have hlt : j < c1.instructions.length := by
    by_contra hcon
    rw [List.getElem?_eq_none (Nat.le_of_not_lt hcon)] at hx
    exact Option.noConfusion hx
  obtain ⟨y', hy', hcore⟩ := core_lookup (r.insts j hlt) hx
  rw [hy] at hy'
  cases hy'
  exact ⟨by rw [core_phi_args hcore]; exact hphi, by rw [core_kind hcore]; exact hterm⟩

theorem codegen_expr_call_sound (id : Nat) (callee : Node) (intrinsic : IntrinsicKind)
    {k : Lowering} {ka : Nat → Lowering} (hk : Sound k) (hka : ∀ call, Sound (ka call)) :
    Sound (fun c => codegen_expr_call c id callee intrinsic k ka) := by
  intro c c' hv hp h
  simp only [codegen_expr_call] at h
  split at h
  · exact Except.noConfusion h
  · obtain ⟨cr, ec, h⟩ := bind_ok h
    obtain ⟨c2, e2, h⟩ := bind_ok h
    obtain ⟨c3, e3, h⟩ := bind_ok h
    cases pure_ok h
    have hcr : ∃ x, Within c cr.1 ∧ c.instructions.length ≤ cr.2 ∧
        cr.1.instructions[cr.2]? = some x ∧ x.phi_args = [] ∧ is_terminator x.kind = false := by
      split at ec
      · cases pure_ok ec
        exact ⟨_, (Within.refl_within hv hp).created _ rfl rfl, Nat.le_refl _,
          ir_create_lookup_new _ _, rfl, rfl⟩
      · obtain ⟨c1, e1, ec⟩ := bind_ok ec
        cases pure_ok ec
        have w1 := (Within.refl_within hv hp).sub_within hv hk e1
        exact ⟨_, w1.created _ rfl rfl, w1.reaches.insts_le, ir_create_lookup_new _ _, rfl, rfl⟩
    obtain ⟨x, w, hj, hx, hphi, hterm⟩ := hcr
    exact (w.insert_created hv hj hx hphi hterm (hka cr.2) e2 e3).congr_within rfl rfl rfl

theorem codegen_expr_intrinsic_call_sound (id : Nat) (intrinsic : IntrinsicKind)
    (first_argument : Option Node) {k : Lowering} {ka : Nat → Lowering} (hk : Sound k)
    (hka : ∀ call, Sound (ka call)) :
    Sound (fun c => codegen_expr_intrinsic_call c id intrinsic first_argument k ka) := by
  intro c c' hv hp h
  cases intrinsic with
  | INTRIN_COUNT => exact Except.noConfusion h
  | INTRIN_BACKEND_COUNT => exact Except.noConfusion h
  | INTRIN_BUILTIN_LINE => exact Except.noConfusion h
  | INTRIN_BUILTIN_FILENAME => exact Except.noConfusion h
  | INTRIN_BUILTIN_SYSCALL =>
    simp only [codegen_expr_intrinsic_call] at h
    split at h
    · cases pure_ok h; exact (Within.refl_within hv hp).congr_within rfl rfl rfl
    · obtain ⟨c2, e2, h⟩ := bind_ok h
      have w0 : Within c (ir_create_intrinsic c t_integer .INTRIN_BUILTIN_SYSCALL).1 :=
        (Within.refl_within hv hp).created _ rfl rfl
      have w : Within c ((ir_create_intrinsic c t_integer .INTRIN_BUILTIN_SYSCALL).1.set_ir id
          (some (ir_create_intrinsic c t_integer .INTRIN_BUILTIN_SYSCALL).2)) := w0.congr_within rfl rfl rfl
      exact w.insert_created hv (Nat.le_refl _) (ir_create_lookup_new _ _) rfl rfl (hka _) e2 h
  | INTRIN_BUILTIN_INLINE =>
    simp only [codegen_expr_intrinsic_call] at h
    split at h
    · exact Except.noConfusion h
    · obtain ⟨c1, e1, h⟩ := bind_ok h
      obtain ⟨c2, e2, h⟩ := bind_ok h
      cases pure_ok h
      exact (((Within.refl_within hv hp).sub_within hv hk e1).core (ir_call_force_inline_core e2)).congr_within
        rfl rfl rfl
  | INTRIN_BUILTIN_DEBUGTRAP =>
    simp only [codegen_expr_intrinsic_call] at h
    exact (Within.refl_within hv hp).insert_pure hv h (fun _ => ⟨rfl, rfl, rfl⟩) rfl (Or.inl rfl)
  | INTRIN_BUILTIN_MEMCPY =>
    simp only [codegen_expr_intrinsic_call] at h
    obtain ⟨c2, e2, h⟩ := bind_ok h
    have w0 : Within c (ir_create_intrinsic c t_void .INTRIN_BUILTIN_MEMCPY).1 :=
      (Within.refl_within hv hp).created _ rfl rfl
    have w : Within c ((ir_create_intrinsic c t_void .INTRIN_BUILTIN_MEMCPY).1.set_ir id
        (some (ir_create_intrinsic c t_void .INTRIN_BUILTIN_MEMCPY).2)) := w0.congr_within rfl rfl rfl
    exact w.insert_created hv (Nat.le_refl _) (ir_create_lookup_new _ _) rfl rfl (hka _) e2 h

theorem subscript_variable_base_within {c0 c : CodegenContext} {decl : Nat}
    {r : CodegenContext × Option (Option Nat)} (w : Within c0 c)
    (hv : c0.insert_point < c0.blocks.length) (h : subscript_variable_base c decl = .ok r) :
    Within c0 r.1 := by
  simp only [subscript_variable_base] at h
  obtain ⟨kd, _, h⟩ := bind_ok h
  obtain ⟨ty, _, h⟩ := bind_ok h
  split at h
  · split at h
    · obtain ⟨e, _, h⟩ := bind_ok h
      obtain ⟨x, ex, h⟩ := bind_ok h
      cases pure_ok h
      exact w.insert_step_within hv ex rfl (Or.inl rfl)
    · cases pure_ok h; exact w
  · cases pure_ok h; exact w.congr_within rfl rfl rfl

theorem subscript_array_decay_within {c0 c : CodegenContext} {subs_lhs : Option Nat}
    {r : CodegenContext × Option Nat} (w : Within c0 c)
    (hv : c0.insert_point < c0.blocks.length) (h : subscript_array_decay c subs_lhs = .ok r) :
    Within c0 r.1 := by
  simp only [subscript_array_decay] at h
  obtain ⟨ty, _, h⟩ := bind_ok h
  split at h
  · obtain ⟨x, ex, h⟩ := bind_ok h
    cases pure_ok h
    exact w.insert_step_within hv ex rfl (Or.inl rfl)
  · cases pure_ok h; exact w

theorem subscript_base_within (q : Queries) {c0 c : CodegenContext} {id : Nat} {lhs rhs : Node}
    {kl ke : Lowering} {r : CodegenContext × Option (Option Nat)} (w : Within c0 c)
    (hv : c0.insert_point < c0.blocks.length) (hkl : Sound kl) (hke : Sound ke)
    (h : subscript_base q c id lhs rhs kl ke = .ok r) : Within c0 r.1 := by
  simp only [subscript_base] at h
  split at h
  · exact subscript_variable_base_within w hv h
  · split at h
    · obtain ⟨c1, e1, h⟩ := bind_ok h
      cases pure_ok h
      exact w.sub_within hv hkl e1
    · split at h
      · obtain ⟨c1, e1, h⟩ := bind_ok h
        have w1 := w.sub_within hv hke e1
        split at h
        · split at h
          · exact Except.noConfusion h
          · split at h
            · cases pure_ok h; exact w1.congr_within rfl rfl rfl
            · split at h
              · obtain ⟨imm, ei, h⟩ := bind_ok h
                obtain ⟨x, ex, h⟩ := bind_ok h
                cases pure_ok h
                exact ((w1.insert_step_within hv ei rfl (Or.inl rfl)).insert_step_within hv ex rfl
                  (Or.inl rfl)).congr_within rfl rfl rfl
              · cases pure_ok h; exact w1.congr_within rfl rfl rfl
        · cases pure_ok h; exact w1
      · cases pure_ok h; exact w.congr_within rfl rfl rfl

theorem codegen_expr_subscript_sound (q : Queries) (id : Nat) (lhs rhs : Node)
    {kl ke kr : Lowering} (hkl : Sound kl) (hke : Sound ke) (hkr : Sound kr) :
    Sound (fun c => codegen_expr_subscript q c id lhs rhs kl ke kr) := by
  intro c c' hv hp h
  simp only [codegen_expr_subscript] at h
  split at h
  · cases pure_ok h; exact (Within.refl_within hv hp).congr_within rfl rfl rfl
  · obtain ⟨base, eb, h⟩ := bind_ok h
    have wb := subscript_base_within q (Within.refl_within hv hp) hv hkl hke eb
    split at h
    · cases pure_ok h; exact wb
    · obtain ⟨d, ed, h⟩ := bind_ok h
      have wd := subscript_array_decay_within wb hv ed
      split at h
      · cases pure_ok h; exact wd.congr_within rfl rfl rfl
      · obtain ⟨c1, e1, h⟩ := bind_ok h
        have w1 := wd.sub_within hv hkr e1
        split at h
        · obtain ⟨imm, ei, h⟩ := bind_ok h
          obtain ⟨sc, es, h⟩ := bind_ok h
          exact ((w1.insert_step_within hv ei rfl (Or.inl rfl)).insert_step_within hv es rfl
            (Or.inl rfl)).insert_pure hv h (fun _ => ⟨rfl, rfl, rfl⟩) rfl (Or.inl rfl)
        · split at h
          · obtain ⟨imm, ei, h⟩ := bind_ok h
            obtain ⟨sc, es, h⟩ := bind_ok h
            exact ((w1.insert_step_within hv ei rfl (Or.inl rfl)).insert_step_within hv es rfl
              (Or.inl rfl)).insert_pure hv h (fun _ => ⟨rfl, rfl, rfl⟩) rfl (Or.inl rfl)
          · exact w1.insert_pure hv h (fun _ => ⟨rfl, rfl, rfl⟩) rfl (Or.inl rfl)

theorem codegen_expr_binary_sound (q : Queries) (id : Nat) (op : TokenType) (lhs rhs : Node)
    {kl ke kr : Lowering} (hkl : Sound kl) (hke : Sound ke) (hkr : Sound kr) :
    Sound (fun c => codegen_expr_binary q c id op lhs rhs kl ke kr) := by
  intro c c' hv hp h
  simp only [codegen_expr_binary] at h
  split at h
  · obtain ⟨c1, e1, h⟩ := bind_ok h
    obtain ⟨c2, e2, h⟩ := bind_ok h
    exact (((Within.refl_within hv hp).sub_within hv hkr e1).sub_within hv hkl e2).insert_pure hv h
      (fun _ => ⟨rfl, rfl, rfl⟩) rfl (Or.inl rfl)
  · split at h
    · exact codegen_expr_subscript_sound q id lhs rhs hkl hke hkr c c' hv hp h
    · obtain ⟨c1, e1, h⟩ := bind_ok h
      obtain ⟨c2, e2, h⟩ := bind_ok h
      obtain ⟨kd, ek, h⟩ := bind_ok h
      exact (((Within.refl_within hv hp).sub_within hv hke e1).sub_within hv hkr e2).insert_pure hv h
        (fun _ => ⟨rfl, rfl, rfl⟩) rfl (Or.inl (binary_op_kind_ok ek))

theorem codegen_expr_unary_sound (id : Nat) (op : TokenType) (post : Bool) (value : Node)
    {kl ke : Lowering} (hkl : Sound kl) (hke : Sound ke) :
    Sound (fun c => codegen_expr_unary c id op post value kl ke) := by
  intro c c' hv hp h
  simp only [codegen_expr_unary] at h
  split at h
  · split at h
    · exact Except.noConfusion h
    · obtain ⟨c1, e1, h⟩ := bind_ok h
      cases pure_ok h
      exact ((Within.refl_within hv hp).sub_within hv hkl e1).congr_within rfl rfl rfl
  · obtain ⟨c1, e1, h⟩ := bind_ok h
    have w1 := (Within.refl_within hv hp).sub_within hv hke e1
    split at h
    · split at h
      · split at h
        · cases pure_ok h; exact w1.congr_within rfl rfl rfl
        · obtain ⟨ty, _, h⟩ := bind_ok h
          obtain ⟨e, _, h⟩ := bind_ok h
          exact w1.insert_pure hv h (fun _ => ⟨rfl, rfl, rfl⟩) rfl (Or.inl rfl)
      · exact w1.insert_pure hv h (fun _ => ⟨rfl, rfl, rfl⟩) rfl (Or.inl rfl)
      · exact Except.noConfusion h
    · exact Except.noConfusion h

theorem codegen_expr_return_sound (id : Nat) (value_id : Option Nat) {k : Lowering}
    (hk : Sound k) : Sound (fun c => codegen_expr_return c id value_id k) := by
  intro c c' hv hp h
  simp only [codegen_expr_return] at h
  split at h
  · obtain ⟨c1, e1, h⟩ := bind_ok h
    exact ((Within.refl_within hv hp).sub_within hv hk e1).insert_pure hv h (fun _ => ⟨rfl, rfl, rfl⟩) rfl
      (Or.inr rfl)
  · exact (Within.refl_within hv hp).insert_pure hv h (fun _ => ⟨rfl, rfl, rfl⟩) rfl (Or.inr rfl)

theorem codegen_expr_literal_sound (q : Queries) (id : Nat) (type : Ty) (lit_type : TokenType)
    (integer string_index : Nat) {ka : Option Nat → Lowering} (hka : ∀ a, Sound (ka a)) :
    Sound (fun c => codegen_expr_literal q c id type lit_type integer string_index ka) := by
  intro c c' hv hp h
  simp only [codegen_expr_literal] at h
  split at h
  · exact (Within.refl_within hv hp).insert_pure hv h (fun _ => ⟨rfl, rfl, rfl⟩) rfl (Or.inl rfl)
  · obtain ⟨r, er, h⟩ := bind_ok h
    cases pure_ok h
    have w0 : Within c (ir_create_static
        { c with string_literal_count := (c.string_literal_count + 1) % 2 ^ 64 } id type
        ("__str_lit".toList ++ format_Z c.string_literal_count)).1 :=
      (Within.refl_within hv hp).congr_within rfl rfl rfl
    have w1 : Within c (r.1.set_ir id (some r.2)) :=
      (w0.insert_step_within hv er rfl (Or.inl rfl)).congr_within rfl rfl rfl
    exact w1.static_init _ _
  · obtain ⟨r, er, h⟩ := bind_ok h
    obtain ⟨a, ea, h⟩ := bind_ok h
    obtain ⟨c1, e1, h⟩ := bind_ok h
    obtain ⟨c2, e2, h⟩ := bind_ok h
    obtain ⟨ty, _, h⟩ := bind_ok h
    obtain ⟨e, _, h⟩ := bind_ok h
    have w1 : Within c (r.1.set_ir id (some r.2)) :=
      ((Within.refl_within hv hp).insert_step_within hv er rfl (Or.inl rfl)).congr_within rfl rfl rfl
    have w2 := (w1.insert_step_within hv ea rfl (Or.inl rfl)).core (ir_set_type_core e1)
    exact (w2.sub_within hv (hka _) e2).insert_pure hv h (fun _ => ⟨rfl, rfl, rfl⟩) rfl (Or.inl rfl)
  · cases pure_ok h; exact (Within.refl_within hv hp).congr_within rfl rfl rfl

theorem call_add_argument_core (c : CodegenContext) (call : Nat) (arg : Node) :
    CoreStep c (call_add_argument c call arg) := by
  unfold call_add_argument
  split <;> exact ir_call_add_arg_core _ _ _

theorem array_store_element_within {c0 c : CodegenContext} {element_size : Nat}
    {address : Option Nat} {index size node_id : Nat}
    {r : CodegenContext × Option (Option Nat)} (w : Within c0 c)
    (hv : c0.insert_point < c0.blocks.length)
    (h : array_store_element c element_size address index size node_id = .ok r) :
    Within c0 r.1 := by
  simp only [array_store_element] at h
  obtain ⟨s, es, h⟩ := bind_ok h
  have w1 := w.insert_step_within hv es rfl (Or.inl rfl)
  split at h
  · cases pure_ok h; exact w1
  · obtain ⟨imm, ei, h⟩ := bind_ok h
    obtain ⟨a, ea, h⟩ := bind_ok h
    cases pure_ok h
    exact (w1.insert_step_within hv ei rfl (Or.inl rfl)).insert_step_within hv ea rfl (Or.inl rfl)

/-! ### Frames of the control-flow cases -/

theorem Framed.refl_framed {c : CodegenContext} (hv : c.insert_point < c.blocks.length)
    (hp : PhiArgsClosed c) : Framed c c :=
  { reaches := Reaches.refl_reaches c hv, phi := hp }

theorem Framed.sub_framed {c0 c c' : CodegenContext} {k : Lowering} (h : Framed c0 c)
    (hv : c0.insert_point < c0.blocks.length) (hk : Sound k) (e : k c = .ok c') :
    Framed c0 c' :=
  have w := hk c c' h.reaches.valid h.phi e
  { reaches := Reaches.trans hv h.reaches w.reaches, phi := w.phi }

theorem Framed.block_framed {c0 c : CodegenContext} (h : Framed c0 c) : Framed c0 (ir_block c).1 :=
  { reaches := ir_block_reaches h.reaches, phi := ir_block_phi h.phi }

theorem Framed.insert_step_framed {c0 c : CodegenContext} {x : IRInstruction}
    {r : CodegenContext × Nat} (h : Framed c0 c) (hv : c0.insert_point < c0.blocks.length)
    (e : ir_insert_new c x = .ok r) (hx : x.phi_args = []) : Framed c0 r.1 :=
  { reaches := (ir_insert_new_inserted e).reaches_inserted hv h.reaches
    phi := (ir_insert_new_inserted e).phi_inserted hx h.phi }

theorem Framed.attach_framed {c0 c : CodegenContext} {block : Nat} (h : Framed c0 c)
    (h1 : c0.blocks.length ≤ block) (h2 : block < c.blocks.length) :
    Framed c0 (ir_block_attach c block) :=
  { reaches := ir_block_attach_reaches h.reaches h1 h2, phi := ir_block_attach_phi block h.phi }

theorem Framed.branch_if_open_framed {c0 c c' : CodegenContext} {b : Nat} (h : Framed c0 c)
    (hv : c0.insert_point < c0.blocks.length) (e : branch_if_open c b = .ok c') :
    Framed c0 c' := by
  unfold Intercept.branch_if_open at e
  split at e
  · obtain ⟨r, er, e⟩ := bind_ok e
    cases pure_ok e
    exact h.insert_step_framed hv er rfl
  · cases pure_ok e; exact h

theorem branch_if_open_point {c c' : CodegenContext} {b : Nat}
    (e : branch_if_open c b = .ok c') :
    c'.insert_point = c.insert_point ∧ c'.blocks.length = c.blocks.length ∧
    c'.node_ir = c.node_ir ∧
    ∀ b', b' ≠ c.insert_point → block_instructions c' b' = block_instructions c b' := by
  unfold branch_if_open at e
  split at e
  · obtain ⟨r, er, e⟩ := bind_ok e
    cases pure_ok e
    have hi := ir_insert_new_inserted er
    exact ⟨hi.point, hi.blocks_length, hi.node_ir, hi.block_other⟩
  · cases pure_ok e; exact ⟨rfl, rfl, rfl, fun _ _ => rfl⟩

/-- After `branch_if_open`, a block that was open or closed by a return ends in the branch
or in the return. -/
theorem branch_if_open_ends {c c' : CodegenContext} {b : Nat}
    (e : branch_if_open c b = .ok c') (ho : ReturnOrOpen c) :
    EndsAt c' c.insert_point (some b) := by
  unfold branch_if_open at e
  split at e
  · obtain ⟨r, er, e⟩ := bind_ok e
    cases pure_ok e
    exact ⟨_, (ir_insert_new_inserted er).block_last_at, Or.inl ⟨rfl, rfl⟩⟩
  · cases pure_ok e
    rename_i hclosed
    have hc : ir_is_closed c c.insert_point = true := by simpa using hclosed
    unfold ir_is_closed at hc
    cases ht : block_last c c.insert_point with
    | none => rw [ht] at hc; exact Bool.noConfusion hc
    | some t =>
      rw [ht] at hc
      exact ⟨t, ht, Or.inr (ho t ht hc)⟩

theorem EndsAt.closed_endsat {c : CodegenContext} {b : Nat} {j : Option Nat} (h : EndsAt c b j) :
    ir_is_closed c b = true := by
  obtain ⟨t, ht, hd⟩ := h
  unfold ir_is_closed
  rw [ht]
  rcases hd with hd | hd
  · simp [hd.1, is_terminator]
  · simp [hd, is_terminator]

theorem EndsAt.instructions {c : CodegenContext} {b : Nat} {j : Option Nat}
    (h : EndsAt c b j) : ∃ l, block_instructions c b = some l := by
  obtain ⟨t, ht, _⟩ := h
  rw [block_last_eq] at ht
  cases hl : block_instructions c b with
  | none => rw [hl] at ht; simp at ht
  | some l => exact ⟨l, rfl⟩

/-- A closed block stays as it is. -/
theorem Reaches.ends {c0 c : CodegenContext} (hr : Reaches c0 c) {b : Nat} {j : Option Nat}
    (h : EndsAt c0 b j) : EndsAt c b j := by
  have hb : block_instructions c b = block_instructions c0 b := by
    by_cases hne : b = c0.insert_point
    · subst hne
      obtain ⟨l, hl⟩ := h.instructions
      obtain ⟨l', hl', _, hc⟩ := hr.grown l hl
      rw [hl', hl, hc h.closed_endsat]
    · obtain ⟨t, ht, _⟩ := h
      exact hr.frozen b (block_last_lt ht) hne
  obtain ⟨t, ht, hd⟩ := h
  obtain ⟨t', ht', hcore⟩ := block_last_kept hb hr.insts ht
  refine ⟨t', ht', ?_⟩
  rw [core_kind hcore, core_dest hcore]
  exact hd

theorem EndsAt.attach_endsat {c : CodegenContext} {b : Nat} {j : Option Nat} (h : EndsAt c b j)
    (block : Nat) : EndsAt (ir_block_attach c block) b j := by
  obtain ⟨t, ht, hd⟩ := h
  exact ⟨t, by rw [ir_block_attach_last]; exact ht, hd⟩

theorem EndsAt.sub_endsat {c c' : CodegenContext} {b : Nat} {j : Option Nat} {k : Lowering}
    (h : EndsAt c b j) (hv : c.insert_point < c.blocks.length) (hp : PhiArgsClosed c)
    (hk : Sound k) (e : k c = .ok c') : EndsAt c' b j :=
  (hk c c' hv hp e).reaches.ends h

theorem EndsAt.insert_step_endsat {c : CodegenContext} {b : Nat} {j : Option Nat}
    {x : IRInstruction} {r : CodegenContext × Nat} (h : EndsAt c b j)
    (hv : c.insert_point < c.blocks.length) (e : ir_insert_new c x = .ok r) :
    EndsAt r.1 b j :=
  ((ir_insert_new_inserted e).reaches_inserted hv (Reaches.refl_reaches c hv)).ends h

theorem EndsAt.branch_if_open_endsat {c c' : CodegenContext} {b : Nat} {j : Option Nat} {d : Nat}
    (h : EndsAt c b j) (hv : c.insert_point < c.blocks.length)
    (e : branch_if_open c d = .ok c') : EndsAt c' b j := by
  unfold Intercept.branch_if_open at e
  split at e
  · obtain ⟨r, er, e⟩ := bind_ok e
    cases pure_ok e
    exact h.insert_step_endsat hv er
  · cases pure_ok e; exact h

theorem Reserved.fresh (c : CodegenContext) (hv : c.insert_point < c.blocks.length) :
    Reserved (ir_block c).1 c.blocks.length :=
  { empty := by rw [ir_block_instructions]; simp
    apart := by
      have hp : (ir_block c).1.insert_point = c.insert_point := rfl
      rw [hp]; omega }

theorem Reserved.lt {c : CodegenContext} {b : Nat} (h : Reserved c b) : b < c.blocks.length :=
  block_instructions_lt h.empty

theorem Reserved.reaches_reserved {c c' : CodegenContext} {b : Nat} (h : Reserved c b)
    (hr : Reaches c c') : Reserved c' b :=
  { empty := by rw [hr.frozen b h.lt (fun e => h.apart e.symm)]; exact h.empty
    apart := by
      rcases hr.next with hn | hn
      · rw [hn]; exact h.apart
      · have := h.lt; omega }

theorem Reserved.sub_reserved {c c' : CodegenContext} {b : Nat} {k : Lowering} (h : Reserved c b)
    (hv : c.insert_point < c.blocks.length) (hp : PhiArgsClosed c) (hk : Sound k)
    (e : k c = .ok c') : Reserved c' b :=
  h.reaches_reserved (hk c c' hv hp e).reaches

theorem Reserved.block_reserved {c : CodegenContext} {b : Nat} (h : Reserved c b) :
    Reserved (ir_block c).1 b :=
  { empty := by
      rw [ir_block_instructions]
      have := h.lt
      rw [if_neg (by omega)]
      exact h.empty
    apart := h.apart }

theorem Reserved.insert_step_reserved {c : CodegenContext} {b : Nat} {x : IRInstruction}
    {r : CodegenContext × Nat} (h : Reserved c b) (e : ir_insert_new c x = .ok r) :
    Reserved r.1 b :=
  have hi := ir_insert_new_inserted e
  { empty := by rw [hi.block_other b (fun e => h.apart e.symm)]; exact h.empty
    apart := by rw [hi.point]; exact h.apart }

theorem Reserved.attach_reserved {c : CodegenContext} {b : Nat} (h : Reserved c b) {block : Nat}
    (hne : block ≠ b) : Reserved (ir_block_attach c block) b :=
  { empty := by rw [ir_block_attach_instructions]; exact h.empty
    apart := hne }

theorem Reserved.branch_if_open_reserved {c c' : CodegenContext} {b d : Nat} (h : Reserved c b)
    (e : branch_if_open c d = .ok c') : Reserved c' b := by
  obtain ⟨h1, _, _, h4⟩ := branch_if_open_point e
  exact { empty := by rw [h4 b (fun e => h.apart e.symm)]; exact h.empty
          apart := by rw [h1]; exact h.apart }

theorem Reserved.open {c : CodegenContext} {b : Nat} (h : Reserved c b) :
    ReturnOrOpen (ir_block_attach c b) :=
  ir_block_attach_open h.empty

theorem ir_block_length (c : CodegenContext) :
    (ir_block c).1.blocks.length = c.blocks.length + 1 := by
  simp [ir_block]

theorem codegen_expr_while_sound (condition_id : Nat) (body_size : Option Nat)
    {kc kb : Lowering} (hkc : Sound kc) (hkb : Sound kb) :
    Sound (fun c => codegen_expr_while c condition_id body_size kc kb) := by
  intro c c' hv hp h
  simp only [codegen_expr_while] at h
  obtain ⟨r, er, h⟩ := bind_ok h
  obtain ⟨c2, e2, h⟩ := bind_ok h
  have hn : (ir_block c).2 = c.blocks.length := rfl
  have hJ : (ir_block (ir_block c).1).2 = c.blocks.length + 1 := ir_block_length c
  have hv1 : (ir_block c).1.insert_point < (ir_block c).1.blocks.length := by
    rw [ir_block_length]; exact Nat.lt_succ_of_lt hv
  have F0 : Framed c (ir_block (ir_block c).1).1 := (Framed.refl_framed hv hp).block_framed.block_framed
  have R0 : Reserved (ir_block (ir_block c).1).1 (ir_block (ir_block c).1).2 :=
    Reserved.fresh _ hv1
  have F1 := F0.insert_step_framed hv er rfl
  have R1 := R0.insert_step_reserved er
  have FA : Framed c (ir_block_attach r.1 (ir_block c).2) :=
    F1.attach_framed (Nat.le_refl _) (by have := R1.lt; omega)
  have RA : Reserved (ir_block_attach r.1 (ir_block c).2) (ir_block (ir_block c).1).2 :=
    R1.attach_reserved (by omega)
  have F2 := FA.sub_framed hv hkc e2
  have R2 := RA.sub_reserved FA.reaches.valid FA.phi hkc e2
  split at h
  · exact Except.noConfusion h
  · split at h
    · obtain ⟨r2, er2, h⟩ := bind_ok h
      cases pure_ok h
      have F3 := F2.insert_step_framed hv er2 rfl
      have R3 := R2.insert_step_reserved er2
      have FC : Framed c (ir_block_attach r2.1 (ir_block (ir_block c).1).2) :=
        F3.attach_framed (by omega) R3.lt
      exact { reaches := FC.reaches, phi := FC.phi, open_ := fun _ => R3.open }
    · obtain ⟨r2, er2, h⟩ := bind_ok h
      obtain ⟨c4, e4, h⟩ := bind_ok h
      obtain ⟨c5, e5, h⟩ := bind_ok h
      cases pure_ok h
      have F3 := (F2.block_framed).insert_step_framed hv er2 rfl
      have R3 := (R2.block_reserved).insert_step_reserved er2
      have hm : (ir_block c2).2 = c2.blocks.length := rfl
      have hl2 : r2.1.blocks.length = c2.blocks.length + 1 := by
        rw [(ir_insert_new_inserted er2).blocks_length, ir_block_length]
      have FB : Framed c (ir_block_attach r2.1 (ir_block c2).2) :=
        F3.attach_framed (by have := F2.reaches.blocks_le; omega) (by omega)
      have RB : Reserved (ir_block_attach r2.1 (ir_block c2).2) (ir_block (ir_block c).1).2 :=
        R3.attach_reserved (by have := R2.lt; omega)
      have F4 := FB.sub_framed hv hkb e4
      have R4 := RB.sub_reserved FB.reaches.valid FB.phi hkb e4
      have F5 := F4.branch_if_open_framed hv e5
      have R5 := R4.branch_if_open_reserved e5
      have FC : Framed c (ir_block_attach c5 (ir_block (ir_block c).1).2) :=
        F5.attach_framed (by omega) R5.lt
      exact { reaches := FC.reaches, phi := FC.phi, open_ := fun _ => R5.open }

theorem codegen_expr_for_sound (condition_id : Nat) {ki kc kb kt : Lowering}
    (hki : Sound ki) (hkc : Sound kc) (hkb : Sound kb) (hkt : Sound kt) :
    Sound (fun c => codegen_expr_for c condition_id ki kc kb kt) := by
  intro c c' hv hp h
  simp only [codegen_expr_for] at h
  obtain ⟨c1, e1, h⟩ := bind_ok h
  obtain ⟨r1, er1, h⟩ := bind_ok h
  obtain ⟨c2, e2, h⟩ := bind_ok h
  obtain ⟨r2, er2, h⟩ := bind_ok h
  obtain ⟨c3, e3, h⟩ := bind_ok h
  obtain ⟨c4, e4, h⟩ := bind_ok h
  obtain ⟨r3, er3, h⟩ := bind_ok h
  cases pure_ok h
  have hn : (ir_block c).2 = c.blocks.length := rfl
  have hB : (ir_block (ir_block c).1).2 = c.blocks.length + 1 := ir_block_length c
  have hJ : (ir_block (ir_block (ir_block c).1).1).2 = c.blocks.length + 2 := by
    have h1 : (ir_block (ir_block (ir_block c).1).1).2 = (ir_block (ir_block c).1).1.blocks.length :=
      rfl
    rw [h1, ir_block_length, ir_block_length]
  have hv2 : (ir_block (ir_block c).1).1.insert_point < (ir_block (ir_block c).1).1.blocks.length := by
    rw [ir_block_length, ir_block_length]
    exact Nat.lt_succ_of_lt (Nat.lt_succ_of_lt hv)
  have F0 : Framed c (ir_block (ir_block (ir_block c).1).1).1 :=
    (Framed.refl_framed hv hp).block_framed.block_framed.block_framed
  have R0 : Reserved (ir_block (ir_block (ir_block c).1).1).1
      (ir_block (ir_block (ir_block c).1).1).2 := Reserved.fresh _ hv2
  have F1 := F0.sub_framed hv hki e1
  have R1 := R0.sub_reserved F0.reaches.valid F0.phi hki e1
  have F2 := F1.insert_step_framed hv er1 rfl
  have R2 := R1.insert_step_reserved er1
  have FA : Framed c (ir_block_attach r1.1 (ir_block c).2) :=
    F2.attach_framed (Nat.le_refl _) (by have := R2.lt; omega)
  have RA : Reserved (ir_block_attach r1.1 (ir_block c).2)
      (ir_block (ir_block (ir_block c).1).1).2 := R2.attach_reserved (by omega)
  have F3 := FA.sub_framed hv hkc e2
  have R3 := RA.sub_reserved FA.reaches.valid FA.phi hkc e2
  have F4 := F3.insert_step_framed hv er2 rfl
  have R4 := R3.insert_step_reserved er2
  have FB : Framed c (ir_block_attach r2.1 (ir_block (ir_block c).1).2) :=
    F4.attach_framed (by omega) (by have := R4.lt; omega)
  have RB : Reserved (ir_block_attach r2.1 (ir_block (ir_block c).1).2)
      (ir_block (ir_block (ir_block c).1).1).2 := R4.attach_reserved (by omega)
  have F5 := FB.sub_framed hv hkb e3
  have R5 := RB.sub_reserved FB.reaches.valid FB.phi hkb e3
  have F6 := F5.sub_framed hv hkt e4
  have R6 := R5.sub_reserved F5.reaches.valid F5.phi hkt e4
  have F7 := F6.insert_step_framed hv er3 rfl
  have R7 := R6.insert_step_reserved er3
  have FC : Framed c (ir_block_attach r3.1 (ir_block (ir_block (ir_block c).1).1).2) :=
    F7.attach_framed (by omega) R7.lt
  exact { reaches := FC.reaches, phi := FC.phi, open_ := fun _ => R7.open }

/-! ### The phi of an `if` -/

theorem ir_phi_add_arg_frame (c : CodegenContext) (phi blk : Nat) (v : Option Nat) :
    (ir_phi_add_arg c phi blk v).blocks = c.blocks ∧
    (ir_phi_add_arg c phi blk v).insert_point = c.insert_point ∧
    (ir_phi_add_arg c phi blk v).instructions.length = c.instructions.length ∧
    (ir_phi_add_arg c phi blk v).node_ir = c.node_ir ∧
    ∀ i, i ≠ phi → (ir_phi_add_arg c phi blk v).instructions[i]? = c.instructions[i]? := by
  unfold ir_phi_add_arg
  cases hx : c.instructions[phi]? with
  | none => exact ⟨rfl, rfl, rfl, rfl, fun _ _ => rfl⟩
  | some x =>
    refine ⟨rfl, rfl, by simp, rfl, fun i hi => ?_⟩
    simp [List.getElem?_set, Ne.symm hi]

theorem ir_phi_add_arg_lookup {c : CodegenContext} {phi : Nat} {x : IRInstruction}
    (hx : c.instructions[phi]? = some x) (blk : Nat) (v : Option Nat) :
    (ir_phi_add_arg c phi blk v).instructions[phi]?
      = some { x with phi_args := x.phi_args ++ [(blk, v)] } := by
  have hlt : phi < c.instructions.length := by
    by_contra hcon
    rw [List.getElem?_eq_none (by omega)] at hx
    exact Option.noConfusion hx
  unfold ir_phi_add_arg
  rw [hx]
  simp [List.getElem?_set, hlt]

/-- Kind and destination of the last instruction of every block are kept by
`ir_phi_add_arg`. -/
theorem ir_phi_add_arg_last (c : CodegenContext) (phi blk : Nat) (v : Option Nat) (b : Nat) :
    (block_last (ir_phi_add_arg c phi blk v) b).map (fun t => (t.kind, t.dest))
      = (block_last c b).map (fun t => (t.kind, t.dest)) := by
  cases hx : c.instructions[phi]? with
  | none =>
    have : ir_phi_add_arg c phi blk v = c := by unfold ir_phi_add_arg; rw [hx]
    rw [this]
  | some x =>
    have hb : block_instructions (ir_phi_add_arg c phi blk v) b = block_instructions c b :=
      block_instructions_congr (ir_phi_add_arg_frame c phi blk v).1 b
    rw [block_last_eq, block_last_eq, hb]
    cases block_instructions c b with
    | none => rfl
    | some l =>
      simp only [Option.some_bind]
      cases l.getLast? with
      | none => rfl
      | some i =>
        simp only [Option.some_bind]
        by_cases hi : i = phi
        · rw [hi, ir_phi_add_arg_lookup hx, hx]
          rfl
        · rw [(ir_phi_add_arg_frame c phi blk v).2.2.2.2 i hi]

theorem ir_phi_add_arg_ends {c : CodegenContext} {b : Nat} {j : Option Nat}
    (h : EndsAt c b j) (phi blk : Nat) (v : Option Nat) :
    EndsAt (ir_phi_add_arg c phi blk v) b j := by
  obtain ⟨t, ht, hd⟩ := h
  have e := ir_phi_add_arg_last c phi blk v b
  rw [ht] at e
  cases ht' : block_last (ir_phi_add_arg c phi blk v) b with
  | none => rw [ht'] at e; simp at e
  | some t' =>
    rw [ht'] at e
    simp only [Option.map_some', Option.some.injEq, Prod.mk.injEq] at e
    exact ⟨t', ht', by rw [e.1, e.2]; exact hd⟩

theorem ir_phi_add_arg_open {c : CodegenContext} (ho : ReturnOrOpen c) (phi blk : Nat)
    (v : Option Nat) : ReturnOrOpen (ir_phi_add_arg c phi blk v) := by
  intro t' ht' hterm
  rw [(ir_phi_add_arg_frame c phi blk v).2.1] at ht'
  have e := ir_phi_add_arg_last c phi blk v c.insert_point
  rw [ht'] at e
  cases ht : block_last c c.insert_point with
  | none => rw [ht] at e; simp at e
  | some t =>
    rw [ht] at e
    simp only [Option.map_some', Option.some.injEq, Prod.mk.injEq] at e
    rw [e.1]
    exact ho t ht (by rw [← e.1]; exact hterm)

theorem ir_phi_add_arg_reaches {c0 c : CodegenContext} (hr : Reaches c0 c) {phi : Nat}
    (hj : c0.instructions.length ≤ phi) (blk : Nat) (v : Option Nat) :
    Reaches c0 (ir_phi_add_arg c phi blk v) := by
  obtain ⟨h1, h2, h3, _, h5⟩ := ir_phi_add_arg_frame c phi blk v
  exact
    { blocks_le := by rw [h1]; exact hr.blocks_le
      insts_le := by rw [h3]; exact hr.insts_le
      frozen := fun b hb hne => by rw [block_instructions_congr h1]; exact hr.frozen b hb hne
      grown := fun l hl => by rw [block_instructions_congr h1]; exact hr.grown l hl
      insts := fun i hi => by rw [h5 i (by omega)]; exact hr.insts i hi
      next := by rw [h2]; exact hr.next
      valid := by rw [h1, h2]; exact hr.valid }

theorem ir_phi_add_arg_phi {c : CodegenContext} (hp : PhiArgsClosed c) {phi : Nat}
    {x : IRInstruction} (hx : c.instructions[phi]? = some x) {blk : Nat}
    (he : EndsAt c blk x.parent_block) (v : Option Nat) :
    PhiArgsClosed (ir_phi_add_arg c phi blk v) := by
  intro p y hy hk a ha
  by_cases hpe : p = phi
  · rw [hpe, ir_phi_add_arg_lookup hx] at hy
    cases hy
    simp only [List.mem_append, List.mem_singleton] at ha
    rcases ha with ha | ha
    · exact ir_phi_add_arg_ends (hp phi x hx hk a ha) phi blk v
    · rw [ha]
      exact ir_phi_add_arg_ends he phi blk v
  · rw [(ir_phi_add_arg_frame c phi blk v).2.2.2.2 p hpe] at hy
    exact ir_phi_add_arg_ends (hp p y hy hk a ha) phi blk v

theorem ir_phi_add_arg_framed {c0 c : CodegenContext} (h : Framed c0 c) {phi : Nat}
    (hj : c0.instructions.length ≤ phi) {x : IRInstruction}
    (hx : c.instructions[phi]? = some x) {blk : Nat} (he : EndsAt c blk x.parent_block)
    (v : Option Nat) : Framed c0 (ir_phi_add_arg c phi blk v) :=
  { reaches := ir_phi_add_arg_reaches h.reaches hj blk v
    phi := ir_phi_add_arg_phi h.phi hx he v }

theorem codegen_expr_if_sound (q : Queries) (id : Nat) (type : Ty) (condition_id then_id : Nat)
    (else_id : Option Nat) {kc kt ke : Lowering} (hkc : Sound kc) (hkt : Sound kt)
    (hke : Sound ke) :
    Sound (fun c => codegen_expr_if q c id type condition_id then_id else_id kc kt ke) := by
  intro c c' hv hp h
  simp only [codegen_expr_if] at h
  obtain ⟨c1, e1, h⟩ := bind_ok h
  obtain ⟨r, er, h⟩ := bind_ok h
  obtain ⟨c2, e2, h⟩ := bind_ok h
  obtain ⟨c2', e2', h⟩ := bind_ok h
  obtain ⟨e, ee, h⟩ := bind_ok h
  obtain ⟨c3', e3', h⟩ := bind_ok h
  have F1 := (Framed.refl_framed hv hp).sub_framed hv hkc e1
  have hv1 := F1.reaches.valid
  have hT : (ir_block c1).2 = c1.blocks.length := rfl
  have hE : (ir_block (ir_block c1).1).2 = c1.blocks.length + 1 := ir_block_length c1
  have hJ : (ir_block (ir_block (ir_block c1).1).1).2 = c1.blocks.length + 2 := by
    have h1 : (ir_block (ir_block (ir_block c1).1).1).2
        = (ir_block (ir_block c1).1).1.blocks.length := rfl
    rw [h1, ir_block_length, ir_block_length]
  have hle := F1.reaches.blocks_le
  have hvE : (ir_block c1).1.insert_point < (ir_block c1).1.blocks.length := by
    rw [ir_block_length]; exact Nat.lt_succ_of_lt hv1
  have hvJ : (ir_block (ir_block c1).1).1.insert_point
      < (ir_block (ir_block c1).1).1.blocks.length := by
    rw [ir_block_length]; exact Nat.lt_succ_of_lt hvE
  -- the three blocks while the conditional branch is inserted
  have F2 := (F1.block_framed.block_framed.block_framed).insert_step_framed hv er rfl
  have RT : Reserved r.1 (ir_block c1).2 :=
    ((Reserved.fresh c1 hv1).block_reserved.block_reserved).insert_step_reserved er
  have RE : Reserved r.1 (ir_block (ir_block c1).1).2 :=
    ((Reserved.fresh _ hvE).block_reserved).insert_step_reserved er
  have RJ : Reserved r.1 (ir_block (ir_block (ir_block c1).1).1).2 :=
    (Reserved.fresh _ hvJ).insert_step_reserved er
  -- the then arm
  have FA : Framed c (ir_block_attach r.1 (ir_block c1).2) :=
    F2.attach_framed (by omega) RT.lt
  have REA : Reserved (ir_block_attach r.1 (ir_block c1).2) (ir_block (ir_block c1).1).2 :=
    RE.attach_reserved (by omega)
  have RJA : Reserved (ir_block_attach r.1 (ir_block c1).2)
      (ir_block (ir_block (ir_block c1).1).1).2 := RJ.attach_reserved (by omega)
  have wA := hkt _ c2 FA.reaches.valid FA.phi e2
  have O2 : ReturnOrOpen c2 := wA.open_ RT.open
  have F3 := FA.sub_framed hv hkt e2
  have RE3 := REA.sub_reserved FA.reaches.valid FA.phi hkt e2
  have RJ3 := RJA.sub_reserved FA.reaches.valid FA.phi hkt e2
  have F4 := F3.branch_if_open_framed hv e2'
  have RE4 := RE3.branch_if_open_reserved e2'
  have RJ4 := RJ3.branch_if_open_reserved e2'
  have T4 : EndsAt c2' c2.insert_point (some (ir_block (ir_block (ir_block c1).1).1).2) :=
    branch_if_open_ends e2' O2
  -- the else arm
  have FB : Framed c (ir_block_attach c2' (ir_block (ir_block c1).1).2) :=
    F4.attach_framed (by omega) RE4.lt
  have RJB : Reserved (ir_block_attach c2' (ir_block (ir_block c1).1).2)
      (ir_block (ir_block (ir_block c1).1).1).2 := RJ4.attach_reserved (by omega)
  have OB : ReturnOrOpen (ir_block_attach c2' (ir_block (ir_block c1).1).2) := RE4.open
  have TB := T4.attach_endsat (ir_block (ir_block c1).1).2
  have he : Framed c e.1 ∧ Reserved e.1 (ir_block (ir_block (ir_block c1).1).1).2 ∧
      ReturnOrOpen e.1 ∧
      EndsAt e.1 c2.insert_point (some (ir_block (ir_block (ir_block c1).1).1).2) ∧
      e.2 = e.1.insert_point := by
    split at ee
    · obtain ⟨c3, e3, ee⟩ := bind_ok ee
      cases pure_ok ee
      have wB := hke _ c3 FB.reaches.valid FB.phi e3
      exact ⟨FB.sub_framed hv hke e3, RJB.sub_reserved FB.reaches.valid FB.phi hke e3, wB.open_ OB,
        wB.reaches.ends TB, rfl⟩
    · cases pure_ok ee
      exact ⟨FB, RJB, OB, TB, rfl⟩
  obtain ⟨F5, RJ5, O5, T5, hlast⟩ := he
  have F6 := F5.branch_if_open_framed hv e3'
  have RJ6 := RJ5.branch_if_open_reserved e3'
  have T6 := T5.branch_if_open_endsat F5.reaches.valid e3'
  have E6 : EndsAt c3' e.1.insert_point (some (ir_block (ir_block (ir_block c1).1).1).2) :=
    branch_if_open_ends e3' O5
  -- the join block
  have FC : Framed c (ir_block_attach c3' (ir_block (ir_block (ir_block c1).1).1).2) :=
    F6.attach_framed (by omega) RJ6.lt
  have OC : ReturnOrOpen (ir_block_attach c3' (ir_block (ir_block (ir_block c1).1).1).2) :=
    RJ6.open
  have TC := T6.attach_endsat (ir_block (ir_block (ir_block c1).1).1).2
  have EC := E6.attach_endsat (ir_block (ir_block (ir_block c1).1).1).2
  split at h
  · obtain ⟨phi, ephi, h⟩ := bind_ok h
    have hi := ir_insert_new_inserted ephi
    have FP := FC.insert_step_framed hv ephi rfl
    have OP : ReturnOrOpen phi.1 := hi.return_or_open_inserted (fun ht => Bool.noConfusion ht)
    have TP := TC.insert_step_endsat FC.reaches.valid ephi
    have EP := EC.insert_step_endsat FC.reaches.valid ephi
    have hj : c.instructions.length ≤ phi.2 := by
      rw [hi.index]; exact FC.reaches.insts_le
    split at h
    · exact Except.noConfusion h
    · cases pure_ok h
      have G1 := ir_phi_add_arg_framed FP hj hi.lookup_new TP (phi.1.node_ir then_id)
      have EP1 : EndsAt (ir_phi_add_arg phi.1 phi.2 c2.insert_point (phi.1.node_ir then_id))
          e.2 (some (ir_block (ir_block (ir_block c1).1).1).2) := by
        rw [hlast]; exact ir_phi_add_arg_ends EP _ _ _
      have G2 := ir_phi_add_arg_framed G1 hj
        (ir_phi_add_arg_lookup hi.lookup_new c2.insert_point (phi.1.node_ir then_id)) EP1
      exact Within.congr_within
        { reaches := (G2 _).reaches, phi := (G2 _).phi
          open_ := fun _ => ir_phi_add_arg_open (ir_phi_add_arg_open OP _ _ _) _ _ _ }
        rfl rfl rfl
  · cases pure_ok h
    exact { reaches := FC.reaches, phi := FC.phi, open_ := fun _ => OC }

/-! ## IR to MIR translation: claims -/

/-- C10 (the code departs from the claim): a phi with two arguments whose predecessor blocks
both end in a Return is still in its MIR block, with opcode Phi, after the translation
(`phi2copy` leaves its argument loop by `continue` for such predecessors and so never
registers the phi for removal). -/
theorem phi_of_returning_blocks_survives :
    mir_result_opcodes (mir_from_ir example_queries 1000 100 phi_of_returning_blocks) 3
      = some [some (.common .IR_PHI), some (.common .IR_RETURN)] := by
  decide!

/-! ### Lowering keeps the invariants -/

theorem Sound.at_emitted {k : Lowering} (hk : Sound k) {c c' : CodegenContext} {id : Nat}
    (hv : c.insert_point < c.blocks.length) (hp : PhiArgsClosed c)
    (h : k (c.set_emitted id) = .ok c') : Within c c' :=
  (hk (c.set_emitted id) c' hv (hp.congr_phis rfl rfl) h).congr_left_within rfl rfl rfl

theorem Sound.guard {k : Lowering} (hk : Sound k) (p : CodegenContext → Bool) :
    Sound (fun c => if p c then .ok c else k c) := by
  intro c c' hv hp h
  have h' : (if p c then .ok c else k c) = Except.ok c' := h
  split at h'
  · cases h'; exact Within.refl_within hv hp
  · exact hk c c' hv hp h'

mutual

theorem codegen_lvalue_sound (q : Queries) :
    (lval : Node) → Sound (fun c => codegen_lvalue q c lval)
  | .declaration id type name linkage init => by
      intro c c' hv hp h
      beta_reduce at h
      rw [codegen_lvalue] at h
      split at h
      · cases h; exact Within.refl_within hv hp
      · exact codegen_lvalue_declaration_sound q id type name linkage init
          (codegen_optional_sound q init) c c' hv hp h
  | .member_access id _ struct_ off mty => by
      intro c c' hv hp h
      beta_reduce at h
      rw [codegen_lvalue] at h
      split at h
      · cases h; exact Within.refl_within hv hp
      · exact codegen_lvalue_member_access_sound id struct_.id off mty
          (codegen_lvalue_sound q struct_) c c' hv hp h
  | .unary id _ op post value => by
      intro c c' hv hp h
      beta_reduce at h
      rw [codegen_lvalue] at h
      split at h
      · cases h; exact Within.refl_within hv hp
      · exact codegen_lvalue_unary_sound id op post value.id
          (codegen_expr_sound q value) c c' hv hp h
  | .variable_reference id _ decl => by
      intro c c' hv hp h
      beta_reduce at h
      rw [codegen_lvalue] at h
      split at h
      · cases h; exact Within.refl_within hv hp
      · exact codegen_lvalue_variable_reference_sound id decl c c' hv hp h
  | .cast id _ value => by
      intro c c' hv hp h
      beta_reduce at h
      rw [codegen_lvalue] at h
      split at h
      · cases h; exact Within.refl_within hv hp
      · exact codegen_lvalue_cast_sound id value.id (codegen_lvalue_sound q value) c c' hv hp h
  | .root .. | .function .. | .if_ .. | .while_ .. | .for_ .. | .return_ .. | .block ..
  | .call .. | .intrinsic_call .. | .binary .. | .literal .. | .module_reference ..
  | .function_reference .. | .structure_declaration .. => by
      intro c c' hv hp h
      beta_reduce at h
      rw [codegen_lvalue] at h <;> try (intros; contradiction)
      split at h
      · cases h; exact Within.refl_within hv hp
      · exact Except.noConfusion h

theorem codegen_expr_sound (q : Queries) :
    (expr : Node) → Sound (fun c => codegen_expr q c expr)
  | .function id _ _ _ attr_inline _ _ => by
      intro c c' hv hp h
      beta_reduce at h
      rw [codegen_expr] at h
      split at h
      · cases h; exact Within.refl_within hv hp
      · exact (codegen_expr_function_sound id attr_inline).at_emitted hv hp h
  | .module_reference id _ => by
      intro c c' hv hp h
      beta_reduce at h
      rw [codegen_expr] at h
      split at h
      · cases h; exact Within.refl_within hv hp
      · cases pure_ok h; exact (Within.refl_within hv hp).congr_within rfl rfl rfl
  | .root id _ children => by
      intro c c' hv hp h
      beta_reduce at h
      rw [codegen_expr] at h
      split at h
      · cases h; exact Within.refl_within hv hp
      · exact (codegen_expr_root_sound children (codegen_children_sound q children)).at_emitted
          hv hp h
  | .declaration id type name linkage init => by
      intro c c' hv hp h
      beta_reduce at h
      rw [codegen_expr] at h
      split at h
      · cases h; exact Within.refl_within hv hp
      · split at h
        · cases h; exact (Within.refl_within hv hp).congr_within rfl rfl rfl
        · exact (codegen_lvalue_declaration_sound q id type name linkage init
            (codegen_optional_sound q init)).at_emitted hv hp h
  | .member_access id _ struct_ off mty => by
      intro c c' hv hp h
      beta_reduce at h
      rw [codegen_expr] at h
      split at h
      · cases h; exact Within.refl_within hv hp
      · exact (codegen_expr_load_sound id
          ((codegen_lvalue_member_access_sound id struct_.id off mty
            (codegen_lvalue_sound q struct_)).guard
              (fun c => (c.node_address id).isSome))).at_emitted hv hp h
  | .variable_reference id _ decl => by
      intro c c' hv hp h
      beta_reduce at h
      rw [codegen_expr] at h
      split at h
      · cases h; exact Within.refl_within hv hp
      · exact (codegen_expr_load_sound id
          ((codegen_lvalue_variable_reference_sound id decl).guard
            (fun c => (c.node_address id).isSome))).at_emitted hv hp h
  | .structure_declaration id _ => by
      intro c c' hv hp h
      beta_reduce at h
      rw [codegen_expr] at h
      split at h
      · cases h; exact Within.refl_within hv hp
      · cases pure_ok h; exact (Within.refl_within hv hp).congr_within rfl rfl rfl
  | .if_ id type condition then_ else_ => by
      intro c c' hv hp h
      beta_reduce at h
      rw [codegen_expr] at h
      split at h
      · cases h; exact Within.refl_within hv hp
      · exact (codegen_expr_if_sound q id type condition.id then_.id
          (else_.map (fun e => e.id)) (codegen_expr_sound q condition)
          (codegen_expr_sound q then_) (codegen_optional_sound q else_)).at_emitted hv hp h
  | .while_ id _ condition body => by
      intro c c' hv hp h
      beta_reduce at h
      rw [codegen_expr] at h
      split at h
      · cases h; exact Within.refl_within hv hp
      · exact (codegen_expr_while_sound condition.id body.block_children_size
          (codegen_expr_sound q condition) (codegen_expr_sound q body)).at_emitted hv hp h
  | .block id type children => by
      intro c c' hv hp h
      beta_reduce at h
      rw [codegen_expr] at h
      split at h
      · cases h; exact Within.refl_within hv hp
      · exact (codegen_expr_block_sound q id type children
          (codegen_children_sound q children)).at_emitted hv hp h
  | .call id _ callee arguments intrinsic => by
      intro c c' hv hp h
      beta_reduce at h
      rw [codegen_expr] at h
      split at h
      · cases h; exact Within.refl_within hv hp
      · exact (codegen_expr_call_sound id callee intrinsic (codegen_expr_sound q callee)
          (fun call => codegen_call_arguments_sound q call arguments)).at_emitted hv hp h
  | .intrinsic_call id _ _ arguments intrinsic => by
      intro c c' hv hp h
      beta_reduce at h
      rw [codegen_expr] at h
      split at h
      · cases h; exact Within.refl_within hv hp
      · exact (codegen_expr_intrinsic_call_sound id intrinsic arguments.head?
          (codegen_first_sound q arguments)
          (fun call => codegen_call_arguments_sound q call arguments)).at_emitted hv hp h
  | .cast id type value => by
      intro c c' hv hp h
      beta_reduce at h
      rw [codegen_expr] at h
      split at h
      · cases h; exact Within.refl_within hv hp
      · exact (codegen_expr_cast_sound q id type value
          (codegen_expr_sound q value)).at_emitted hv hp h
  | .binary id _ op lhs rhs => by
      intro c c' hv hp h
      beta_reduce at h
      rw [codegen_expr] at h
      split at h
      · cases h; exact Within.refl_within hv hp
      · exact (codegen_expr_binary_sound q id op lhs rhs (codegen_lvalue_sound q lhs)
          (codegen_expr_sound q lhs) (codegen_expr_sound q rhs)).at_emitted hv hp h
  | .unary id _ op post value => by
      intro c c' hv hp h
      beta_reduce at h
      rw [codegen_expr] at h
      split at h
      · cases h; exact Within.refl_within hv hp
      · exact (codegen_expr_unary_sound id op post value (codegen_lvalue_sound q value)
          (codegen_expr_sound q value)).at_emitted hv hp h
  | .literal id type lit_type integer string_index compound => by
      intro c c' hv hp h
      beta_reduce at h
      rw [codegen_expr] at h
      split at h
      · cases h; exact Within.refl_within hv hp
      · exact (codegen_expr_literal_sound q id type lit_type integer string_index
          (fun address => codegen_array_elements_sound q (q.type_sizeof type.array_of)
            compound.length compound address 0)).at_emitted hv hp h
  | .for_ id _ init condition iterator body => by
      intro c c' hv hp h
      beta_reduce at h
      rw [codegen_expr] at h
      split at h
      · cases h; exact Within.refl_within hv hp
      · exact (codegen_expr_for_sound condition.id (codegen_expr_sound q init)
          (codegen_expr_sound q condition) (codegen_expr_sound q body)
          (codegen_expr_sound q iterator)).at_emitted hv hp h
  | .return_ id _ value => by
      intro c c' hv hp h
      beta_reduce at h
      rw [codegen_expr] at h
      split at h
      · cases h; exact Within.refl_within hv hp
      · exact (codegen_expr_return_sound id (value.map (fun v => v.id))
          (codegen_optional_sound q value)).at_emitted hv hp h
  | .function_reference .. => by
      intro c c' hv hp h
      beta_reduce at h
      rw [codegen_expr] at h
      split at h
      · cases h; exact Within.refl_within hv hp
      · exact Except.noConfusion h

theorem codegen_optional_sound (q : Queries) :
    (node : Option Node) → Sound (fun c => codegen_optional q c node)
  | none => by
      intro c c' hv hp h
      beta_reduce at h
      rw [codegen_optional] at h
      cases h; exact Within.refl_within hv hp
  | some n => by
      intro c c' hv hp h
      beta_reduce at h
      rw [codegen_optional] at h
      exact codegen_expr_sound q n c c' hv hp h

theorem codegen_first_sound (q : Queries) :
    (arguments : List Node) → Sound (fun c => codegen_first q c arguments)
  | [] => by
      intro c c' hv hp h
      beta_reduce at h
      rw [codegen_first] at h
      exact Except.noConfusion h
  | call :: _ => by
      intro c c' hv hp h
      beta_reduce at h
      rw [codegen_first] at h
      exact codegen_expr_sound q call c c' hv hp h

theorem codegen_children_sound (q : Queries) :
    (children : List Node) → Sound (fun c => codegen_children q c children)
  | [] => by
      intro c c' hv hp h
      beta_reduce at h
      rw [codegen_children] at h
      cases h; exact Within.refl_within hv hp
  | child :: rest => by
      intro c c' hv hp h
      beta_reduce at h
      rw [codegen_children] at h
      split at h
      · exact codegen_children_sound q rest c c' hv hp h
      · obtain ⟨c1, e1, h⟩ := bind_ok h
        exact ((Within.refl_within hv hp).sub_within hv (codegen_expr_sound q child) e1).sub_within hv
          (codegen_children_sound q rest) h

theorem codegen_call_arguments_sound (q : Queries) (call : Nat) :
    (arguments : List Node) → Sound (fun c => codegen_call_arguments q c call arguments)
  | [] => by
      intro c c' hv hp h
      beta_reduce at h
      rw [codegen_call_arguments] at h
      cases h; exact Within.refl_within hv hp
  | arg :: rest => by
      intro c c' hv hp h
      beta_reduce at h
      rw [codegen_call_arguments] at h
      obtain ⟨c1, e1, h⟩ := bind_ok h
      have w1 : Within c c1 := by
        split at e1
        · exact codegen_lvalue_sound q arg c c1 hv hp e1
        · exact codegen_expr_sound q arg c c1 hv hp e1
      exact (w1.core (call_add_argument_core c1 call arg)).sub_within hv
        (codegen_call_arguments_sound q call rest) h

theorem codegen_array_elements_sound (q : Queries) (element_size size : Nat) :
    (nodes : List Node) → (address : Option Nat) → (index : Nat) →
      Sound (fun c => codegen_array_elements q c element_size address index size nodes)
  | [], address, index => by
      intro c c' hv hp h
      beta_reduce at h
      rw [codegen_array_elements] at h
      cases h; exact Within.refl_within hv hp
  | node :: rest, address, index => by
      intro c c' hv hp h
      beta_reduce at h
      rw [codegen_array_elements] at h
      obtain ⟨c1, e1, h⟩ := bind_ok h
      obtain ⟨r, er, h⟩ := bind_ok h
      have w2 := array_store_element_within
        ((Within.refl_within hv hp).sub_within hv (codegen_expr_sound q node) e1) hv er
      split at h
      · cases pure_ok h; exact w2
      · exact w2.sub_within hv (codegen_array_elements_sound q element_size size rest _ _) h

end

/-! ### Closed blocks stay as they are -/

theorem core_cond {x y : IRInstruction} (h : x.core = y.core) : x.cond = y.cond :=
  by have := congrArg IRInstruction.cond h; exact this

theorem core_then {x y : IRInstruction} (h : x.core = y.core) : x.then_ = y.then_ :=
  by have := congrArg IRInstruction.then_ h; exact this

theorem core_else {x y : IRInstruction} (h : x.core = y.core) : x.else_ = y.else_ :=
  by have := congrArg IRInstruction.else_ h; exact this

theorem Sealed.block_last_sealed {c : CodegenContext} {b i : Nat} {l : List Nat} {t : IRInstruction}
    (h : Sealed c b l i t) : ∃ x, Intercept.block_last c b = some x ∧ x.core = t.core := by
  obtain ⟨x, hx, hc⟩ := h.last
  refine ⟨x, ?_, hc⟩
  rw [block_last_eq, h.instructions]
  simp [hx]

theorem Sealed.closed_sealed {c : CodegenContext} {b i : Nat} {l : List Nat} {t : IRInstruction}
    (h : Sealed c b l i t) : ir_is_closed c b = true := by
  obtain ⟨x, hx, hc⟩ := h.block_last_sealed
  unfold ir_is_closed
  rw [hx]
  simp only
  rw [core_kind hc]
  exact h.terminator

theorem Sealed.lookup_lt {c : CodegenContext} {b i : Nat} {l : List Nat} {t : IRInstruction}
    (h : Sealed c b l i t) : i < c.instructions.length := by
  obtain ⟨x, hx, _⟩ := h.last
  by_contra hcon
  rw [List.getElem?_eq_none (by omega)] at hx
  exact Option.noConfusion hx

theorem Sealed.reaches_sealed {c c' : CodegenContext} {b i : Nat} {l : List Nat} {t : IRInstruction}
    (h : Sealed c b l i t) (hr : Reaches c c') : Sealed c' b l i t := by
  have hb : block_instructions c' b = block_instructions c b := by
    by_cases hne : b = c.insert_point
    · subst hne
      obtain ⟨l', hl', _, hc⟩ := hr.grown _ h.instructions
      rw [hl', h.instructions, hc h.closed_sealed]
    · exact hr.frozen b (block_instructions_lt h.instructions) hne
  obtain ⟨x, hx, hc⟩ := h.last
  obtain ⟨x', hx', hc'⟩ := core_lookup (hr.insts i h.lookup_lt) hx
  exact
    { instructions := by rw [hb]; exact h.instructions
      last := ⟨x', hx', by rw [hc', hc]⟩
      terminator := h.terminator }

theorem Sealed.congr_sealed {c c' : CodegenContext} {b i : Nat} {l : List Nat} {t : IRInstruction}
    (h : Sealed c b l i t) (hb : c'.blocks = c.blocks)
    (hi : c'.instructions = c.instructions) : Sealed c' b l i t :=
  { instructions := by rw [block_instructions_congr hb]; exact h.instructions
    last := by rw [hi]; exact h.last
    terminator := h.terminator }

theorem Sealed.attach_sealed {c : CodegenContext} {b i : Nat} {l : List Nat} {t : IRInstruction}
    (h : Sealed c b l i t) (block : Nat) : Sealed (ir_block_attach c block) b l i t :=
  { instructions := by rw [ir_block_attach_instructions]; exact h.instructions
    last := h.last
    terminator := h.terminator }

theorem Sealed.insert_step_sealed {c : CodegenContext} {b i : Nat} {l : List Nat}
    {t x : IRInstruction} {r : CodegenContext × Nat} (h : Sealed c b l i t)
    (hv : c.insert_point < c.blocks.length) (e : ir_insert_new c x = .ok r) :
    Sealed r.1 b l i t :=
  h.reaches_sealed ((ir_insert_new_inserted e).reaches_inserted hv (Reaches.refl_reaches c hv))

theorem Sealed.phi_add_arg {c : CodegenContext} {b i : Nat} {l : List Nat}
    {t : IRInstruction} (h : Sealed c b l i t) {phi : Nat} {y : IRInstruction}
    (hy : c.instructions[phi]? = some y) (hk : y.kind = .IR_PHI) (blk : Nat)
    (v : Option Nat) : Sealed (ir_phi_add_arg c phi blk v) b l i t := by
  obtain ⟨h1, _, _, _, h5⟩ := ir_phi_add_arg_frame c phi blk v
  obtain ⟨x, hx, hc⟩ := h.last
  have hne : i ≠ phi := by
    intro e
    rw [e, hy] at hx
    cases hx
    have ht := h.terminator
    rw [← core_kind hc, hk] at ht
    exact Bool.noConfusion ht
  exact
    { instructions := by rw [block_instructions_congr h1]; exact h.instructions
      last := ⟨x, by rw [h5 i hne]; exact hx, hc⟩
      terminator := h.terminator }

/-- A terminator that is inserted seals the insertion block. -/
theorem Sealed.inserted_sealed {c : CodegenContext} {x : IRInstruction} {r : CodegenContext × Nat}
    (e : ir_insert_new c x = .ok r) (ht : is_terminator x.kind = true) :
    ∃ l, block_instructions c c.insert_point = some l ∧
      Sealed r.1 c.insert_point l c.instructions.length
        { x with parent_block := some c.insert_point } := by
  have hi := ir_insert_new_inserted e
  obtain ⟨l, hl, hl'⟩ := hi.block_at
  refine ⟨l, hl, ?_⟩
  exact
    { instructions := by rw [← hi.index]; exact hl'
      last := ⟨_, by rw [← hi.index]; exact hi.lookup_new, rfl⟩
      terminator := ht }

theorem Reserved.not_closed {c : CodegenContext} {b : Nat} (h : Reserved c b) :
    ir_is_closed (ir_block_attach c b) (ir_block_attach c b).insert_point = false := by
  have hp : (ir_block_attach c b).insert_point = b := rfl
  unfold ir_is_closed
  rw [hp, ir_block_attach_last, block_last_eq, h.empty]
  rfl

/-! ### Phi lowering on concrete functions -/

/-- C11 (the code departs from the claim): for the phi argument `(block 2, v)` whose
predecessor block 2 ends in a Branch and whose value `v` is defined in block 0, the Copy
into the phi's register (1006) is inserted into the MIR block of `v`, block 0, before its
conditional branch; the MIR block of the predecessor, block 2, holds its Branch alone. -/
theorem phi_copy_lands_in_block_of_value :
    mir_result_view (mir_from_ir example_queries 1000 100 phi_of_outer_value) 0
      = some [some ⟨.common .IR_COPY, 1001, [.immediate 1]⟩,
          some ⟨.common .IR_COPY, 1006, [.register 1001 8 false]⟩,
          some ⟨.common .IR_BRANCH_CONDITIONAL, 1002, [.immediate 1, .block 1, .block 2]⟩] ∧
    mir_result_view (mir_from_ir example_queries 1000 100 phi_of_outer_value) 2
      = some [some ⟨.common .IR_BRANCH, 1005, [.block 3]⟩] ∧
    mir_result_view (mir_from_ir example_queries 1000 100 phi_of_outer_value) 1
      = some [some ⟨.common .IR_COPY, 1003, [.immediate 1]⟩,
          some ⟨.common .IR_COPY, 1006, [.register 1003 8 false]⟩,
          some ⟨.common .IR_BRANCH, 1004, [.block 3]⟩] := by
  decide!

/-- C12 (the code departs from the claim): the phi of `phi_across_critical_edge` has the
virtual register 1004 (the register of the Copy placed in block 1 for the argument whose
predecessor ends in a Branch, and the register that the Return reads), but the Copy in the
trampoline, block 3, has the register 1006: `mir_push_into_block` assigns it the next
number of the function's counter. -/
theorem trampoline_copy_has_fresh_register :
    mir_result_view (mir_from_ir example_queries 1000 100 phi_across_critical_edge) 3
      = some [some ⟨.common .IR_COPY, 1006, [.immediate 1]⟩,
          some ⟨.common .IR_BRANCH, 1007, []⟩] ∧
    mir_result_view (mir_from_ir example_queries 1000 100 phi_across_critical_edge) 1
      = some [some ⟨.common .IR_COPY, 1004, [.immediate 20]⟩,
          some ⟨.common .IR_BRANCH, 1003, [.block 2]⟩] ∧
    mir_result_view (mir_from_ir example_queries 1000 100 phi_across_critical_edge) 2
      = some [some ⟨.common .IR_RETURN, 1005, [.register 1004 8 false]⟩] := by
  decide!

/-- C13 (the code departs from the claim): the trampoline of `phi_across_critical_edge`,
block 3, holds a Copy followed by a Branch, and the Branch has no operand at all: the phi
block is written to the `block` field of the branch, which the push into the trampoline
overwrites, and never added as an operand. -/
theorem trampoline_branch_has_no_operand :
    mir_result_block_count (mir_from_ir example_queries 1000 100 phi_across_critical_edge)
      = some 4 ∧
    mir_result_view (mir_from_ir example_queries 1000 100 phi_across_critical_edge) 3
      = some [some ⟨.common .IR_COPY, 1006, [.immediate 1]⟩,
          some ⟨.common .IR_BRANCH, 1007, []⟩] := by
  decide!

/-- Outside the case of one matching target: when both targets of the conditional branch of
the predecessor are the phi block (block 2), the then-target is rewritten to the
trampoline (block 3) and the else-target still names the phi block. -/
theorem double_edge_keeps_phi_block_operand :
    mir_result_view (mir_from_ir example_queries 1000 100 phi_across_double_edge) 0
      = some [some ⟨.common .IR_BRANCH_CONDITIONAL, 1001, [.immediate 1, .block 3, .block 2]⟩] := by
  decide!

/-- C20 (the code departs from the claim): after the translation of
`phi_across_critical_edge`, block 0 ends in a conditional branch whose block operands name
blocks 3 (the trampoline) and 1, while its successor list is still `[2, 1]`; the
trampoline is in no predecessor list and has no successor, and the phi block 2 still lists
block 0 as a predecessor. -/
theorem critical_edge_leaves_successors_stale :
    mir_result_view (mir_from_ir example_queries 1000 100 phi_across_critical_edge) 0
      = some [some ⟨.common .IR_BRANCH_CONDITIONAL, 1001, [.immediate 1, .block 3, .block 1]⟩] ∧
    mir_result_edges (mir_from_ir example_queries 1000 100 phi_across_critical_edge) 0
      = some ([2, 1], []) ∧
    mir_result_edges (mir_from_ir example_queries 1000 100 phi_across_critical_edge) 3
      = some ([], []) ∧
    mir_result_edges (mir_from_ir example_queries 1000 100 phi_across_critical_edge) 2
      = some ([], [0, 1]) := by
  decide!

/-! ### Reading the MIR state -/

theorem inst_ok {st : MIRContext} {i : Nat} {x : MIRInstruction} (h : st.inst i = .ok x) :
    st.instructions[i]? = some x := by
  unfold MIRContext.inst at h
  split at h
  · exact Except.noConfusion h
  · rename_i y hy
    cases h
    exact hy

theorem get_block_ok {st : MIRContext} {b : Nat} {B : MIRBlock}
    (h : st.get_block b = .ok B) : st.blocks[b]? = some B := by
  unfold MIRContext.get_block at h
  split at h
  · exact Except.noConfusion h
  · rename_i y hy
    cases h
    exact hy

theorem get_function_ok {st : MIRContext} {f : Nat} {F : MIRFunction}
    (h : st.get_function f = .ok F) : st.functions[f]? = some F := by
  unfold MIRContext.get_function at h
  split at h
  · exact Except.noConfusion h
  · rename_i y hy
    cases h
    exact hy

theorem inst_of_lookup {st : MIRContext} {i : Nat} {x : MIRInstruction}
    (h : st.instructions[i]? = some x) : st.inst i = .ok x := by
  unfold MIRContext.inst
  rw [h]

theorem get_block_of_lookup {st : MIRContext} {b : Nat} {B : MIRBlock}
    (h : st.blocks[b]? = some B) : st.get_block b = .ok B := by
  unfold MIRContext.get_block
  rw [h]

theorem get_function_of_lookup {st : MIRContext} {f : Nat} {F : MIRFunction}
    (h : st.functions[f]? = some F) : st.get_function f = .ok F := by
  unfold MIRContext.get_function
  rw [h]

theorem lookup_in_range {α : Type} {l : List α} {i : Nat} {x : α} (h : l[i]? = some x) :
    i < l.length := by
  by_contra hcon
  rw [List.getElem?_eq_none (by omega)] at h
  exact Option.noConfusion h

theorem ir_inst_ok {ctx : CodegenContext} {i : Option Nat} {x : IRInstruction}
    (h : ir_inst ctx i = .ok x) : ∃ j, i = some j ∧ ctx.instructions[j]? = some x := by
  unfold ir_inst at h
  cases i with
  | none => exact Except.noConfusion h
  | some j =>
    simp only at h
    split at h
    · exact Except.noConfusion h
    · rename_i y hy
      cases h
      exact ⟨j, rfl, hy⟩

theorem ir_inst_of_lookup {ctx : CodegenContext} {j : Nat} {x : IRInstruction}
    (h : ctx.instructions[j]? = some x) : ir_inst ctx (some j) = .ok x := by
  unfold ir_inst
  simp only [h]

/-! ### Operands -/

theorem result_mir_ok {r : Except Fatal MIRContext} (h : fatal_of r = none) :
    r = .ok (result_mir r) := by
  cases r with
  | error e => exact Option.noConfusion h
  | ok c => rfl

theorem result_operand_ok {r : Except Fatal (MIRContext × MIROperand)}
    (h : fatal_of r = none) : r = .ok (result_operand r) := by
  cases r with
  | error e => exact Option.noConfusion h
  | ok c => rfl

/-! #### The lowered chain -/

theorem LoweredChain.head {st : MIRContext} {m last : Nat} {path : List Nat}
    (h : LoweredChain st m last path) : ∃ rest, path = m :: rest := by
  cases h with
  | last _ x hx hl => exact ⟨[], rfl⟩
  | step _ l _ path x hx hl hc => exact ⟨path, rfl⟩

theorem LoweredChain.unique {st : MIRContext} {m last : Nat} {path : List Nat}
    (h : LoweredChain st m last path) :
    ∀ {last' : Nat} {path' : List Nat}, LoweredChain st m last' path' →
      last' = last ∧ path' = path := by
  induction h with
  | last m x hx hl =>
    intro last' path' h'
    cases h' with
    | last _ y hy hl' => exact ⟨rfl, rfl⟩
    | step _ l _ p y hy hl' hc =>
      rw [hx] at hy
      cases hy
      rw [hl] at hl'
      exact Option.noConfusion hl'
  | step m l last path x hx hl hc ih =>
    intro last' path' h'
    cases h' with
    | last _ y hy hl' =>
      rw [hx] at hy
      cases hy
      rw [hl] at hl'
      exact Option.noConfusion hl'
    | step _ l' _ p y hy hl' hc' =>
      rw [hx] at hy
      cases hy
      rw [hl] at hl'
      cases hl'
      obtain ⟨e1, e2⟩ := ih hc'
      exact ⟨e1, by rw [e2]⟩

/-- From every instruction on the path the chain goes on to the same end, by a path that
is not longer. -/
theorem LoweredChain.from_member {st : MIRContext} {m last : Nat} {path : List Nat}
    (h : LoweredChain st m last path) :
    ∀ i ∈ path, ∃ p, LoweredChain st i last p ∧ p.length ≤ path.length := by
  induction h with
  | last m x hx hl =>
    intro i hi
    rw [List.mem_singleton] at hi
    subst hi
    exact ⟨[i], LoweredChain.last i x hx hl, Nat.le_refl _⟩
  | step m l last path x hx hl hc ih =>
    intro i hi
    rcases List.mem_cons.mp hi with hi | hi
    · subst hi
      exact ⟨i :: path, LoweredChain.step i l last path x hx hl hc, Nat.le_refl _⟩
    · obtain ⟨p, hp, hlen⟩ := ih i hi
      exact ⟨p, hp, by simp only [List.length_cons]; omega⟩

theorem LoweredChain.nodup {st : MIRContext} {m last : Nat} {path : List Nat}
    (h : LoweredChain st m last path) : path.Nodup := by
  induction h with
  | last m x hx hl => exact List.nodup_singleton m
  | step m l last path x hx hl hc ih =>
    refine List.nodup_cons.mpr ⟨?_, ih⟩
    intro hm
    obtain ⟨p, hp, hlen⟩ := hc.from_member m hm
    obtain ⟨_, e⟩ := (LoweredChain.step m l last path x hx hl hc).unique hp
    rw [e] at hlen
    simp only [List.length_cons] at hlen
    omega

theorem LoweredChain.bounded {st : MIRContext} {m last : Nat} {path : List Nat}
    (h : LoweredChain st m last path) : ∀ i ∈ path, i < st.instructions.length := by
  induction h with
  | last m x hx hl =>
    intro i hi
    rw [List.mem_singleton] at hi
    subst hi
    exact lookup_in_range hx
  | step m l last path x hx hl hc ih =>
    intro i hi
    rcases List.mem_cons.mp hi with hi | hi
    · subst hi; exact lookup_in_range hx
    · exact ih i hi

/-- A chain visits no instruction twice, so it is not longer than the store. -/
theorem LoweredChain.length_le {st : MIRContext} {m last : Nat} {path : List Nat}
    (h : LoweredChain st m last path) : path.length ≤ st.instructions.length := by
  have hsub : path ⊆ List.range st.instructions.length := fun i hi =>
    List.mem_range.mpr (h.bounded i hi)
  have := (List.subperm_of_subset h.nodup hsub).length_le
  simpa using this

theorem mir_follow_lowered_of_chain {st : MIRContext} {m last : Nat} {path : List Nat}
    (h : LoweredChain st m last path) :
    ∀ fuel, path.length ≤ fuel → mir_follow_lowered st fuel m = .ok last := by
  induction h with
  | last m x hx hl =>
    intro fuel hf
    cases fuel with
    | zero => simp at hf
    | succ fuel =>
      rw [mir_follow_lowered, inst_of_lookup hx]
      simp only [bind, Except.bind, hl]
      rfl
  | step m l last path x hx hl hc ih =>
    intro fuel hf
    cases fuel with
    | zero => simp at hf
    | succ fuel =>
      rw [mir_follow_lowered, inst_of_lookup hx]
      simp only [bind, Except.bind, hl]
      exact ih fuel (by simp only [List.length_cons] at hf; omega)

theorem chain_of_mir_follow_lowered {st : MIRContext} :
    ∀ (fuel m last : Nat), mir_follow_lowered st fuel m = .ok last →
      ∃ path, LoweredChain st m last path
  | 0, _, _, h => by
    rw [mir_follow_lowered] at h
    exact Except.noConfusion h
  | fuel + 1, m, last, h => by
    rw [mir_follow_lowered] at h
    obtain ⟨x, ex, h⟩ := bind_ok h
    cases hl : x.lowered with
    | none =>
      rw [hl] at h
      cases pure_ok h
      exact ⟨[m], LoweredChain.last m x (inst_ok ex) hl⟩
    | some l =>
      rw [hl] at h
      obtain ⟨path, hp⟩ := chain_of_mir_follow_lowered fuel l last h
      exact ⟨m :: path, LoweredChain.step m l last path x (inst_ok ex) hl hp⟩

/-! #### References to IR values -/

theorem mir_op_reference_of_chain (q : Queries) {st : MIRContext} {m last : Nat}
    {path : List Nat} {y : MIRInstruction} (h : LoweredChain st m last path)
    (hy : st.instructions[last]? = some y) :
    mir_op_reference q st (some m) =
      (match y.origin with
        | none => pure (.register y.reg 0 false)
        | some o => do
            let ty ← ir_typeof st.ir (some o)
            pure (.register y.reg (q.type_sizeof ty % 2 ^ 16) false)) := by
  unfold mir_op_reference
  simp only
  rw [mir_follow_lowered_of_chain h _ (by have := h.length_le; omega)]
  simp only [bind, Except.bind, inst_of_lookup hy] <;> rfl

theorem ir_set_alloca_offset_without (ctx : CodegenContext) (a : Nat) (o : Option Nat) :
    (ir_set_alloca_offset ctx a o).instructions.map IRInstruction.without_offset
      = ctx.instructions.map IRInstruction.without_offset := by
  unfold ir_set_alloca_offset
  cases hx : ctx.instructions[a]? with
  | none => rfl
  | some x =>
    simp only
    apply List.ext_getElem?
    intro i
    simp only [List.getElem?_map, List.getElem?_set]
    by_cases hi : a = i
    · subst hi
      simp [lookup_in_range hx, hx, IRInstruction.without_offset]
    · simp [hi]

theorem ir_set_alloca_offset_erased (ctx : CodegenContext) (a : Nat) (o : Option Nat) :
    { ir_set_alloca_offset ctx a o with
        instructions :=
          (ir_set_alloca_offset ctx a o).instructions.map IRInstruction.without_offset }
      = { ctx with instructions := ctx.instructions.map IRInstruction.without_offset } := by
  have h := ir_set_alloca_offset_without ctx a o
  unfold ir_set_alloca_offset at h ⊢
  cases hx : ctx.instructions[a]? with
  | none => rfl
  | some x =>
    rw [hx] at h
    simp only at h ⊢
    rw [h]

theorem set_function_without (fs : List MIRFunction) (f : Nat) (x y : MIRFunction)
    (hx : fs[f]? = some x) (hy : y.without_frame = x.without_frame) :
    (fs.set f y).map MIRFunction.without_frame = fs.map MIRFunction.without_frame := by
  apply List.ext_getElem?
  intro i
  simp only [List.getElem?_map, List.getElem?_set]
  by_cases hi : f = i
  · subst hi
    simp [lookup_in_range hx, hx, hy]
  · simp [hi]

theorem skeleton_set_function (st : MIRContext) (function : Nat) (x y : MIRFunction)
    (hx : st.functions[function]? = some x) (hy : y.without_frame = x.without_frame) :
    (st.set_function function y).skeleton = st.skeleton := by
  simp only [MIRContext.skeleton, MIRContext.set_function]
  rw [set_function_without st.functions function x y hx hy]

theorem skeleton_set_offset (st : MIRContext) (a : Nat) (o : Option Nat) :
    MIRContext.skeleton { st with ir := ir_set_alloca_offset st.ir a o } = st.skeleton := by
  simp only [MIRContext.skeleton]
  rw [ir_set_alloca_offset_erased]

theorem mir_op_local_ref_ir_skeleton {st : MIRContext} {function alloca : Nat}
    {r : MIRContext × MIROperand} (h : mir_op_local_ref_ir st function alloca = .ok r) :
    r.1.skeleton = st.skeleton ∧ ∃ k, r.2 = .local_ref k := by
  unfold mir_op_local_ref_ir at h
  obtain ⟨a, ea, h⟩ := bind_ok h
  split at h
  · cases pure_ok h
    exact ⟨rfl, _, rfl⟩
  · obtain ⟨f, ef, h⟩ := bind_ok h
    cases pure_ok h
    refine ⟨?_, _, rfl⟩
    have e1 := skeleton_set_offset st alloca (some f.frame_objects.length)
    have e2 := skeleton_set_function
      ({ st with ir := ir_set_alloca_offset st.ir alloca (some f.frame_objects.length) } :
        MIRContext) function f
      { f with frame_objects :=
          f.frame_objects ++ [{ size := a.alloca_size, lowered := none, offset := -1 }] }
      (get_function_ok ef) rfl
    exact e2.trans e1

theorem mir_op_reference_register {q : Queries} {st : MIRContext} {m : Option Nat}
    {op : MIROperand} (h : mir_op_reference q st m = .ok op) :
    ∃ reg size, op = .register reg size false := by
  unfold mir_op_reference at h
  split at h
  · exact Except.noConfusion h
  · obtain ⟨last, _, h⟩ := bind_ok h
    obtain ⟨x, _, h⟩ := bind_ok h
    split at h
    · cases pure_ok h; exact ⟨_, _, rfl⟩
    · obtain ⟨ty, _, h⟩ := bind_ok h
      cases pure_ok h; exact ⟨_, _, rfl⟩

/-- Building an operand changes nothing but Alloca offsets and frame objects, and the
operand is never the empty operand. -/
theorem mir_op_reference_ir_skeleton {q : Queries} {st : MIRContext} {function : Nat}
    {inst : Option Nat} {r : MIRContext × MIROperand}
    (h : mir_op_reference_ir q st function inst = .ok r) :
    r.1.skeleton = st.skeleton ∧ r.2 ≠ .none := by
  unfold mir_op_reference_ir at h
  split at h
  · exact Except.noConfusion h
  · obtain ⟨x, _, h⟩ := bind_ok h
    split at h
    · cases pure_ok h
      exact ⟨rfl, by simp [mir_op_register]⟩
    · split at h
      · cases pure_ok h
        exact ⟨rfl, by simp [mir_op_immediate]⟩
      · obtain ⟨hs, k, hk⟩ := mir_op_local_ref_ir_skeleton h
        exact ⟨hs, by rw [hk]; simp⟩
      · cases pure_ok h
        exact ⟨rfl, by simp [mir_op_static_ref]⟩
      · split at h
        · exact Except.noConfusion h
        · obtain ⟨op, eop, h⟩ := bind_ok h
          cases pure_ok h
          refine ⟨rfl, ?_⟩
          unfold mir_op_function at eop
          split at eop
          · exact Except.noConfusion eop
          · cases eop; simp
      · split at h
        · exact Except.noConfusion h
        · obtain ⟨op, eop, h⟩ := bind_ok h
          cases pure_ok h
          obtain ⟨reg, size, e⟩ := mir_op_reference_register eop
          exact ⟨rfl, by rw [e]; simp⟩

/-! #### Reading through the skeleton -/

theorem skeleton_instructions {st st' : MIRContext} (h : st'.skeleton = st.skeleton) :
    st'.instructions = st.instructions :=
  by have := congrArg MIRContext.instructions h; exact this

theorem skeleton_blocks {st st' : MIRContext} (h : st'.skeleton = st.skeleton) :
    st'.blocks = st.blocks :=
  by have := congrArg MIRContext.blocks h; exact this

theorem skeleton_inst_mir {st st' : MIRContext} (h : st'.skeleton = st.skeleton) :
    st'.inst_mir = st.inst_mir :=
  by have := congrArg MIRContext.inst_mir h; exact this

theorem skeleton_function_mir {st st' : MIRContext} (h : st'.skeleton = st.skeleton) :
    st'.function_mir = st.function_mir :=
  by have := congrArg MIRContext.function_mir h; exact this

theorem skeleton_block_mir {st st' : MIRContext} (h : st'.skeleton = st.skeleton) :
    st'.block_mir = st.block_mir :=
  by have := congrArg MIRContext.block_mir h; exact this

theorem skeleton_alloc_id {st st' : MIRContext} (h : st'.skeleton = st.skeleton) :
    st'.mir_alloc_id = st.mir_alloc_id :=
  by have := congrArg MIRContext.mir_alloc_id h; exact this

theorem skeleton_functions {st st' : MIRContext} (h : st'.skeleton = st.skeleton) :
    st'.functions.map MIRFunction.without_frame = st.functions.map MIRFunction.without_frame :=
  by have := congrArg MIRContext.functions h; exact this

theorem skeleton_ir_instructions {st st' : MIRContext} (h : st'.skeleton = st.skeleton) :
    st'.ir.instructions.map IRInstruction.without_offset
      = st.ir.instructions.map IRInstruction.without_offset :=
  by have := congrArg (fun s => s.ir.instructions) h; exact this

theorem skeleton_ir_blocks {st st' : MIRContext} (h : st'.skeleton = st.skeleton) :
    st'.ir.blocks = st.ir.blocks :=
  by have := congrArg (fun s => s.ir.blocks) h; exact this

theorem skeleton_ir_functions {st st' : MIRContext} (h : st'.skeleton = st.skeleton) :
    st'.ir.functions = st.ir.functions :=
  by have := congrArg (fun s => s.ir.functions) h; exact this

theorem map_lookup {α β : Type} (f : α → β) {l l' : List α} (h : l'.map f = l.map f) {i : Nat}
    {x : α} (hx : l[i]? = some x) : ∃ x', l'[i]? = some x' ∧ f x' = f x := by
  have e : (l'.map f)[i]? = (l.map f)[i]? := by rw [h]
  rw [List.getElem?_map, List.getElem?_map, hx] at e
  cases hx' : l'[i]? with
  | none => rw [hx'] at e; exact Option.noConfusion e
  | some x' =>
    rw [hx'] at e
    exact ⟨x', rfl, Option.some.inj e⟩

theorem skeleton_function_lookup {st st' : MIRContext} (h : st'.skeleton = st.skeleton)
    {g : Nat} {fn : MIRFunction} (hf : st.functions[g]? = some fn) :
    ∃ fn', st'.functions[g]? = some fn' ∧ fn'.without_frame = fn.without_frame :=
  map_lookup MIRFunction.without_frame (skeleton_functions h) hf

theorem skeleton_ir_lookup {st st' : MIRContext} (h : st'.skeleton = st.skeleton)
    {i : Nat} {x : IRInstruction} (hx : st.ir.instructions[i]? = some x) :
    ∃ x', st'.ir.instructions[i]? = some x' ∧ x'.without_offset = x.without_offset :=
  map_lookup IRInstruction.without_offset (skeleton_ir_instructions h) hx

theorem skeleton_ir_of {s s' : MIRContext} (h : s'.ir = s.ir) :
    s'.skeleton.ir = s.skeleton.ir := by
  unfold MIRContext.skeleton
  simp only [h]

theorem skeleton_functions_of {s s' : MIRContext} (h : s'.functions = s.functions) :
    s'.skeleton.functions = s.skeleton.functions := by
  unfold MIRContext.skeleton
  simp only [h]

/-! ### The primitive steps of the translation -/

theorem mir_add_op_ok {st : MIRContext} {inst : Nat} {x y : MIRInstruction} {op : MIROperand}
    (hx : st.instructions[inst]? = some x) (hy : mir_add_op_inst x op = .ok y) :
    mir_add_op st inst op = .ok (st.set_inst inst y) := by
  unfold mir_add_op
  simp only [inst_of_lookup hx, hy, bind, Except.bind]
  rfl

theorem mir_add_op_inst_small {x : MIRInstruction} {op : MIROperand} (hop : op ≠ .none)
    (hc : x.operand_count < MIR_OPERAND_SSO_THRESHOLD) :
    mir_add_op_inst x op = .ok { x with
      operands_arr := x.operands_arr.set x.operand_count op
      operand_count := x.operand_count + 1 } := by
  unfold mir_add_op_inst
  rw [if_neg hop, if_pos hc]

theorem mir_block_makenew_ok {st : MIRContext} {function : Nat} {fn : MIRFunction}
    (name : CStr) (hf : st.functions[function]? = some fn) :
    mir_block_makenew st function name
      = .ok (MIRContext.set_function
          { st with blocks := st.blocks ++ [{ function := some function, name := name }] }
          function { fn with blocks := fn.blocks ++ [st.blocks.length] },
        st.blocks.length) := by
  unfold mir_block_makenew
  simp only [get_function_of_lookup hf, bind, Except.bind]
  rfl

theorem mir_push_with_reg_into_block_ok {st : MIRContext} {f block mi reg : Nat}
    {B : MIRBlock} {x : MIRInstruction} {fn : MIRFunction}
    (hB : st.blocks[block]? = some B) (hx : st.instructions[mi]? = some x)
    (hf : st.functions[f]? = some fn) :
    mir_push_with_reg_into_block st f block mi reg
      = .ok (((st.set_block block { B with instructions := B.instructions ++ [mi] }).set_inst mi
          { x with block := some block, reg := reg }).set_function f
          { fn with inst_count := (fn.inst_count + 1) % 2 ^ 64 }) := by
  unfold mir_push_with_reg_into_block
  have h1 : (st.set_block block { B with instructions := B.instructions ++ [mi] }).inst mi
      = .ok x := inst_of_lookup hx
  have h2 : ((st.set_block block { B with instructions := B.instructions ++ [mi] }).set_inst mi
      { x with block := some block, reg := reg }).get_function f = .ok fn :=
    get_function_of_lookup hf
  simp only [get_block_of_lookup hB, bind, Except.bind, h1, h2]
  rfl

theorem mir_push_into_block_ok {arch_start : Nat} {st : MIRContext} {f block mi : Nat}
    {B : MIRBlock} {x : MIRInstruction} {fn : MIRFunction}
    (hB : st.blocks[block]? = some B) (hx : st.instructions[mi]? = some x)
    (hf : st.functions[f]? = some fn) :
    mir_push_into_block arch_start st f block mi
      = .ok (((st.set_block block { B with instructions := B.instructions ++ [mi] }).set_inst mi
          { x with block := some block,
                   reg := if origin_register st x ≠ 0 then origin_register st x
                     else to_MIRRegister ((fn.inst_count + arch_start) % 2 ^ 64) }).set_function f
          { fn with inst_count := (fn.inst_count + 1) % 2 ^ 64 }) := by
  unfold mir_push_into_block
  simp only [inst_of_lookup hx, bind, Except.bind, get_function_of_lookup hf]
  by_cases h : origin_register st x ≠ 0
  · rw [if_pos h, if_pos h]
    exact mir_push_with_reg_into_block_ok hB hx hf
  · rw [if_neg h, if_neg h]
    exact mir_push_with_reg_into_block_ok hB hx hf

/-! #### States that extend a state -/

theorem lookup_of_lt {α : Type} {l : List α} {i : Nat} (h : i < l.length) :
    ∃ x, l[i]? = some x :=
  ⟨l[i], List.getElem?_eq_getElem h⟩

theorem mir_makenew_fst_instructions (s : MIRContext) (op : MIROpcode) :
    (mir_makenew s op).1.instructions
      = s.instructions ++ [{ id := s.mir_alloc_id + 1, opcode := op }] := rfl

theorem mir_makenew_snd (s : MIRContext) (op : MIROpcode) :
    (mir_makenew s op).2 = s.instructions.length := rfl

theorem refl_mid (st : MIRContext) : Mid st st 0 0 :=
  ⟨rfl, rfl, fun _ _ => rfl, fun _ _ => rfl, rfl, rfl, rfl⟩

theorem Mid.of_skeleton_mid {st s s' : MIRContext} {di db : Nat} (h : Mid st s di db)
    (hs : s'.skeleton = s.skeleton) : Mid st s' di db :=
  ⟨by rw [skeleton_instructions hs]; exact h.ilen,
   by rw [skeleton_blocks hs]; exact h.blen,
   by rw [skeleton_instructions hs]; exact h.insts,
   by rw [skeleton_blocks hs]; exact h.blocks,
   by
    have := congrArg List.length (skeleton_functions hs)
    simp only [List.length_map] at this
    rw [this]; exact h.flen,
   by rw [skeleton_inst_mir hs]; exact h.inst_mir,
   by rw [hs]; exact h.ir⟩

theorem Mid.makenew {st s : MIRContext} {di db : Nat} (h : Mid st s di db) (op : MIROpcode) :
    Mid st (mir_makenew s op).1 (di + 1) db :=
  ⟨by
    show (s.instructions ++ [_]).length = _
    rw [List.length_append, h.ilen]; rfl,
   h.blen,
   fun i hi => by
    show (s.instructions ++ [_])[i]? = _
    rw [List.getElem?_append_left (by have := h.ilen; omega)]
    exact h.insts i hi,
   h.blocks, h.flen, h.inst_mir, h.ir⟩

theorem Mid.set_inst_mid {st s : MIRContext} {di db : Nat} (h : Mid st s di db) {i : Nat}
    (hi : st.instructions.length ≤ i) (y : MIRInstruction) : Mid st (s.set_inst i y) di db :=
  ⟨by
    show (s.instructions.set i y).length = _
    rw [List.length_set]; exact h.ilen,
   h.blen,
   fun j hj => by
    show (s.instructions.set i y)[j]? = _
    rw [List.getElem?_set_ne (by omega)]
    exact h.insts j hj,
   h.blocks, h.flen, h.inst_mir, h.ir⟩

theorem Mid.set_block_mid {st s : MIRContext} {di db : Nat} (h : Mid st s di db) {b : Nat}
    (hb : st.blocks.length ≤ b) (y : MIRBlock) : Mid st (s.set_block b y) di db :=
  ⟨h.ilen,
   by
    show (s.blocks.set b y).length = _
    rw [List.length_set]; exact h.blen,
   h.insts,
   fun j hj => by
    show (s.blocks.set b y)[j]? = _
    rw [List.getElem?_set_ne (by omega)]
    exact h.blocks j hj,
   h.flen, h.inst_mir, h.ir⟩

theorem Mid.set_function {st s : MIRContext} {di db : Nat} (h : Mid st s di db) (f : Nat)
    (y : MIRFunction) : Mid st (s.set_function f y) di db :=
  ⟨h.ilen, h.blen, h.insts, h.blocks,
   by
    show (s.functions.set f y).length = _
    rw [List.length_set]; exact h.flen,
   h.inst_mir, h.ir⟩

theorem Mid.add_op {st s : MIRContext} {di db : Nat} (h : Mid st s di db) {i : Nat}
    (hi : st.instructions.length ≤ i) (hlt : i < s.instructions.length) {op : MIROperand}
    (hop : op ≠ .none) : ∃ s', mir_add_op s i op = .ok s' ∧ Mid st s' di db := by
  obtain ⟨x, hx⟩ := lookup_of_lt hlt
  have hy : ∃ y, mir_add_op_inst x op = .ok y := by
    unfold mir_add_op_inst
    rw [if_neg hop]
    split
    · exact ⟨_, rfl⟩
    · split
      · exact ⟨_, rfl⟩
      · exact ⟨_, rfl⟩
  obtain ⟨y, hy⟩ := hy
  exact ⟨_, mir_add_op_ok hx hy, h.set_inst_mid hi y⟩

theorem Mid.block_makenew {st s : MIRContext} {di db : Nat} (h : Mid st s di db)
    {function : Nat} (hf : function < st.functions.length) (name : CStr) :
    ∃ s', mir_block_makenew s function name = .ok (s', st.blocks.length + db) ∧
      Mid st s' di (db + 1) := by
  obtain ⟨fn, hfn⟩ := lookup_of_lt (l := s.functions) (by rw [h.flen]; exact hf)
  refine ⟨MIRContext.set_function
      { s with blocks := s.blocks ++ [{ function := some function, name := name }] }
      function { fn with blocks := fn.blocks ++ [s.blocks.length] }, ?_, ?_⟩
  · rw [mir_block_makenew_ok name hfn, h.blen]
  · refine Mid.set_function
      (s := { s with blocks := s.blocks ++ [{ function := some function, name := name }] })
      ?_ _ _
    exact ⟨h.ilen,
      by
        show (s.blocks ++ [_]).length = _
        rw [List.length_append, h.blen]; rfl,
      h.insts,
      fun b hb => by
        show (s.blocks ++ [_])[b]? = _
        rw [List.getElem?_append_left (by have := h.blen; omega)]
        exact h.blocks b hb,
      h.flen, h.inst_mir, h.ir⟩

theorem Mid.push {st s : MIRContext} {di db : Nat} (h : Mid st s di db) (arch_start : Nat)
    {function : Nat} (block mi : Nat) (hf : function < st.functions.length)
    (hb : st.blocks.length ≤ block) (hblt : block < s.blocks.length)
    (hi : st.instructions.length ≤ mi) (hilt : mi < s.instructions.length) :
    ∃ s', mir_push_into_block arch_start s function block mi = .ok s' ∧ Mid st s' di db := by
  obtain ⟨fn, hfn⟩ := lookup_of_lt (l := s.functions) (by rw [h.flen]; exact hf)
  obtain ⟨B, hB⟩ := lookup_of_lt hblt
  obtain ⟨x, hx⟩ := lookup_of_lt hilt
  exact ⟨_, mir_push_into_block_ok hB hx hfn,
    ((h.set_block_mid hb _).set_inst_mid hi _).set_function _ _⟩

theorem Mid.ir_lookup {st s : MIRContext} {di db : Nat} (h : Mid st s di db) {i : Nat}
    {x : IRInstruction} (hx : st.ir.instructions[i]? = some x) :
    ∃ x', s.ir.instructions[i]? = some x' ∧ x'.without_offset = x.without_offset := by
  have e : s.ir.instructions.map IRInstruction.without_offset
      = st.ir.instructions.map IRInstruction.without_offset := by
    have := congrArg CodegenContext.instructions h.ir
    exact this
  exact map_lookup IRInstruction.without_offset e hx

theorem Mid.inst_lookup {st s : MIRContext} {di db : Nat} (h : Mid st s di db) {i : Nat}
    {x : MIRInstruction} (hx : st.instructions[i]? = some x) : s.instructions[i]? = some x := by
  rw [h.insts i (lookup_in_range hx)]; exact hx

theorem Mid.block_lookup {st s : MIRContext} {di db : Nat} (h : Mid st s di db) {b : Nat}
    {B : MIRBlock} (hB : st.blocks[b]? = some B) : s.blocks[b]? = some B := by
  rw [h.blocks b (lookup_in_range hB)]; exact hB

theorem mir_push_with_reg_into_block_inv {st st' : MIRContext} {f block mi reg : Nat}
    (h : mir_push_with_reg_into_block st f block mi reg = .ok st') :
    ∃ B x fn, st.blocks[block]? = some B ∧ st.instructions[mi]? = some x ∧
      st.functions[f]? = some fn := by
  unfold mir_push_with_reg_into_block at h
  obtain ⟨B, hB, h⟩ := bind_ok h
  obtain ⟨x, hx, h⟩ := bind_ok h
  obtain ⟨fn, hf, _⟩ := bind_ok h
  exact ⟨B, x, fn, get_block_ok hB, inst_ok hx, get_function_ok hf⟩

theorem mir_push_into_block_inv {arch_start : Nat} {st st' : MIRContext} {f block mi : Nat}
    (h : mir_push_into_block arch_start st f block mi = .ok st') :
    ∃ B x fn, st.blocks[block]? = some B ∧ st.instructions[mi]? = some x ∧
      st.functions[f]? = some fn ∧
      st' = ((st.set_block block { B with instructions := B.instructions ++ [mi] }).set_inst mi
          { x with block := some block,
                   reg := if origin_register st x ≠ 0 then origin_register st x
                     else to_MIRRegister ((fn.inst_count + arch_start) % 2 ^ 64) }).set_function f
          { fn with inst_count := (fn.inst_count + 1) % 2 ^ 64 } := by
  have h0 := h
  unfold mir_push_into_block at h
  obtain ⟨y, _, h⟩ := bind_ok h
  have hex : ∃ B x fn, st.blocks[block]? = some B ∧ st.instructions[mi]? = some x ∧
      st.functions[f]? = some fn := by
    split at h
    · exact mir_push_with_reg_into_block_inv h
    · obtain ⟨fn, _, h⟩ := bind_ok h
      exact mir_push_with_reg_into_block_inv h
  obtain ⟨B, x, fn, hB, hx, hf⟩ := hex
  rw [mir_push_into_block_ok hB hx hf] at h0
  cases h0
  exact ⟨B, x, fn, hB, hx, hf, rfl⟩

/-! ### The translation of one instruction, step by step -/

theorem post_bind {α β : Type} {m : Except Fatal α} {f : α → Except Fatal β} {P : α → Prop}
    {Q : β → Prop} (h1 : Post m P) (h2 : ∀ a, P a → Post (f a) Q) : Post (m >>= f) Q := by
  intro b hb
  obtain ⟨a, ha, hf⟩ := bind_ok hb
  exact h2 a (h1 a ha) b hf

theorem post_any {α β : Type} {m : Except Fatal α} {f : α → Except Fatal β}
    {Q : β → Prop} (h : ∀ a, Post (f a) Q) : Post (m >>= f) Q :=
  post_bind (P := fun _ => True) (fun _ _ => trivial) (fun a _ => h a)

theorem post_pure {α : Type} {a : α} {P : α → Prop} (h : P a) :
    Post (pure a : Except Fatal α) P := by
  intro b hb
  cases pure_ok hb
  exact h

theorem post_ok {α : Type} {a : α} {P : α → Prop} (h : P a) :
    Post (.ok a : Except Fatal α) P := by
  intro b hb
  cases hb
  exact h

theorem post_error {α : Type} {e : Fatal} {P : α → Prop} :
    Post (.error e : Except Fatal α) P :=
  fun _ h => Except.noConfusion h

theorem post_of_ok {α : Type} {m : Except Fatal α} {P : α → Prop} {a : α} (h : Post m P)
    (ha : m = .ok a) : P a := h a ha

theorem ir_inst_post (ctx : CodegenContext) (inst : Nat) :
    Post (ir_inst ctx (some inst)) (fun x => ctx.instructions[inst]? = some x) := by
  intro x hx
  obtain ⟨j, hj, h⟩ := ir_inst_ok hx
  cases hj
  exact h

/-- Referencing a value that is ready changes nothing. -/
theorem mir_op_reference_ir_ready {q : Queries} {st : MIRContext} {function : Nat}
    {v : Option Nat} {r : MIRContext × MIROperand} (hv : Ready st.ir v)
    (h : mir_op_reference_ir q st function v = .ok r) : r.1 = st := by
  unfold mir_op_reference_ir at h
  split at h
  · exact Except.noConfusion h
  · rename_i i
    obtain ⟨x, hx, h⟩ := bind_ok h
    have hx' := ir_inst_post _ _ x hx
    split at h
    · cases pure_ok h; rfl
    · split at h
      · cases pure_ok h; rfl
      · rename_i hk
        have hoff := hv i x rfl hx' hk
        unfold mir_op_local_ref_ir at h
        obtain ⟨a, ha, h⟩ := bind_ok h
        have ha' := ir_inst_post _ _ a ha
        rw [hx'] at ha'
        cases ha'
        split at h
        · cases pure_ok h; rfl
        · rename_i hnone
          exact absurd hnone hoff
      · cases pure_ok h; rfl
      · split at h
        · exact Except.noConfusion h
        · obtain ⟨op, _, h⟩ := bind_ok h
          cases pure_ok h; rfl
      · split at h
        · exact Except.noConfusion h
        · obtain ⟨op, _, h⟩ := bind_ok h
          cases pure_ok h; rfl

theorem Building.of_skeleton_building {inst : Nat} {op : MIROpcode} {x : IRInstruction}
    {s0 s s' : MIRContext} (h : Building inst op x s0 s) (hs : s'.skeleton = s.skeleton)
    (he : Settled s0.ir inst x → s' = s) : Building inst op x s0 s' :=
  ⟨by rw [skeleton_instructions hs]; exact h.ilen,
   by rw [skeleton_instructions hs]; exact h.insts,
   by rw [skeleton_instructions hs]; exact h.made,
   by rw [skeleton_blocks hs]; exact h.blocks,
   by rw [hs]; exact h.funs,
   by rw [hs]; exact h.ir,
   fun hS => by rw [he hS]; exact h.exact hS⟩

theorem Building.set_inst_building {inst : Nat} {op : MIROpcode} {x : IRInstruction}
    {s0 s : MIRContext} (h : Building inst op x s0 s) {y y' : MIRInstruction}
    (hy : s.instructions[s0.instructions.length]? = some y) (hop : y'.opcode = y.opcode)
    (ho : y'.origin = y.origin) : Building inst op x s0 (s.set_inst s0.instructions.length y') :=
  ⟨by
    show (s.instructions.set _ _).length = _
    rw [List.length_set]; exact h.ilen,
   fun i hi => by
    show (s.instructions.set _ _)[i]? = _
    rw [List.getElem?_set_ne (by omega)]
    exact h.insts i hi,
   by
    obtain ⟨z, hz, h1, h2⟩ := h.made
    rw [hy] at hz
    cases hz
    refine ⟨y', ?_, hop.trans h1, ho.trans h2⟩
    show (s.instructions.set _ _)[_]? = _
    rw [List.getElem?_set_self (lookup_in_range hy)],
   h.blocks, h.funs, h.ir, h.exact⟩

theorem Building.set_mir {inst : Nat} {op : MIROpcode} {x : IRInstruction}
    {s0 s : MIRContext} (h : Building inst op x s0 s) (i m : Nat) :
    Building inst op x s0 (ir_set_mir s i m) :=
  ⟨h.ilen, h.insts, h.made, h.blocks, h.funs, h.ir, h.exact⟩

theorem post_set_origin_of {inst : Nat} {op : MIROpcode} (x : IRInstruction)
    {s0 s1 : MIRContext}
    (hi : s1.instructions = s0.instructions ++ [{ id := s0.mir_alloc_id + 1, opcode := op }])
    (hb : s1.blocks = s0.blocks) (hf : s1.functions = s0.functions) (hir : s1.ir = s0.ir) :
    Post (mir_set_origin s1 s0.instructions.length inst) (Building inst op x s0) := by
  intro s hs
  unfold mir_set_origin at hs
  obtain ⟨y, hy, hs⟩ := bind_ok hs
  cases pure_ok hs
  have hy' := inst_ok hy
  rw [hi] at hy'
  simp only [List.getElem?_concat_length, Option.some.injEq] at hy'
  subst hy'
  refine ⟨?_, ?_, ?_, hb, ?_, ?_, fun _ => ⟨hir, hf⟩⟩
  · show (s1.instructions.set _ _).length = _
    rw [hi]
    simp
  · intro i hi'
    show (s1.instructions.set _ _)[i]? = _
    rw [hi, List.getElem?_set_ne (by omega), List.getElem?_append_left hi']
  · refine ⟨{ ({ id := s0.mir_alloc_id + 1, opcode := op } : MIRInstruction) with
        origin := some inst }, ?_, rfl, rfl⟩
    show (s1.instructions.set _ _)[_]? = _
    rw [hi, List.getElem?_set_self (by simp)]
  · exact skeleton_functions_of (s := s0) hf
  · exact skeleton_ir_of (s := s0) hir

theorem post_set_origin (inst : Nat) (op : MIROpcode) (x : IRInstruction) (s0 : MIRContext) :
    Post (mir_set_origin (mir_makenew s0 op).1 (mir_makenew s0 op).2 inst)
      (Building inst op x s0) :=
  post_set_origin_of x rfl rfl rfl rfl

theorem post_set_origin_linked (inst : Nat) (op : MIROpcode) (x : IRInstruction)
    (s0 : MIRContext) :
    Post (mir_set_origin (ir_set_mir (mir_makenew s0 op).1 inst (mir_makenew s0 op).2)
        (mir_makenew s0 op).2 inst)
      (Building inst op x s0) :=
  post_set_origin_of x rfl rfl rfl rfl

theorem mir_add_op_inst_core {x y : MIRInstruction} {op : MIROperand}
    (h : mir_add_op_inst x op = .ok y) :
    y.opcode = x.opcode ∧ y.origin = x.origin ∧ y.reg = x.reg ∧ y.block = x.block := by
  unfold mir_add_op_inst at h
  split at h
  · exact Except.noConfusion h
  · split at h
    · cases h; exact ⟨rfl, rfl, rfl, rfl⟩
    · split at h
      · cases h; exact ⟨rfl, rfl, rfl, rfl⟩
      · cases h; exact ⟨rfl, rfl, rfl, rfl⟩

theorem post_add_op {inst : Nat} {op : MIROpcode} {x : IRInstruction} {s0 s : MIRContext}
    (h : Building inst op x s0 s) (o : MIROperand) :
    Post (mir_add_op s (mir_makenew s0 op).2 o) (Building inst op x s0) := by
  intro s' hs
  unfold mir_add_op at hs
  obtain ⟨y, hy, hs⟩ := bind_ok hs
  obtain ⟨y', hy', hs⟩ := bind_ok hs
  cases pure_ok hs
  obtain ⟨h1, h2, _, _⟩ := mir_add_op_inst_core hy'
  exact h.set_inst_building (inst_ok hy) h1 h2

theorem post_reference {inst : Nat} {op : MIROpcode} {x : IRInstruction} {s0 s : MIRContext}
    (h : Building inst op x s0 s) (q : Queries) (function : Nat) {v : Option Nat}
    (hv : v ∈ some inst :: x.uses) :
    Post (mir_op_reference_ir q s function v) (fun r => Building inst op x s0 r.1) := by
  intro r hr
  refine h.of_skeleton_building (mir_op_reference_ir_skeleton hr).1 (fun hS => ?_)
  refine mir_op_reference_ir_ready ?_ hr
  rw [(h.exact hS).1]
  exact hS.2 v hv

theorem post_call_args {inst : Nat} {op : MIROpcode} {x : IRInstruction} {s0 : MIRContext}
    (q : Queries) (function : Nat) :
    ∀ (args : List (Option Nat)) (s : MIRContext), Building inst op x s0 s →
      (∀ a, a ∈ args → a ∈ some inst :: x.uses) →
      Post (mir_add_call_args q s function (mir_makenew s0 op).2 args)
        (Building inst op x s0) := by
  intro args
  induction args with
  | nil =>
    intro s h _
    unfold mir_add_call_args
    exact post_ok h
  | cons a rest ih =>
    intro s h ha
    unfold mir_add_call_args
    refine post_bind (post_reference h q function (ha a (List.mem_cons_self _ _))) ?_
    intro r hr
    refine post_bind (post_add_op hr r.2) ?_
    intro s' hs'
    exact ih s' hs' (fun b hb => ha b (List.mem_cons_of_mem _ hb))

theorem Building.reset {inst : Nat} {op : MIROpcode} {x : IRInstruction} {s0 s : MIRContext}
    (h : Building inst op x s0 s) (hk : x.kind = .IR_ALLOCA) (a : Nat) (o : Option Nat) :
    Building inst op x s0 { s with ir := ir_set_alloca_offset s.ir a o } :=
  h.of_skeleton_building (skeleton_set_offset s a o) (fun hS => absurd hk hS.1)

theorem post_local_ref {inst : Nat} {op : MIROpcode} {x : IRInstruction} {s0 s : MIRContext}
    (h : Building inst op x s0 s) (hk : x.kind = .IR_ALLOCA) (function a : Nat) :
    Post (mir_op_local_ref_ir s function a) (fun r => Building inst op x s0 r.1) := by
  intro r hr
  exact h.of_skeleton_building (mir_op_local_ref_ir_skeleton hr).1 (fun hS => absurd hk hS.1)

theorem without_frame_inst_count {f g : MIRFunction} (h : f.without_frame = g.without_frame) :
    f.inst_count = g.inst_count := by
  have := congrArg MIRFunction.inst_count h; exact this

theorem without_frame_blocks {f g : MIRFunction} (h : f.without_frame = g.without_frame) :
    f.blocks = g.blocks := by
  have := congrArg MIRFunction.blocks h; exact this

theorem without_frame_origin {f g : MIRFunction} (h : f.without_frame = g.without_frame) :
    f.origin = g.origin := by
  have := congrArg MIRFunction.origin h; exact this

theorem without_offset_register {x y : IRInstruction}
    (h : x.without_offset = y.without_offset) : x.register = y.register := by
  have := congrArg IRInstruction.register h; exact this

theorem without_offset_kind {x y : IRInstruction}
    (h : x.without_offset = y.without_offset) : x.kind = y.kind := by
  have := congrArg IRInstruction.kind h; exact this

theorem skeleton_ir_lookup_of {s s' : MIRContext} (h : s'.skeleton.ir = s.skeleton.ir)
    {i : Nat} {x : IRInstruction} (hx : s.ir.instructions[i]? = some x) :
    ∃ x', s'.ir.instructions[i]? = some x' ∧ x'.without_offset = x.without_offset := by
  have e : s'.ir.instructions.map IRInstruction.without_offset
      = s.ir.instructions.map IRInstruction.without_offset := by
    have := congrArg CodegenContext.instructions h
    exact this
  exact map_lookup IRInstruction.without_offset e hx

theorem skeleton_function_lookup_of {s s' : MIRContext}
    (h : s'.skeleton.functions = s.skeleton.functions) {g : Nat} {fn : MIRFunction}
    (hf : s.functions[g]? = some fn) :
    ∃ fn', s'.functions[g]? = some fn' ∧ fn'.without_frame = fn.without_frame :=
  map_lookup MIRFunction.without_frame h hf

theorem skeleton_functions_length {s s' : MIRContext}
    (h : s'.skeleton.functions = s.skeleton.functions) :
    s'.functions.length = s.functions.length := by
  have := congrArg List.length h
  simp only [MIRContext.skeleton, List.length_map] at this
  exact this

theorem origin_register_of {s : MIRContext} {y : MIRInstruction} {inst : Nat}
    {x : IRInstruction} (ho : y.origin = some inst) (hx : s.ir.instructions[inst]? = some x) :
    origin_register s y = x.register := by
  unfold origin_register
  rw [ho]
  simp only [hx]

theorem post_push {inst : Nat} {op : MIROpcode} {x : IRInstruction} {s0 s : MIRContext}
    (h : Building inst op x s0 s) (hx : s0.ir.instructions[inst]? = some x)
    (hop : op = .common x.kind) (arch_start function mir_bb : Nat) :
    Post (mir_push_into_block arch_start s function mir_bb (mir_makenew s0 op).2)
      (Emitted arch_start function mir_bb inst x s0) := by
  intro s' hs
  rw [mir_makenew_snd] at hs
  obtain ⟨B, y, fn', hB, hy, hf, rfl⟩ := mir_push_into_block_inv hs
  obtain ⟨z, hz, hzop, hzor⟩ := h.made
  rw [hy] at hz
  cases hz
  obtain ⟨x', hx', hxx'⟩ := skeleton_ir_lookup_of h.ir hx
  have hreg : origin_register s y = x.register := by
    rw [origin_register_of hzor hx']
    exact without_offset_register hxx'
  have hn : s0.instructions.length < s.instructions.length := by rw [h.ilen]; omega
  refine ⟨?_, ?_, ?_, ?_, ?_, ?_, ?_, ?_, ?_⟩
  · show (s.instructions.set _ _).length = _
    rw [List.length_set]; exact h.ilen
  · intro i hi
    show (s.instructions.set _ _)[i]? = _
    rw [List.getElem?_set_ne (by omega)]
    exact h.insts i hi
  · refine ⟨{ y with block := some mir_bb,
                     reg := if origin_register s y ≠ 0 then origin_register s y
                       else to_MIRRegister ((fn'.inst_count + arch_start) % 2 ^ 64) },
      ?_, ?_, hzor, rfl, ?_⟩
    · show (s.instructions.set _ _)[_]? = _
      rw [List.getElem?_set_self hn]
    · show y.opcode = _
      rw [hzop, hop]
    · intro fn hfn
      obtain ⟨fn1, hfn1, hff⟩ := skeleton_function_lookup_of h.funs hfn
      rw [hf] at hfn1
      cases hfn1
      show (if origin_register s y ≠ 0 then origin_register s y
        else to_MIRRegister ((fn'.inst_count + arch_start) % 2 ^ 64)) = _
      rw [hreg, without_frame_inst_count hff]
      rfl
  · show (s.blocks.set _ _).length = _
    rw [List.length_set, h.blocks]
  · intro b B0 hB0
    show ∃ B', (s.blocks.set _ _)[b]? = some B' ∧ _
    rw [← h.blocks] at hB0
    by_cases hb : b = mir_bb
    · subst hb
      rw [hB] at hB0
      cases hB0
      refine ⟨_, List.getElem?_set_self (lookup_in_range hB), rfl, ?_⟩
      rw [if_pos rfl]
    · refine ⟨B0, ?_, rfl, ?_⟩
      · rw [List.getElem?_set_ne (Ne.symm hb)]
        exact hB0
      · rw [if_neg hb]
  · show (s.functions.set _ _).length = _
    rw [List.length_set]
    exact skeleton_functions_length h.funs
  · intro g fn hfn
    obtain ⟨fn1, hfn1, hff⟩ := skeleton_function_lookup_of h.funs hfn
    show ∃ fn'', (s.functions.set _ _)[g]? = some fn'' ∧ _
    by_cases hg : g = function
    · subst hg
      rw [hf] at hfn1
      cases hfn1
      refine ⟨_, List.getElem?_set_self (lookup_in_range hf), ?_⟩
      rw [if_pos rfl]
      have := hff
      unfold MIRFunction.without_frame at this ⊢
      simp only [MIRFunction.mk.injEq] at this ⊢
      obtain ⟨e1, e2, e3, _, e5⟩ := this
      exact ⟨e1, e2, e3, trivial, by rw [e5]⟩
    · refine ⟨fn1, ?_, ?_⟩
      · rw [List.getElem?_set_ne (Ne.symm hg)]
        exact hfn1
      · rw [if_neg hg]
        exact hff
  · exact h.ir
  · intro hS
    obtain ⟨e1, e2⟩ := h.exact hS
    refine ⟨e1, ?_⟩
    intro g fn fn'' hfn hfn''
    rw [← e2] at hfn
    have hfn''' : (s.functions.set function
        { fn' with inst_count := (fn'.inst_count + 1) % 2 ^ 64 })[g]? = some fn'' := hfn''
    by_cases hg : g = function
    · subst hg
      rw [hf] at hfn
      cases hfn
      rw [List.getElem?_set_self (lookup_in_range hf)] at hfn'''
      cases hfn'''
      rfl
    · rw [List.getElem?_set_ne (Ne.symm hg), hfn] at hfn'''
      cases hfn'''
      rfl

theorem Emitted.set_block_emitted {arch_start function mir_bb inst : Nat} {x : IRInstruction}
    {s0 s : MIRContext} (h : Emitted arch_start function mir_bb inst x s0 s) {b : Nat}
    {B B' : MIRBlock} (hB : s.blocks[b]? = some B) (ho : B'.origin = B.origin)
    (hi : B'.instructions = B.instructions) :
    Emitted arch_start function mir_bb inst x s0 (s.set_block b B') :=
  ⟨h.ilen, h.insts, h.made,
   by
    show (s.blocks.set _ _).length = _
    rw [List.length_set]; exact h.blen,
   fun c C hC => by
    obtain ⟨C', hC', h1, h2⟩ := h.blocks c C hC
    show ∃ B'', (s.blocks.set _ _)[c]? = some B'' ∧ _
    by_cases hc : c = b
    · subst hc
      rw [hB] at hC'
      cases hC'
      exact ⟨B', List.getElem?_set_self (lookup_in_range hB), ho.trans h1, hi.trans h2⟩
    · refine ⟨C', ?_, h1, h2⟩
      rw [List.getElem?_set_ne (Ne.symm hc)]
      exact hC',
   h.flen, h.funs, h.ir, h.exact⟩

theorem post_set_exit {arch_start function mir_bb inst : Nat} {x : IRInstruction}
    {s0 s : MIRContext} (h : Emitted arch_start function mir_bb inst x s0 s) (b : Nat) :
    Post (mir_set_exit s b) (Emitted arch_start function mir_bb inst x s0) := by
  intro s' hs
  unfold mir_set_exit at hs
  obtain ⟨B, hB, hs⟩ := bind_ok hs
  cases pure_ok hs
  exact h.set_block_emitted (get_block_ok hB) rfl rfl

theorem post_add_successor {arch_start function mir_bb inst : Nat} {x : IRInstruction}
    {s0 s : MIRContext} (h : Emitted arch_start function mir_bb inst x s0 s) (b d : Nat) :
    Post (mir_add_successor s b d) (Emitted arch_start function mir_bb inst x s0) := by
  intro s' hs
  unfold mir_add_successor at hs
  obtain ⟨B, hB, hs⟩ := bind_ok hs
  cases pure_ok hs
  exact h.set_block_emitted (get_block_ok hB) rfl rfl

theorem post_add_predecessor {arch_start function mir_bb inst : Nat} {x : IRInstruction}
    {s0 s : MIRContext} (h : Emitted arch_start function mir_bb inst x s0 s) (b d : Nat) :
    Post (mir_add_predecessor s b d) (Emitted arch_start function mir_bb inst x s0) := by
  intro s' hs
  unfold mir_add_predecessor at hs
  obtain ⟨B, hB, hs⟩ := bind_ok hs
  cases pure_ok hs
  exact h.set_block_emitted (get_block_ok hB) rfl rfl

theorem post_skip_block_mir {β : Type} (s : MIRContext) (b : Option Nat)
    {f : Option Nat → Except Fatal β} {Q : β → Prop} (h : ∀ a, Post (f a) Q) :
    Post (ir_block_mir s b >>= f) Q := post_any h

theorem post_skip_op_block {β : Type} (b : Option Nat)
    {f : MIROperand → Except Fatal β} {Q : β → Prop} (h : ∀ a, Post (f a) Q) :
    Post (mir_op_block b >>= f) Q := post_any h

theorem post_skip_op_function {β : Type} (b : Option Nat)
    {f : MIROperand → Except Fatal β} {Q : β → Prop} (h : ∀ a, Post (f a) Q) :
    Post (mir_op_function b >>= f) Q := post_any h

theorem post_skip_typeof {β : Type} (c : CodegenContext) (b : Option Nat)
    {f : Ty → Except Fatal β} {Q : β → Prop} (h : ∀ a, Post (f a) Q) :
    Post (ir_typeof c b >>= f) Q := post_any h

/-- The translation of an IR instruction other than a Register emits one MIR
instruction. -/
theorem mir_translate_instruction_emitted (q : Queries) (arch_start : Nat) (st : MIRContext)
    (function mir_bb inst : Nat) (x : IRInstruction) (hx : st.ir.instructions[inst]? = some x)
    (hreg : x.kind ≠ .IR_REGISTER) :
    Post (mir_translate_instruction q arch_start st function mir_bb inst)
      (Emitted arch_start function mir_bb inst x st) := by
  unfold mir_translate_instruction
  rw [ir_inst_of_lookup hx]
  refine post_bind (P := fun y => y = x) (post_ok rfl) ?_
  intro y hy
  subst hy
  cases hk : y.kind
  case IR_REGISTER => exact absurd hk hreg
  all_goals
    simp only []
    repeat' first
      | with_reducible_and_instances
          exact post_error
      | with_reducible_and_instances
          exact post_pure (by assumption)
      | with_reducible_and_instances
          exact post_push
            (by first | assumption | exact Building.set_mir (by assumption) _ _)
            hx (by rw [hk]) _ _ _
      | with_reducible_and_instances
          exact post_add_op
            (by first | assumption | exact Building.set_mir (by assumption) _ _) _
      | with_reducible_and_instances
          exact post_set_exit (by assumption) _
      | with_reducible_and_instances
          exact post_add_predecessor (by assumption) _ _
      | with_reducible_and_instances
          refine post_bind (post_set_origin inst _ y st) (fun _ _ => ?_)
      | with_reducible_and_instances
          refine post_bind (post_set_origin_linked inst _ y st) (fun _ _ => ?_)
      | with_reducible_and_instances
          refine post_bind (post_reference
            (by first | assumption | exact Building.set_mir (by assumption) _ _) q function
            (by simp [IRInstruction.uses, *])) (fun _ _ => ?_)
      | with_reducible_and_instances
          refine post_bind (post_add_op
            (by first | assumption | exact Building.set_mir (by assumption) _ _) _)
            (fun _ _ => ?_)
      | with_reducible_and_instances
          refine post_bind (post_call_args q function _ _ (by assumption)
            (by intro a ha; simp [IRInstruction.uses, ha])) (fun _ _ => ?_)
      | with_reducible_and_instances
          refine post_bind
            (post_local_ref (Building.reset (by assumption) hk _ _) hk _ _) (fun _ _ => ?_)
      | with_reducible_and_instances
          refine post_bind (post_push
            (by first | assumption | exact Building.set_mir (by assumption) _ _)
            hx (by rw [hk]) _ _ _) (fun _ _ => ?_)
      | with_reducible_and_instances
          refine post_bind (post_add_successor (by assumption) _ _) (fun _ _ => ?_)
      | with_reducible_and_instances
          refine post_bind (post_add_predecessor (by assumption) _ _) (fun _ _ => ?_)
      | with_reducible_and_instances
          refine post_skip_block_mir _ _ (fun _ => ?_)
      | with_reducible_and_instances
          refine post_skip_op_block _ (fun _ => ?_)
      | with_reducible_and_instances
          refine post_skip_op_function _ (fun _ => ?_)
      | with_reducible_and_instances
          refine post_skip_typeof _ _ (fun _ => ?_)
      | with_reducible_and_instances
          (refine post_bind (P := Building inst ?_ y st) ?_ (fun _ _ => ?_); rotate_left 2)
      | split

/-! ### The translation of the instructions of a function -/

theorem counter_after_zero (c : Nat) : counter_after c 0 = c := by
  simp [counter_after]

theorem counter_after_one (c : Nat) : counter_after c 1 = (c + 1) % 2 ^ 64 := by
  simp [counter_after]

theorem counter_after_add (c a b : Nat) :
    counter_after (counter_after c a) b = counter_after c (a + b) := by
  unfold counter_after
  by_cases ha : a = 0
  · subst ha
    simp
  · by_cases hb : b = 0
    · subst hb
      simp [ha]
    · rw [if_neg ha, if_neg hb, if_neg (by omega), Nat.mod_add_mod, Nat.add_assoc]

theorem counter_after_of_lt {c n : Nat} (h : c + n < 2 ^ 64) : counter_after c n = c + n := by
  unfold counter_after
  by_cases hn : n = 0
  · subst hn
    simp
  · rw [if_neg hn, Nat.mod_eq_of_lt h]

theorem counter_register_of_lt {arch_start c : Nat}
    (h : c + arch_start < 2 ^ MIRRegister_bits) :
    counter_register arch_start c = c + arch_start := by
  have hb : (2 : Nat) ^ MIRRegister_bits ≤ 2 ^ 64 := by decide
  have h1 : (c + arch_start) % 2 ^ 64 = c + arch_start := Nat.mod_eq_of_lt (by omega)
  unfold counter_register to_MIRRegister
  rw [h1]
  exact Nat.mod_eq_of_lt h

theorem refl_grown (arch_start function : Nat) (L : List Nat) (s : MIRContext) :
    Grown arch_start function L s s :=
  ⟨le_refl _, fun _ _ => rfl,
   fun i y hi hy => absurd (lookup_in_range hy) (by omega),
   rfl,
   fun b B hB => ⟨B, [], hB, rfl, by simp, fun _ h => absurd h (List.not_mem_nil _)⟩,
   rfl,
   fun g fn hfn => ⟨fn, hfn, by
    by_cases hg : g = function
    · rw [if_pos hg, Nat.sub_self, counter_after_zero]
    · rw [if_neg hg]⟩,
   rfl⟩

theorem Grown.mono {arch_start function : Nat} {L L' : List Nat} {s0 s : MIRContext}
    (h : Grown arch_start function L s0 s) (hL : ∀ o, o ∈ L → o ∈ L') :
    Grown arch_start function L' s0 s :=
  ⟨h.ilen, h.insts,
   fun i y hi hy => by
    obtain ⟨o, x, h1, h2, h3⟩ := h.made i y hi hy
    exact ⟨o, x, h1, hL o h2, h3⟩,
   h.blen, h.blocks, h.flen, h.funs, h.ir⟩

theorem Emitted.grown {arch_start function mir_bb inst : Nat} {x : IRInstruction}
    {s0 s : MIRContext} (h : Emitted arch_start function mir_bb inst x s0 s)
    (hx : s0.ir.instructions[inst]? = some x) : Grown arch_start function [inst] s0 s := by
  refine ⟨by rw [h.ilen]; omega, h.insts, ?_, h.blen, ?_, h.flen, ?_, h.ir⟩
  · intro i y hi hy
    have hlt := lookup_in_range hy
    rw [h.ilen] at hlt
    have hi' : i = s0.instructions.length := by omega
    subst hi'
    obtain ⟨z, hz, h1, h2, _, h4⟩ := h.made
    rw [hy] at hz
    cases hz
    refine ⟨inst, x, h2, List.mem_singleton.mpr rfl, hx, h1, ?_⟩
    intro fn hfn
    rw [h4 fn hfn, Nat.sub_self, counter_after_zero]
  · intro b B hB
    obtain ⟨B', hB', h1, h2⟩ := h.blocks b B hB
    by_cases hb : b = mir_bb
    · rw [if_pos hb] at h2
      exact ⟨B', [s0.instructions.length], hB', h1, h2, fun i hi => by
        rw [List.mem_singleton.mp hi]⟩
    · rw [if_neg hb] at h2
      exact ⟨B', [], hB', h1, by rw [h2]; simp, fun _ hi => absurd hi (List.not_mem_nil _)⟩
  · intro g fn hfn
    obtain ⟨fn', hfn', h1⟩ := h.funs g fn hfn
    refine ⟨fn', hfn', ?_⟩
    rw [h1, h.ilen, Nat.add_sub_cancel_left, counter_after_one]

theorem Grown.trans_grown {arch_start function : Nat} {L1 L2 : List Nat} {s0 s1 s2 : MIRContext}
    (h1 : Grown arch_start function L1 s0 s1) (h2 : Grown arch_start function L2 s1 s2) :
    Grown arch_start function (L1 ++ L2) s0 s2 := by
  have hl1 := h1.ilen
  have hl2 := h2.ilen
  refine ⟨le_trans h1.ilen h2.ilen, ?_, ?_, h2.blen.trans h1.blen, ?_,
    h2.flen.trans h1.flen, ?_, h2.ir.trans h1.ir⟩
  · intro i hi
    rw [h2.insts i (by omega), h1.insts i hi]
  · intro i y hi hy
    by_cases hlt : i < s1.instructions.length
    · rw [h2.insts i hlt] at hy
      obtain ⟨o, x, e1, e2, e3⟩ := h1.made i y hi hy
      exact ⟨o, x, e1, List.mem_append_left _ e2, e3⟩
    · obtain ⟨o, x1, e1, e2, e3, e4, e5⟩ := h2.made i y (by omega) hy
      obtain ⟨x, hx, hxx⟩ := skeleton_ir_lookup_of h1.ir.symm e3
      refine ⟨o, x, e1, List.mem_append_right _ e2, hx, ?_, ?_⟩
      · rw [e4, without_offset_kind hxx]
      · intro fn hfn
        obtain ⟨fn1, hfn1, hff⟩ := h1.funs function fn hfn
        rw [if_pos rfl] at hff
        have hc : fn1.inst_count
            = counter_after fn.inst_count (s1.instructions.length - s0.instructions.length) :=
          without_frame_inst_count hff
        rw [e5 fn1 hfn1, hc, without_offset_register hxx, counter_after_add]
        have : s1.instructions.length - s0.instructions.length + (i - s1.instructions.length)
            = i - s0.instructions.length := by
          omega
        rw [this]
  · intro b B hB
    obtain ⟨B1, a1, hB1, e1, e2, e3⟩ := h1.blocks b B hB
    obtain ⟨B2, a2, hB2, f1, f2, f3⟩ := h2.blocks b B1 hB1
    refine ⟨B2, a1 ++ a2, hB2, f1.trans e1, ?_, ?_⟩
    · rw [f2, e2, List.append_assoc]
    · intro i hi
      rcases List.mem_append.mp hi with hi | hi
      · exact e3 i hi
      · exact le_trans hl1 (f3 i hi)
  · intro g fn hfn
    obtain ⟨fn1, hfn1, e1⟩ := h1.funs g fn hfn
    obtain ⟨fn2, hfn2, e2⟩ := h2.funs g fn1 hfn1
    refine ⟨fn2, hfn2, ?_⟩
    by_cases hg : g = function
    · rw [if_pos hg] at e1 e2 ⊢
      unfold MIRFunction.without_frame at e1 e2 ⊢
      simp only [MIRFunction.mk.injEq] at e1 e2 ⊢
      obtain ⟨a1, a2, a3, _, a5⟩ := e1
      obtain ⟨b1, b2, b3, _, b5⟩ := e2
      refine ⟨b1.trans a1, b2.trans a2, b3.trans a3, trivial, ?_⟩
      rw [b5, a5, counter_after_add]
      congr 1
      omega
    · rw [if_neg hg] at e1 e2 ⊢
      exact e2.trans e1

theorem mir_translate_instruction_grown (q : Queries) (arch_start : Nat) (st : MIRContext)
    (function mir_bb inst : Nat) :
    Post (mir_translate_instruction q arch_start st function mir_bb inst)
      (Grown arch_start function [inst] st) := by
  cases hx : st.ir.instructions[inst]? with
  | none =>
    unfold mir_translate_instruction ir_inst
    simp only [hx]
    exact fun _ h => Except.noConfusion h
  | some x =>
    by_cases hk : x.kind = .IR_REGISTER
    · unfold mir_translate_instruction
      rw [ir_inst_of_lookup hx]
      simp only [bind, Except.bind, hk]
      exact post_pure (refl_grown _ _ _ _)
    · intro s hs
      exact (mir_translate_instruction_emitted q arch_start st function mir_bb inst x hx hk
        s hs).grown hx

theorem mir_translate_instructions_grown (q : Queries) (arch_start function mir_bb : Nat) :
    ∀ (insts : List Nat) (st : MIRContext),
      Post (mir_translate_instructions q arch_start st function mir_bb insts)
        (Grown arch_start function insts st) := by
  intro insts
  induction insts with
  | nil =>
    intro st
    unfold mir_translate_instructions
    exact post_ok (refl_grown _ _ _ _)
  | cons inst rest ih =>
    intro st
    unfold mir_translate_instructions
    refine post_bind (mir_translate_instruction_grown q arch_start st function mir_bb inst) ?_
    intro s1 h1 s2 h2
    exact h1.trans_grown (ih s1 s2 h2)

theorem skeleton_ir_blocks_of {s s' : MIRContext} (h : s'.skeleton.ir = s.skeleton.ir) :
    s'.ir.blocks = s.ir.blocks := by
  have := congrArg CodegenContext.blocks h
  exact this

theorem skeleton_ir_functions_of {s s' : MIRContext} (h : s'.skeleton.ir = s.skeleton.ir) :
    s'.ir.functions = s.ir.functions := by
  have := congrArg CodegenContext.functions h
  exact this

theorem Grown.block_order_kept {arch_start function : Nat} {L : List Nat} {s0 s : MIRContext}
    (h : Grown arch_start function L s0 s) (b : Nat) :
    Intercept.block_order s b = Intercept.block_order s0 b := by
  unfold Intercept.block_order
  rw [skeleton_ir_blocks_of h.ir]
  cases hB : s0.blocks[b]? with
  | none =>
    have : s.blocks[b]? = none := by
      rw [List.getElem?_eq_none_iff] at hB ⊢
      rw [h.blen]; exact hB
    rw [this]
  | some B =>
    obtain ⟨B', _, hB', ho, _⟩ := h.blocks b B hB
    rw [hB']
    simp only [ho]

theorem Grown.translation_order_kept {arch_start function : Nat} {L : List Nat}
    {s0 s : MIRContext} (h : Grown arch_start function L s0 s) (blocks : List Nat) :
    Intercept.translation_order s blocks = Intercept.translation_order s0 blocks := by
  induction blocks with
  | nil => rfl
  | cons b rest ih =>
    unfold Intercept.translation_order
    rw [h.block_order_kept b, ih]

theorem mir_translate_blocks_grown (q : Queries) (arch_start function : Nat) :
    ∀ (blocks : List Nat) (st : MIRContext),
      Post (mir_translate_blocks q arch_start st function blocks)
        (Grown arch_start function (translation_order st blocks) st) := by
  intro blocks
  induction blocks with
  | nil =>
    intro st
    unfold mir_translate_blocks
    exact post_ok (refl_grown _ _ _ _)
  | cons b rest ih =>
    intro st s hs
    unfold mir_translate_blocks at hs
    obtain ⟨B, hB, hs⟩ := bind_ok hs
    have hB' := get_block_ok hB
    split at hs
    · exact Except.noConfusion hs
    · rename_i bb hbb
      split at hs
      · exact Except.noConfusion hs
      · rename_i irb hirb
        obtain ⟨s1, h1, hs⟩ := bind_ok hs
        have g1 := mir_translate_instructions_grown q arch_start function b irb.instructions
          st s1 h1
        have g2 := ih s1 s hs
        rw [g1.translation_order_kept rest] at g2
        have hbo : block_order st b = irb.instructions := by
          unfold block_order
          simp only [hB', hbb, hirb]
        unfold translation_order
        rw [hbo]
        exact g1.trans_grown g2

/-! ### Alloca offsets and frame objects -/

theorem ir_set_alloca_offset_rest (ir : CodegenContext) (a : Nat) (o : Option Nat) :
    ({ ir_set_alloca_offset ir a o with instructions := [] } : CodegenContext)
      = { ir with instructions := [] } := by
  unfold ir_set_alloca_offset
  cases ir.instructions[a]? with
  | none => rfl
  | some y => rfl

theorem place_nil (ir : CodegenContext) (frames : List MIRFrameObject) :
    place ir frames [] = (ir, frames) := rfl

theorem place_cons_alloca {ir : CodegenContext} {i : Nat} (h : is_alloca ir i = true)
    (frames : List MIRFrameObject) (rest : List Nat) :
    place ir frames (i :: rest)
      = place (ir_set_alloca_offset ir i (some frames.length))
          (frames ++ [{ size := alloca_size_of ir i, lowered := none, offset := -1 }]) rest := by
  rw [place]
  simp only [h, if_true]

theorem place_cons_other {ir : CodegenContext} {i : Nat} (h : is_alloca ir i = false)
    (frames : List MIRFrameObject) (rest : List Nat) :
    place ir frames (i :: rest) = place ir frames rest := by
  rw [place]
  simp only [h, Bool.false_eq_true, if_false]

theorem place_cons (ir : CodegenContext) (frames : List MIRFrameObject) (i : Nat)
    (rest : List Nat) :
    place ir frames (i :: rest)
      = place (place ir frames [i]).1 (place ir frames [i]).2 rest := by
  cases h : is_alloca ir i with
  | true => rw [place_cons_alloca h, place_cons_alloca h, place_nil]
  | false => rw [place_cons_other h, place_cons_other h, place_nil]

theorem orderly_append (L1 : List Nat) :
    ∀ (ir : CodegenContext) (frames : List MIRFrameObject) (L2 : List Nat),
      Orderly ir frames L1 → Orderly (place ir frames L1).1 (place ir frames L1).2 L2 →
      Orderly ir frames (L1 ++ L2) := by
  induction L1 with
  | nil => intro ir frames L2 _ h; exact h
  | cons i rest ih =>
    intro ir frames L2 h1 h2
    rw [List.cons_append]
    refine ⟨h1.1, ih _ _ L2 h1.2 ?_⟩
    rw [← place_cons]
    exact h2

theorem place_rest (L : List Nat) :
    ∀ (ir : CodegenContext) (frames : List MIRFrameObject),
      ({ (place ir frames L).1 with instructions := [] } : CodegenContext)
        = { ir with instructions := [] } := by
  induction L with
  | nil => intro ir frames; rfl
  | cons a rest ih =>
    intro ir frames
    cases h : is_alloca ir a with
    | true => rw [place_cons_alloca h, ih, ir_set_alloca_offset_rest]
    | false => rw [place_cons_other h, ih]

theorem offset_of_ready {ir : CodegenContext} {a : Nat} (h : Ready ir (some a))
    (ha : is_alloca ir a = true) : offset_of ir a ≠ none := by
  unfold is_alloca at ha
  unfold offset_of
  cases hx : ir.instructions[a]? with
  | none => rw [hx] at ha; exact absurd ha (by simp)
  | some x =>
    rw [hx] at ha
    exact h a x rfl hx (by simpa using ha)

theorem result_context_ok {r : Except Fatal CodegenContext} (h : fatal_of r = none) :
    r = .ok (result_context r) := by
  cases r with
  | error e => exact Option.noConfusion h
  | ok c => rfl

theorem result_inserted_ok {r : Except Fatal (CodegenContext × Nat)} (h : fatal_of r = none) :
    r = .ok (result_inserted r) := by
  cases r with
  | error e => exact Option.noConfusion h
  | ok c => rfl

theorem ir_insert_new_ok {c : CodegenContext} (x : IRInstruction)
    (hv : c.insert_point < c.blocks.length) (ho : ir_is_closed c c.insert_point = false) :
    ∃ r, ir_insert_new c x = .ok r := by
  unfold ir_insert_new
  rw [ho]
  obtain ⟨b, hb⟩ : ∃ b, c.blocks[c.insert_point]? = some b :=
    ⟨c.blocks[c.insert_point], List.getElem?_eq_getElem hv⟩
  rw [hb]
  exact ⟨_, rfl⟩

/-- The cast case is one conversion of the operand, of a kind fixed by the sizes and the
signedness of the source type. -/
theorem codegen_expr_cast_eq (q : Queries) (c : CodegenContext) (id : Nat) (type : Ty)
    (value : Node) (k : Lowering) :
    ∃ kind : IRType,
      (kind = .IR_BITCAST ↔ q.type_sizeof value.type = q.type_sizeof type) ∧
      (kind = .IR_TRUNCATE ↔ q.type_sizeof value.type > q.type_sizeof type) ∧
      (kind = .IR_SIGN_EXTEND ↔
        q.type_sizeof value.type < q.type_sizeof type ∧ q.type_is_signed value.type = true) ∧
      (kind = .IR_ZERO_EXTEND ↔
        q.type_sizeof value.type < q.type_sizeof type ∧ q.type_is_signed value.type = false) ∧
      codegen_expr_cast q c id type value k = (do
        let c1 ← k c
        let r ← ir_insert_conversion c1 kind type (c1.node_ir value.id)
        pure (r.1.set_ir id (some r.2))) := by
  unfold codegen_expr_cast
  by_cases heq : q.type_sizeof value.type = q.type_sizeof type
  · refine ⟨.IR_BITCAST, by simp [heq], by simp [heq], by simp [heq], by simp [heq], ?_⟩
    simp [heq]
  · by_cases hlt : q.type_sizeof value.type < q.type_sizeof type
    · cases hs : q.type_is_signed value.type with
      | true =>
        refine ⟨.IR_SIGN_EXTEND, by simp [heq], by simp; omega, by simp [hlt], by simp, ?_⟩
        simp [heq, hlt, hs]
      | false =>
        refine ⟨.IR_ZERO_EXTEND, by simp [heq], by simp; omega, by simp, by simp [hlt], ?_⟩
        simp [heq, hlt, hs]
    · have hgt : q.type_sizeof value.type > q.type_sizeof type := by omega
      refine ⟨.IR_TRUNCATE, by simp [heq], by simp [hgt], by simp [hlt], by simp [hlt], ?_⟩
      simp [heq, hlt, hgt]

/-- C6: lowering a cast node that has not been emitted, once its operand is lowered and
the insertion block is open, returns and adds exactly one instruction to the IR: an
instruction of the destination type on the operand's value, appended to the insertion block
and recorded as the value of the cast, whose kind is Bitcast iff the sizes are equal, Trunc
iff the source is larger, SExt iff the source is smaller and signed, and ZExt iff the source
is smaller and not signed. -/
theorem cast_emits_one_conversion (q : Queries) (ctx ctx1 : CodegenContext) (id : Nat)
    (type : Ty) (value : Node) (hemitted : ctx.node_emitted id = false)
    (hvalue : codegen_expr q (ctx.set_emitted id) value = .ok ctx1)
    (hvalid : ctx1.insert_point < ctx1.blocks.length)
    (hopen : ir_is_closed ctx1 ctx1.insert_point = false) :
    ∃ c' x l, codegen_expr q ctx (.cast id type value) = .ok c' ∧
      c'.instructions = ctx1.instructions ++ [x] ∧
      c'.blocks.length = ctx1.blocks.length ∧
      block_instructions ctx1 ctx1.insert_point = some l ∧
      block_instructions c' ctx1.insert_point = some (l ++ [ctx1.instructions.length]) ∧
      (∀ b, b ≠ ctx1.insert_point → block_instructions c' b = block_instructions ctx1 b) ∧
      c'.node_ir id = some ctx1.instructions.length ∧
      x.operand = ctx1.node_ir value.id ∧ x.type = type ∧
      (x.kind = .IR_BITCAST ↔ q.type_sizeof value.type = q.type_sizeof type) ∧
      (x.kind = .IR_TRUNCATE ↔ q.type_sizeof value.type > q.type_sizeof type) ∧
      (x.kind = .IR_SIGN_EXTEND ↔
        q.type_sizeof value.type < q.type_sizeof type ∧ q.type_is_signed value.type = true) ∧
      (x.kind = .IR_ZERO_EXTEND ↔
        q.type_sizeof value.type < q.type_sizeof type ∧ q.type_is_signed value.type = false) := by
  obtain ⟨kind, k1, k2, k3, k4, hcast⟩ :=
    codegen_expr_cast_eq q (ctx.set_emitted id) id type value (fun c => codegen_expr q c value)
  obtain ⟨r, hr⟩ := ir_insert_new_ok
    { kind := kind, type := type, operand := ctx1.node_ir value.id } hvalid hopen
  have hi := ir_insert_new_inserted hr
  obtain ⟨l, hl, hl'⟩ := hi.block_at
  refine ⟨r.1.set_ir id (some r.2), _, l, ?_, hi.instructions, hi.blocks_length, hl, ?_,
    hi.block_other, ?_, rfl, rfl, k1, k2, k3, k4⟩
  · rw [codegen_expr]
    simp only [Node.id, hemitted]
    rw [if_neg (by simp), hcast]
    simp only [hvalue, ir_insert_conversion, hr, bind, Except.bind, pure, Except.pure]
  · rw [← hi.index]; exact hl'
  · show (if id = id then some r.2 else r.1.node_ir id) = _
    rw [if_pos rfl, hi.index]

theorem cast_emits_one_conversion_witness :
    example_context.node_emitted 1 = false ∧
    ir_is_closed
      (result_context (codegen_expr example_queries (example_context.set_emitted 1)
        (number_literal 2 5))) 0 = false ∧
    ∃ c' x, codegen_expr example_queries example_context cast_of_literal = .ok c' ∧
      c'.instructions = (result_context (codegen_expr example_queries
        (example_context.set_emitted 1) (number_literal 2 5))).instructions ++ [x] ∧
      x.kind = .IR_TRUNCATE :=
  have h := cast_emits_one_conversion example_queries example_context
    (result_context (codegen_expr example_queries (example_context.set_emitted 1)
      (number_literal 2 5))) 1 (.integer true 32) (number_literal 2 5) rfl
    (result_context_ok (by decide!)) (by decide!) (by decide!)
  ⟨rfl, by decide!,
    match h with
    | ⟨c', x, _, h1, h2, _, _, _, _, _, _, _, _, k2, _, _⟩ =>
        ⟨c', x, h1, h2, k2.mpr (by decide!)⟩⟩

/-- C8 (counterexample): in the IR of `if 1 then { return 7 } else 2` of integer type, the
phi (instruction 6, in the join block 3) has the arguments `(block 1, ...)` and
`(block 2, ...)`; block 1, the then arm, ends in a Return and is no predecessor of the join
block, which has one predecessor for the two arguments of its phi. -/
theorem phi_argument_block_ends_in_return :
    fatal_of (codegen_expr example_queries example_context if_with_returning_arm) = none ∧
    (lowered_if_with_returning_arm.instructions[6]?).map
        (fun x => (x.kind, x.phi_args, x.parent_block,
          phi_args_are_predecessors lowered_if_with_returning_arm x))
      = some (.IR_PHI, [(1, some 3), (2, some 4)], some 3, false) ∧
    (block_last lowered_if_with_returning_arm 1).map (fun t => t.kind) = some .IR_RETURN ∧
    is_predecessor lowered_if_with_returning_arm 1 3 = false ∧
    predecessor_count lowered_if_with_returning_arm 3 = 1 := by
  decide!

/-- C8 (amended): lowering keeps the invariant that the block of every argument of every
phi is closed, either by a Branch to the block that owns the phi or by a Return. -/
theorem phi_argument_blocks_closed (q : Queries) (ctx c' : CodegenContext) (expr : Node)
    (hvalid : ctx.insert_point < ctx.blocks.length) (hphi : PhiArgsClosed ctx)
    (h : codegen_expr q ctx expr = .ok c') : PhiArgsClosed c' :=
  (codegen_expr_sound q expr ctx c' hvalid hphi h).phi

theorem phi_argument_blocks_closed_witness :
    example_context.insert_point < example_context.blocks.length ∧
    PhiArgsClosed example_context ∧
    codegen_expr example_queries example_context if_with_returning_arm
      = .ok lowered_if_with_returning_arm ∧
    PhiArgsClosed lowered_if_with_returning_arm :=
  have hp : PhiArgsClosed example_context := fun p x hx => by
    simp [example_context] at hx
  ⟨by decide, hp, result_context_ok (by decide!),
    phi_argument_blocks_closed example_queries example_context _ if_with_returning_arm
      (by decide) hp (result_context_ok (by decide!))⟩

theorem codegen_expr_if_unfold (q : Queries) (ctx : CodegenContext) (id : Nat) (type : Ty)
    (condition then_ else_ : Node) (hemitted : ctx.node_emitted id = false) :
    codegen_expr q ctx (.if_ id type condition then_ (some else_))
      = codegen_expr_if q (ctx.set_emitted id) id type condition.id then_.id (some else_.id)
          (fun c => codegen_expr q c condition) (fun c => codegen_expr q c then_)
          (fun c => codegen_expr q c else_) := by
  have he : (fun c => codegen_optional q c (some else_)) = (fun c => codegen_expr q c else_) := by
    funext c
    rw [codegen_optional]
  rw [codegen_expr]
  simp only [Node.id, hemitted]
  rw [if_neg (by simp), he]
  rfl

theorem codegen_expr_if_eq (q : Queries) (c : CodegenContext) (id : Nat) (type : Ty)
    (condition_id then_id else_id : Nat) {kc kt ke : Lowering}
    {c1 c2 c2' c3 c3' : CodegenContext} {r p : CodegenContext × Nat}
    (hvoid : q.type_is_void type = false) (h1 : kc c = .ok c1)
    (hr : ir_insert_cond_br (ir_block (ir_block (ir_block c1).1).1).1
      ((ir_block (ir_block (ir_block c1).1).1).1.node_ir condition_id) (ir_block c1).2
      (ir_block (ir_block c1).1).2 = .ok r)
    (h2 : kt (ir_block_attach r.1 (ir_block c1).2) = .ok c2)
    (hb2 : branch_if_open c2 (ir_block (ir_block (ir_block c1).1).1).2 = .ok c2')
    (h3 : ke (ir_block_attach c2' (ir_block (ir_block c1).1).2) = .ok c3)
    (hb3 : branch_if_open c3 (ir_block (ir_block (ir_block c1).1).1).2 = .ok c3')
    (hphi : ir_insert_phi (ir_block_attach c3' (ir_block (ir_block (ir_block c1).1).1).2) type
      = .ok p) :
    codegen_expr_if q c id type condition_id then_id (some else_id) kc kt ke
      = .ok ((ir_phi_add_arg (ir_phi_add_arg p.1 p.2 c2.insert_point (p.1.node_ir then_id))
          p.2 c3.insert_point
          ((ir_phi_add_arg p.1 p.2 c2.insert_point (p.1.node_ir then_id)).node_ir
            else_id)).set_ir id (some p.2)) := by
  unfold codegen_expr_if
  simp only [h1, hr, h2, hb2, h3, hb3, hphi, hvoid, bind, Except.bind, pure, Except.pure,
    Bool.not_false, if_true]

theorem branch_if_open_of_open {c c' : CodegenContext} {b : Nat}
    (ho : ir_is_closed c c.insert_point = false) (e : branch_if_open c b = .ok c') :
    ∃ r, ir_insert_br c b = .ok r ∧ c' = r.1 := by
  unfold branch_if_open at e
  rw [ho] at e
  simp only [Bool.not_false, if_true] at e
  obtain ⟨r, er, e⟩ := bind_ok e
  exact ⟨r, er, (pure_ok e).symm⟩

/-- C7: lowering an `if` of non-void type with both arms, in a context with a valid
insertion point where the phi invariant holds, after the condition and the arms are lowered
and when neither arm leaves its last block closed, returns an IR in which: three blocks
(then, else, join) were created after the condition, and none by the `if` itself later on;
the block that was current after the condition ends in the one new instruction
CondBranch(condition value, then, else); the last block of each arm ends in the one new
instruction Branch(join); join is the insertion point and holds exactly one instruction, a
Phi of the type of the `if` that is the value of the `if` and whose arguments are (last
block of the then arm, then value) and (last block of the else arm, else value), in that
order (the values as recorded when the phi is built). -/
theorem if_lowering (q : Queries) (ctx c1 c2 c2' c3 c3' : CodegenContext)
    (r : CodegenContext × Nat) (id : Nat) (type : Ty) (condition then_ else_ : Node)
    (hemitted : ctx.node_emitted id = false) (hvoid : q.type_is_void type = false)
    (hvalid : ctx.insert_point < ctx.blocks.length) (hphi : PhiArgsClosed ctx)
    (hcondition : codegen_expr q (ctx.set_emitted id) condition = .ok c1)
    (hbranch : ir_insert_cond_br (ir_block (ir_block (ir_block c1).1).1).1
      (c1.node_ir condition.id) c1.blocks.length (c1.blocks.length + 1) = .ok r)
    (hthen : codegen_expr q (ir_block_attach r.1 c1.blocks.length) then_ = .ok c2)
    (hthen_open : ir_is_closed c2 c2.insert_point = false)
    (hthen_end : branch_if_open c2 (c1.blocks.length + 2) = .ok c2')
    (helse : codegen_expr q (ir_block_attach c2' (c1.blocks.length + 1)) else_ = .ok c3)
    (helse_open : ir_is_closed c3 c3.insert_point = false)
    (helse_end : branch_if_open c3 (c1.blocks.length + 2) = .ok c3') :
    ∃ c' phi, codegen_expr q ctx (.if_ id type condition then_ (some else_)) = .ok c' ∧
      r.1.blocks.length = c1.blocks.length + 3 ∧
      c2'.blocks.length = c2.blocks.length ∧
      c'.blocks.length = c3.blocks.length ∧
      (∃ l x, block_instructions c1 c1.insert_point = some l ∧
        block_instructions c' c1.insert_point = some (l ++ [c1.instructions.length]) ∧
        c'.instructions[c1.instructions.length]? = some x ∧
        x.kind = .IR_BRANCH_CONDITIONAL ∧ x.cond = c1.node_ir condition.id ∧
        x.then_ = some c1.blocks.length ∧ x.else_ = some (c1.blocks.length + 1)) ∧
      (∃ l x, block_instructions c2 c2.insert_point = some l ∧
        block_instructions c' c2.insert_point = some (l ++ [c2.instructions.length]) ∧
        c'.instructions[c2.instructions.length]? = some x ∧
        x.kind = .IR_BRANCH ∧ x.dest = some (c1.blocks.length + 2)) ∧
      (∃ l x, block_instructions c3 c3.insert_point = some l ∧
        block_instructions c' c3.insert_point = some (l ++ [c3.instructions.length]) ∧
        c'.instructions[c3.instructions.length]? = some x ∧
        x.kind = .IR_BRANCH ∧ x.dest = some (c1.blocks.length + 2)) ∧
      c'.insert_point = c1.blocks.length + 2 ∧
      block_instructions c' (c1.blocks.length + 2) = some [phi] ∧
      (∃ x, c'.instructions[phi]? = some x ∧ x.kind = .IR_PHI ∧ x.type = type ∧
        x.phi_args
          = [(c2.insert_point, c3.node_ir then_.id), (c3.insert_point, c3.node_ir else_.id)]) ∧
      c'.node_ir id = some phi := by
  have hT : (ir_block c1).2 = c1.blocks.length := rfl
  have hE : (ir_block (ir_block c1).1).2 = c1.blocks.length + 1 := ir_block_length c1
  have hJ : (ir_block (ir_block (ir_block c1).1).1).2 = c1.blocks.length + 2 := by
    have h1 : (ir_block (ir_block (ir_block c1).1).1).2
        = (ir_block (ir_block c1).1).1.blocks.length := rfl
    rw [h1, ir_block_length, ir_block_length]
  rw [← hE] at hbranch helse
  rw [← hJ] at hthen_end helse_end
  rw [← hJ, ← hE]
  -- the condition
  have w1 : Within ctx c1 := (codegen_expr_sound q condition).at_emitted hvalid hphi hcondition
  have F1 : Framed ctx c1 := ⟨w1.reaches, w1.phi⟩
  have hv1 := F1.reaches.valid
  have hvE : (ir_block c1).1.insert_point < (ir_block c1).1.blocks.length := by
    rw [ir_block_length]; exact Nat.lt_succ_of_lt hv1
  have hvJ : (ir_block (ir_block c1).1).1.insert_point
      < (ir_block (ir_block c1).1).1.blocks.length := by
    rw [ir_block_length]; exact Nat.lt_succ_of_lt hvE
  have hv0 : (ir_block (ir_block (ir_block c1).1).1).1.insert_point
      < (ir_block (ir_block (ir_block c1).1).1).1.blocks.length := by
    rw [ir_block_length]; exact Nat.lt_succ_of_lt hvJ
  -- the conditional branch
  have hi := ir_insert_new_inserted hbranch
  have F2 : Framed ctx r.1 := (F1.block_framed.block_framed.block_framed).insert_step_framed hvalid hbranch rfl
  have RT : Reserved r.1 (ir_block c1).2 :=
    ((Reserved.fresh c1 hv1).block_reserved.block_reserved).insert_step_reserved hbranch
  have RE : Reserved r.1 (ir_block (ir_block c1).1).2 :=
    ((Reserved.fresh _ hvE).block_reserved).insert_step_reserved hbranch
  have RJ : Reserved r.1 (ir_block (ir_block (ir_block c1).1).1).2 :=
    (Reserved.fresh _ hvJ).insert_step_reserved hbranch
  obtain ⟨l0, hl0, S0⟩ := Sealed.inserted_sealed hbranch rfl
  have hl0' : block_instructions c1 c1.insert_point = some l0 := by
    rw [ir_block_instructions, if_neg (by
      have h := hvJ
      have hp : (ir_block (ir_block c1).1).1.insert_point = c1.insert_point := rfl
      have hp' : (ir_block (ir_block (ir_block c1).1).1).1.insert_point = c1.insert_point := rfl
      rw [hp']; rw [hp] at h; omega),
      ir_block_instructions, if_neg (by
        have hp' : (ir_block (ir_block (ir_block c1).1).1).1.insert_point = c1.insert_point := rfl
        rw [hp']
        have hp : (ir_block c1).1.insert_point = c1.insert_point := rfl
        have h := hvE
        rw [hp] at h; omega),
      ir_block_instructions, if_neg (by
        have hp' : (ir_block (ir_block (ir_block c1).1).1).1.insert_point = c1.insert_point := rfl
        rw [hp']; omega)] at hl0
    exact hl0
  -- the then arm
  have FA : Framed ctx (ir_block_attach r.1 (ir_block c1).2) :=
    F2.attach_framed (by have := F1.reaches.blocks_le; omega) RT.lt
  have REA : Reserved (ir_block_attach r.1 (ir_block c1).2) (ir_block (ir_block c1).1).2 :=
    RE.attach_reserved (by omega)
  have RJA : Reserved (ir_block_attach r.1 (ir_block c1).2)
      (ir_block (ir_block (ir_block c1).1).1).2 := RJ.attach_reserved (by omega)
  have wA := codegen_expr_sound q then_ _ c2 FA.reaches.valid FA.phi hthen
  have F3 : Framed ctx c2 := FA.sub_framed hvalid (codegen_expr_sound q then_) hthen
  have RE3 := REA.reaches_reserved wA.reaches
  have RJ3 := RJA.reaches_reserved wA.reaches
  have S3 := (S0.attach_sealed (ir_block c1).2).reaches_sealed wA.reaches
  obtain ⟨r2, hr2, hc2⟩ := branch_if_open_of_open hthen_open hthen_end
  subst hc2
  have F4 : Framed ctx r2.1 := F3.insert_step_framed hvalid hr2 rfl
  have RE4 := RE3.insert_step_reserved hr2
  have RJ4 := RJ3.insert_step_reserved hr2
  have S4 := S3.insert_step_sealed F3.reaches.valid hr2
  obtain ⟨l2, hl2, T4⟩ := Sealed.inserted_sealed hr2 rfl
  -- the else arm
  have FB : Framed ctx (ir_block_attach r2.1 (ir_block (ir_block c1).1).2) :=
    F4.attach_framed (by have := F1.reaches.blocks_le; omega) RE4.lt
  have RJB : Reserved (ir_block_attach r2.1 (ir_block (ir_block c1).1).2)
      (ir_block (ir_block (ir_block c1).1).1).2 := RJ4.attach_reserved (by omega)
  have wB := codegen_expr_sound q else_ _ c3 FB.reaches.valid FB.phi helse
  have F5 : Framed ctx c3 := FB.sub_framed hvalid (codegen_expr_sound q else_) helse
  have RJ5 := RJB.reaches_reserved wB.reaches
  have S5 := (S4.attach_sealed (ir_block (ir_block c1).1).2).reaches_sealed wB.reaches
  have T5 := (T4.attach_sealed (ir_block (ir_block c1).1).2).reaches_sealed wB.reaches
  obtain ⟨r3, hr3, hc3⟩ := branch_if_open_of_open helse_open helse_end
  subst hc3
  have F6 : Framed ctx r3.1 := F5.insert_step_framed hvalid hr3 rfl
  have RJ6 := RJ5.insert_step_reserved hr3
  have S6 := S5.insert_step_sealed F5.reaches.valid hr3
  have T6 := T5.insert_step_sealed F5.reaches.valid hr3
  obtain ⟨l3, hl3, E6⟩ := Sealed.inserted_sealed hr3 rfl
  -- the join block and its phi
  have hvC : (ir_block_attach r3.1 (ir_block (ir_block (ir_block c1).1).1).2).insert_point
      < (ir_block_attach r3.1 (ir_block (ir_block (ir_block c1).1).1).2).blocks.length := by
    rw [ir_block_attach_blocks_length]; exact RJ6.lt
  obtain ⟨p, hp⟩ := ir_insert_new_ok { kind := .IR_PHI, type := type } hvC RJ6.not_closed
  have hip := ir_insert_new_inserted hp
  have SP := (S6.attach_sealed (ir_block (ir_block (ir_block c1).1).1).2).insert_step_sealed hvC hp
  have TP := (T6.attach_sealed (ir_block (ir_block (ir_block c1).1).1).2).insert_step_sealed hvC hp
  have EP := (E6.attach_sealed (ir_block (ir_block (ir_block c1).1).1).2).insert_step_sealed hvC hp
  have hlook := hip.lookup_new
  have hlook1 := ir_phi_add_arg_lookup hlook c2.insert_point (p.1.node_ir then_.id)
  have hlook2 := ir_phi_add_arg_lookup hlook1 c3.insert_point
    ((ir_phi_add_arg p.1 p.2 c2.insert_point (p.1.node_ir then_.id)).node_ir else_.id)
  obtain ⟨a1, a2, a3, a4, _⟩ := ir_phi_add_arg_frame p.1 p.2 c2.insert_point
    (p.1.node_ir then_.id)
  obtain ⟨b1, b2, b3, b4, _⟩ := ir_phi_add_arg_frame
    (ir_phi_add_arg p.1 p.2 c2.insert_point (p.1.node_ir then_.id)) p.2 c3.insert_point
    ((ir_phi_add_arg p.1 p.2 c2.insert_point (p.1.node_ir then_.id)).node_ir else_.id)
  have hnode : p.1.node_ir = c3.node_ir := by
    rw [hip.node_ir]
    exact (ir_insert_new_inserted hr3).node_ir
  have SF := ((SP.phi_add_arg hlook rfl c2.insert_point (p.1.node_ir then_.id)).phi_add_arg
    hlook1 rfl c3.insert_point
    ((ir_phi_add_arg p.1 p.2 c2.insert_point (p.1.node_ir then_.id)).node_ir else_.id))
  have TF := ((TP.phi_add_arg hlook rfl c2.insert_point (p.1.node_ir then_.id)).phi_add_arg
    hlook1 rfl c3.insert_point
    ((ir_phi_add_arg p.1 p.2 c2.insert_point (p.1.node_ir then_.id)).node_ir else_.id))
  have EF := ((EP.phi_add_arg hlook rfl c2.insert_point (p.1.node_ir then_.id)).phi_add_arg
    hlook1 rfl c3.insert_point
    ((ir_phi_add_arg p.1 p.2 c2.insert_point (p.1.node_ir then_.id)).node_ir else_.id))
  refine ⟨(ir_phi_add_arg (ir_phi_add_arg p.1 p.2 c2.insert_point (p.1.node_ir then_.id))
      p.2 c3.insert_point
      ((ir_phi_add_arg p.1 p.2 c2.insert_point (p.1.node_ir then_.id)).node_ir
        else_.id)).set_ir id (some p.2), p.2, ?_, ?_, ?_, ?_, ?_, ?_, ?_, ?_, ?_, ?_, ?_⟩
  · rw [codegen_expr_if_unfold q ctx id type condition then_ else_ hemitted]
    exact codegen_expr_if_eq q (ctx.set_emitted id) id type condition.id then_.id else_.id
      hvoid hcondition hbranch hthen hthen_end helse helse_end hp
  · rw [hi.blocks_length, ir_block_length, ir_block_length, ir_block_length]
  · exact (ir_insert_new_inserted hr2).blocks_length
  · show (ir_phi_add_arg _ _ _ _).blocks.length = _
    rw [b1, a1, hip.blocks_length, ir_block_attach_blocks_length,
      (ir_insert_new_inserted hr3).blocks_length]
  · obtain ⟨x, hx, hc⟩ := SF.last
    exact ⟨l0, x, hl0', SF.instructions, hx, core_kind hc, core_cond hc, core_then hc,
      core_else hc⟩
  · obtain ⟨x, hx, hc⟩ := TF.last
    exact ⟨l2, x, hl2, TF.instructions, hx, core_kind hc, core_dest hc⟩
  · obtain ⟨x, hx, hc⟩ := EF.last
    exact ⟨l3, x, hl3, EF.instructions, hx, core_kind hc, core_dest hc⟩
  · show (ir_phi_add_arg _ _ _ _).insert_point = _
    rw [b2, a2, hip.point]
    rfl
  · show block_instructions (ir_phi_add_arg _ _ _ _) _ = _
    obtain ⟨l, hl, hl'⟩ := hip.block_at
    have hpt : (ir_block_attach r3.1 (ir_block (ir_block (ir_block c1).1).1).2).insert_point
        = (ir_block (ir_block (ir_block c1).1).1).2 := rfl
    rw [hpt, ir_block_attach_instructions, RJ6.empty] at hl
    cases hl
    rw [block_instructions_congr b1, block_instructions_congr a1]
    rw [hpt] at hl'
    exact hl'
  · refine ⟨_, hlook2, rfl, rfl, ?_⟩
    show ([] ++ [_]) ++ [_] = _
    rw [a4, hnode]
    rfl
  · show (if id = id then some p.2 else _) = _
    rw [if_pos rfl]

theorem if_lowering_witness :
    example_context.node_emitted 1 = false ∧
    ir_is_closed if_example_then if_example_then.insert_point = false ∧
    ir_is_closed if_example_else if_example_else.insert_point = false ∧
    ∃ c' phi, codegen_expr example_queries example_context if_with_open_arms = .ok c' ∧
      c'.insert_point = if_example_condition.blocks.length + 2 ∧
      block_instructions c' (if_example_condition.blocks.length + 2) = some [phi] ∧
      ∃ x, c'.instructions[phi]? = some x ∧ x.kind = .IR_PHI ∧
        x.phi_args = [(if_example_then.insert_point, if_example_else.node_ir 3),
          (if_example_else.insert_point, if_example_else.node_ir 4)] :=
  have hp : PhiArgsClosed example_context := fun p x hx => by
    simp [example_context] at hx
  have h := if_lowering example_queries example_context if_example_condition if_example_then
    if_example_then_end if_example_else if_example_else_end if_example_branch 1 t_integer
    (number_literal 2 1) (number_literal 3 10) (number_literal 4 20) rfl rfl (by decide) hp
    (result_context_ok (by decide!)) (result_inserted_ok (by decide!))
    (result_context_ok (by decide!)) (by decide!) (result_context_ok (by decide!))
    (result_context_ok (by decide!)) (by decide!) (result_context_ok (by decide!))
  ⟨rfl, by decide!, by decide!,
    match h with
    | ⟨c', phi, h1, _, _, _, _, _, _, h8, h9, ⟨x, hx, hk, _, ha⟩, _⟩ =>
        ⟨c', phi, h1, h8, h9, x, hx, hk, ha⟩⟩

/-! ### `remove_inlined` -/

theorem remove_gathered_cons_kept (p : Nat → Bool) (x : Nat) (hx : p x = false) :
    ∀ (g l : List Nat), (∀ y ∈ g, p y = true) →
      remove_gathered (x :: l) g = x :: remove_gathered l g
  | [], _, _ => rfl
  | y :: g, l, hg => by
    have hne : x ≠ y := by
      intro e
      have := hg y (List.mem_cons_self y g)
      rw [← e, hx] at this
      exact Bool.noConfusion this
    have he : (x :: l).erase y = x :: l.erase y := by
      rw [List.erase_cons_tail]
      simpa using hne
    show remove_gathered (vector_remove_element (x :: l) y) g = _
    unfold vector_remove_element
    rw [he, remove_gathered_cons_kept p x hx g (l.erase y)
      (fun z hz => hg z (List.mem_cons_of_mem y hz))]
    rfl

/-- Removing, one by one, the gathered elements of a vector leaves the elements that were
not gathered, in their order. -/
theorem remove_gathered_filter (p : Nat → Bool) :
    ∀ l : List Nat, remove_gathered l (l.filter p) = l.filter (fun i => !p i)
  | [] => rfl
  | x :: l => by
    cases hx : p x with
    | false =>
      rw [List.filter_cons_of_neg (by simp [hx]), List.filter_cons_of_pos (by simp [hx]),
        remove_gathered_cons_kept p x hx _ l (fun y hy => (List.mem_filter.mp hy).2),
        remove_gathered_filter p l]
    | true =>
      rw [List.filter_cons_of_pos (by simp [hx]), List.filter_cons_of_neg (by simp [hx])]
      show remove_gathered (vector_remove_element (x :: l) x) _ = _
      unfold vector_remove_element
      rw [List.erase_cons_head, remove_gathered_filter p l]

theorem is_inlined_congr {st st' : MIRContext} (h : st'.instructions = st.instructions)
    (i : Nat) : is_inlined st' i = is_inlined st i := by
  unfold is_inlined
  rw [h]

/-- The instructions of a block that `remove_inlined` keeps. -/
theorem remove_inlined_block_ok {st st1 : MIRContext} {block : Nat}
    (h : remove_inlined_block st block = .ok st1) :
    ∃ B, st.blocks[block]? = some B ∧
      st1 = st.set_block block
        { B with instructions := B.instructions.filter (fun i => !is_inlined st i) } := by
  unfold remove_inlined_block at h
  obtain ⟨B, eb, h⟩ := bind_ok h
  refine ⟨B, get_block_ok eb, ?_⟩
  have := pure_ok h
  rw [← this, remove_gathered_filter]

/-- The state after `remove_inlined` has swept the blocks `bs`. -/
theorem remove_inlined_blocks_swept :
    ∀ (bs : List Nat) (st st' : MIRContext), remove_inlined_blocks st bs = .ok st' →
      st'.instructions = st.instructions ∧ st'.functions = st.functions ∧
      st'.blocks.length = st.blocks.length ∧
      ∀ b B, st.blocks[b]? = some B →
        st'.blocks[b]? = some (if b ∈ bs then
          { B with instructions := B.instructions.filter (fun i => !is_inlined st i) }
          else B)
  | [], st, st', h => by
    cases h
    exact ⟨rfl, rfl, rfl, fun b B hB => by simp [hB]⟩
  | block :: rest, st, st', h => by
    rw [remove_inlined_blocks] at h
    obtain ⟨st1, e1, h⟩ := bind_ok h
    obtain ⟨B0, hB0, hst1⟩ := remove_inlined_block_ok e1
    have hlt : block < st.blocks.length := lookup_in_range hB0
    obtain ⟨h1, h2, h3, h4⟩ := remove_inlined_blocks_swept rest st1 st' h
    have hin : ∀ i, is_inlined st1 i = is_inlined st i := by
      intro i
      rw [hst1]
      exact is_inlined_congr rfl i
    have hin' : (fun i => !is_inlined st1 i) = (fun i => !is_inlined st i) := by
      funext i
      rw [hin]
    rw [hin'] at h4
    refine ⟨by rw [h1, hst1]; rfl, by rw [h2, hst1]; rfl,
      by rw [h3, hst1]; simp [MIRContext.set_block], ?_⟩
    intro b B hB
    by_cases hb : b = block
    · subst hb
      rw [hB0] at hB
      cases hB
      have hset : st1.blocks[b]?
          = some { B0 with instructions := B0.instructions.filter (fun i => !is_inlined st i) } := by
        rw [hst1]
        simp [MIRContext.set_block, List.getElem?_set, hlt]
      rw [h4 b _ hset]
      simp only [List.mem_cons, true_or, if_true, List.filter_filter, Bool.and_self]
      split <;> rfl
    · have hset : st1.blocks[b]? = some B := by
        rw [hst1]
        simp [MIRContext.set_block, List.getElem?_set, Ne.symm hb, hB]
      rw [h4 b _ hset]
      simp only [List.mem_cons, hb, false_or]

theorem remove_inlined_block_returns {st : MIRContext} {block : Nat}
    (hlt : block < st.blocks.length) :
    ∃ st1, remove_inlined_block st block = .ok st1 ∧ st1.blocks.length = st.blocks.length := by
  have hB : st.blocks[block]? = some st.blocks[block] := List.getElem?_eq_getElem hlt
  unfold remove_inlined_block
  rw [get_block_of_lookup hB]
  exact ⟨_, rfl, by simp [MIRContext.set_block]⟩

theorem remove_inlined_blocks_returns :
    ∀ (bs : List Nat) (st : MIRContext), (∀ b ∈ bs, b < st.blocks.length) →
      ∃ st', remove_inlined_blocks st bs = .ok st'
  | [], st, _ => ⟨st, rfl⟩
  | block :: rest, st, h => by
    obtain ⟨st1, e1, hl⟩ := remove_inlined_block_returns (h block (List.mem_cons_self _ _))
    obtain ⟨st', h'⟩ := remove_inlined_blocks_returns rest st1 (fun b hb => by
      rw [hl]; exact h b (List.mem_cons_of_mem _ hb))
    refine ⟨st', ?_⟩
    rw [remove_inlined_blocks, e1]
    exact h'

/-- C17: `remove_inlined` returns on every function whose blocks exist; it leaves the
instructions and the functions as they are and replaces the instruction list of every block
of the function by the sublist, in the same order, of the instructions whose opcode is
neither Immediate nor FuncRef (other blocks are untouched). As it is the last step of the
translation of a function, no block of a translated function holds an instruction with
opcode Immediate or FuncRef. -/
theorem remove_inlined_keeps_the_others :
    (∀ (st : MIRContext) (function : Nat) (f : MIRFunction),
      st.functions[function]? = some f → (∀ b ∈ f.blocks, b < st.blocks.length) →
      ∃ st', remove_inlined st function = .ok st' ∧
        st'.instructions = st.instructions ∧ st'.functions = st.functions ∧
        ∀ b B, st.blocks[b]? = some B →
          st'.blocks[b]? = some (if b ∈ f.blocks then
            { B with instructions := B.instructions.filter (fun i => !is_inlined st i) }
            else B)) ∧
    (∀ (q : Queries) (arch_start fuel : Nat) (st st' : MIRContext) (function : Nat)
      (f : MIRFunction) (irf : IRFunction),
      st.functions[function]? = some f → st.ir.functions[f.origin]? = some irf →
      irf.is_definition = true →
      mir_from_ir_function q arch_start fuel st function = .ok st' →
      ∃ f', st'.functions[function]? = some f' ∧
        ∀ b ∈ f'.blocks, ∀ B, st'.blocks[b]? = some B →
          ∀ i ∈ B.instructions, is_inlined st' i = false) := by
  constructor
  · intro st function f hf hb
    obtain ⟨st', h⟩ := remove_inlined_blocks_returns f.blocks st hb
    obtain ⟨h1, h2, _, h4⟩ := remove_inlined_blocks_swept f.blocks st st' h
    refine ⟨st', ?_, h1, h2, h4⟩
    unfold remove_inlined
    rw [get_function_of_lookup hf]
    exact h
  · intro q arch_start fuel st st' function f irf hf hirf hdef h
    unfold mir_from_ir_function at h
    obtain ⟨f0, hf0, h⟩ := bind_ok h
    have e0 : f0 = f := by
      have := get_function_ok hf0
      rw [hf] at this
      cases this
      rfl
    subst e0
    simp only [hirf, hdef, Bool.not_true, Bool.false_eq_true, if_false] at h
    split at h
    · exact Except.noConfusion h
    · obtain ⟨B, _, h⟩ := bind_ok h
      obtain ⟨st1, _, h⟩ := bind_ok h
      obtain ⟨st2, _, h⟩ := bind_ok h
      unfold remove_inlined at h
      obtain ⟨f2, hf2, h⟩ := bind_ok h
      obtain ⟨h1, h2, _, h4⟩ := remove_inlined_blocks_swept f2.blocks st2 st' h
      refine ⟨f2, by rw [h2]; exact get_function_ok hf2, ?_⟩
      intro b hb B hB i hi
      have hlt : b < st2.blocks.length := by
        have := lookup_in_range hB
        omega
      have hB2 : st2.blocks[b]? = some st2.blocks[b] := List.getElem?_eq_getElem hlt
      rw [h4 b _ hB2, if_pos hb] at hB
      cases hB
      rw [is_inlined_congr h1]
      simpa using (List.mem_filter.mp hi).2

theorem remove_inlined_keeps_the_others_witness :
    ∃ st', remove_inlined mir_single_phi 0 = .ok st' ∧
      st'.instructions = mir_single_phi.instructions ∧
      mir_block_view mir_single_phi 0
        = [some ⟨.common .IR_IMMEDIATE, 1000, [.immediate 7]⟩,
           some ⟨.common .IR_BRANCH, 1001, [.block 1]⟩] ∧
      st'.blocks[0]? = some
        { name := "bb0".toList, function := some 0, origin := some 0, instructions := [1],
          is_entry := true, successors := [1] } :=
  match remove_inlined_keeps_the_others.1 mir_single_phi 0 _ rfl (by decide) with
  | ⟨st', h1, h2, _, h4⟩ => ⟨st', h1, h2, by decide!, (h4 0 _ rfl).trans (by decide!)⟩

/-- C16 (as stated, refuted): the size of a Register operand is a `uint16_t`, and
`mir_op_reference_ir` casts the byte size of the value to it. For a value of 65536 bytes
(an array of 8192 integers of 8 bytes) that is pinned to the register 3, the operand is the
Register operand of register 3 with size 0, not 65536. -/
theorem pinned_reference_truncates_size :
    queries_with_arrays.type_sizeof (.array t_integer 8192) = 65536 ∧
    (result_operand (mir_op_reference_ir queries_with_arrays mir_pinned_array 0 (some 0))).2
      = .register 3 0 false := by
  decide!

/-- C16 (amended): the operand that `mir_op_reference_ir` builds for the IR instruction `x`, by
priority: with a pinned register, a Register operand with that register and the byte size
of the value truncated to 16 bits (whatever the kind of `x` is); otherwise an Immediate
operand for an Immediate, a LocalRef for an Alloca (the offset of the Alloca when it is set, the index of
a new frame object of the size of the Alloca otherwise), a StaticRef operand for a
StaticRef, a Function operand for a FuncRef; otherwise a Register operand whose number is
the register of the instruction in which the lowered chain of the MIR instruction of `x`
ends (the chain ends when it is finite, and then the model's fuel suffices). -/
theorem mir_op_reference_ir_priority (q : Queries) (st : MIRContext) (function i : Nat)
    (x : IRInstruction) (hx : st.ir.instructions[i]? = some x) :
    (x.register ≠ 0 →
      mir_op_reference_ir q st function (some i)
        = .ok (st, .register x.register (q.type_sizeof x.type % 2 ^ 16) false)) ∧
    (x.register = 0 → x.kind = .IR_IMMEDIATE →
      mir_op_reference_ir q st function (some i) = .ok (st, .immediate (to_i64 x.imm))) ∧
    (x.register = 0 → x.kind = .IR_ALLOCA → ∀ k, x.alloca_offset = some k →
      mir_op_reference_ir q st function (some i) = .ok (st, .local_ref k)) ∧
    (x.register = 0 → x.kind = .IR_ALLOCA → x.alloca_offset = none →
      ∀ f, st.functions[function]? = some f →
        ∃ st', mir_op_reference_ir q st function (some i)
            = .ok (st', .local_ref f.frame_objects.length) ∧
          st'.functions[function]? = some { f with frame_objects :=
            f.frame_objects ++ [{ size := x.alloca_size, lowered := none, offset := -1 }] } ∧
          st'.ir.instructions[i]?
            = some { x with alloca_offset := some f.frame_objects.length }) ∧
    (x.register = 0 → x.kind = .IR_STATIC_REF →
      mir_op_reference_ir q st function (some i) = .ok (st, .static_ref i)) ∧
    (x.register = 0 → x.kind = .IR_FUNC_REF → ∀ f m, x.func_ref_func = some f →
      st.function_mir f = some m →
      mir_op_reference_ir q st function (some i) = .ok (st, .function m)) ∧
    (x.register = 0 → x.kind ≠ .IR_IMMEDIATE → x.kind ≠ .IR_ALLOCA →
      x.kind ≠ .IR_STATIC_REF → x.kind ≠ .IR_FUNC_REF →
      ∀ m last path y, st.inst_mir i = some m → LoweredChain st m last path →
        st.instructions[last]? = some y →
        (∀ o, y.origin = some o → o < st.ir.instructions.length) →
        ∃ size, mir_op_reference_ir q st function (some i)
          = .ok (st, .register y.reg size false)) := by
  have hi := ir_inst_of_lookup hx
  refine ⟨?_, ?_, ?_, ?_, ?_, ?_, ?_⟩
  · intro hr
    unfold mir_op_reference_ir
    simp only [hi, bind, Except.bind, hr, ne_eq, not_false_eq_true, if_true]
    rfl
  · intro hr hk
    unfold mir_op_reference_ir
    simp only [hi, bind, Except.bind, hr, hk, ne_eq, not_true_eq_false, if_false]
    rfl
  · intro hr hk k hoff
    unfold mir_op_reference_ir
    simp only [hi, bind, Except.bind, hr, hk, ne_eq, not_true_eq_false, if_false]
    unfold mir_op_local_ref_ir
    simp only [hi, bind, Except.bind, hoff]
    rfl
  · intro hr hk hoff f hf
    refine ⟨({ st with ir := ir_set_alloca_offset st.ir i (some f.frame_objects.length) } :
        MIRContext).set_function function
      { f with frame_objects :=
          f.frame_objects ++ [{ size := x.alloca_size, lowered := none, offset := -1 }] },
      ?_, ?_, ?_⟩
    · unfold mir_op_reference_ir
      simp only [hi, bind, Except.bind, hr, hk, ne_eq, not_true_eq_false, if_false]
      unfold mir_op_local_ref_ir
      simp only [hi, bind, Except.bind, hoff, get_function_of_lookup hf]
      rfl
    · simp [MIRContext.set_function, List.getElem?_set, lookup_in_range hf]
    · simp [MIRContext.set_function, ir_set_alloca_offset, hx, List.getElem?_set, lookup_in_range hx]
  · intro hr hk
    unfold mir_op_reference_ir
    simp only [hi, bind, Except.bind, hr, hk, ne_eq, not_true_eq_false, if_false]
    rfl
  · intro hr hk f m hf hm
    unfold mir_op_reference_ir
    simp only [hi, bind, Except.bind, hr, hk, ne_eq, not_true_eq_false, if_false, hf, hm,
      mir_op_function]
    rfl
  · intro hr h1 h2 h3 h4 m last path y hm hc hy hvalid
    have hop : ∃ size, mir_op_reference q st (some m) = .ok (.register y.reg size false) := by
      rw [mir_op_reference_of_chain q hc hy]
      cases ho : y.origin with
      | none => exact ⟨0, rfl⟩
      | some o =>
        have hlt := hvalid o ho
        have hl : st.ir.instructions[o]? = some st.ir.instructions[o] :=
          List.getElem?_eq_getElem hlt
        refine ⟨q.type_sizeof st.ir.instructions[o].type % 2 ^ 16, ?_⟩
        simp only [ir_typeof, hl, bind, Except.bind]
        rfl
    obtain ⟨size, hop⟩ := hop
    refine ⟨size, ?_⟩
    unfold mir_op_reference_ir
    simp only [hi, bind, Except.bind, hr, ne_eq, not_true_eq_false, if_false]
    cases hk : x.kind <;> first
      | exact absurd hk h1 | exact absurd hk h2 | exact absurd hk h3 | exact absurd hk h4
      | (simp only [hm, hop]; rfl)

theorem mir_op_reference_ir_priority_witness :
    mir_single_phi.ir.instructions[0]?
      = some { kind := .IR_IMMEDIATE, type := t_integer, imm := 7, parent_block := some 0 } ∧
    mir_op_reference_ir example_queries mir_single_phi 0 (some 0)
      = .ok (mir_single_phi, .immediate (to_i64 7)) :=
  ⟨rfl, (mir_op_reference_ir_priority example_queries mir_single_phi 0 0 _ rfl).2.1 rfl rfl⟩

/-! ### A phi with one argument -/

/-- C18: on a MIR phi whose origin has exactly one argument, the body of the instruction
loop of `phi2copy` returns, once the operand for the argument's value is built; it leaves
every block (so the phi keeps its place), the vector of instructions to remove and every
other instruction as they are, and the phi keeps its register and block while its opcode
becomes Copy and its operands become the one operand built for the value. -/
theorem single_argument_phi_becomes_copy (q : Queries) (arch_start : Nat) (st : MIRContext)
    (function block : Nat) (last_block : Option Nat) (to_remove : List Nat)
    (instruction phi b : Nat) (v : Option Nat) (x : MIRInstruction) (p : IRInstruction)
    (r : MIRContext × MIROperand)
    (hx : st.instructions[instruction]? = some x) (hopcode : x.opcode = .common .IR_PHI)
    (harray : x.operands_arr.length = MIR_OPERAND_SSO_THRESHOLD)
    (horigin : x.origin = some phi) (hp : st.ir.instructions[phi]? = some p)
    (hlast : p.parent_block ≠ last_block) (hargs : p.phi_args = [(b, v)])
    (hr : mir_op_reference_ir q
      (st.set_inst instruction (mir_op_clear { x with opcode := .common .IR_COPY }))
      function v = .ok r) :
    ∃ st' y,
      phi2copy_instruction q arch_start st function block last_block to_remove instruction
        = .ok (st', p.parent_block, to_remove) ∧
      st'.blocks = st.blocks ∧
      (∀ i, i ≠ instruction → st'.instructions[i]? = st.instructions[i]?) ∧
      st'.instructions[instruction]? = some y ∧
      y.opcode = .common .IR_COPY ∧ y.reg = x.reg ∧ y.block = x.block ∧
      y.origin = x.origin ∧ mir_operand_list y = [r.2] := by
  obtain ⟨hs, hne⟩ := mir_op_reference_ir_skeleton hr
  have hlt := lookup_in_range hx
  have hi1 : r.1.instructions
      = st.instructions.set instruction (mir_op_clear { x with opcode := .common .IR_COPY }) :=
    skeleton_instructions hs
  have hx1 : r.1.instructions[instruction]?
      = some (mir_op_clear { x with opcode := .common .IR_COPY }) := by
    rw [hi1]
    simp [List.getElem?_set, hlt]
  have hadd : mir_add_op_inst (mir_op_clear { x with opcode := .common .IR_COPY }) r.2
      = .ok { mir_op_clear { x with opcode := .common .IR_COPY } with
          operands_arr := (x.operands_arr.set 0 .none).set 0 r.2, operand_count := 1 } := by
    unfold mir_add_op_inst
    rw [if_neg hne]
    simp [mir_op_clear, MIR_OPERAND_SSO_THRESHOLD]
  refine ⟨r.1.set_inst instruction
      { mir_op_clear { x with opcode := .common .IR_COPY } with
          operands_arr := (x.operands_arr.set 0 .none).set 0 r.2, operand_count := 1 },
    { mir_op_clear { x with opcode := .common .IR_COPY } with
          operands_arr := (x.operands_arr.set 0 .none).set 0 r.2, operand_count := 1 },
    ?_, ?_, ?_, ?_, rfl, rfl, rfl, rfl, ?_⟩
  · unfold phi2copy_instruction
    simp only [inst_of_lookup hx, hopcode, horigin, ir_inst_of_lookup hp, hargs, bind,
      Except.bind, ne_eq, not_true_eq_false, if_false, List.length_singleton, if_true, pure,
      Except.pure, List.getElem?_cons_zero]
    rw [if_neg hlast]
    simp only [horigin] at hr
    simp only [hr, mir_add_op_ok hx1 hadd, horigin]
  · have hb := skeleton_blocks hs
    exact hb
  · intro i hi
    show (r.1.instructions.set instruction _)[i]? = _
    rw [hi1]
    simp [List.getElem?_set, Ne.symm hi]
  · show (r.1.instructions.set instruction _)[instruction]? = _
    rw [hi1]
    simp [List.getElem?_set, hlt]
  · unfold mir_operand_list
    simp only [MIR_OPERAND_SSO_THRESHOLD, Nat.one_le_ofNat, if_true]
    cases harr : x.operands_arr with
    | nil => rw [harr] at harray; exact absurd harray (by decide)
    | cons a l => rfl

theorem single_argument_phi_becomes_copy_witness :
    ∃ st' y, phi2copy_instruction example_queries 1000 mir_single_phi 0 1 none [] 2
        = .ok (st', some 1, []) ∧
      st'.blocks = mir_single_phi.blocks ∧ st'.instructions[2]? = some y ∧
      y.opcode = .common .IR_COPY ∧ y.reg = 1002 ∧
      mir_operand_list y = [.immediate 7] :=
  match single_argument_phi_becomes_copy example_queries 1000 mir_single_phi 0 1 none [] 2 2 0
    (some 0)
    { id := 2, opcode := .common .IR_PHI, origin := some 2, reg := 1002, block := some 1 }
    { kind := .IR_PHI, type := t_integer, phi_args := [(0, some 0)], parent_block := some 1 }
    (result_operand (mir_op_reference_ir example_queries
      (mir_single_phi.set_inst 2 (mir_op_clear
        { id := 2, opcode := .common .IR_COPY, origin := some 2, reg := 1002,
          block := some 1 })) 0 (some 0)))
    rfl rfl rfl rfl rfl (by decide) rfl (result_operand_ok (by decide!)) with
  | ⟨st', y, h1, h2, _, h4, h5, h6, _, _, h9⟩ =>
      ⟨st', y, h1, h2, h4, h5, h6, h9.trans (by decide!)⟩

/-! ### The rewrite of a conditional branch in phi lowering -/

theorem mir_block_makenew_origin {st st' : MIRContext} {function b : Nat} {name : CStr}
    (h : mir_block_makenew st function name = .ok (st', b)) :
    ∃ N, st'.blocks[b]? = some N ∧ N.origin = none := by
  have h0 := h
  unfold mir_block_makenew at h
  obtain ⟨fn, hfn, _⟩ := bind_ok h
  rw [mir_block_makenew_ok name (get_function_ok hfn)] at h0
  cases h0
  refine ⟨{ function := some function, name := name }, ?_, rfl⟩
  show (st.blocks ++ [_])[st.blocks.length]? = _
  simp

theorem mir_push_into_block_origin {arch_start : Nat} {st st' : MIRContext}
    {f block mi b : Nat} {N : MIRBlock}
    (h : mir_push_into_block arch_start st f block mi = .ok st')
    (hN : st.blocks[b]? = some N) : ∃ N', st'.blocks[b]? = some N' ∧ N'.origin = N.origin := by
  obtain ⟨B, x, fn, hB, _, _, e⟩ := mir_push_into_block_inv h
  subst e
  by_cases hb : b = block
  · subst hb
    refine ⟨{ B with instructions := B.instructions ++ [mi] }, ?_, ?_⟩
    · show (st.blocks.set b _)[b]? = _
      rw [List.getElem?_set_self (lookup_in_range hB)]
    · rw [hB] at hN
      cases hN
      rfl
  · refine ⟨N, ?_, rfl⟩
    show (st.blocks.set block _)[b]? = _
    rw [List.getElem?_set_ne (Ne.symm hb)]
    exact hN

/-- C14: for a phi argument whose predecessor ends in a conditional branch of which
exactly one target names the block of the phi (the block that the target operand names
has the block of the phi as origin), the body of the argument loop of `phi2copy` returns
(once the operand of the value is built), creates one block, the trampoline, which has no
origin, and changes the MIR conditional branch in one operand only: the then-target when
it named the block of the phi, the else-target otherwise, now names the trampoline; the
condition, the other target, every other old instruction and the two target blocks are
unchanged. Afterwards neither target of the branch names the block of the phi. -/
theorem conditional_branch_rewritten_once (q : Queries) (arch_start : Nat) (st : MIRContext)
    (function instruction phi b m t e : Nat) (arg : Nat × Option Nat) (xb p : IRInstruction)
    (x bm : MIRInstruction) (c z : MIROperand) (T E : MIRBlock) (fn : MIRFunction)
    (r : MIRContext × MIROperand)
    (hterm : ir_terminator st.ir arg.1 = some b) (hb : st.ir.instructions[b]? = some xb)
    (hkind : xb.kind = .IR_BRANCH_CONDITIONAL)
    (hr : mir_op_reference_ir q (mir_makenew st (.common .IR_COPY)).1 function arg.2 = .ok r)
    (hx : st.instructions[instruction]? = some x) (hp : st.ir.instructions[phi]? = some p)
    (hphi : p.parent_block ≠ none)
    (hm : st.inst_mir b = some m) (hbm : st.instructions[m]? = some bm)
    (hcount : bm.operand_count = 3) (harr : bm.operands_arr = [c, .block t, .block e, z])
    (hT : st.blocks[t]? = some T) (hE : st.blocks[e]? = some E)
    (hf : st.functions[function]? = some fn)
    (hmatch : T.origin = p.parent_block ∨ E.origin = p.parent_block)
    (hone : ¬ (T.origin = p.parent_block ∧ E.origin = p.parent_block)) :
    ∃ st' N, phi2copy_argument q arch_start st function instruction phi arg
        = .ok (st', true) ∧
      st'.blocks.length = st.blocks.length + 1 ∧
      st'.blocks[st.blocks.length]? = some N ∧ N.origin = none ∧
      st'.instructions[m]? = some { bm with operands_arr :=
        if T.origin = p.parent_block then [c, .block st.blocks.length, .block e, z]
        else [c, .block t, .block st.blocks.length, z] } ∧
      (∀ i, i < st.instructions.length → i ≠ m → st'.instructions[i]? = st.instructions[i]?) ∧
      st'.blocks[t]? = some T ∧ st'.blocks[e]? = some E ∧
      (∀ y k B, st'.instructions[m]? = some y →
        mir_get_op y 1 = .ok (.block k) ∨ mir_get_op y 2 = .ok (.block k) →
        st'.blocks[k]? = some B → B.origin ≠ p.parent_block) := by
  obtain ⟨hs, hne⟩ := mir_op_reference_ir_skeleton hr
  have hlen_i := lookup_in_range hx
  have hlen_f := lookup_in_range hf
  have M1 : Mid st r.1 1 0 := ((refl_mid st).makenew (.common .IR_COPY)).of_skeleton_mid hs
  obtain ⟨s2, h2, M2⟩ := M1.add_op (i := st.instructions.length) (le_refl _)
    (by rw [M1.ilen]; omega) hne
  obtain ⟨c2, hc2⟩ := lookup_of_lt (l := s2.instructions) (i := st.instructions.length)
    (by rw [M2.ilen]; omega)
  have M3 := M2.set_inst_mid (i := st.instructions.length) (le_refl _) { c2 with reg := x.reg }
  obtain ⟨s4, h4, M4⟩ := M3.block_makenew hlen_f []
  obtain ⟨s5, h5, M5⟩ := M4.push arch_start (st.blocks.length + 0)
    st.instructions.length hlen_f (by omega) (by rw [M4.blen]; omega) (le_refl _)
    (by rw [M4.ilen]; omega)
  have M6 := M5.makenew (.common .IR_BRANCH)
  obtain ⟨c6, hc6⟩ := lookup_of_lt (l := (mir_makenew s5 (.common .IR_BRANCH)).1.instructions)
    (i := s5.instructions.length) (by rw [M6.ilen, M5.ilen]; omega)
  have M7 := M6.set_inst_mid (i := s5.instructions.length) (by rw [M5.ilen]; omega)
    { c6 with block := x.block }
  obtain ⟨s8, h8, M8⟩ := M7.push arch_start (st.blocks.length + 0)
    s5.instructions.length hlen_f (by omega) (by rw [M7.blen]; omega)
    (by rw [M5.ilen]; omega) (by rw [M7.ilen, M5.ilen]; omega)
  obtain ⟨p8, hp8, hpp8⟩ := M8.ir_lookup hp
  have hparent : p8.parent_block = p.parent_block := by
    have := congrArg IRInstruction.parent_block hpp8
    exact this
  have hget1 : mir_get_op bm 1 = .ok (.block t) := by
    unfold mir_get_op
    simp [hcount, harr, MIR_OPERAND_SSO_THRESHOLD]
  have hget2 : mir_get_op bm 2 = .ok (.block e) := by
    unfold mir_get_op
    simp [hcount, harr, MIR_OPERAND_SSO_THRESHOLD]
  have hrun : ∀ k, (if T.origin = p.parent_block then k = 1 else k = 2) →
      phi2copy_argument q arch_start st function instruction phi arg
        = .ok (s8.set_inst m (mir_set_op bm k (.block (st.blocks.length + 0))), true) := by
    intro k hk
    unfold phi2copy_argument
    simp only [hterm, ir_kind, hb, hkind, bind, Except.bind, hr, mir_makenew_snd, h2,
      inst_of_lookup (M2.inst_lookup hx), inst_of_lookup hc2, h4, h5,
      inst_of_lookup (M6.inst_lookup hx), inst_of_lookup hc6, h8, ir_inst_of_lookup hp8,
      M8.inst_mir, hm, inst_of_lookup (M8.inst_lookup hbm), hget1, hget2,
      get_block_of_lookup (M8.block_lookup hT), get_block_of_lookup (M8.block_lookup hE),
      pure, Except.pure, hparent, mir_op_block]
    by_cases hT' : T.origin = p.parent_block
    · rw [if_pos hT'] at hk
      rw [if_pos hT', hk]
    · rw [if_neg hT'] at hk
      rw [if_neg hT', if_pos (hmatch.resolve_left hT'), hk]
  have hlen_m := lookup_in_range hbm
  have hm8 : m < s8.instructions.length := by rw [M8.ilen]; omega
  obtain ⟨N4, hN4, hO4⟩ := mir_block_makenew_origin h4
  obtain ⟨N5, hN5, hO5⟩ := mir_push_into_block_origin h5 hN4
  obtain ⟨N8, hN8, hO8⟩ := mir_push_into_block_origin h8 hN5
  have hON : N8.origin = none := hO8.trans (hO5.trans hO4)
  have hnone : N8.origin ≠ p.parent_block := by
    rw [hON]
    exact fun h => hphi h.symm
  have hT8 := M8.block_lookup hT
  have hE8 := M8.block_lookup hE
  by_cases hT' : T.origin = p.parent_block
  · have hE' : E.origin ≠ p.parent_block := fun h => hone ⟨hT', h⟩
    have hnew : (s8.instructions.set m (mir_set_op bm 1 (.block (st.blocks.length + 0))))[m]?
        = some { bm with operands_arr :=
            if T.origin = p.parent_block then [c, .block st.blocks.length, .block e, z]
            else [c, .block t, .block st.blocks.length, z] } := by
      rw [List.getElem?_set_self hm8, if_pos hT']
      simp [mir_set_op, hcount, harr, MIR_OPERAND_SSO_THRESHOLD]
    refine ⟨_, N8, hrun 1 (by rw [if_pos hT']), M8.blen, hN8, hON, hnew, ?_, hT8, hE8, ?_⟩
    · intro i hi hne'
      show (s8.instructions.set m _)[i]? = _
      rw [List.getElem?_set_ne (Ne.symm hne')]
      exact M8.insts i hi
    · intro y k B hy hk hB
      have hy' : (s8.instructions.set m
          (mir_set_op bm 1 (.block (st.blocks.length + 0))))[m]? = some y := hy
      rw [hnew, if_pos hT'] at hy'
      cases hy'
      have g1 : mir_get_op { bm with operands_arr :=
          [c, .block st.blocks.length, .block e, z] } 1 = .ok (.block st.blocks.length) := by
        unfold mir_get_op
        simp [hcount, MIR_OPERAND_SSO_THRESHOLD]
      have g2 : mir_get_op { bm with operands_arr :=
          [c, .block st.blocks.length, .block e, z] } 2 = .ok (.block e) := by
        unfold mir_get_op
        simp [hcount, MIR_OPERAND_SSO_THRESHOLD]
      have hB' : s8.blocks[k]? = some B := hB
      rcases hk with hk | hk
      · rw [g1] at hk
        cases hk
        have hN8' : s8.blocks[st.blocks.length]? = some N8 := hN8
        rw [hN8'] at hB'
        cases hB'
        exact hnone
      · rw [g2] at hk
        cases hk
        rw [hE8] at hB'
        cases hB'
        exact hE'
  · have hnew : (s8.instructions.set m (mir_set_op bm 2 (.block (st.blocks.length + 0))))[m]?
        = some { bm with operands_arr :=
            if T.origin = p.parent_block then [c, .block st.blocks.length, .block e, z]
            else [c, .block t, .block st.blocks.length, z] } := by
      rw [List.getElem?_set_self hm8, if_neg hT']
      simp [mir_set_op, hcount, harr, MIR_OPERAND_SSO_THRESHOLD]
    refine ⟨_, N8, hrun 2 (by rw [if_neg hT']), M8.blen, hN8, hON, hnew, ?_, hT8, hE8, ?_⟩
    · intro i hi hne'
      show (s8.instructions.set m _)[i]? = _
      rw [List.getElem?_set_ne (Ne.symm hne')]
      exact M8.insts i hi
    · intro y k B hy hk hB
      have hy' : (s8.instructions.set m
          (mir_set_op bm 2 (.block (st.blocks.length + 0))))[m]? = some y := hy
      rw [hnew, if_neg hT'] at hy'
      cases hy'
      have g1 : mir_get_op { bm with operands_arr :=
          [c, .block t, .block st.blocks.length, z] } 1 = .ok (.block t) := by
        unfold mir_get_op
        simp [hcount, MIR_OPERAND_SSO_THRESHOLD]
      have g2 : mir_get_op { bm with operands_arr :=
          [c, .block t, .block st.blocks.length, z] } 2 = .ok (.block st.blocks.length) := by
        unfold mir_get_op
        simp [hcount, MIR_OPERAND_SSO_THRESHOLD]
      have hB' : s8.blocks[k]? = some B := hB
      rcases hk with hk | hk
      · rw [g1] at hk
        cases hk
        rw [hT8] at hB'
        cases hB'
        exact hT'
      · rw [g2] at hk
        cases hk
        have hN8' : s8.blocks[st.blocks.length]? = some N8 := hN8
        rw [hN8'] at hB'
        cases hB'
        exact hnone

theorem conditional_branch_rewritten_once_witness :
    ∃ st' N, phi2copy_argument example_queries 1000 mir_critical_edge 0 4 4 (0, some 0)
        = .ok (st', true) ∧
      st'.blocks.length = 4 ∧
      st'.blocks[3]? = some N ∧ N.origin = none ∧
      st'.instructions[1]? = some
        { id := 2, opcode := .common .IR_BRANCH_CONDITIONAL, operand_count := 3,
          operands_arr := [.immediate 1, .block 3, .block 1, .none], block := some 0,
          reg := 1001, origin := some 1 } ∧
      (st'.blocks[1]?).map (fun B => B.origin) = some (some 1) :=
  match conditional_branch_rewritten_once example_queries 1000 mir_critical_edge 0 4 4 1 1 2 1
    (0, some 0)
    { kind := .IR_BRANCH_CONDITIONAL, cond := some 0, then_ := some 2, else_ := some 1,
      parent_block := some 0 }
    { kind := .IR_PHI, type := t_integer, phi_args := [(0, some 0), (1, some 2)],
      parent_block := some 2 }
    { id := 5, opcode := .common .IR_PHI, block := some 2, reg := 1004, origin := some 4 }
    { id := 2, opcode := .common .IR_BRANCH_CONDITIONAL, operand_count := 3,
      operands_arr := [.immediate 1, .block 2, .block 1, .none], block := some 0,
      reg := 1001, origin := some 1 }
    (.immediate 1) .none
    { function := some 0, origin := some 2, instructions := [4, 5], is_exit := true,
      predecessors := [0, 1] }
    { function := some 0, origin := some 1, instructions := [2, 3],
      predecessors := [0], successors := [2] }
    { name := "main".toList, origin := 0, blocks := [0, 1, 2], inst_count := 6 }
    (result_operand (mir_op_reference_ir example_queries
      (mir_makenew mir_critical_edge (.common .IR_COPY)).1 0 (some 0)))
    (by decide!) rfl rfl (result_operand_ok (by decide!)) (by decide!) rfl
    (by decide) (by decide!) (by decide!) rfl rfl (by decide!) (by decide!) (by decide!)
    (Or.inl rfl) (by decide) with
  | ⟨st', N, h1, h2, h3, h4, h5, _, _, h8, _⟩ =>
      ⟨st', N, h1, h2.trans (by decide!), h3, h4, h5.trans (by decide!), by rw [h8]; rfl⟩
/-! ### Virtual registers -/

/-- C19: `mir_push_into_block` gives a MIR instruction the pinned register of its origin
when there is one and otherwise the sum of the instruction counter of the function and
`arch_start`, computed in `size_t` and converted to `MIRRegister`; it increments the
counter. Hence, during the translation of the instructions of a function, every MIR
instruction added to the store has an origin among the translated instructions, and has as
register the pinned register of that origin or, without one, the register made from the
counter as it stood after the increments for the instructions added before it. As long as
the registers given out fit in `MIRRegister` (the counter at the start, the number of added
instructions and `arch_start` sum up to at most `2 ^ MIRRegister_bits`), the counter has
grown by the number of added instructions, the register of an instruction without pinned
origin is `arch_start` plus the counter at the start plus the number of instructions added
before it, and these registers are at least `arch_start` and pairwise distinct. -/
theorem virtual_registers_follow_the_counter (q : Queries) (arch_start : Nat) :
    (∀ (st : MIRContext) (function block mi : Nat) (B : MIRBlock) (x : MIRInstruction)
      (fn : MIRFunction), st.blocks[block]? = some B → st.instructions[mi]? = some x →
      st.functions[function]? = some fn →
      ∃ st', mir_push_into_block arch_start st function block mi = .ok st' ∧
        st'.instructions[mi]? = some { x with
          block := some block
          reg := if origin_register st x ≠ 0 then origin_register st x
            else to_MIRRegister ((fn.inst_count + arch_start) % 2 ^ 64) } ∧
        st'.functions[function]?
          = some { fn with inst_count := (fn.inst_count + 1) % 2 ^ 64 }) ∧
    (∀ (st st' : MIRContext) (function : Nat) (blocks : List Nat) (fn : MIRFunction),
      st.functions[function]? = some fn →
      mir_translate_blocks q arch_start st function blocks = .ok st' →
      st.instructions.length ≤ st'.instructions.length ∧
      (∀ i, i < st.instructions.length → st'.instructions[i]? = st.instructions[i]?) ∧
      (∃ fn', st'.functions[function]? = some fn' ∧
        fn'.inst_count
          = counter_after fn.inst_count (st'.instructions.length - st.instructions.length)) ∧
      (∀ i y, st.instructions.length ≤ i → st'.instructions[i]? = some y →
        ∃ o x, y.origin = some o ∧ o ∈ translation_order st blocks ∧
          st.ir.instructions[o]? = some x ∧ origin_register st' y = x.register ∧
          (x.register ≠ 0 → y.reg = x.register) ∧
          (x.register = 0 →
            y.reg = counter_register arch_start
              (counter_after fn.inst_count (i - st.instructions.length)))) ∧
      (fn.inst_count + (st'.instructions.length - st.instructions.length) + arch_start
          ≤ 2 ^ MIRRegister_bits →
        (∃ fn', st'.functions[function]? = some fn' ∧
          fn'.inst_count
            = fn.inst_count + (st'.instructions.length - st.instructions.length)) ∧
        (∀ i y, st.instructions.length ≤ i → st'.instructions[i]? = some y →
          origin_register st' y = 0 →
          y.reg = arch_start + (fn.inst_count + (i - st.instructions.length))) ∧
        (∀ i j y z, st.instructions.length ≤ i → i < j → st'.instructions[i]? = some y →
          st'.instructions[j]? = some z → origin_register st' y = 0 →
          origin_register st' z = 0 →
          arch_start ≤ y.reg ∧ arch_start ≤ z.reg ∧ y.reg ≠ z.reg))) := by
  constructor
  · intro st function block mi B x fn hB hx hf
    refine ⟨_, mir_push_into_block_ok hB hx hf, ?_, ?_⟩
    · exact List.getElem?_set_self (l := st.instructions) (lookup_in_range hx)
    · exact List.getElem?_set_self (l := st.functions) (lookup_in_range hf)
  · intro st st' function blocks fn hfn h
    have g := mir_translate_blocks_grown q arch_start function blocks st st' h
    have hmade : ∀ i y, st.instructions.length ≤ i → st'.instructions[i]? = some y →
        ∃ o x, y.origin = some o ∧ o ∈ translation_order st blocks ∧
          st.ir.instructions[o]? = some x ∧ origin_register st' y = x.register ∧
          (x.register ≠ 0 → y.reg = x.register) ∧
          (x.register = 0 →
            y.reg = counter_register arch_start
              (counter_after fn.inst_count (i - st.instructions.length))) := by
      intro i y hi hy
      obtain ⟨o, x, h1, h2, h3, _, h5⟩ := g.made i y hi hy
      obtain ⟨x', hx', hxx⟩ := skeleton_ir_lookup_of g.ir h3
      refine ⟨o, x, h1, h2, h3, ?_, ?_, ?_⟩
      · rw [origin_register_of h1 hx']
        exact without_offset_register hxx
      · intro hr
        rw [h5 fn hfn, if_pos hr]
      · intro hr
        rw [h5 fn hfn, if_neg (by rw [hr]; exact fun h => h rfl)]
    have hcount : ∃ fn', st'.functions[function]? = some fn' ∧
        fn'.inst_count
          = counter_after fn.inst_count (st'.instructions.length - st.instructions.length) := by
      obtain ⟨fn', hfn', hff⟩ := g.funs function fn hfn
      rw [if_pos rfl] at hff
      exact ⟨fn', hfn', without_frame_inst_count hff⟩
    refine ⟨g.ilen, g.insts, hcount, hmade, ?_⟩
    intro hfit
    have hb : (2 : Nat) ^ MIRRegister_bits < 2 ^ 64 := by decide
    have hreg : ∀ i y, st.instructions.length ≤ i → st'.instructions[i]? = some y →
        origin_register st' y = 0 →
        y.reg = arch_start + (fn.inst_count + (i - st.instructions.length)) := by
      intro i y hi hy hy0
      have hlt := lookup_in_range hy
      obtain ⟨_, x, _, _, _, e1, _, e2⟩ := hmade i y hi hy
      rw [e2 (e1.symm.trans hy0), counter_after_of_lt (by omega),
        counter_register_of_lt (by omega)]
      omega
    refine ⟨?_, hreg, ?_⟩
    · obtain ⟨fn', hfn', hc⟩ := hcount
      exact ⟨fn', hfn', by rw [hc, counter_after_of_lt (by omega)]⟩
    · intro i j y z hi hij hy hz hy0 hz0
      rw [hreg i y hi hy hy0, hreg j z (by omega) hz hz0]
      refine ⟨by omega, by omega, by omega⟩

theorem virtual_registers_follow_the_counter_witness :
    mir_registers (result_mir (mir_translate_blocks example_queries 1000
        mir_outer_value_start 0 [0, 1, 2, 3]))
      = [1000, 1001, 1002, 1003, 1004, 1005, 1006, 1007] ∧
    ∃ fn', (result_mir (mir_translate_blocks example_queries 1000
        mir_outer_value_start 0 [0, 1, 2, 3])).functions[0]? = some fn' ∧
      fn'.inst_count = 0 + ((result_mir (mir_translate_blocks example_queries 1000
        mir_outer_value_start 0 [0, 1, 2, 3])).instructions.length - 0) :=
  ⟨by decide!,
   (((virtual_registers_follow_the_counter example_queries 1000).2 mir_outer_value_start
      (result_mir (mir_translate_blocks example_queries 1000 mir_outer_value_start 0
        [0, 1, 2, 3])) 0 [0, 1, 2, 3]
      { name := "main".toList, origin := 0, blocks := [0, 1, 2, 3] }
      (by decide!) (result_mir_ok (by decide!))).2.2.2.2 (by decide!)).1⟩

/-! ### Phi lowering leaves Alloca offsets and frame objects alone -/

/-- C21: for a parameter that the type of the function has at position `i`,
`parameter_is_passed_as_pointer` returns, and what it returns is true exactly when the byte
size of the parameter's type is greater than 8 under the MS-Windows calling convention, and
exactly when it is greater than 16 under the SysV calling convention. -/
theorem pointer_passing_thresholds (q : Queries) (ctx : CodegenContext) (function i : Nat)
    (p : CStr × Ty)
    (hparameter : (function_type ctx (some function)).function_parameters[i]? = some p) :
    (ctx.call_convention = .CG_CALL_CONV_MSWIN →
      ∃ b, parameter_is_passed_as_pointer q ctx function i = .ok b ∧
        (b = true ↔ 8 < q.type_sizeof p.2)) ∧
    (ctx.call_convention = .CG_CALL_CONV_SYSV →
      ∃ b, parameter_is_passed_as_pointer q ctx function i = .ok b ∧
        (b = true ↔ 16 < q.type_sizeof p.2)) := by
  constructor
  · intro hc
    refine ⟨decide (q.type_sizeof p.2 > 8), ?_, by simp⟩
    simp only [parameter_is_passed_as_pointer, hparameter, hc]
  · intro hc
    refine ⟨decide (q.type_sizeof p.2 > 16), ?_, by simp⟩
    simp only [parameter_is_passed_as_pointer, hparameter, hc]

theorem pointer_passing_thresholds_witness :
    (∃ b, parameter_is_passed_as_pointer example_queries context_with_parameters 0 1 = .ok b ∧
      (b = true ↔ 16 < example_queries.type_sizeof (.integer true 256))) ∧
    (∃ b, parameter_is_passed_as_pointer example_queries
        { context_with_parameters with call_convention := .CG_CALL_CONV_MSWIN } 0 2 = .ok b ∧
      (b = true ↔ 8 < example_queries.type_sizeof t_integer)) :=
  ⟨(pointer_passing_thresholds example_queries context_with_parameters 0 1
      ("big".toList, .integer true 256) rfl).2 rfl,
    (pointer_passing_thresholds example_queries
      { context_with_parameters with call_convention := .CG_CALL_CONV_MSWIN } 0 2
      ("n".toList, t_integer) rfl).1 rfl⟩

/-- Lvalue emission of a local declaration without initialiser that has no address yet is
one Alloca, recorded as the address of the declaration. -/
theorem codegen_lvalue_local_declaration (q : Queries) (ctx : CodegenContext) (id : Nat)
    (type : Ty) (name : CStr) (haddress : ctx.node_address id = none) :
    codegen_lvalue q ctx (.declaration id type name .LINKAGE_LOCALVAR none)
      = (do
          let r ← ir_insert_alloca q ctx type
          pure (r.1.set_address id (some r.2))) := by
  rw [codegen_lvalue]
  simp only [Node.id, haddress, Option.isSome_none, Bool.false_eq_true, if_false]
  simp only [codegen_lvalue_declaration, ne_eq, not_true_eq_false, if_false]

/-! ### The loop over the parameter declarations -/

theorem ir_parameter_congr {c c' : CodegenContext} (h : c'.functions = c.functions)
    (f i : Nat) : ir_parameter c' f i = ir_parameter c f i := by
  unfold ir_parameter
  rw [h]

theorem parameter_is_passed_as_pointer_congr (q : Queries) {c c' : CodegenContext}
    (h : c'.functions = c.functions) (hc : c'.call_convention = c.call_convention)
    (f i : Nat) :
    parameter_is_passed_as_pointer q c' f i = parameter_is_passed_as_pointer q c f i := by
  unfold parameter_is_passed_as_pointer function_type
  rw [h, hc]

theorem variables_among_congr (q : Queries) {c c' : CodegenContext}
    (h : c'.functions = c.functions) (hf : c'.function = c.function)
    (hc : c'.call_convention = c.call_convention) :
    ∀ (decls : List Node) (i : Nat), variables_among q c' i decls = variables_among q c i decls := by
  intro decls
  induction decls with
  | nil => intro i; rfl
  | cons d rest ih =>
    intro i
    unfold variables_among parameter_gets_variable
    rw [ih (i + 1), hf, parameter_is_passed_as_pointer_congr q h hc]

theorem ir_insert_new_call_convention {c : CodegenContext} {x : IRInstruction}
    {r : CodegenContext × Nat} (h : ir_insert_new c x = .ok r) :
    r.1.call_convention = c.call_convention := by
  unfold ir_insert_new at h
  split at h
  · exact Except.noConfusion h
  · split at h
    · exact Except.noConfusion h
    · cases h
      rfl

/-- A round of the loop for a parameter of reference type. -/
theorem codegen_function_params_reference (q : Queries) (ctx : CodegenContext) (i p : Nat)
    (decl : Node) (rest : List Node) (hparameter : ir_parameter ctx ctx.function i = .ok p)
    (href : type_is_reference decl.type = true) :
    codegen_function_params q ctx i (decl :: rest)
      = codegen_function_params q (ctx.set_address decl.id (some p)) (i + 1) rest := by
  rw [codegen_function_params]
  simp only [hparameter, href, bind, Except.bind, if_true]

/-- A round of the loop for a parameter that is passed as a pointer. -/
theorem codegen_function_params_pointer (q : Queries) (ctx : CodegenContext) (i p : Nat)
    (decl : Node) (rest : List Node) (x : IRInstruction)
    (hparameter : ir_parameter ctx ctx.function i = .ok p)
    (href : type_is_reference decl.type = false)
    (hpass : parameter_is_passed_as_pointer q ctx ctx.function i = .ok true)
    (hx : ctx.instructions[p]? = some x) :
    codegen_function_params q ctx i (decl :: rest)
      = codegen_function_params q
          (CodegenContext.set_address
            { ctx with instructions :=
                ctx.instructions.set p { x with type := ast_make_type_pointer x.type } }
            decl.id (some p)) (i + 1) rest := by
  rw [codegen_function_params]
  simp only [hparameter, href, hpass, bind, Except.bind, if_true, ir_typeof, hx, ir_set_type]
  simp

/-- A round of the loop for a parameter that gets a variable of its own. -/
theorem codegen_function_params_variable (q : Queries) (ctx : CodegenContext) (i p : Nat)
    (rest : List Node) (id : Nat) (type : Ty) (name : CStr)
    (hparameter : ir_parameter ctx ctx.function i = .ok p)
    (href : type_is_reference type = false)
    (hpass : parameter_is_passed_as_pointer q ctx ctx.function i = .ok false)
    (haddress : ctx.node_address id = none) (hvalid : ctx.insert_point < ctx.blocks.length)
    (hopen : ir_is_closed ctx ctx.insert_point = false) :
    ∃ a s : CodegenContext × Nat, Inserted ctx
        { kind := .IR_ALLOCA, type := ast_make_type_pointer type,
          alloca_size := q.type_sizeof type } a.1 a.2 ∧
      Inserted (a.1.set_address id (some a.2))
        { kind := .IR_STORE, store_value := some p, store_addr := some a.2 } s.1 s.2 ∧
      s.1.call_convention = ctx.call_convention ∧
      codegen_function_params q ctx i (.declaration id type name .LINKAGE_LOCALVAR none :: rest)
        = codegen_function_params q s.1 (i + 1) rest := by
  obtain ⟨a, ha⟩ := ir_insert_new_ok
    { kind := .IR_ALLOCA, type := ast_make_type_pointer type,
      alloca_size := q.type_sizeof type } hvalid hopen
  have ia := ir_insert_new_inserted ha
  have hvalid1 : (a.1.set_address id (some a.2)).insert_point
      < (a.1.set_address id (some a.2)).blocks.length := by
    show a.1.insert_point < a.1.blocks.length
    rw [ia.point, ia.blocks_length]; exact hvalid
  have hopen1 : ir_is_closed (a.1.set_address id (some a.2))
      (a.1.set_address id (some a.2)).insert_point = false := by
    show ir_is_closed a.1 a.1.insert_point = false
    rw [ia.point, ia.closed_inserted]; rfl
  obtain ⟨s, hs⟩ := ir_insert_new_ok
    { kind := .IR_STORE, store_value := some p, store_addr := some a.2 } hvalid1 hopen1
  have is_ := ir_insert_new_inserted hs
  refine ⟨a, s, ia, is_, ?_, ?_⟩
  · rw [ir_insert_new_call_convention hs]
    exact ir_insert_new_call_convention ha
  · rw [codegen_function_params]
    have href' : type_is_reference
        (Node.declaration id type name .LINKAGE_LOCALVAR none).type = false := href
    simp only [hparameter, href', hpass, bind, Except.bind, Bool.false_eq_true, if_false]
    rw [codegen_lvalue_local_declaration q ctx id type name haddress]
    have ha' : ir_insert_alloca q ctx type = .ok a := ha
    simp only [ha', bind, Except.bind, pure, Except.pure]
    have haddr : (a.1.set_address id (some a.2)).node_address
        (Node.declaration id type name .LINKAGE_LOCALVAR none).id = some a.2 := by
      show (if id = id then some a.2 else _) = _
      rw [if_pos rfl]
    rw [haddr]
    have hs' : ir_insert_store (a.1.set_address id (some a.2)) (some p) (some a.2)
        = .ok s := hs
    rw [hs']

theorem parameter_gets_variable_reference (q : Queries) (ctx : CodegenContext) (i : Nat)
    (decl : Node) (href : type_is_reference decl.type = true) :
    parameter_gets_variable q ctx i decl = false := by
  unfold parameter_gets_variable
  rw [href]

theorem parameter_gets_variable_pointer (q : Queries) (ctx : CodegenContext) (i : Nat)
    (decl : Node) (hpass : parameter_is_passed_as_pointer q ctx ctx.function i = .ok true) :
    parameter_gets_variable q ctx i decl = false := by
  unfold parameter_gets_variable
  rw [hpass]
  cases type_is_reference decl.type <;> rfl

theorem parameter_gets_variable_local (q : Queries) (ctx : CodegenContext) (i : Nat)
    (decl : Node) (href : type_is_reference decl.type = false)
    (hpass : parameter_is_passed_as_pointer q ctx ctx.function i = .ok false) :
    parameter_gets_variable q ctx i decl = true := by
  unfold parameter_gets_variable
  rw [href, hpass]

/-- One round of the loop over the parameter declarations: the loop goes on with the next
position from a context that differs from the old one in the address of the declaration,
in the type of the parameter instruction when the parameter is passed as a pointer, and
in an Alloca and a Store at the end of the insertion block when the parameter gets a
variable of its own. -/
theorem parameter_round (q : Queries) (ctx : CodegenContext) (i p : Nat) (x : IRInstruction)
    (b : Bool) (rest : List Node) (id : Nat) (type : Ty) (name : CStr) (l : List Nat)
    (hvalid : ctx.insert_point < ctx.blocks.length)
    (hopen : ir_is_closed ctx ctx.insert_point = false)
    (haddress : ctx.node_address id = none)
    (hparameter : ir_parameter ctx ctx.function i = .ok p)
    (hx : ctx.instructions[p]? = some x)
    (hpass : parameter_is_passed_as_pointer q ctx ctx.function i = .ok b)
    (hl : block_instructions ctx ctx.insert_point = some l) :
    ∃ c1, codegen_function_params q ctx i
          (.declaration id type name .LINKAGE_LOCALVAR none :: rest)
        = codegen_function_params q c1 (i + 1) rest ∧
      c1.functions = ctx.functions ∧ c1.function = ctx.function ∧
      c1.call_convention = ctx.call_convention ∧ c1.insert_point = ctx.insert_point ∧
      c1.blocks.length = ctx.blocks.length ∧ ir_is_closed c1 c1.insert_point = false ∧
      (∀ n, n ≠ id → c1.node_address n = ctx.node_address n) ∧
      (∀ j y, ctx.instructions[j]? = some y → j ≠ p → c1.instructions[j]? = some y) ∧
      (∀ b', b' ≠ ctx.insert_point →
        block_instructions c1 b' = block_instructions ctx b') ∧
      c1.instructions.length = ctx.instructions.length
        + 2 * (if parameter_gets_variable q ctx i
            (.declaration id type name .LINKAGE_LOCALVAR none) then 1 else 0) ∧
      block_instructions c1 ctx.insert_point
        = some (l ++ List.range' ctx.instructions.length
            (2 * (if parameter_gets_variable q ctx i
              (.declaration id type name .LINKAGE_LOCALVAR none) then 1 else 0))) ∧
      (type_is_reference type = true →
        c1.node_address id = some p ∧ c1.instructions[p]? = some x) ∧
      (type_is_reference type = false → b = true →
        c1.node_address id = some p ∧
        c1.instructions[p]? = some { x with type := ast_make_type_pointer x.type }) ∧
      (type_is_reference type = false → b = false →
        c1.node_address id = some ctx.instructions.length ∧
        c1.instructions[ctx.instructions.length]?
          = some { kind := .IR_ALLOCA, type := ast_make_type_pointer type,
                   alloca_size := q.type_sizeof type,
                   parent_block := some ctx.insert_point } ∧
        c1.instructions[ctx.instructions.length + 1]?
          = some { kind := .IR_STORE, store_value := some p,
                   store_addr := some ctx.instructions.length,
                   parent_block := some ctx.insert_point } ∧
        c1.instructions[p]? = some x) := by
  have hplt : p < ctx.instructions.length := lookup_in_range hx
  have hself : ∀ (c : CodegenContext) (v : Option Nat),
      (c.set_address id v).node_address id = v := by
    intro c v
    show (if id = id then v else _) = _
    rw [if_pos rfl]
  have hother : ∀ (c : CodegenContext) (v : Option Nat) (n : Nat), n ≠ id →
      (c.set_address id v).node_address n = c.node_address n := by
    intro c v n hn
    show (if n = id then v else _) = _
    rw [if_neg hn]
  by_cases href : type_is_reference type = true
  · have hg := parameter_gets_variable_reference q ctx i
      (.declaration id type name .LINKAGE_LOCALVAR none) href
    rw [hg]
    refine ⟨ctx.set_address id (some p),
      codegen_function_params_reference q ctx i p _ rest hparameter href,
      rfl, rfl, rfl, rfl, rfl, hopen, fun n hn => hother ctx _ n hn, fun j y hy _ => hy,
      fun _ _ => rfl, rfl, ?_, fun _ => ⟨hself ctx _, hx⟩, ?_, ?_⟩
    · simpa using hl
    · intro h; rw [h] at href; exact absurd href (by decide)
    · intro h; rw [h] at href; exact absurd href (by decide)
  · have href' : type_is_reference type = false := by
      cases h : type_is_reference type
      · rfl
      · exact absurd h href
    cases b with
    | true =>
      have hg := parameter_gets_variable_pointer q ctx i
        (.declaration id type name .LINKAGE_LOCALVAR none) hpass
      rw [hg]
      have hcs : CoreStep ctx
          { ctx with instructions :=
              ctx.instructions.set p { x with type := ast_make_type_pointer x.type } } :=
        core_step_set hx rfl
      refine ⟨CodegenContext.set_address
          { ctx with instructions :=
              ctx.instructions.set p { x with type := ast_make_type_pointer x.type } }
          id (some p),
        codegen_function_params_pointer q ctx i p _ rest x hparameter href' hpass hx,
        rfl, rfl, rfl, rfl, rfl, ?_, fun n hn => hother _ _ n hn, ?_,
        fun _ _ => rfl, ?_, ?_, fun h => absurd h href, fun _ _ => ⟨hself _ _, ?_⟩,
        fun _ h => Bool.noConfusion h⟩
      · show ir_is_closed
          { ctx with instructions :=
              ctx.instructions.set p { x with type := ast_make_type_pointer x.type } }
          ctx.insert_point = false
        cases hc : ir_is_closed
          { ctx with instructions :=
              ctx.instructions.set p { x with type := ast_make_type_pointer x.type } }
          ctx.insert_point
        · rfl
        · have hb : block_instructions ctx ctx.insert_point
              = block_instructions
                { ctx with instructions :=
                    ctx.instructions.set p { x with type := ast_make_type_pointer x.type } }
                ctx.insert_point := rfl
          have : ir_is_closed ctx ctx.insert_point = true :=
            closed_kept hb (fun j _ => (hcs.cores j).symm) hc
          rw [this] at hopen
          exact Bool.noConfusion hopen
      · intro j y hy hj
        show (ctx.instructions.set p _)[j]? = _
        rw [List.getElem?_set_ne (Ne.symm hj)]
        exact hy
      · show (ctx.instructions.set p _).length = _
        simp
      · simpa using hl
      · show (ctx.instructions.set p _)[p]? = _
        rw [List.getElem?_set_self hplt]
    | false =>
      have hg := parameter_gets_variable_local q ctx i
        (.declaration id type name .LINKAGE_LOCALVAR none) href' hpass
      rw [hg]
      obtain ⟨a, s, ia, is_, hcc, hloop⟩ := codegen_function_params_variable q ctx i p rest
        id type name hparameter href' hpass haddress hvalid hopen
      have hpoint : (a.1.set_address id (some a.2)).insert_point = ctx.insert_point :=
        ia.point
      have hlen : (a.1.set_address id (some a.2)).instructions.length
          = ctx.instructions.length + 1 := ia.length
      obtain ⟨l0, hl0, hl0'⟩ := ia.block_at
      rw [hl] at hl0
      cases hl0
      obtain ⟨l1, hl1, hl1'⟩ := is_.block_at
      have hl1a : block_instructions a.1 ctx.insert_point = some l1 := by
        rw [hpoint] at hl1; exact hl1
      rw [hl0'] at hl1a
      cases hl1a
      have hinst : s.1.instructions = ctx.instructions ++
          [ { kind := .IR_ALLOCA, type := ast_make_type_pointer type,
              alloca_size := q.type_sizeof type, parent_block := some ctx.insert_point },
            { kind := .IR_STORE, store_value := some p,
              store_addr := some ctx.instructions.length,
              parent_block := some ctx.insert_point } ] := by
        rw [is_.instructions]
        have e1 : (a.1.set_address id (some a.2)).instructions = a.1.instructions := rfl
        rw [e1, ia.instructions, hpoint, ia.index]
        simp
      refine ⟨s.1, hloop, ?_, ?_, hcc, ?_, ?_, ?_, ?_, ?_, ?_, ?_, ?_,
        fun h => absurd h href, fun _ h => Bool.noConfusion h, fun _ _ => ⟨?_, ?_, ?_, ?_⟩⟩
      · rw [is_.functions]; exact ia.functions
      · rw [is_.function]; exact ia.function
      · rw [is_.point]; exact hpoint
      · rw [is_.blocks_length]; exact ia.blocks_length
      · rw [is_.point, is_.closed_inserted]; rfl
      · intro n hn
        rw [is_.node_address, hother _ _ n hn, ia.node_address]
      · intro j y hy _
        rw [hinst, List.getElem?_append_left (lookup_in_range hy)]
        exact hy
      · intro b' hb'
        rw [is_.block_other b' (by rw [hpoint]; exact hb')]
        exact ia.block_other b' hb'
      · rw [hinst]
        simp
      · rw [hpoint] at hl1'
        rw [hl1', is_.index, hlen, ia.index]
        simp [List.range'_succ]
      · rw [is_.node_address, hself, ia.index]
      · rw [hinst, List.getElem?_append_right (Nat.le_refl _), Nat.sub_self]
        rfl
      · rw [hinst, List.getElem?_append_right (Nat.le_add_right _ 1),
          Nat.add_sub_cancel_left]
        rfl
      · rw [hinst, List.getElem?_append_left hplt]
        exact hx

/-- C22: the loop of `codegen_function` over the parameter declarations, from position `i`
on, returns, and handles the declaration at each position `i + k`, whose parameter
instruction is `p`, in exactly one of three ways. (1) Its type is a reference: afterwards
the address of the declaration is `p`, and `p` is as it was. (2) Otherwise, if the calling
convention passes the parameter as a pointer: the address of the declaration is `p`, and
the type of `p` is pointer-to-its-old-type. (3) Otherwise: the address of the declaration
is an Alloca of the declared type, which is followed by a Store of `p` to that Alloca, and
`p` is as it was. No other instruction is emitted: the number of instructions grows by two
for each parameter of the third kind, the Alloca of a parameter stands two instructions
further for each parameter of the third kind before it, the new instructions are appended
to the insertion block in this order, the other blocks and every old instruction that is
no parameter instruction of the list are unchanged. The declarations are what parameter
declarations are in the AST: pairwise distinct declarations of local variables without
initialiser that have no address yet. -/
theorem parameter_handled_in_one_of_three_ways (q : Queries) (ctx : CodegenContext) (i : Nat)
    (param_decls : List Node)
    (hvalid : ctx.insert_point < ctx.blocks.length)
    (hopen : ir_is_closed ctx ctx.insert_point = false)
    (hdecls : ∀ d ∈ param_decls, ∃ id type name,
      d = .declaration id type name .LINKAGE_LOCALVAR none ∧ ctx.node_address id = none)
    (hids : (param_decls.map Node.id).Nodup)
    (hreturns : ∀ k, k < param_decls.length → ∃ p x b,
      ir_parameter ctx ctx.function (i + k) = .ok p ∧ ctx.instructions[p]? = some x ∧
      parameter_is_passed_as_pointer q ctx ctx.function (i + k) = .ok b)
    (hdistinct : ∀ k k' p, k < param_decls.length → k' < param_decls.length →
      ir_parameter ctx ctx.function (i + k) = .ok p →
      ir_parameter ctx ctx.function (i + k') = .ok p → k = k') :
    ∃ c' l, codegen_function_params q ctx i param_decls = .ok c' ∧
      block_instructions ctx ctx.insert_point = some l ∧
      c'.functions = ctx.functions ∧ c'.function = ctx.function ∧
      c'.call_convention = ctx.call_convention ∧ c'.insert_point = ctx.insert_point ∧
      c'.blocks.length = ctx.blocks.length ∧
      ir_is_closed c' c'.insert_point = false ∧
      c'.instructions.length
        = ctx.instructions.length + 2 * variables_among q ctx i param_decls ∧
      block_instructions c' ctx.insert_point
        = some (l ++ List.range' ctx.instructions.length
            (2 * variables_among q ctx i param_decls)) ∧
      (∀ b, b ≠ ctx.insert_point → block_instructions c' b = block_instructions ctx b) ∧
      (∀ n, n ∉ param_decls.map Node.id → c'.node_address n = ctx.node_address n) ∧
      (∀ j y, ctx.instructions[j]? = some y →
        (∀ k, k < param_decls.length → ir_parameter ctx ctx.function (i + k) ≠ .ok j) →
        c'.instructions[j]? = some y) ∧
      (∀ k d p x, param_decls[k]? = some d →
        ir_parameter ctx ctx.function (i + k) = .ok p → ctx.instructions[p]? = some x →
        (type_is_reference d.type = true →
          c'.node_address d.id = some p ∧ c'.instructions[p]? = some x) ∧
        (type_is_reference d.type = false →
          parameter_is_passed_as_pointer q ctx ctx.function (i + k) = .ok true →
          c'.node_address d.id = some p ∧
          c'.instructions[p]? = some { x with type := ast_make_type_pointer x.type }) ∧
        (type_is_reference d.type = false →
          parameter_is_passed_as_pointer q ctx ctx.function (i + k) = .ok false →
          c'.node_address d.id
            = some (ctx.instructions.length
                + 2 * variables_among q ctx i (param_decls.take k)) ∧
          c'.instructions[ctx.instructions.length
              + 2 * variables_among q ctx i (param_decls.take k)]?
            = some { kind := .IR_ALLOCA, type := ast_make_type_pointer d.type,
                     alloca_size := q.type_sizeof d.type,
                     parent_block := some ctx.insert_point } ∧
          c'.instructions[ctx.instructions.length
              + 2 * variables_among q ctx i (param_decls.take k) + 1]?
            = some { kind := .IR_STORE, store_value := some p,
                     store_addr := some (ctx.instructions.length
                       + 2 * variables_among q ctx i (param_decls.take k)),
                     parent_block := some ctx.insert_point } ∧
          c'.instructions[p]? = some x)) := by
  induction param_decls generalizing ctx i with
  | nil =>
    obtain ⟨B, hB⟩ : ∃ B, ctx.blocks[ctx.insert_point]? = some B :=
      ⟨ctx.blocks[ctx.insert_point], List.getElem?_eq_getElem hvalid⟩
    have hl : block_instructions ctx ctx.insert_point = some B.instructions := by
      unfold block_instructions
      rw [hB]
      rfl
    refine ⟨ctx, B.instructions, by rw [codegen_function_params], hl, rfl, rfl, rfl, rfl, rfl,
      hopen, rfl, ?_, fun _ _ => rfl, fun _ _ => rfl, fun _ _ hy _ => hy, ?_⟩
    · rw [hl]
      simp [variables_among]
    · intro k d p x hk
      exact absurd hk (by simp)
  | cons d rest ih =>
    obtain ⟨id, type, name, hd, haddr⟩ := hdecls d (List.mem_cons_self _ _)
    subst hd
    obtain ⟨p, x, b, hp0, hx, hb0⟩ := hreturns 0 (Nat.succ_pos _)
    have hp : ir_parameter ctx ctx.function i = .ok p := hp0
    have hb : parameter_is_passed_as_pointer q ctx ctx.function i = .ok b := hb0
    obtain ⟨B, hB⟩ : ∃ B, ctx.blocks[ctx.insert_point]? = some B :=
      ⟨ctx.blocks[ctx.insert_point], List.getElem?_eq_getElem hvalid⟩
    have hl : block_instructions ctx ctx.insert_point = some B.instructions := by
      unfold block_instructions
      rw [hB]
      rfl
    obtain ⟨c1, hloop, hfs, hf, hcc, hpt, hbl, hop1, haddr1, hold1, hoth1, hlen1, hblk1,
      href1, hptr1, hvar1⟩ := parameter_round q ctx i p x b rest id type name B.instructions
        hvalid hopen haddr hp hx hb hl
    have hids' : id ∉ rest.map Node.id ∧ (rest.map Node.id).Nodup := List.nodup_cons.mp hids
    have hpar : ∀ j, ir_parameter c1 c1.function j = ir_parameter ctx ctx.function j :=
      fun j => by rw [hf]; exact ir_parameter_congr hfs _ _
    have hpas : ∀ j, parameter_is_passed_as_pointer q c1 c1.function j
        = parameter_is_passed_as_pointer q ctx ctx.function j :=
      fun j => by rw [hf]; exact parameter_is_passed_as_pointer_congr q hfs hcc _ _
    have hva : ∀ L, variables_among q c1 (i + 1) L = variables_among q ctx (i + 1) L :=
      fun L => variables_among_congr q hfs hf hcc L (i + 1)
    have hidx : ∀ k, i + 1 + k = i + (k + 1) := fun k => by omega
    have hne : ∀ k, k < rest.length →
        ir_parameter ctx ctx.function (i + (k + 1)) ≠ .ok p := by
      intro k hk h
      have := hdistinct (k + 1) 0 p (Nat.succ_lt_succ hk) (Nat.succ_pos _) h hp0
      omega
    have hex : ∀ k, k < rest.length → ∀ j,
        ir_parameter ctx ctx.function (i + (k + 1)) = .ok j → j < ctx.instructions.length := by
      intro k hk j hj
      obtain ⟨p', x', _, h1, h2, _⟩ := hreturns (k + 1) (Nat.succ_lt_succ hk)
      rw [hj] at h1
      cases h1
      exact lookup_in_range h2
    obtain ⟨c', l1, hc', hl1, gfs, gf, gcc, gpt, gbl, gop, glen, gblk, goth, gaddr, gold, gk⟩ :=
      ih c1 (i + 1) (by rw [hpt, hbl]; exact hvalid) hop1
        (fun d' hd' => by
          obtain ⟨id', type', name', e, ha⟩ := hdecls d' (List.mem_cons_of_mem _ hd')
          refine ⟨id', type', name', e, ?_⟩
          have hne' : id' ≠ id := by
            intro h
            apply hids'.1
            rw [← h]
            exact List.mem_map.mpr ⟨d', hd', by rw [e]; rfl⟩
          rw [haddr1 id' hne']
          exact ha)
        hids'.2
        (fun k hk => by
          obtain ⟨p', x', b', h1, h2, h3⟩ := hreturns (k + 1) (Nat.succ_lt_succ hk)
          refine ⟨p', x', b', ?_, ?_, ?_⟩
          · rw [hpar, hidx]; exact h1
          · exact hold1 p' x' h2 (fun h => hne k hk (h ▸ h1))
          · rw [hpas, hidx]; exact h3)
        (fun k k' p' hk hk' h1 h2 => by
          rw [hpar, hidx] at h1 h2
          have := hdistinct (k + 1) (k' + 1) p' (Nat.succ_lt_succ hk) (Nat.succ_lt_succ hk')
            h1 h2
          omega)
    have hl1' : l1 = B.instructions ++ List.range' ctx.instructions.length
        (2 * (if parameter_gets_variable q ctx i
          (.declaration id type name .LINKAGE_LOCALVAR none) then 1 else 0)) := by
      rw [hpt, hblk1] at hl1
      cases hl1
      rfl
    have hcons : ∀ L, variables_among q ctx i
          (.declaration id type name .LINKAGE_LOCALVAR none :: L)
        = (if parameter_gets_variable q ctx i
            (.declaration id type name .LINKAGE_LOCALVAR none) then 1 else 0)
          + variables_among q ctx (i + 1) L := fun _ => rfl
    have hkeep : ∀ j y, c1.instructions[j]? = some y →
        j = p ∨ ctx.instructions.length ≤ j → c'.instructions[j]? = some y := by
      intro j y hy hj
      refine gold j y hy (fun k hk h => ?_)
      rw [hpar, hidx] at h
      rcases hj with hj | hj
      · rw [hj] at h
        exact hne k hk h
      · have := hex k hk j h
        omega
    refine ⟨c', B.instructions, hloop.trans hc', hl, gfs.trans hfs, gf.trans hf,
      gcc.trans hcc, gpt.trans hpt, gbl.trans hbl, gop, ?_, ?_, ?_, ?_, ?_, ?_⟩
    · rw [glen, hlen1, hva, hcons, Nat.mul_add, Nat.add_assoc]
    · rw [hpt] at gblk
      rw [gblk, hl1', hlen1, hva, hcons, List.append_assoc, List.range'_append_1,
        Nat.mul_add, Nat.add_comm (2 * variables_among q ctx (i + 1) rest)]
    · intro b' hb'
      rw [goth b' (by rw [hpt]; exact hb')]
      exact hoth1 b' hb'
    · intro n hn
      have hn' : n ≠ id ∧ n ∉ rest.map Node.id := by
        constructor
        · intro h
          exact hn (by rw [h]; exact List.mem_cons_self _ _)
        · intro h
          exact hn (List.mem_cons_of_mem _ h)
      rw [gaddr n hn'.2]
      exact haddr1 n hn'.1
    · intro j y hy hj
      have hjp : j ≠ p := fun h => hj 0 (Nat.succ_pos _) (by rw [h]; exact hp0)
      refine gold j y (hold1 j y hy hjp) (fun k hk h => ?_)
      rw [hpar, hidx] at h
      exact hj (k + 1) (Nat.succ_lt_succ hk) h
    · intro k d' p' x' hk hp' hx'
      cases k with
      | zero =>
        have hd' : d' = .declaration id type name .LINKAGE_LOCALVAR none := by
          rw [List.getElem?_cons_zero] at hk
          cases hk
          rfl
        subst hd'
        have hpp : p' = p := by
          have h1 : ir_parameter ctx ctx.function i = .ok p' := hp'
          rw [hp] at h1
          cases h1
          rfl
        subst hpp
        rw [hx] at hx'
        cases hx'
        have haddr' : c'.node_address id = c1.node_address id := gaddr id hids'.1
        refine ⟨?_, ?_, ?_⟩
        · intro href
          obtain ⟨e1, e2⟩ := href1 href
          exact ⟨haddr'.trans e1, hkeep _ _ e2 (Or.inl rfl)⟩
        · intro href hpass
          have hb' : parameter_is_passed_as_pointer q ctx ctx.function i = .ok true := hpass
          rw [hb] at hb'
          cases hb'
          obtain ⟨e1, e2⟩ := hptr1 href rfl
          exact ⟨haddr'.trans e1, hkeep _ _ e2 (Or.inl rfl)⟩
        · intro href hpass
          have hb' : parameter_is_passed_as_pointer q ctx ctx.function i = .ok false := hpass
          rw [hb] at hb'
          cases hb'
          obtain ⟨e1, e2, e3, e4⟩ := hvar1 href rfl
          exact ⟨haddr'.trans e1, hkeep _ _ e2 (Or.inr (Nat.le_refl _)),
            hkeep _ _ e3 (Or.inr (Nat.le_add_right _ 1)), hkeep _ _ e4 (Or.inl rfl)⟩
      | succ k =>
        have hk' : rest[k]? = some d' := by
          rw [List.getElem?_cons_succ] at hk
          exact hk
        have hklt : k < rest.length := lookup_in_range hk'
        have hp1 : ir_parameter c1 c1.function (i + 1 + k) = .ok p' := by
          rw [hpar, hidx]; exact hp'
        have hx1 : c1.instructions[p']? = some x' :=
          hold1 p' x' hx' (fun h => hne k hklt (h ▸ hp'))
        obtain ⟨g1, g2, g3⟩ := gk k d' p' x' hk' hp1 hx1
        have epos : c1.instructions.length + 2 * variables_among q c1 (i + 1) (rest.take k)
            = ctx.instructions.length + 2 * variables_among q ctx i
                ((Node.declaration id type name .LINKAGE_LOCALVAR none :: rest).take
                  (k + 1)) := by
          rw [List.take_succ_cons, hcons, hlen1, hva, Nat.mul_add, Nat.add_assoc]
        refine ⟨g1, ?_, ?_⟩
        · intro href hpass
          exact g2 href (by rw [hpas, hidx]; exact hpass)
        · intro href hpass
          have h3 := g3 href (by rw [hpas, hidx]; exact hpass)
          rw [epos, hpt] at h3
          exact h3

theorem parameter_handled_in_one_of_three_ways_witness :
    ∃ c', codegen_function_params example_queries context_with_parameters 0
        [parameter_r, parameter_big, parameter_n] = .ok c' ∧
      c'.instructions.length = 5 ∧
      c'.node_address 10 = some 0 ∧
      c'.node_address 11 = some 1 ∧
      c'.instructions[1]?
        = some { kind := .IR_PARAMETER, type := .pointer (.integer true 256), imm := 1 } ∧
      c'.node_address 12 = some 3 ∧
      c'.instructions[3]?
        = some { kind := .IR_ALLOCA, type := .pointer t_integer, alloca_size := 8,
                 parent_block := some 0 } ∧
      c'.instructions[4]?
        = some { kind := .IR_STORE, store_value := some 2, store_addr := some 3,
                 parent_block := some 0 } :=
  match parameter_handled_in_one_of_three_ways example_queries context_with_parameters 0
    [parameter_r, parameter_big, parameter_n] (by decide) (by decide!)
    (fun d hd => by
      simp only [List.mem_cons, List.mem_singleton, List.not_mem_nil, or_false] at hd
      rcases hd with h | h | h
      · exact ⟨10, .reference t_integer, "r".toList, h, rfl⟩
      · exact ⟨11, .integer true 256, "big".toList, h, rfl⟩
      · exact ⟨12, t_integer, "n".toList, h, rfl⟩)
    (by decide)
    (fun k hk => by
      have hk' : k < 3 := hk
      interval_cases k
      · exact ⟨0, _, false, rfl, rfl, rfl⟩
      · exact ⟨1, _, true, rfl, rfl, rfl⟩
      · exact ⟨2, _, false, rfl, rfl, rfl⟩)
    (fun k k' p hk hk' h1 h2 => by
      have hk1 : k < 3 := hk
      have hk2 : k' < 3 := hk'
      have e : ∀ j, j < 3 → ir_parameter context_with_parameters
          context_with_parameters.function (0 + j) = .ok j := by
        intro j hj
        interval_cases j <;> rfl
      rw [e k hk1] at h1
      rw [e k' hk2] at h2
      cases h1
      cases h2
      rfl) with
  | ⟨c', _, h1, _, _, _, _, _, _, _, h2, _, _, _, _, h3⟩ => by
      have r := (h3 0 parameter_r 0 _ rfl rfl rfl).1 rfl
      have b := (h3 1 parameter_big 1 _ rfl rfl rfl).2.1 rfl rfl
      have n := (h3 2 parameter_n 2 _ rfl rfl rfl).2.2 rfl rfl
      have e : context_with_parameters.instructions.length
          + 2 * variables_among example_queries context_with_parameters 0
              (List.take 2 [parameter_r, parameter_big, parameter_n]) = 3 := by decide!
      rw [e] at n
      exact ⟨c', h1, h2.trans (by decide!), r.1, b.1, b.2, n.1, n.2.1, n.2.2.1⟩

/-! ### Claims on errors during lowering -/

/-- C26, counterexample: rvalue emission of the inline function node `f` in a context whose
entry block is empty sets the error flag, but it also inserts an instruction, a FuncRef,
into the block and records it as the value of the node. -/
theorem inline_function_inserts_reference :
    ∃ c', codegen_expr example_queries example_context inline_function = .ok c' ∧
      c'.has_err = true ∧ instruction_kinds c' = [.IR_FUNC_REF] ∧
      block_instructions c' 0 = some [0] ∧ c'.node_ir 1 = some 0 :=
  ⟨result_context (codegen_expr example_queries example_context inline_function),
    result_context_ok (by decide!), by decide!, by decide!, by decide!, by decide!⟩

/-- C26, amended: rvalue emission of a function node whose type is marked inline, not yet
emitted, at a valid and open insertion point, returns with the error flag set and exactly
one diagnostic issued, of severity Error; before that it has inserted one instruction, a
FuncRef of the node's IR function, at the end of the insertion block and recorded it as the
value of the node. -/
theorem inline_function_reference_then_error (q : Queries) (ctx : CodegenContext) (id : Nat)
    (type : Ty) (name : CStr) (linkage : SymbolLinkage) (param_decls : List Node)
    (body : Option Node) (hemitted : ctx.node_emitted id = false)
    (hvalid : ctx.insert_point < ctx.blocks.length)
    (hopen : ir_is_closed ctx ctx.insert_point = false) :
    ∃ c' l x, codegen_expr q ctx (.function id type name linkage true param_decls body) = .ok c' ∧
      c'.has_err = true ∧ c'.diagnostics = ctx.diagnostics ++ [.DIAG_ERR] ∧
      c'.instructions = ctx.instructions ++ [x] ∧ x.kind = .IR_FUNC_REF ∧
      x.func_ref_func = ctx.function_ir id ∧
      block_instructions ctx ctx.insert_point = some l ∧
      block_instructions c' ctx.insert_point = some (l ++ [ctx.instructions.length]) ∧
      c'.node_ir id = some ctx.instructions.length := by
  have hvalid1 : (ctx.set_emitted id).insert_point < (ctx.set_emitted id).blocks.length := hvalid
  have hopen1 : ir_is_closed (ctx.set_emitted id) (ctx.set_emitted id).insert_point = false :=
    hopen
  obtain ⟨r, hr⟩ := ir_insert_new_ok
    { kind := .IR_FUNC_REF,
      type := ast_make_type_pointer (function_type (ctx.set_emitted id) (ctx.function_ir id)),
      func_ref_func := ctx.function_ir id } hvalid1 hopen1
  have hi := ir_insert_new_inserted hr
  obtain ⟨l, hl, hl'⟩ := hi.block_at
  refine ⟨ERR (r.1.set_ir id (some r.2)), l, _, ?_, rfl, ?_, hi.instructions, rfl, rfl, hl, ?_, ?_⟩
  · rw [codegen_expr]
    simp only [Node.id, hemitted, Bool.false_eq_true, if_false]
    have hr' : ir_insert_func_ref (ctx.set_emitted id) ((ctx.set_emitted id).function_ir id)
        = .ok r := hr
    simp only [codegen_expr_function, hr', bind, Except.bind, if_true]
    rfl
  · show r.1.diagnostics ++ [DiagnosticSeverity.DIAG_ERR] = _
    have hd : r.1.diagnostics = ctx.diagnostics := by
      unfold ir_insert_new at hr
      split at hr
      · exact Except.noConfusion hr
      · split at hr
        · exact Except.noConfusion hr
        · cases hr; rfl
    rw [hd]
  · have e : block_instructions (ERR (r.1.set_ir id (some r.2))) ctx.insert_point
        = block_instructions r.1 ctx.insert_point := rfl
    have hidx : r.2 = ctx.instructions.length := hi.index
    rw [e, ← hidx]; exact hl'
  · show (if id = id then some r.2 else _) = _
    have hidx : r.2 = ctx.instructions.length := hi.index
    rw [if_pos rfl, hidx]

theorem inline_function_reference_then_error_witness :
    example_context.node_emitted 1 = false ∧
    ir_is_closed example_context example_context.insert_point = false ∧
    ∃ c' x, codegen_expr example_queries example_context inline_function = .ok c' ∧
      c'.has_err = true ∧ c'.instructions = example_context.instructions ++ [x] ∧
      x.kind = .IR_FUNC_REF ∧ c'.node_ir 1 = some example_context.instructions.length :=
  ⟨rfl, by decide!,
    match inline_function_reference_then_error example_queries example_context 1
      (.function t_integer []) "f".toList .LINKAGE_INTERNAL [] none rfl (by decide)
      (by decide!) with
    | ⟨c', _, x, h1, h2, _, h4, h5, _, _, _, h9⟩ => ⟨c', x, h1, h2, h4, h5, h9⟩⟩

/-- C28: rvalue emission of a literal that is neither a number nor a string nor an array,
not yet emitted, returns without a change to the IR, sets the error flag and issues exactly
one diagnostic, whose severity is Error and not Sorry: the macro `DIAG` passes `DIAG_ERR`
to `issue_diagnostic` whatever severity it is given. -/
theorem unsupported_literal_reported_as_error (q : Queries) (ctx : CodegenContext) (id : Nat)
    (type : Ty) (lit_type : TokenType) (integer string_index : Nat) (compound : List Node)
    (hemitted : ctx.node_emitted id = false) (hnumber : lit_type ≠ .TK_NUMBER)
    (hstring : lit_type ≠ .TK_STRING) (harray : lit_type ≠ .TK_LBRACK) :
    ∃ c', codegen_expr q ctx (.literal id type lit_type integer string_index compound) = .ok c' ∧
      c'.diagnostics = ctx.diagnostics ++ [.DIAG_ERR] ∧
      c'.diagnostics ≠ ctx.diagnostics ++ [.DIAG_SORRY] ∧ c'.has_err = true ∧
      c'.instructions = ctx.instructions ∧ c'.blocks = ctx.blocks := by
  refine ⟨DIAG (ctx.set_emitted id) .DIAG_SORRY, ?_, rfl, ?_, rfl, rfl, rfl⟩
  · rw [codegen_expr]
    simp only [Node.id, hemitted, Bool.false_eq_true, if_false]
    cases lit_type <;> first
      | exact absurd rfl hnumber
      | exact absurd rfl hstring
      | exact absurd rfl harray
      | rfl
  · show ctx.diagnostics ++ [DiagnosticSeverity.DIAG_ERR] ≠ _
    intro h
    have := List.append_cancel_left h
    cases this

theorem unsupported_literal_reported_as_error_witness :
    example_context.node_emitted 1 = false ∧
    ∃ c', codegen_expr example_queries example_context unsupported_literal = .ok c' ∧
      c'.diagnostics = [.DIAG_ERR] :=
  ⟨rfl,
    match unsupported_literal_reported_as_error example_queries example_context 1 t_integer
      .TK_INVALID 0 0 [] rfl (by decide) (by decide) (by decide) with
    | ⟨c', h1, h2, _⟩ => ⟨c', h1, h2⟩⟩

/-! ### Claims on the driver -/

/-- C29: when the output file could be opened and AST lowering of the program finishes
with the error flag set, `codegen` returns false, the context is the one that lowering
left, and none of the later passes has been called: no mandatory inlining, no early
lowering, no optimisation, no lowering and no emission. -/
theorem error_flag_stops_the_driver (w : Collaborators) (flags : DriverFlags) (q : Queries)
    (arch : CodegenArchitecture) (target : CodegenTarget)
    (call_convention : CodegenCallingConvention) (infile path : CStr) (ast : Module)
    (ir : CStr) (c : CodegenContext) (hfile : w.fopen path = true)
    (hlowering : codegen_lang_fun w q (codegen_context_create ast call_convention) ast = .ok c)
    (herror : c.has_err = true) :
    (codegen w flags q .LANG_FUN arch target call_convention infile (some path) ast ir).outcome
      = .returned false ∧
    (codegen w flags q .LANG_FUN arch target call_convention infile (some path) ast
      ir).context.instructions = c.instructions ∧
    ∀ e ∈ (codegen w flags q .LANG_FUN arch target call_convention infile (some path) ast
        ir).events,
      e ≠ .codegen_process_inline_calls ∧ e ≠ .codegen_early_lowering ∧
      e ≠ .codegen_optimise ∧ e ≠ .codegen_lower ∧ e ≠ .codegen_emit := by
  have h : codegen w flags q .LANG_FUN arch target call_convention infile (some path) ast ir
      = { outcome := .returned false, events := [.fopen, .codegen_context_create],
          context := c } := by
    simp only [codegen, hfile, hlowering, codegen_passes, herror, Bool.not_true,
      Bool.false_eq_true, if_false, if_true]
  rw [h]
  refine ⟨rfl, rfl, ?_⟩
  intro e he
  simp only [List.mem_cons, List.mem_singleton, List.not_mem_nil, or_false] at he
  rcases he with rfl | rfl <;> decide

theorem error_flag_stops_the_driver_witness :
    example_collaborators.fopen "out.s".toList = true ∧
    result_has_err (codegen_lang_fun example_collaborators example_queries
      (codegen_context_create faulty_program .CG_CALL_CONV_SYSV) faulty_program) = some true ∧
    (codegen example_collaborators {} example_queries .LANG_FUN .ARCH_X86_64 .TARGET_NATIVE
      .CG_CALL_CONV_SYSV "in.int".toList (some "out.s".toList) faulty_program []).outcome
      = .returned false :=
  ⟨rfl, by decide!,
    (error_flag_stops_the_driver example_collaborators {} example_queries .ARCH_X86_64
      .TARGET_NATIVE .CG_CALL_CONV_SYSV "in.int".toList "out.s".toList faulty_program []
      (result_context (codegen_lang_fun example_collaborators example_queries
        (codegen_context_create faulty_program .CG_CALL_CONV_SYSV) faulty_program))
      rfl (result_context_ok (by decide!)) (by decide!)).1⟩

/-- C30: the runs of `codegen` that return false after the output file has been opened.
After a failed IR parse the file has been closed, but the context has not been freed. When
AST lowering finishes with the error flag set, and when mandatory inlining fails, the file
has not been closed and the context has not been freed: the only events are the opening of
the file, the creation of the context and, in the latter case, the inlining pass. -/
theorem failing_runs_keep_file_and_context (w : Collaborators) (flags : DriverFlags)
    (q : Queries) (arch : CodegenArchitecture) (target : CodegenTarget)
    (call_convention : CodegenCallingConvention) (infile path : CStr) (ast : Module)
    (ir : CStr) (hfile : w.fopen path = true) :
    ((w.ir_parse (codegen_context_create ast call_convention) infile ir).1 = false →
      (codegen w flags q .LANG_IR arch target call_convention infile (some path) ast
        ir).outcome = .returned false ∧
      (codegen w flags q .LANG_IR arch target call_convention infile (some path) ast
        ir).events = [.fopen, .codegen_context_create, .ir_parse, .fclose]) ∧
    (∀ c, codegen_lang_fun w q (codegen_context_create ast call_convention) ast = .ok c →
      c.has_err = true →
      (codegen w flags q .LANG_FUN arch target call_convention infile (some path) ast
        ir).outcome = .returned false ∧
      (codegen w flags q .LANG_FUN arch target call_convention infile (some path) ast
        ir).events = [.fopen, .codegen_context_create]) ∧
    (∀ c, codegen_lang_fun w q (codegen_context_create ast call_convention) ast = .ok c →
      c.has_err = false → (w.codegen_process_inline_calls c).1 = false →
      (codegen w flags q .LANG_FUN arch target call_convention infile (some path) ast
        ir).outcome = .returned false ∧
      (codegen w flags q .LANG_FUN arch target call_convention infile (some path) ast
        ir).events = [.fopen, .codegen_context_create, .codegen_process_inline_calls]) := by
  refine ⟨?_, ?_, ?_⟩
  · intro hparse
    simp only [codegen, hfile, hparse, Bool.not_true, Bool.not_false, Bool.false_eq_true,
      if_false, if_true, List.cons_append, List.nil_append, and_self]
  · intro c hlowering herror
    simp only [codegen, hfile, hlowering, codegen_passes, herror, Bool.not_true,
      Bool.false_eq_true, if_false, if_true, and_self]
  · intro c hlowering herror hinline
    simp only [codegen, hfile, hlowering, codegen_passes, herror, hinline, Bool.not_true,
      Bool.not_false, Bool.false_eq_true, if_false, if_true, List.cons_append,
      List.nil_append, and_self]

theorem failing_runs_keep_file_and_context_witness :
    (codegen example_collaborators {} example_queries .LANG_IR .ARCH_X86_64 .TARGET_NATIVE
      .CG_CALL_CONV_SYSV "in.ir".toList (some "out.s".toList) literal_program []).events
      = [.fopen, .codegen_context_create, .ir_parse, .fclose] ∧
    (codegen example_collaborators {} example_queries .LANG_FUN .ARCH_X86_64 .TARGET_NATIVE
      .CG_CALL_CONV_SYSV "in.int".toList (some "out.s".toList) faulty_program []).events
      = [.fopen, .codegen_context_create] ∧
    (codegen collaborators_without_inlining {} example_queries .LANG_FUN .ARCH_X86_64
      .TARGET_NATIVE .CG_CALL_CONV_SYSV "in.int".toList (some "out.s".toList)
      literal_program []).events
      = [.fopen, .codegen_context_create, .codegen_process_inline_calls] :=
  ⟨((failing_runs_keep_file_and_context example_collaborators {} example_queries .ARCH_X86_64
      .TARGET_NATIVE .CG_CALL_CONV_SYSV "in.ir".toList "out.s".toList literal_program []
      rfl).1 rfl).2,
    ((failing_runs_keep_file_and_context example_collaborators {} example_queries .ARCH_X86_64
      .TARGET_NATIVE .CG_CALL_CONV_SYSV "in.int".toList "out.s".toList faulty_program []
      rfl).2.1
      (result_context (codegen_lang_fun example_collaborators example_queries
        (codegen_context_create faulty_program .CG_CALL_CONV_SYSV) faulty_program))
      (result_context_ok (by decide!)) (by decide!)).2,
    ((failing_runs_keep_file_and_context collaborators_without_inlining {} example_queries
      .ARCH_X86_64 .TARGET_NATIVE .CG_CALL_CONV_SYSV "in.int".toList "out.s".toList
      literal_program [] rfl).2.2
      (result_context (codegen_lang_fun collaborators_without_inlining example_queries
        (codegen_context_create literal_program .CG_CALL_CONV_SYSV) literal_program))
      (result_context_ok (by decide!)) (by decide!) rfl).2⟩

/-! ### Claim on the subscript of a string literal -/

theorem ir_insert_new_flags {c : CodegenContext} {x : IRInstruction} {r : CodegenContext × Nat}
    (h : ir_insert_new c x = .ok r) :
    r.1.strings = c.strings ∧ r.1.has_err = c.has_err ∧ r.1.diagnostics = c.diagnostics ∧
    r.1.static_vars = c.static_vars ∧ r.1.string_literal_count = c.string_literal_count := by
  unfold ir_insert_new at h
  split at h
  · exact Except.noConfusion h
  · split at h
    · exact Except.noConfusion h
    · cases h; exact ⟨rfl, rfl, rfl, rfl, rfl⟩

theorem ir_static_var_init_fields (c : CodegenContext) (var : Nat) (init : StaticInit) :
    (ir_static_var_init c var init).strings = c.strings ∧
    (ir_static_var_init c var init).has_err = c.has_err ∧
    (ir_static_var_init c var init).diagnostics = c.diagnostics ∧
    (ir_static_var_init c var init).node_ir = c.node_ir ∧
    (ir_static_var_init c var init).node_emitted = c.node_emitted := by
  unfold ir_static_var_init
  split <;> exact ⟨rfl, rfl, rfl, rfl, rfl⟩

/-- Rvalue emission of a string literal that is not yet emitted, at a valid and open
insertion point: one StaticRef is appended to the insertion block and becomes the value of
the literal. -/
theorem codegen_expr_string_literal (q : Queries) (ctx : CodegenContext) (lid : Nat)
    (lty : Ty) (integer string_index : Nat) (compound : List Node)
    (hemitted : ctx.node_emitted lid = false) (hvalid : ctx.insert_point < ctx.blocks.length)
    (hopen : ir_is_closed ctx ctx.insert_point = false) :
    ∃ c1 x l, codegen_expr q ctx (.literal lid lty .TK_STRING integer string_index compound)
        = .ok c1 ∧
      c1.instructions = ctx.instructions ++ [x] ∧ x.kind = .IR_STATIC_REF ∧
      c1.node_ir lid = some ctx.instructions.length ∧
      (∀ n, n ≠ lid → c1.node_ir n = ctx.node_ir n) ∧
      c1.insert_point = ctx.insert_point ∧ c1.blocks.length = ctx.blocks.length ∧
      ir_is_closed c1 c1.insert_point = false ∧
      c1.strings = ctx.strings ∧ c1.has_err = ctx.has_err ∧
      c1.diagnostics = ctx.diagnostics ∧
      block_instructions ctx ctx.insert_point = some l ∧
      block_instructions c1 ctx.insert_point = some (l ++ [ctx.instructions.length]) ∧
      (∀ b, b ≠ ctx.insert_point → block_instructions c1 b = block_instructions ctx b) := by
  let c0 : CodegenContext :=
    { ctx.set_emitted lid with
      string_literal_count := ((ctx.set_emitted lid).string_literal_count + 1) % 2 ^ 64 }
  let name : CStr := "__str_lit".toList ++ format_Z (ctx.set_emitted lid).string_literal_count
  have hvalid0 : (ir_create_static c0 lid lty name).1.insert_point
      < (ir_create_static c0 lid lty name).1.blocks.length := hvalid
  have hopen0 : ir_is_closed (ir_create_static c0 lid lty name).1
      (ir_create_static c0 lid lty name).1.insert_point = false := hopen
  obtain ⟨r, hr⟩ := ir_insert_new_ok
    { kind := .IR_STATIC_REF,
      type := ast_make_type_pointer
        (static_var_type (ir_create_static c0 lid lty name).1 (ir_create_static c0 lid lty name).2),
      static_ref_var := some (ir_create_static c0 lid lty name).2 } hvalid0 hopen0
  have hi := ir_insert_new_inserted hr
  obtain ⟨f1, f2, f3, _, _⟩ := ir_insert_new_flags hr
  obtain ⟨g1, g2, g3, g4, g5⟩ := ir_static_var_init_fields (r.1.set_ir lid (some r.2))
    (ir_create_static c0 lid lty name).2 (.str_lit string_index)
  obtain ⟨s1, s2, s3⟩ := ir_static_var_init_frame (r.1.set_ir lid (some r.2))
    (ir_create_static c0 lid lty name).2 (.str_lit string_index)
  obtain ⟨l, hl, hl'⟩ := hi.block_at
  have hidx : r.2 = ctx.instructions.length := hi.index
  have hpoint : r.1.insert_point = ctx.insert_point := hi.point
  obtain ⟨x, hx, hxk⟩ : ∃ x : IRInstruction, r.1.instructions = ctx.instructions ++ [x] ∧
      x.kind = .IR_STATIC_REF := ⟨_, hi.instructions, rfl⟩
  refine ⟨ir_static_var_init (r.1.set_ir lid (some r.2)) (ir_create_static c0 lid lty name).2
    (.str_lit string_index), x, l, ?_, ?_, hxk, ?_, ?_, ?_, ?_, ?_, ?_, ?_, ?_, hl, ?_, ?_⟩
  · rw [codegen_expr]
    simp only [Node.id, hemitted, Bool.false_eq_true, if_false]
    have hr' : ir_insert_static_ref (ir_create_static c0 lid lty name).1
        (ir_create_static c0 lid lty name).2 = .ok r := hr
    simp only [codegen_expr_literal, bind, Except.bind, pure, Except.pure]
    split
    · rename_i e he
      exact Except.noConfusion (hr'.symm.trans he)
    · rename_i v hv
      have hrv : Except.ok r = Except.ok v := hr'.symm.trans hv
      cases hrv
      rfl
  · rw [s2]; exact hx
  · rw [g4]
    show (if lid = lid then some r.2 else _) = _
    rw [if_pos rfl, hidx]
  · intro n hn
    rw [g4]
    show (if n = lid then some r.2 else r.1.node_ir n) = _
    rw [if_neg hn, hi.node_ir]
    rfl
  · rw [s3]; exact hpoint
  · rw [s1]; exact hi.blocks_length
  · rw [ir_is_closed_congr s1 s2, s3]
    show ir_is_closed r.1 r.1.insert_point = false
    rw [hpoint]
    have := hi.closed_inserted
    exact this
  · rw [g1]; exact f1
  · rw [g2]; exact f2
  · rw [g3]; exact f3
  · rw [block_instructions_congr s1, ← hidx]; exact hl'
  · intro b hb
    rw [block_instructions_congr s1]
    exact hi.block_other b hb

/-- C27: the subscript of a string literal by a numeric literal `i`, where the string is
entry `string_index` of the string table, its type is an array or a pointer, neither node
has been emitted, `is_lvalue` does not take the string literal for an lvalue, and the
insertion point is valid and open. Lowering returns; it first emits the string literal as
one StaticRef, the instruction `ref`. It then reports the out-of-bounds error exactly when
`i` is at least the size of the string: in that case the error flag is set, one diagnostic
is issued, nothing more is inserted and the `ir` field of the subscript node is left as it
was. Otherwise no error is reported, and the value of the node is `ref` itself when `i` is
0, and when `i > 0` it is a new Add of `ref` and a new Immediate `i`, inserted in this
order after `ref`. -/
theorem string_subscript_by_literal (q : Queries) (ctx : CodegenContext) (id lid rid : Nat)
    (type lty rty : Ty) (lint string_index i rindex : Nat) (lcompound rcompound : List Node)
    (str : CStr) (hemitted : ctx.node_emitted id = false)
    (hstring_emitted : ctx.node_emitted lid = false) (hdistinct : lid ≠ id)
    (htype : type_is_array (type_strip_references lty) = true
      ∨ type_is_pointer (type_strip_references lty) = true)
    (hlvalue : q.is_lvalue (.literal lid lty .TK_STRING lint string_index lcompound) = false)
    (hstring : ctx.strings[string_index]? = some str)
    (hvalid : ctx.insert_point < ctx.blocks.length)
    (hopen : ir_is_closed ctx ctx.insert_point = false) (herror : ctx.has_err = false) :
    ∃ c1 c' x, codegen_expr q (ctx.set_emitted id)
        (.literal lid lty .TK_STRING lint string_index lcompound) = .ok c1 ∧
      c1.instructions = ctx.instructions ++ [x] ∧ x.kind = .IR_STATIC_REF ∧
      c1.node_ir lid = some ctx.instructions.length ∧
      codegen_expr q ctx (.binary id type .TK_LBRACK
        (.literal lid lty .TK_STRING lint string_index lcompound)
        (.literal rid rty .TK_NUMBER i rindex rcompound)) = .ok c' ∧
      (c'.has_err = true ↔ str.length ≤ i) ∧
      (str.length ≤ i → c'.diagnostics = ctx.diagnostics ++ [.DIAG_ERR] ∧
        c'.instructions = c1.instructions ∧ c'.node_ir id = ctx.node_ir id) ∧
      (i = 0 → 0 < str.length →
        c'.instructions = c1.instructions ∧ c'.node_ir id = some ctx.instructions.length) ∧
      (0 < i → i < str.length →
        ∃ imm add, c'.instructions = c1.instructions ++ [imm, add] ∧
          imm.kind = .IR_IMMEDIATE ∧ imm.imm = i ∧ imm.type = t_integer ∧
          add.kind = .IR_ADD ∧ add.lhs = some ctx.instructions.length ∧
          add.rhs = some (ctx.instructions.length + 1) ∧
          c'.node_ir id = some (ctx.instructions.length + 2)) := by
  have hemitted1 : (ctx.set_emitted id).node_emitted lid = false := by
    show (if lid = id then true else ctx.node_emitted lid) = false
    rw [if_neg hdistinct]; exact hstring_emitted
  obtain ⟨c1, x, l, e1, hinsts, hkind, hval, hother, hpoint, hblocks, hopen1, hstrings, herr1,
    hdiag, _, _, _⟩ := codegen_expr_string_literal q (ctx.set_emitted id) lid lty lint
      string_index lcompound hemitted1 hvalid hopen
  have hvalid1 : c1.insert_point < c1.blocks.length := by
    rw [hpoint, hblocks]; exact hvalid
  have hstr1 : c1.strings[string_index]? = some str := by rw [hstrings]; exact hstring
  have hty : (!type_is_array (type_strip_references lty)
      && !type_is_pointer (type_strip_references lty)) = false := by
    rcases htype with h | h <;> simp [h]
  by_cases hge : str.length ≤ i
  · refine ⟨c1, ERR c1, x, e1, hinsts, hkind, hval, ?_, ?_, ?_, ?_, ?_⟩
    · rw [codegen_expr]
      simp only [Node.id, hemitted, Bool.false_eq_true, if_false]
      simp only [codegen_expr_binary, codegen_expr_subscript, Node.type, hty, subscript_base,
        Node.variable_decl, hlvalue, Node.kind, Node.literal_type, Node.literal_integer,
        Node.literal_string_index, Node.id, e1, hstr1, bind, Except.bind, pure, Except.pure,
        if_false, if_true, and_self, reduceCtorEq, ge_iff_le, hge]
    · exact ⟨fun _ => hge, fun _ => rfl⟩
    · intro _
      refine ⟨?_, rfl, ?_⟩
      · show c1.diagnostics ++ [DiagnosticSeverity.DIAG_ERR] = _
        rw [hdiag]; rfl
      · show c1.node_ir id = _
        rw [hother id (Ne.symm hdistinct)]; rfl
    · intro _ hlt; omega
    · intro _ hlt; omega
  · by_cases h0 : i = 0
    · subst h0
      refine ⟨c1, c1.set_ir id (c1.node_ir lid), x, e1, hinsts, hkind, hval, ?_, ?_, ?_, ?_, ?_⟩
      · rw [codegen_expr]
        simp only [Node.id, hemitted, Bool.false_eq_true, if_false]
        simp only [codegen_expr_binary, codegen_expr_subscript, Node.type, hty, subscript_base,
          Node.variable_decl, hlvalue, Node.kind, Node.literal_type, Node.literal_integer,
          Node.literal_string_index, Node.id, e1, hstr1, bind, Except.bind, pure, Except.pure,
          if_false, if_true, and_self, reduceCtorEq, ge_iff_le, hge, ne_eq,
          not_true_eq_false]
      · constructor
        · intro h
          have h' : c1.has_err = true := h
          rw [herr1] at h'
          have h2 : ctx.has_err = true := h'
          rw [herror] at h2
          exact Bool.noConfusion h2
        · intro h; exact absurd h hge
      · intro h; exact absurd h hge
      · intro _ _
        refine ⟨rfl, ?_⟩
        show (if id = id then c1.node_ir lid else _) = _
        rw [if_pos rfl, hval]; rfl
      · intro h; omega
    · obtain ⟨imm, himm⟩ := ir_insert_new_ok
        { kind := .IR_IMMEDIATE, type := t_integer, imm := i } hvalid1 hopen1
      have ii := ir_insert_new_inserted himm
      have hvalid2 : imm.1.insert_point < imm.1.blocks.length := by
        rw [ii.point, ii.blocks_length]; exact hvalid1
      have hopen2 : ir_is_closed imm.1 imm.1.insert_point = false := by
        rw [ii.point, ii.closed_inserted]; rfl
      obtain ⟨r, hr⟩ := ir_insert_new_ok
        { kind := .IR_ADD, type := operand_type imm.1 (imm.1.node_ir lid),
          lhs := imm.1.node_ir lid, rhs := some imm.2 } hvalid2 hopen2
      have ir_ := ir_insert_new_inserted hr
      obtain ⟨f1, f2, f3, _, _⟩ := ir_insert_new_flags himm
      obtain ⟨g1, g2, g3, _, _⟩ := ir_insert_new_flags hr
      have hlen1 : c1.instructions.length = ctx.instructions.length + 1 := by
        rw [hinsts, List.length_append]; rfl
      obtain ⟨y, hy, hyk, hyi, hyt⟩ : ∃ y : IRInstruction,
          imm.1.instructions = c1.instructions ++ [y] ∧ y.kind = .IR_IMMEDIATE ∧ y.imm = i ∧
          y.type = t_integer := ⟨_, ii.instructions, rfl, rfl, rfl⟩
      obtain ⟨z, hz, hzk, hzl, hzr⟩ : ∃ z : IRInstruction,
          r.1.instructions = imm.1.instructions ++ [z] ∧ z.kind = .IR_ADD ∧
          z.lhs = imm.1.node_ir lid ∧ z.rhs = some imm.2 := ⟨_, ir_.instructions, rfl, rfl, rfl⟩
      have himm' : ir_insert_immediate c1 t_integer i = .ok imm := himm
      have hr' : ir_insert_binary imm.1 .IR_ADD (imm.1.node_ir lid) (some imm.2) = .ok r := hr
      have hnode : imm.1.node_ir lid = some ctx.instructions.length := by
        rw [ii.node_ir]; exact hval
      have hnode' : imm.1.node_ir lid = c1.node_ir lid := by rw [ii.node_ir]
      have hr3 : ir_insert_binary imm.1 .IR_ADD (c1.node_ir lid) (some imm.2) = .ok r := by
        rw [← hnode']; exact hr
      refine ⟨c1, r.1.set_ir id (some r.2), x, e1, hinsts, hkind, hval, ?_, ?_, ?_, ?_, ?_⟩
      · rw [codegen_expr]
        simp only [Node.id, hemitted, Bool.false_eq_true, if_false]
        simp only [codegen_expr_binary, codegen_expr_subscript, Node.type, hty, subscript_base,
          Node.variable_decl, hlvalue, Node.kind, Node.literal_type, Node.literal_integer,
          Node.literal_string_index, Node.id, e1, hstr1, bind, Except.bind, pure, Except.pure,
          if_false, if_true, and_self, reduceCtorEq, ge_iff_le, hge, ne_eq, h0,
          not_false_eq_true, himm', hnode']
        simp only [hr3]
      · constructor
        · intro h
          have h' : r.1.has_err = true := h
          rw [g2, f2, herr1] at h'
          have h2 : ctx.has_err = true := h'
          rw [herror] at h2
          exact Bool.noConfusion h2
        · intro h; exact absurd h hge
      · intro h; exact absurd h hge
      · intro h; exact absurd h h0
      · intro _ _
        refine ⟨y, z, ?_, hyk, hyi, hyt, hzk, ?_, ?_, ?_⟩
        · show r.1.instructions = _
          rw [hz, hy]
          simp
        · rw [hzl]; exact hnode
        · rw [hzr, ii.index, hlen1]
        · show (if id = id then some r.2 else _) = _
          rw [if_pos rfl, ir_.index, ii.length, hlen1]

theorem string_subscript_by_literal_witness :
    context_with_string.strings[0]? = some "hello".toList ∧
    ir_is_closed context_with_string context_with_string.insert_point = false ∧
    (∃ c', codegen_expr example_queries context_with_string (hello_subscript 5) = .ok c' ∧
      c'.has_err = true ∧ c'.node_ir 1 = none) ∧
    (∃ c', codegen_expr example_queries context_with_string (hello_subscript 0) = .ok c' ∧
      c'.has_err = false ∧ c'.node_ir 1 = some 0) ∧
    (∃ c', codegen_expr example_queries context_with_string (hello_subscript 2) = .ok c' ∧
      c'.has_err = false ∧ c'.node_ir 1 = some 2) :=
  ⟨rfl, by decide!,
    match string_subscript_by_literal example_queries context_with_string 1 2 3 t_byte
      (.array t_byte 5) t_integer 0 0 5 0 [] [] "hello".toList rfl rfl (by decide)
      (Or.inl rfl) rfl rfl (by decide) (by decide!) rfl with
    | ⟨_, c', _, _, _, _, _, h, he, hb, _, _⟩ =>
        ⟨c', h, he.mpr (by decide), (hb (by decide)).2.2⟩,
    match string_subscript_by_literal example_queries context_with_string 1 2 3 t_byte
      (.array t_byte 5) t_integer 0 0 0 0 [] [] "hello".toList rfl rfl (by decide)
      (Or.inl rfl) rfl rfl (by decide) (by decide!) rfl with
    | ⟨_, c', _, _, _, _, _, h, he, _, hz, _⟩ =>
        ⟨c', h, by
          cases hc : c'.has_err with
          | false => rfl
          | true => exact absurd (he.mp hc) (by decide),
          (hz rfl (by decide)).2⟩,
    match string_subscript_by_literal example_queries context_with_string 1 2 3 t_byte
      (.array t_byte 5) t_integer 0 0 2 0 [] [] "hello".toList rfl rfl (by decide)
      (Or.inl rfl) rfl rfl (by decide) (by decide!) rfl with
    | ⟨_, c', _, _, _, _, _, h, he, _, _, hp⟩ =>
        ⟨c', h, by
          cases hc : c'.has_err with
          | false => rfl
          | true => exact absurd (he.mp hc) (by decide),
          match hp (by decide) (by decide) with
          | ⟨_, _, _, _, _, _, _, _, _, hv⟩ => hv⟩⟩

/-! ### Claim on `while` with an empty body -/

/-- C24: lowering a `while` whose body is a block without children, not yet emitted, in a
context with a valid insertion point where the phi invariant holds, once the Branch to the
condition block is inserted and the condition is lowered and leaves its last block open.
Lowering returns an IR in which: exactly two blocks, the condition block and the join
block, were created before the condition and none by the `while` after it (no body block);
the block that was current at the start ends in the one new instruction Branch(condition
block); the condition is lowered with the condition block, still empty, as insertion point;
the block that is current after the condition ends in the one new instruction
CondBranch(condition value, condition block, join block), the only instruction added after
the condition; the join block is the insertion point and is empty. -/
theorem while_with_empty_body_lowering (q : Queries) (ctx c1 : CodegenContext)
    (r : CodegenContext × Nat) (id bid : Nat) (type btype : Ty) (condition : Node)
    (hemitted : ctx.node_emitted id = false)
    (hvalid : ctx.insert_point < ctx.blocks.length) (hphi : PhiArgsClosed ctx)
    (hbranch : ir_insert_br (ir_block (ir_block (ctx.set_emitted id)).1).1 ctx.blocks.length
      = .ok r)
    (hcondition : codegen_expr q (ir_block_attach r.1 ctx.blocks.length) condition = .ok c1)
    (hcondition_open : ir_is_closed c1 c1.insert_point = false) :
    ∃ c', codegen_expr q ctx (.while_ id type condition (.block bid btype [])) = .ok c' ∧
      r.1.blocks.length = ctx.blocks.length + 2 ∧
      c'.blocks.length = c1.blocks.length ∧
      (∃ l x, block_instructions ctx ctx.insert_point = some l ∧
        block_instructions c' ctx.insert_point = some (l ++ [ctx.instructions.length]) ∧
        c'.instructions[ctx.instructions.length]? = some x ∧
        x.kind = .IR_BRANCH ∧ x.dest = some ctx.blocks.length) ∧
      (ir_block_attach r.1 ctx.blocks.length).insert_point = ctx.blocks.length ∧
      block_instructions (ir_block_attach r.1 ctx.blocks.length) ctx.blocks.length = some [] ∧
      (∃ l x, block_instructions c1 c1.insert_point = some l ∧
        block_instructions c' c1.insert_point = some (l ++ [c1.instructions.length]) ∧
        c'.instructions[c1.instructions.length]? = some x ∧
        x.kind = .IR_BRANCH_CONDITIONAL ∧ x.cond = c1.node_ir condition.id ∧
        x.then_ = some ctx.blocks.length ∧ x.else_ = some (ctx.blocks.length + 1)) ∧
      c'.instructions.length = c1.instructions.length + 1 ∧
      c'.insert_point = ctx.blocks.length + 1 ∧
      block_instructions c' (ctx.blocks.length + 1) = some [] := by
  have hv0 : (ctx.set_emitted id).insert_point < (ctx.set_emitted id).blocks.length := hvalid
  have hp0 : PhiArgsClosed (ctx.set_emitted id) := hphi.congr_phis rfl rfl
  have hC : (ir_block (ctx.set_emitted id)).2 = ctx.blocks.length := rfl
  have hJ : (ir_block (ir_block (ctx.set_emitted id)).1).2 = ctx.blocks.length + 1 :=
    ir_block_length (ctx.set_emitted id)
  have hv1 : (ir_block (ctx.set_emitted id)).1.insert_point
      < (ir_block (ctx.set_emitted id)).1.blocks.length := by
    rw [ir_block_length]; exact Nat.lt_succ_of_lt hv0
  have hvB : (ir_block (ir_block (ctx.set_emitted id)).1).1.insert_point
      < (ir_block (ir_block (ctx.set_emitted id)).1).1.blocks.length := by
    rw [ir_block_length]; exact Nat.lt_succ_of_lt hv1
  -- the two blocks and the branch
  have F0 : Framed (ctx.set_emitted id) (ir_block (ir_block (ctx.set_emitted id)).1).1 :=
    (Framed.refl_framed hv0 hp0).block_framed.block_framed
  have RJ0 : Reserved (ir_block (ir_block (ctx.set_emitted id)).1).1 (ctx.blocks.length + 1) := by
    have h := Reserved.fresh _ hv1
    rw [ir_block_length] at h
    exact h
  have RC0 : Reserved (ir_block (ir_block (ctx.set_emitted id)).1).1 ctx.blocks.length :=
    (Reserved.fresh (ctx.set_emitted id) hv0).block_reserved
  have hi := ir_insert_new_inserted hbranch
  have F1 := F0.insert_step_framed hv0 hbranch rfl
  have RJ1 := RJ0.insert_step_reserved hbranch
  have RC1 := RC0.insert_step_reserved hbranch
  obtain ⟨l0, hl0, S0⟩ := Sealed.inserted_sealed hbranch rfl
  have hpt : (ir_block (ir_block (ctx.set_emitted id)).1).1.insert_point = ctx.insert_point := rfl
  have hlen : (ir_block (ir_block (ctx.set_emitted id)).1).1.instructions.length
      = ctx.instructions.length := rfl
  rw [hpt] at hl0
  rw [hpt, hlen] at S0
  have hl0' : block_instructions ctx ctx.insert_point = some l0 := by
    rw [ir_block_instructions, if_neg (by
        have h := hv1
        have hp : (ir_block (ctx.set_emitted id)).1.insert_point = ctx.insert_point := rfl
        rw [hp] at h; omega),
      ir_block_instructions, if_neg (by
        have h : ctx.insert_point < (ctx.set_emitted id).blocks.length := hvalid
        omega)] at hl0
    exact hl0
  -- the condition
  have FA : Framed (ctx.set_emitted id) (ir_block_attach r.1 ctx.blocks.length) :=
    F1.attach_framed (Nat.le_refl _) RC1.lt
  have RJA : Reserved (ir_block_attach r.1 ctx.blocks.length) (ctx.blocks.length + 1) :=
    RJ1.attach_reserved (by omega)
  have wA := codegen_expr_sound q condition _ c1 FA.reaches.valid FA.phi hcondition
  have RJ2 := RJA.reaches_reserved wA.reaches
  have S2 := (S0.attach_sealed ctx.blocks.length).reaches_sealed wA.reaches
  have hv2 : c1.insert_point < c1.blocks.length := wA.reaches.valid
  -- the conditional branch
  obtain ⟨r2, hr2⟩ := ir_insert_new_ok
    { kind := .IR_BRANCH_CONDITIONAL, cond := c1.node_ir condition.id,
      then_ := some ctx.blocks.length, else_ := some (ctx.blocks.length + 1) } hv2
    hcondition_open
  have hi2 := ir_insert_new_inserted hr2
  have RJ3 := RJ2.insert_step_reserved hr2
  have S3 := S2.insert_step_sealed hv2 hr2
  obtain ⟨l1, hl1, T3⟩ := Sealed.inserted_sealed hr2 rfl
  have SF := S3.attach_sealed (ctx.blocks.length + 1)
  have TF := T3.attach_sealed (ctx.blocks.length + 1)
  refine ⟨ir_block_attach r2.1 (ctx.blocks.length + 1), ?_, ?_, ?_, ?_, rfl, ?_, ?_, ?_, rfl, ?_⟩
  · rw [codegen_expr]
    show (if ctx.node_emitted id = true then Except.ok ctx
      else codegen_expr_while (ctx.set_emitted id) condition.id (some 0)
        (fun c => codegen_expr q c condition)
        (fun c => codegen_expr q c (.block bid btype []))) = _
    rw [hemitted, if_neg (by simp)]
    have hbranch' : ir_insert_br (ir_block (ir_block (ctx.set_emitted id)).1).1
        (ir_block (ctx.set_emitted id)).2 = .ok r := hbranch
    have hcondition' : codegen_expr q (ir_block_attach r.1 (ir_block (ctx.set_emitted id)).2)
        condition = .ok c1 := hcondition
    have hr2' : ir_insert_cond_br c1 (c1.node_ir condition.id) (ir_block (ctx.set_emitted id)).2
        (ir_block (ir_block (ctx.set_emitted id)).1).2 = .ok r2 := by
      rw [hJ]; exact hr2
    simp only [codegen_expr_while, hbranch', hcondition', hr2', bind, Except.bind, pure,
      Except.pure, if_true]
    rw [hJ]
  · rw [hi.blocks_length, ir_block_length, ir_block_length]
    rfl
  · rw [ir_block_attach_blocks_length, hi2.blocks_length]
  · obtain ⟨x, hx, hc⟩ := SF.last
    exact ⟨l0, x, hl0', SF.instructions, hx, core_kind hc, core_dest hc⟩
  · rw [ir_block_attach_instructions]; exact RC1.empty
  · obtain ⟨x, hx, hc⟩ := TF.last
    exact ⟨l1, x, hl1, TF.instructions, hx, core_kind hc, core_cond hc, core_then hc,
      core_else hc⟩
  · show r2.1.instructions.length = _
    exact hi2.length
  · rw [ir_block_attach_instructions]; exact RJ3.empty

theorem while_with_empty_body_lowering_witness :
    example_context.node_emitted 1 = false ∧
    ir_is_closed while_example_condition while_example_condition.insert_point = false ∧
    ∃ c', codegen_expr example_queries example_context while_with_empty_body = .ok c' ∧
      c'.blocks.length = while_example_condition.blocks.length ∧
      c'.insert_point = example_context.blocks.length + 1 ∧
      block_instructions c' (example_context.blocks.length + 1) = some [] :=
  have hp : PhiArgsClosed example_context := fun p x hx => by
    simp [example_context] at hx
  have h := while_with_empty_body_lowering example_queries example_context
    while_example_condition while_example_branch 1 3 t_void t_void (number_literal 2 1) rfl
    (by decide) hp (result_inserted_ok (by decide!)) (result_context_ok (by decide!))
    (by decide!)
  ⟨rfl, by decide!,
    match h with
    | ⟨c', h1, _, h3, _, _, _, _, _, h9, h10⟩ => ⟨c', h1, h3, h9, h10⟩⟩

/-! ### Lowering keeps the older instructions and the values of emitted nodes -/

theorem settled_lookup {c c' : CodegenContext} {i : Nat} {x : IRInstruction}
    (h : (c'.instructions[i]?).map IRInstruction.settled
      = (c.instructions[i]?).map IRInstruction.settled)
    (hx : c.instructions[i]? = some x) :
    ∃ x', c'.instructions[i]? = some x' ∧ x'.settled = x.settled := by
  rw [hx] at h
  cases h' : c'.instructions[i]? with
  | none => rw [h'] at h; simp at h
  | some x' =>
    rw [h'] at h
    simp only [Option.map_some'] at h
    exact ⟨x', rfl, Option.some.inj h⟩

theorem settled_kind {x y : IRInstruction} (h : x.settled = y.settled) : x.kind = y.kind :=
  by have := congrArg IRInstruction.kind h; exact this

theorem settled_type {x y : IRInstruction} (h : x.settled = y.settled) : x.type = y.type :=
  by have := congrArg IRInstruction.type h; exact this

theorem settled_call_args {x y : IRInstruction} (h : x.settled = y.settled) :
    x.call_args = y.call_args :=
  by have := congrArg IRInstruction.call_args h; exact this

theorem settled_operand {x y : IRInstruction} (h : x.settled = y.settled) :
    x.operand = y.operand :=
  by have := congrArg IRInstruction.operand h; exact this

theorem settled_lhs {x y : IRInstruction} (h : x.settled = y.settled) : x.lhs = y.lhs :=
  by have := congrArg IRInstruction.lhs h; exact this

theorem settled_rhs {x y : IRInstruction} (h : x.settled = y.settled) : x.rhs = y.rhs :=
  by have := congrArg IRInstruction.rhs h; exact this

theorem settled_imm {x y : IRInstruction} (h : x.settled = y.settled) : x.imm = y.imm :=
  by have := congrArg IRInstruction.imm h; exact this

theorem settled_store_value {x y : IRInstruction} (h : x.settled = y.settled) :
    x.store_value = y.store_value :=
  by have := congrArg IRInstruction.store_value h; exact this

theorem settled_store_addr {x y : IRInstruction} (h : x.settled = y.settled) :
    x.store_addr = y.store_addr :=
  by have := congrArg IRInstruction.store_addr h; exact this

theorem settled_alloca_size {x y : IRInstruction} (h : x.settled = y.settled) :
    x.alloca_size = y.alloca_size :=
  by have := congrArg IRInstruction.alloca_size h; exact this

theorem settled_callee_func {x y : IRInstruction} (h : x.settled = y.settled) :
    x.callee_func = y.callee_func :=
  by have := congrArg IRInstruction.callee_func h; exact this

theorem settled_callee_inst {x y : IRInstruction} (h : x.settled = y.settled) :
    x.callee_inst = y.callee_inst :=
  by have := congrArg IRInstruction.callee_inst h; exact this

theorem settled_call_is_direct {x y : IRInstruction} (h : x.settled = y.settled) :
    x.call_is_direct = y.call_is_direct :=
  by have := congrArg IRInstruction.call_is_direct h; exact this

theorem Kept.refl_kept (c : CodegenContext) : Kept c c :=
  { insts_le := Nat.le_refl _
    insts := fun _ _ => rfl
    emitted := fun _ h => h
    node_ir := fun _ _ => rfl }

theorem Kept.trans_kept {c0 c1 c2 : CodegenContext} (h1 : Kept c0 c1) (h2 : Kept c1 c2) :
    Kept c0 c2 :=
  { insts_le := Nat.le_trans h1.insts_le h2.insts_le
    insts := fun i hi => by
      rw [h2.insts i (Nat.lt_of_lt_of_le hi h1.insts_le), h1.insts i hi]
    emitted := fun n hn => h2.emitted n (h1.emitted n hn)
    node_ir := fun n hn => by rw [h2.node_ir n (h1.emitted n hn), h1.node_ir n hn] }

theorem Kept.sub_kept {c0 c c' : CodegenContext} {k : Lowering} (h : Kept c0 c)
    (hk : Keeping k) (e : k c = .ok c') : Kept c0 c' :=
  h.trans_kept (hk c c' e)

/-- A step that leaves the older instructions, the emitted flags and the values of the
nodes emitted at the start as they are. -/
theorem Kept.step_kept {c0 c c' : CodegenContext} (h : Kept c0 c)
    (hl : c.instructions.length ≤ c'.instructions.length)
    (hi : ∀ i, i < c0.instructions.length →
      (c'.instructions[i]?).map IRInstruction.settled
        = (c.instructions[i]?).map IRInstruction.settled)
    (he : ∀ n, c.node_emitted n = true → c'.node_emitted n = true)
    (hn : ∀ n, c0.node_emitted n = true → c'.node_ir n = c.node_ir n) : Kept c0 c' :=
  { insts_le := Nat.le_trans h.insts_le hl
    insts := fun i hlt => by rw [hi i hlt, h.insts i hlt]
    emitted := fun n hn' => he n (h.emitted n hn')
    node_ir := fun n hn' => by rw [hn n hn', h.node_ir n hn'] }

theorem Kept.congr_kept {c0 c c' : CodegenContext} (h : Kept c0 c)
    (hi : c'.instructions = c.instructions) (he : c'.node_emitted = c.node_emitted)
    (hn : c'.node_ir = c.node_ir) : Kept c0 c' :=
  h.step_kept (by rw [hi]) (fun _ _ => by rw [hi]) (fun n hn' => by rw [he]; exact hn')
    (fun n _ => by rw [hn])

theorem Kept.set_ir_kept {c0 c : CodegenContext} (h : Kept c0 c) {id : Nat}
    (hid : c0.node_emitted id = false) (v : Option Nat) : Kept c0 (c.set_ir id v) :=
  h.step_kept (Nat.le_refl _) (fun _ _ => rfl) (fun _ hn => hn) (fun n hn => by
    show (if n = id then v else c.node_ir n) = _
    rw [if_neg]
    intro e
    rw [e, hid] at hn
    exact Bool.noConfusion hn)

theorem Kept.set_emitted_kept {c0 c : CodegenContext} (h : Kept c0 c) (id : Nat) :
    Kept c0 (c.set_emitted id) :=
  h.step_kept (Nat.le_refl _) (fun _ _ => rfl) (fun n hn => by
    show (if n = id then true else c.node_emitted n) = true
    split
    · rfl
    · exact hn) (fun _ _ => rfl)

theorem Kept.inserted_kept {c0 c c' : CodegenContext} {x : IRInstruction} {i : Nat}
    (h : Kept c0 c) (hi : Inserted c x c' i) : Kept c0 c' :=
  h.step_kept (by rw [hi.length]; exact Nat.le_succ _)
    (fun j hj => by rw [hi.lookup_old (Nat.lt_of_lt_of_le hj h.insts_le)])
    (fun n hn => by rw [hi.node_emitted]; exact hn) (fun n _ => by rw [hi.node_ir])

theorem Kept.insert_step_kept {c0 c : CodegenContext} {x : IRInstruction}
    {r : CodegenContext × Nat} (h : Kept c0 c) (e : ir_insert_new c x = .ok r) :
    Kept c0 r.1 :=
  h.inserted_kept (ir_insert_new_inserted e)

/-- An insertion followed by bookkeeping that touches neither the instructions nor the
fields `emitted` and `ir` of the nodes. -/
theorem Kept.insert_pure_kept {c0 c c' : CodegenContext} {x : IRInstruction} (h : Kept c0 c)
    {f : CodegenContext × Nat → CodegenContext}
    (e : (ir_insert_new c x >>= fun r => pure (f r)) = .ok c')
    (hf : ∀ r, (f r).instructions = r.1.instructions ∧ (f r).node_emitted = r.1.node_emitted ∧
      (f r).node_ir = r.1.node_ir) : Kept c0 c' := by
  obtain ⟨r, er, e⟩ := bind_ok e
  cases pure_ok e
  exact (h.insert_step_kept er).congr_kept (hf r).1 (hf r).2.1 (hf r).2.2

/-- An insertion whose result becomes the value of a node that was not emitted at the
start. -/
theorem Kept.insert_ir_kept {c0 c c' : CodegenContext} {x : IRInstruction} (h : Kept c0 c)
    {id : Nat} (hid : c0.node_emitted id = false)
    (e : (ir_insert_new c x >>= fun r => pure (r.1.set_ir id (some r.2))) = .ok c') :
    Kept c0 c' := by
  obtain ⟨r, er, e⟩ := bind_ok e
  cases pure_ok e
  exact (h.insert_step_kept er).set_ir_kept hid _

theorem Kept.created_kept {c0 c : CodegenContext} (h : Kept c0 c) (x : IRInstruction) :
    Kept c0 (ir_create c x).1 :=
  h.step_kept (by simp [ir_create])
    (fun j hj => by
      rw [ir_create_lookup_old c x (Nat.lt_of_lt_of_le hj h.insts_le)])
    (fun _ hn => hn) (fun _ _ => rfl)

/-- A change of one instruction that did not exist at the start. -/
theorem Kept.modify_kept {c0 c : CodegenContext} (h : Kept c0 c) {j : Nat}
    (hj : c0.instructions.length ≤ j) (y : IRInstruction) :
    Kept c0 { c with instructions := c.instructions.set j y } :=
  h.step_kept (by simp)
    (fun i hi => by
      show ((c.instructions.set j y)[i]?).map IRInstruction.settled = _
      rw [List.getElem?_set_ne (by omega)])
    (fun _ hn => hn) (fun _ _ => rfl)

/-- A change of one instruction that leaves everything but the force-inline flag. -/
theorem Kept.settled_kept {c0 c : CodegenContext} (h : Kept c0 c) {j : Nat}
    {x y : IRInstruction} (hx : c.instructions[j]? = some x) (hy : y.settled = x.settled) :
    Kept c0 { c with instructions := c.instructions.set j y } :=
  h.step_kept (by simp)
    (fun i _ => by
      show ((c.instructions.set j y)[i]?).map IRInstruction.settled = _
      by_cases hij : j = i
      · subst hij
        have hlt : j < c.instructions.length := by
          by_contra hcon
          rw [List.getElem?_eq_none (Nat.le_of_not_lt hcon)] at hx
          exact Option.noConfusion hx
        rw [List.getElem?_set_self hlt, hx]
        simp only [Option.map_some', hy]
      · rw [List.getElem?_set_ne hij])
    (fun _ hn => hn) (fun _ _ => rfl)

theorem Kept.set_type_kept {c0 c c' : CodegenContext} (h : Kept c0 c) {inst : Option Nat}
    {ty : Ty} (hj : ∀ j, inst = some j → c0.instructions.length ≤ j)
    (e : ir_set_type c inst ty = .ok c') : Kept c0 c' := by
  unfold ir_set_type at e
  cases inst with
  | none => exact Except.noConfusion e
  | some j =>
    simp only at e
    split at e
    · exact Except.noConfusion e
    · cases e
      exact h.modify_kept (hj j rfl) _

theorem Kept.phi_add_arg_kept {c0 c : CodegenContext} (h : Kept c0 c) {phi : Nat}
    (hj : c0.instructions.length ≤ phi) (blk : Nat) (v : Option Nat) :
    Kept c0 (ir_phi_add_arg c phi blk v) := by
  unfold ir_phi_add_arg
  split
  · exact h
  · exact h.modify_kept hj _

theorem Kept.call_add_arg_kept {c0 c : CodegenContext} (h : Kept c0 c) {call : Nat}
    (hj : c0.instructions.length ≤ call) (v : Option Nat) :
    Kept c0 (ir_call_add_arg c call v) := by
  unfold ir_call_add_arg
  split
  · exact h
  · exact h.modify_kept hj _

theorem Kept.call_add_argument_kept {c0 c : CodegenContext} (h : Kept c0 c) {call : Nat}
    (hj : c0.instructions.length ≤ call) (arg : Node) :
    Kept c0 (call_add_argument c call arg) := by
  unfold call_add_argument
  split <;> exact h.call_add_arg_kept hj _

theorem Kept.force_inline_kept {c0 c c' : CodegenContext} (h : Kept c0 c) {call : Option Nat}
    {force : Bool} (e : ir_call_force_inline c call force = .ok c') : Kept c0 c' := by
  unfold ir_call_force_inline at e
  cases call with
  | none => exact Except.noConfusion e
  | some j =>
    simp only at e
    split at e
    · exact Except.noConfusion e
    · rename_i x hx
      cases e
      exact h.settled_kept hx rfl

theorem Kept.insert_old_kept {c0 c c' : CodegenContext} (h : Kept c0 c) {j : Nat}
    (hj : c0.instructions.length ≤ j) (e : ir_insert c j = .ok c') : Kept c0 c' := by
  unfold ir_insert at e
  split at e
  · exact Except.noConfusion e
  · split at e
    · exact Except.noConfusion e
    · cases e
      cases hx : c.instructions[j]? with
      | none =>
        exact h.step_kept (by simp [hx]) (fun _ _ => by simp [hx]) (fun _ hn => hn)
          (fun _ _ => rfl)
      | some x =>
        have := h.modify_kept hj { x with parent_block := some c.insert_point }
        exact this.step_kept (by simp [hx]) (fun _ _ => by simp [hx]) (fun _ hn => hn)
          (fun _ _ => rfl)

theorem Kept.branch_if_open_kept {c0 c c' : CodegenContext} {b : Nat} (h : Kept c0 c)
    (e : branch_if_open c b = .ok c') : Kept c0 c' := by
  unfold branch_if_open at e
  split at e
  · obtain ⟨r, er, e⟩ := bind_ok e
    cases pure_ok e
    exact h.insert_step_kept er
  · cases pure_ok e; exact h

theorem Kept.static_init_kept {c0 c : CodegenContext} (h : Kept c0 c) (var : Nat)
    (init : StaticInit) : Kept c0 (ir_static_var_init c var init) := by
  unfold ir_static_var_init
  split
  · exact h
  · exact h.congr_kept rfl rfl rfl

theorem Kept.start_kept (c : CodegenContext) (id : Nat) : Kept c (c.set_emitted id) :=
  (Kept.refl_kept c).set_emitted_kept id

theorem Keeping.at_emitted_keeping {k : Lowering} (hk : Keeping k) (id : Nat) :
    KeepingAt id k :=
  fun c _ _ h => (Kept.start_kept c id).sub_kept hk h

theorem Keeping.guard_keeping {k : Lowering} (hk : Keeping k) (p : CodegenContext → Bool) :
    Keeping (fun c => if p c then .ok c else k c) := by
  intro c c' h
  have h' : (if p c then .ok c else k c) = Except.ok c' := h
  split at h'
  · cases h'; exact Kept.refl_kept c
  · exact hk c c' h'

/-! ### The cases of lowering keep the older state -/

theorem Kept.index_le {c0 c : CodegenContext} {x : IRInstruction} {r : CodegenContext × Nat}
    (h : Kept c0 c) (e : ir_insert_new c x = .ok r) : c0.instructions.length ≤ r.2 := by
  rw [(ir_insert_new_inserted e).index]; exact h.insts_le

theorem Kept.block_kept {c0 c : CodegenContext} (h : Kept c0 c) : Kept c0 (ir_block c).1 :=
  h.congr_kept rfl rfl rfl

theorem Kept.attach_kept {c0 c : CodegenContext} (h : Kept c0 c) (block : Nat) :
    Kept c0 (ir_block_attach c block) :=
  h.congr_kept rfl rfl rfl

theorem codegen_lvalue_declaration_keeping (q : Queries) (id : Nat) (type : Ty) (name : CStr)
    (linkage : SymbolLinkage) (init : Option Node) {k : Lowering} (hk : Keeping k) :
    Keeping (fun c => codegen_lvalue_declaration q c id type name linkage init k) := by
  intro c c' h
  simp only [codegen_lvalue_declaration] at h
  split at h
  · obtain ⟨r, er, h⟩ := bind_ok h
    have w0 : Kept c (ir_create_static c id type name).1 :=
      (Kept.refl_kept c).congr_kept rfl rfl rfl
    have w1 : Kept c (r.1.set_address id (some r.2)) :=
      (w0.insert_step_kept er).congr_kept rfl rfl rfl
    cases init with
    | none => cases pure_ok h; exact w1
    | some i =>
      simp only at h
      split at h
      · split at h
        · cases pure_ok h; exact w1.static_init_kept _ _
        · split at h
          · cases pure_ok h; exact w1.static_init_kept _ _
          · exact Except.noConfusion h
      · obtain ⟨c2, e2, h⟩ := bind_ok h
        exact (w1.sub_kept hk e2).insert_pure_kept h (fun _ => ⟨rfl, rfl, rfl⟩)
  · obtain ⟨r, er, h⟩ := bind_ok h
    have w1 : Kept c (r.1.set_address id (some r.2)) :=
      ((Kept.refl_kept c).insert_step_kept er).congr_kept rfl rfl rfl
    cases init with
    | none => cases pure_ok h; exact w1
    | some i =>
      simp only at h
      obtain ⟨c2, e2, h⟩ := bind_ok h
      exact (w1.sub_kept hk e2).insert_pure_kept h (fun _ => ⟨rfl, rfl, rfl⟩)

theorem codegen_lvalue_member_access_keeping (id struct_id off : Nat) (mty : Ty)
    {k : Lowering} (hk : Keeping k) :
    Keeping (fun c => codegen_lvalue_member_access c id struct_id off mty k) := by
  intro c c' h
  simp only [codegen_lvalue_member_access] at h
  obtain ⟨c1, e1, h⟩ := bind_ok h
  have w1 := (Kept.refl_kept c).sub_kept hk e1
  obtain ⟨r, er, h⟩ := bind_ok h
  have w2 : Kept c r.1 ∧ c.instructions.length ≤ r.2 := by
    split at er
    · obtain ⟨imm, ei, er⟩ := bind_ok er
      exact ⟨(w1.insert_step_kept ei).insert_step_kept er, (w1.insert_step_kept ei).index_le er⟩
    · exact ⟨w1.insert_step_kept er, w1.index_le er⟩
  have w3 : Kept c (r.1.set_address id (some r.2)) := w2.1.congr_kept rfl rfl rfl
  refine w3.set_type_kept (fun j hj => ?_) h
  have hj' : (if id = id then some r.2 else r.1.node_address id) = some j := hj
  rw [if_pos rfl] at hj'
  cases hj'
  exact w2.2

theorem codegen_lvalue_unary_keeping (id : Nat) (op : TokenType) (post : Bool)
    (value_id : Nat) {k : Lowering} (hk : Keeping k) :
    Keeping (fun c => codegen_lvalue_unary c id op post value_id k) := by
  intro c c' h
  simp only [codegen_lvalue_unary] at h
  split at h
  · obtain ⟨c1, e1, h⟩ := bind_ok h
    cases pure_ok h
    exact ((Kept.refl_kept c).sub_kept hk e1).congr_kept rfl rfl rfl
  · exact Except.noConfusion h

theorem codegen_lvalue_variable_reference_keeping (id decl : Nat) :
    Keeping (fun c => codegen_lvalue_variable_reference c id decl) := by
  intro c c' h
  simp only [codegen_lvalue_variable_reference] at h
  split at h
  · exact Except.noConfusion h
  · obtain ⟨kd, _, h⟩ := bind_ok h
    split at h
    · obtain ⟨v, _, h⟩ := bind_ok h
      exact (Kept.refl_kept c).insert_pure_kept h (fun _ => ⟨rfl, rfl, rfl⟩)
    · cases pure_ok h
      exact (Kept.refl_kept c).congr_kept rfl rfl rfl

theorem codegen_lvalue_cast_keeping (id value_id : Nat) {k : Lowering} (hk : Keeping k) :
    Keeping (fun c => codegen_lvalue_cast c id value_id k) := by
  intro c c' h
  simp only [codegen_lvalue_cast] at h
  obtain ⟨c1, e1, h⟩ := bind_ok h
  cases pure_ok h
  exact ((Kept.refl_kept c).sub_kept hk e1).congr_kept rfl rfl rfl

theorem codegen_expr_function_keeping (id : Nat) (attr_inline : Bool) :
    KeepingAt id (fun c => codegen_expr_function c id attr_inline) := by
  intro c c' hid h
  simp only [codegen_expr_function] at h
  obtain ⟨r, er, h⟩ := bind_ok h
  have w := ((Kept.start_kept c id).insert_step_kept er).set_ir_kept hid (some r.2)
  split at h
  · cases pure_ok h; exact w.congr_kept rfl rfl rfl
  · cases pure_ok h; exact w

theorem codegen_expr_root_keeping (id : Nat) (children : List Node) {k : Lowering}
    (hk : Keeping k) : KeepingAt id (fun c => codegen_expr_root c children k) := by
  intro c c' hid h
  simp only [codegen_expr_root] at h
  obtain ⟨c1, e1, h⟩ := bind_ok h
  have w1 := (Kept.start_kept c id).sub_kept hk e1
  split at h
  · split at h
    · exact Except.noConfusion h
    · exact w1.insert_pure_kept h (fun _ => ⟨rfl, rfl, rfl⟩)
  · cases pure_ok h; exact w1

theorem codegen_expr_load_keeping (id : Nat) {k : Lowering} (hk : Keeping k) :
    KeepingAt id (fun c => codegen_expr_load c id k) := by
  intro c c' hid h
  simp only [codegen_expr_load] at h
  obtain ⟨c1, e1, h⟩ := bind_ok h
  obtain ⟨ty, _, h⟩ := bind_ok h
  obtain ⟨e, _, h⟩ := bind_ok h
  exact ((Kept.start_kept c id).sub_kept hk e1).insert_ir_kept hid h

theorem codegen_expr_block_keeping (q : Queries) (id : Nat) (type : Ty) (children : List Node)
    {k : Lowering} (hk : Keeping k) :
    KeepingAt id (fun c => codegen_expr_block q c id type children k) := by
  intro c c' hid h
  simp only [codegen_expr_block] at h
  obtain ⟨c1, e1, h⟩ := bind_ok h
  have w1 := (Kept.start_kept c id).sub_kept hk e1
  split at h
  · split at h
    · exact Except.noConfusion h
    · split at h
      · exact Except.noConfusion h
      · cases pure_ok h; exact w1.set_ir_kept hid _
  · cases pure_ok h; exact w1

theorem codegen_expr_cast_keeping (q : Queries) (id : Nat) (type : Ty) (value : Node)
    {k : Lowering} (hk : Keeping k) :
    KeepingAt id (fun c => codegen_expr_cast q c id type value k) := by
  intro c c' hid h
  simp only [codegen_expr_cast] at h
  obtain ⟨c1, e1, h⟩ := bind_ok h
  have w1 := (Kept.start_kept c id).sub_kept hk e1
  split at h
  · exact w1.insert_ir_kept hid h
  · split at h
    · split at h
      · exact w1.insert_ir_kept hid h
      · exact w1.insert_ir_kept hid h
    · split at h
      · exact w1.insert_ir_kept hid h
      · exact Except.noConfusion h

theorem codegen_expr_call_keeping (id : Nat) (callee : Node) (intrinsic : IntrinsicKind)
    {k : Lowering} {ka : Nat → Lowering} (hk : Keeping k) (hka : KeepingCall ka) :
    KeepingAt id (fun c => codegen_expr_call c id callee intrinsic k ka) := by
  intro c c' hid h
  simp only [codegen_expr_call] at h
  split at h
  · exact Except.noConfusion h
  · obtain ⟨cr, ec, h⟩ := bind_ok h
    obtain ⟨c2, e2, h⟩ := bind_ok h
    obtain ⟨c3, e3, h⟩ := bind_ok h
    cases pure_ok h
    have hcr : Kept c cr.1 ∧ c.instructions.length ≤ cr.2 := by
      split at ec
      · cases pure_ok ec
        exact ⟨(Kept.start_kept c id).created_kept _, Nat.le_refl _⟩
      · obtain ⟨c1, e1, ec⟩ := bind_ok ec
        cases pure_ok ec
        have w1 := (Kept.start_kept c id).sub_kept hk e1
        exact ⟨w1.created_kept _, w1.insts_le⟩
    have w2 := hka cr.2 c cr.1 c2 hcr.1 hcr.2 e2
    exact (w2.insert_old_kept hcr.2 e3).set_ir_kept hid _

theorem codegen_expr_intrinsic_call_keeping (id : Nat) (intrinsic : IntrinsicKind)
    (first_argument : Option Node) {k : Lowering} {ka : Nat → Lowering} (hk : Keeping k)
    (hka : KeepingCall ka) :
    KeepingAt id (fun c => codegen_expr_intrinsic_call c id intrinsic first_argument k ka) := by
  intro c c' hid h
  cases intrinsic with
  | INTRIN_COUNT => exact Except.noConfusion h
  | INTRIN_BACKEND_COUNT => exact Except.noConfusion h
  | INTRIN_BUILTIN_LINE => exact Except.noConfusion h
  | INTRIN_BUILTIN_FILENAME => exact Except.noConfusion h
  | INTRIN_BUILTIN_SYSCALL =>
    simp only [codegen_expr_intrinsic_call] at h
    split at h
    · cases pure_ok h; exact (Kept.start_kept c id).congr_kept rfl rfl rfl
    · obtain ⟨c2, e2, h⟩ := bind_ok h
      have w : Kept c ((ir_create_intrinsic (c.set_emitted id) t_integer
          .INTRIN_BUILTIN_SYSCALL).1.set_ir id
          (some (ir_create_intrinsic (c.set_emitted id) t_integer
            .INTRIN_BUILTIN_SYSCALL).2)) :=
        ((Kept.start_kept c id).created_kept _).set_ir_kept hid _
      exact (hka _ c _ c2 w (Nat.le_refl _) e2).insert_old_kept (Nat.le_refl _) h
  | INTRIN_BUILTIN_INLINE =>
    simp only [codegen_expr_intrinsic_call] at h
    split at h
    · exact Except.noConfusion h
    · obtain ⟨c1, e1, h⟩ := bind_ok h
      obtain ⟨c2, e2, h⟩ := bind_ok h
      cases pure_ok h
      have w2 := ((Kept.start_kept c id).sub_kept hk e1).force_inline_kept e2
      exact (w2.set_ir_kept hid _).congr_kept rfl rfl rfl
  | INTRIN_BUILTIN_DEBUGTRAP =>
    simp only [codegen_expr_intrinsic_call] at h
    exact (Kept.start_kept c id).insert_ir_kept hid h
  | INTRIN_BUILTIN_MEMCPY =>
    simp only [codegen_expr_intrinsic_call] at h
    obtain ⟨c2, e2, h⟩ := bind_ok h
    have w : Kept c ((ir_create_intrinsic (c.set_emitted id) t_void
        .INTRIN_BUILTIN_MEMCPY).1.set_ir id
        (some (ir_create_intrinsic (c.set_emitted id) t_void .INTRIN_BUILTIN_MEMCPY).2)) :=
      ((Kept.start_kept c id).created_kept _).set_ir_kept hid _
    exact (hka _ c _ c2 w (Nat.le_refl _) e2).insert_old_kept (Nat.le_refl _) h

theorem subscript_variable_base_kept {c0 c : CodegenContext} {decl : Nat}
    {r : CodegenContext × Option (Option Nat)} (w : Kept c0 c)
    (h : subscript_variable_base c decl = .ok r) : Kept c0 r.1 := by
  simp only [subscript_variable_base] at h
  obtain ⟨kd, _, h⟩ := bind_ok h
  obtain ⟨ty, _, h⟩ := bind_ok h
  split at h
  · split at h
    · obtain ⟨e, _, h⟩ := bind_ok h
      obtain ⟨x, ex, h⟩ := bind_ok h
      cases pure_ok h
      exact w.insert_step_kept ex
    · cases pure_ok h; exact w
  · cases pure_ok h; exact w.congr_kept rfl rfl rfl

theorem subscript_array_decay_kept {c0 c : CodegenContext} {subs_lhs : Option Nat}
    {r : CodegenContext × Option Nat} (w : Kept c0 c)
    (h : subscript_array_decay c subs_lhs = .ok r) : Kept c0 r.1 := by
  simp only [subscript_array_decay] at h
  obtain ⟨ty, _, h⟩ := bind_ok h
  split at h
  · obtain ⟨x, ex, h⟩ := bind_ok h
    cases pure_ok h
    exact w.insert_step_kept ex
  · cases pure_ok h; exact w

theorem subscript_base_kept (q : Queries) {c0 c : CodegenContext} {id : Nat} {lhs rhs : Node}
    {kl ke : Lowering} {r : CodegenContext × Option (Option Nat)} (w : Kept c0 c)
    (hid : c0.node_emitted id = false) (hkl : Keeping kl) (hke : Keeping ke)
    (h : subscript_base q c id lhs rhs kl ke = .ok r) : Kept c0 r.1 := by
  simp only [subscript_base] at h
  split at h
  · exact subscript_variable_base_kept w h
  · split at h
    · obtain ⟨c1, e1, h⟩ := bind_ok h
      cases pure_ok h
      exact w.sub_kept hkl e1
    · split at h
      · obtain ⟨c1, e1, h⟩ := bind_ok h
        have w1 := w.sub_kept hke e1
        split at h
        · split at h
          · exact Except.noConfusion h
          · split at h
            · cases pure_ok h; exact w1.congr_kept rfl rfl rfl
            · split at h
              · obtain ⟨imm, ei, h⟩ := bind_ok h
                obtain ⟨x, ex, h⟩ := bind_ok h
                cases pure_ok h
                exact ((w1.insert_step_kept ei).insert_step_kept ex).set_ir_kept hid _
              · cases pure_ok h; exact w1.set_ir_kept hid _
        · cases pure_ok h; exact w1
      · cases pure_ok h; exact w.congr_kept rfl rfl rfl

theorem codegen_expr_subscript_keeping (q : Queries) (id : Nat) (lhs rhs : Node)
    {kl ke kr : Lowering} (hkl : Keeping kl) (hke : Keeping ke) (hkr : Keeping kr) :
    KeepingAt id (fun c => codegen_expr_subscript q c id lhs rhs kl ke kr) := by
  intro c c' hid h
  simp only [codegen_expr_subscript] at h
  split at h
  · cases pure_ok h; exact (Kept.start_kept c id).congr_kept rfl rfl rfl
  · obtain ⟨base, eb, h⟩ := bind_ok h
    have wb := subscript_base_kept q (Kept.start_kept c id) hid hkl hke eb
    split at h
    · cases pure_ok h; exact wb
    · obtain ⟨d, ed, h⟩ := bind_ok h
      have wd := subscript_array_decay_kept wb ed
      split at h
      · cases pure_ok h; exact wd.set_ir_kept hid _
      · obtain ⟨c1, e1, h⟩ := bind_ok h
        have w1 := wd.sub_kept hkr e1
        split at h
        · obtain ⟨imm, ei, h⟩ := bind_ok h
          obtain ⟨sc, es, h⟩ := bind_ok h
          exact ((w1.insert_step_kept ei).insert_step_kept es).insert_ir_kept hid h
        · split at h
          · obtain ⟨imm, ei, h⟩ := bind_ok h
            obtain ⟨sc, es, h⟩ := bind_ok h
            exact ((w1.insert_step_kept ei).insert_step_kept es).insert_ir_kept hid h
          · exact w1.insert_ir_kept hid h

theorem codegen_expr_binary_keeping (q : Queries) (id : Nat) (op : TokenType)
    (lhs rhs : Node) {kl ke kr : Lowering} (hkl : Keeping kl) (hke : Keeping ke)
    (hkr : Keeping kr) :
    KeepingAt id (fun c => codegen_expr_binary q c id op lhs rhs kl ke kr) := by
  intro c c' hid h
  simp only [codegen_expr_binary] at h
  split at h
  · obtain ⟨c1, e1, h⟩ := bind_ok h
    obtain ⟨c2, e2, h⟩ := bind_ok h
    exact (((Kept.start_kept c id).sub_kept hkr e1).sub_kept hkl e2).insert_ir_kept hid h
  · split at h
    · exact codegen_expr_subscript_keeping q id lhs rhs hkl hke hkr c c' hid h
    · obtain ⟨c1, e1, h⟩ := bind_ok h
      obtain ⟨c2, e2, h⟩ := bind_ok h
      obtain ⟨kd, ek, h⟩ := bind_ok h
      exact (((Kept.start_kept c id).sub_kept hke e1).sub_kept hkr e2).insert_ir_kept hid h

theorem codegen_expr_unary_keeping (id : Nat) (op : TokenType) (post : Bool) (value : Node)
    {kl ke : Lowering} (hkl : Keeping kl) (hke : Keeping ke) :
    KeepingAt id (fun c => codegen_expr_unary c id op post value kl ke) := by
  intro c c' hid h
  simp only [codegen_expr_unary] at h
  split at h
  · split at h
    · exact Except.noConfusion h
    · obtain ⟨c1, e1, h⟩ := bind_ok h
      cases pure_ok h
      exact ((Kept.start_kept c id).sub_kept hkl e1).set_ir_kept hid _
  · obtain ⟨c1, e1, h⟩ := bind_ok h
    have w1 := (Kept.start_kept c id).sub_kept hke e1
    split at h
    · split at h
      · split at h
        · cases pure_ok h; exact w1.set_ir_kept hid _
        · obtain ⟨ty, _, h⟩ := bind_ok h
          obtain ⟨e, _, h⟩ := bind_ok h
          exact w1.insert_ir_kept hid h
      · exact w1.insert_ir_kept hid h
      · exact Except.noConfusion h
    · exact Except.noConfusion h

theorem codegen_expr_return_keeping (id : Nat) (value_id : Option Nat) {k : Lowering}
    (hk : Keeping k) : KeepingAt id (fun c => codegen_expr_return c id value_id k) := by
  intro c c' hid h
  simp only [codegen_expr_return] at h
  split at h
  · obtain ⟨c1, e1, h⟩ := bind_ok h
    exact ((Kept.start_kept c id).sub_kept hk e1).insert_ir_kept hid h
  · exact (Kept.start_kept c id).insert_ir_kept hid h

theorem codegen_expr_literal_keeping (q : Queries) (id : Nat) (type : Ty)
    (lit_type : TokenType) (integer string_index : Nat) {ka : Option Nat → Lowering}
    (hka : ∀ a, Keeping (ka a)) :
    KeepingAt id (fun c => codegen_expr_literal q c id type lit_type integer string_index ka) := by
  intro c c' hid h
  simp only [codegen_expr_literal] at h
  split at h
  · exact (Kept.start_kept c id).insert_ir_kept hid h
  · obtain ⟨r, er, h⟩ := bind_ok h
    cases pure_ok h
    have w0 : Kept c (ir_create_static
        { c.set_emitted id with
          string_literal_count := ((c.set_emitted id).string_literal_count + 1) % 2 ^ 64 }
        id type ("__str_lit".toList ++ format_Z (c.set_emitted id).string_literal_count)).1 :=
      (Kept.start_kept c id).congr_kept rfl rfl rfl
    have w1 : Kept c (r.1.set_ir id (some r.2)) :=
      (w0.insert_step_kept er).set_ir_kept hid _
    exact w1.static_init_kept _ _
  · obtain ⟨r, er, h⟩ := bind_ok h
    obtain ⟨a, ea, h⟩ := bind_ok h
    obtain ⟨c1, e1, h⟩ := bind_ok h
    obtain ⟨c2, e2, h⟩ := bind_ok h
    obtain ⟨ty, _, h⟩ := bind_ok h
    obtain ⟨e, _, h⟩ := bind_ok h
    have w1 : Kept c (r.1.set_ir id (some r.2)) :=
      ((Kept.start_kept c id).insert_step_kept er).set_ir_kept hid _
    have w2 := (w1.insert_step_kept ea).set_type_kept (fun j hj => by
      cases hj; exact w1.index_le ea) e1
    exact (w2.sub_kept (hka _) e2).insert_ir_kept hid h
  · cases pure_ok h; exact (Kept.start_kept c id).congr_kept rfl rfl rfl

theorem array_store_element_kept {c0 c : CodegenContext} {element_size : Nat}
    {address : Option Nat} {index size node_id : Nat}
    {r : CodegenContext × Option (Option Nat)} (w : Kept c0 c)
    (h : array_store_element c element_size address index size node_id = .ok r) :
    Kept c0 r.1 := by
  simp only [array_store_element] at h
  obtain ⟨s, es, h⟩ := bind_ok h
  have w1 := w.insert_step_kept es
  split at h
  · cases pure_ok h; exact w1
  · obtain ⟨imm, ei, h⟩ := bind_ok h
    obtain ⟨a, ea, h⟩ := bind_ok h
    cases pure_ok h
    exact (w1.insert_step_kept ei).insert_step_kept ea

theorem codegen_expr_while_keeping (id condition_id : Nat) (body_size : Option Nat)
    {kc kb : Lowering} (hkc : Keeping kc) (hkb : Keeping kb) :
    KeepingAt id (fun c => codegen_expr_while c condition_id body_size kc kb) := by
  intro c c' _ h
  simp only [codegen_expr_while] at h
  obtain ⟨r, er, h⟩ := bind_ok h
  obtain ⟨c2, e2, h⟩ := bind_ok h
  have w1 := ((Kept.start_kept c id).block_kept.block_kept).insert_step_kept er
  have w2 := (w1.attach_kept _).sub_kept hkc e2
  split at h
  · exact Except.noConfusion h
  · split at h
    · obtain ⟨r2, er2, h⟩ := bind_ok h
      cases pure_ok h
      exact (w2.insert_step_kept er2).attach_kept _
    · obtain ⟨r2, er2, h⟩ := bind_ok h
      obtain ⟨c4, e4, h⟩ := bind_ok h
      obtain ⟨c5, e5, h⟩ := bind_ok h
      cases pure_ok h
      exact (((((w2.block_kept).insert_step_kept er2).attach_kept _).sub_kept hkb
        e4).branch_if_open_kept e5).attach_kept _

theorem codegen_expr_for_keeping (id condition_id : Nat) {ki kc kb kt : Lowering}
    (hki : Keeping ki) (hkc : Keeping kc) (hkb : Keeping kb) (hkt : Keeping kt) :
    KeepingAt id (fun c => codegen_expr_for c condition_id ki kc kb kt) := by
  intro c c' _ h
  simp only [codegen_expr_for] at h
  obtain ⟨c1, e1, h⟩ := bind_ok h
  obtain ⟨r1, er1, h⟩ := bind_ok h
  obtain ⟨c2, e2, h⟩ := bind_ok h
  obtain ⟨r2, er2, h⟩ := bind_ok h
  obtain ⟨c3, e3, h⟩ := bind_ok h
  obtain ⟨c4, e4, h⟩ := bind_ok h
  obtain ⟨r3, er3, h⟩ := bind_ok h
  cases pure_ok h
  have w1 := ((Kept.start_kept c id).block_kept.block_kept.block_kept).sub_kept hki e1
  have w2 := ((w1.insert_step_kept er1).attach_kept _).sub_kept hkc e2
  have w3 := ((w2.insert_step_kept er2).attach_kept _).sub_kept hkb e3
  exact ((w3.sub_kept hkt e4).insert_step_kept er3).attach_kept _

theorem codegen_expr_if_keeping (q : Queries) (id : Nat) (type : Ty)
    (condition_id then_id : Nat) (else_id : Option Nat) {kc kt ke : Lowering}
    (hkc : Keeping kc) (hkt : Keeping kt) (hke : Keeping ke) :
    KeepingAt id
      (fun c => codegen_expr_if q c id type condition_id then_id else_id kc kt ke) := by
  intro c c' hid h
  simp only [codegen_expr_if] at h
  obtain ⟨c1, e1, h⟩ := bind_ok h
  obtain ⟨r, er, h⟩ := bind_ok h
  obtain ⟨c2, e2, h⟩ := bind_ok h
  obtain ⟨c2', e2', h⟩ := bind_ok h
  obtain ⟨e, ee, h⟩ := bind_ok h
  obtain ⟨c3', e3', h⟩ := bind_ok h
  have w1 := (Kept.start_kept c id).sub_kept hkc e1
  have w2 := (w1.block_kept.block_kept.block_kept).insert_step_kept er
  have w3 := ((w2.attach_kept _).sub_kept hkt e2).branch_if_open_kept e2'
  have w4 : Kept c e.1 := by
    split at ee
    · obtain ⟨c3, e3, ee⟩ := bind_ok ee
      cases pure_ok ee
      exact (w3.attach_kept _).sub_kept hke e3
    · cases pure_ok ee
      exact w3.attach_kept _
  have w5 := (w4.branch_if_open_kept e3').attach_kept
    (ir_block (ir_block (ir_block c1).1).1).2
  split at h
  · obtain ⟨phi, ephi, h⟩ := bind_ok h
    have w6 := w5.insert_step_kept ephi
    have hj := w5.index_le ephi
    split at h
    · exact Except.noConfusion h
    · cases pure_ok h
      exact ((w6.phi_add_arg_kept hj _ _).phi_add_arg_kept hj _ _).set_ir_kept hid _
  · cases pure_ok h
    exact w5

/-! ### Lowering keeps the older state: the induction over the AST -/

mutual

theorem codegen_lvalue_keeping (q : Queries) :
    (lval : Node) → Keeping (fun c => codegen_lvalue q c lval)
  | .declaration id type name linkage init => by
      intro c c' h
      beta_reduce at h
      rw [codegen_lvalue] at h
      split at h
      · cases h; exact Kept.refl_kept c
      · exact codegen_lvalue_declaration_keeping q id type name linkage init
          (codegen_optional_keeping q init) c c' h
  | .member_access id _ struct_ off mty => by
      intro c c' h
      beta_reduce at h
      rw [codegen_lvalue] at h
      split at h
      · cases h; exact Kept.refl_kept c
      · exact codegen_lvalue_member_access_keeping id struct_.id off mty
          (codegen_lvalue_keeping q struct_) c c' h
  | .unary id _ op post value => by
      intro c c' h
      beta_reduce at h
      rw [codegen_lvalue] at h
      split at h
      · cases h; exact Kept.refl_kept c
      · exact codegen_lvalue_unary_keeping id op post value.id
          (codegen_expr_keeping q value) c c' h
  | .variable_reference id _ decl => by
      intro c c' h
      beta_reduce at h
      rw [codegen_lvalue] at h
      split at h
      · cases h; exact Kept.refl_kept c
      · exact codegen_lvalue_variable_reference_keeping id decl c c' h
  | .cast id _ value => by
      intro c c' h
      beta_reduce at h
      rw [codegen_lvalue] at h
      split at h
      · cases h; exact Kept.refl_kept c
      · exact codegen_lvalue_cast_keeping id value.id (codegen_lvalue_keeping q value) c c' h
  | .root .. | .function .. | .if_ .. | .while_ .. | .for_ .. | .return_ .. | .block ..
  | .call .. | .intrinsic_call .. | .binary .. | .literal .. | .module_reference ..
  | .function_reference .. | .structure_declaration .. => by
      intro c c' h
      beta_reduce at h
      rw [codegen_lvalue] at h <;> try (intros; contradiction)
      split at h
      · cases h; exact Kept.refl_kept c
      · exact Except.noConfusion h

theorem codegen_expr_keeping (q : Queries) :
    (expr : Node) → Keeping (fun c => codegen_expr q c expr)
  | .function id _ _ _ attr_inline _ _ => by
      intro c c' h
      beta_reduce at h
      rw [codegen_expr] at h
      split at h
      · cases h; exact Kept.refl_kept c
      · rename_i hn
        have hid : c.node_emitted id = false := Bool.eq_false_iff.mpr hn
        exact codegen_expr_function_keeping id attr_inline c c' hid h
  | .module_reference id _ => by
      intro c c' h
      beta_reduce at h
      rw [codegen_expr] at h
      split at h
      · cases h; exact Kept.refl_kept c
      · rename_i hn
        have hid : c.node_emitted id = false := Bool.eq_false_iff.mpr hn
        cases pure_ok h; exact (Kept.start_kept c id).congr_kept rfl rfl rfl
  | .root id _ children => by
      intro c c' h
      beta_reduce at h
      rw [codegen_expr] at h
      split at h
      · cases h; exact Kept.refl_kept c
      · rename_i hn
        have hid : c.node_emitted id = false := Bool.eq_false_iff.mpr hn
        exact codegen_expr_root_keeping id children (codegen_children_keeping q children) c c' hid h
  | .declaration id type name linkage init => by
      intro c c' h
      beta_reduce at h
      rw [codegen_expr] at h
      split at h
      · cases h; exact Kept.refl_kept c
      · rename_i hn
        have hid : c.node_emitted id = false := Bool.eq_false_iff.mpr hn
        split at h
        · cases h; exact Kept.start_kept c id
        · exact (codegen_lvalue_declaration_keeping q id type name linkage init
            (codegen_optional_keeping q init)).at_emitted_keeping id c c' hid h
  | .member_access id _ struct_ off mty => by
      intro c c' h
      beta_reduce at h
      rw [codegen_expr] at h
      split at h
      · cases h; exact Kept.refl_kept c
      · rename_i hn
        have hid : c.node_emitted id = false := Bool.eq_false_iff.mpr hn
        exact codegen_expr_load_keeping id
          ((codegen_lvalue_member_access_keeping id struct_.id off mty
            (codegen_lvalue_keeping q struct_)).guard_keeping
              (fun c => (c.node_address id).isSome)) c c' hid h
  | .variable_reference id _ decl => by
      intro c c' h
      beta_reduce at h
      rw [codegen_expr] at h
      split at h
      · cases h; exact Kept.refl_kept c
      · rename_i hn
        have hid : c.node_emitted id = false := Bool.eq_false_iff.mpr hn
        exact codegen_expr_load_keeping id
          ((codegen_lvalue_variable_reference_keeping id decl).guard_keeping
            (fun c => (c.node_address id).isSome)) c c' hid h
  | .structure_declaration id _ => by
      intro c c' h
      beta_reduce at h
      rw [codegen_expr] at h
      split at h
      · cases h; exact Kept.refl_kept c
      · rename_i hn
        have hid : c.node_emitted id = false := Bool.eq_false_iff.mpr hn
        cases pure_ok h; exact Kept.start_kept c id
  | .if_ id type condition then_ else_ => by
      intro c c' h
      beta_reduce at h
      rw [codegen_expr] at h
      split at h
      · cases h; exact Kept.refl_kept c
      · rename_i hn
        have hid : c.node_emitted id = false := Bool.eq_false_iff.mpr hn
        exact codegen_expr_if_keeping q id type condition.id then_.id
          (else_.map (fun e => e.id)) (codegen_expr_keeping q condition)
          (codegen_expr_keeping q then_) (codegen_optional_keeping q else_) c c' hid h
  | .while_ id _ condition body => by
      intro c c' h
      beta_reduce at h
      rw [codegen_expr] at h
      split at h
      · cases h; exact Kept.refl_kept c
      · rename_i hn
        have hid : c.node_emitted id = false := Bool.eq_false_iff.mpr hn
        exact codegen_expr_while_keeping id condition.id body.block_children_size
          (codegen_expr_keeping q condition) (codegen_expr_keeping q body) c c' hid h
  | .block id type children => by
      intro c c' h
      beta_reduce at h
      rw [codegen_expr] at h
      split at h
      · cases h; exact Kept.refl_kept c
      · rename_i hn
        have hid : c.node_emitted id = false := Bool.eq_false_iff.mpr hn
        exact codegen_expr_block_keeping q id type children
          (codegen_children_keeping q children) c c' hid h
  | .call id _ callee arguments intrinsic => by
      intro c c' h
      beta_reduce at h
      rw [codegen_expr] at h
      split at h
      · cases h; exact Kept.refl_kept c
      · rename_i hn
        have hid : c.node_emitted id = false := Bool.eq_false_iff.mpr hn
        exact codegen_expr_call_keeping id callee intrinsic (codegen_expr_keeping q callee)
          (codegen_call_arguments_keeping q arguments) c c' hid h
  | .intrinsic_call id _ _ arguments intrinsic => by
      intro c c' h
      beta_reduce at h
      rw [codegen_expr] at h
      split at h
      · cases h; exact Kept.refl_kept c
      · rename_i hn
        have hid : c.node_emitted id = false := Bool.eq_false_iff.mpr hn
        exact codegen_expr_intrinsic_call_keeping id intrinsic arguments.head?
          (codegen_first_keeping q arguments)
          (codegen_call_arguments_keeping q arguments) c c' hid h
  | .cast id type value => by
      intro c c' h
      beta_reduce at h
      rw [codegen_expr] at h
      split at h
      · cases h; exact Kept.refl_kept c
      · rename_i hn
        have hid : c.node_emitted id = false := Bool.eq_false_iff.mpr hn
        exact codegen_expr_cast_keeping q id type value (codegen_expr_keeping q value)
          c c' hid h
  | .binary id _ op lhs rhs => by
      intro c c' h
      beta_reduce at h
      rw [codegen_expr] at h
      split at h
      · cases h; exact Kept.refl_kept c
      · rename_i hn
        have hid : c.node_emitted id = false := Bool.eq_false_iff.mpr hn
        exact codegen_expr_binary_keeping q id op lhs rhs (codegen_lvalue_keeping q lhs)
          (codegen_expr_keeping q lhs) (codegen_expr_keeping q rhs) c c' hid h
  | .unary id _ op post value => by
      intro c c' h
      beta_reduce at h
      rw [codegen_expr] at h
      split at h
      · cases h; exact Kept.refl_kept c
      · rename_i hn
        have hid : c.node_emitted id = false := Bool.eq_false_iff.mpr hn
        exact codegen_expr_unary_keeping id op post value (codegen_lvalue_keeping q value)
          (codegen_expr_keeping q value) c c' hid h
  | .literal id type lit_type integer string_index compound => by
      intro c c' h
      beta_reduce at h
      rw [codegen_expr] at h
      split at h
      · cases h; exact Kept.refl_kept c
      · rename_i hn
        have hid : c.node_emitted id = false := Bool.eq_false_iff.mpr hn
        exact codegen_expr_literal_keeping q id type lit_type integer string_index
          (fun address => codegen_array_elements_keeping q (q.type_sizeof type.array_of)
            compound.length compound address 0) c c' hid h
  | .for_ id _ init condition iterator body => by
      intro c c' h
      beta_reduce at h
      rw [codegen_expr] at h
      split at h
      · cases h; exact Kept.refl_kept c
      · rename_i hn
        have hid : c.node_emitted id = false := Bool.eq_false_iff.mpr hn
        exact codegen_expr_for_keeping id condition.id (codegen_expr_keeping q init)
          (codegen_expr_keeping q condition) (codegen_expr_keeping q body)
          (codegen_expr_keeping q iterator) c c' hid h
  | .return_ id _ value => by
      intro c c' h
      beta_reduce at h
      rw [codegen_expr] at h
      split at h
      · cases h; exact Kept.refl_kept c
      · rename_i hn
        have hid : c.node_emitted id = false := Bool.eq_false_iff.mpr hn
        exact codegen_expr_return_keeping id (value.map (fun v => v.id))
          (codegen_optional_keeping q value) c c' hid h
  | .function_reference .. => by
      intro c c' h
      beta_reduce at h
      rw [codegen_expr] at h
      split at h
      · cases h; exact Kept.refl_kept c
      · exact Except.noConfusion h

theorem codegen_optional_keeping (q : Queries) :
    (node : Option Node) → Keeping (fun c => codegen_optional q c node)
  | none => by
      intro c c' h
      beta_reduce at h
      rw [codegen_optional] at h
      cases h; exact Kept.refl_kept c
  | some n => by
      intro c c' h
      beta_reduce at h
      rw [codegen_optional] at h
      exact codegen_expr_keeping q n c c' h

theorem codegen_first_keeping (q : Queries) :
    (arguments : List Node) → Keeping (fun c => codegen_first q c arguments)
  | [] => by
      intro c c' h
      beta_reduce at h
      rw [codegen_first] at h
      exact Except.noConfusion h
  | call :: _ => by
      intro c c' h
      beta_reduce at h
      rw [codegen_first] at h
      exact codegen_expr_keeping q call c c' h

theorem codegen_children_keeping (q : Queries) :
    (children : List Node) → Keeping (fun c => codegen_children q c children)
  | [] => by
      intro c c' h
      beta_reduce at h
      rw [codegen_children] at h
      cases h; exact Kept.refl_kept c
  | child :: rest => by
      intro c c' h
      beta_reduce at h
      rw [codegen_children] at h
      split at h
      · exact codegen_children_keeping q rest c c' h
      · obtain ⟨c1, e1, h⟩ := bind_ok h
        exact (((Kept.refl_kept c).sub_kept (codegen_expr_keeping q child) e1).sub_kept
          (codegen_children_keeping q rest) h)

theorem codegen_call_arguments_keeping (q : Queries) :
    (arguments : List Node) →
      KeepingCall (fun call c => codegen_call_arguments q c call arguments)
  | [] => by
      intro call c0 c c' w _ h
      beta_reduce at h
      rw [codegen_call_arguments] at h
      cases h; exact w
  | arg :: rest => by
      intro call c0 c c' w hj h
      beta_reduce at h
      rw [codegen_call_arguments] at h
      obtain ⟨c1, e1, h⟩ := bind_ok h
      have w1 : Kept c0 c1 := by
        split at e1
        · exact w.sub_kept (codegen_lvalue_keeping q arg) e1
        · exact w.sub_kept (codegen_expr_keeping q arg) e1
      exact codegen_call_arguments_keeping q rest call c0 _ c'
        (w1.call_add_argument_kept hj arg) hj h

theorem codegen_array_elements_keeping (q : Queries) (element_size size : Nat) :
    (nodes : List Node) → (address : Option Nat) → (index : Nat) →
      Keeping (fun c => codegen_array_elements q c element_size address index size nodes)
  | [], address, index => by
      intro c c' h
      beta_reduce at h
      rw [codegen_array_elements] at h
      cases h; exact Kept.refl_kept c
  | node :: rest, address, index => by
      intro c c' h
      beta_reduce at h
      rw [codegen_array_elements] at h
      obtain ⟨c1, e1, h⟩ := bind_ok h
      obtain ⟨r, er, h⟩ := bind_ok h
      have w2 := array_store_element_kept
        ((Kept.refl_kept c).sub_kept (codegen_expr_keeping q node) e1) er
      split at h
      · cases pure_ok h; exact w2
      · exact w2.sub_kept (codegen_array_elements_keeping q element_size size rest _ _) h

end

/-! ### Claim on calls -/

theorem ir_insert_returns {c : CodegenContext} (j : Nat)
    (hv : c.insert_point < c.blocks.length) (ho : ir_is_closed c c.insert_point = false) :
    ∃ c', ir_insert c j = .ok c' := by
  unfold ir_insert
  rw [ho]
  obtain ⟨b, hb⟩ : ∃ b, c.blocks[c.insert_point]? = some b :=
    ⟨c.blocks[c.insert_point], List.getElem?_eq_getElem hv⟩
  rw [hb]
  exact ⟨_, rfl⟩

theorem ir_insert_node_ir {c c' : CodegenContext} {j : Nat} (h : ir_insert c j = .ok c') :
    c'.node_ir = c.node_ir := by
  unfold ir_insert at h
  split at h
  · exact Except.noConfusion h
  · split at h
    · exact Except.noConfusion h
    · cases h; rfl

theorem settled_with_call_args {a b : IRInstruction} (h : a.settled = b.settled)
    (l : List (Option Nat)) :
    ({ a with call_args := l } : IRInstruction).settled
      = ({ b with call_args := l } : IRInstruction).settled :=
  congrArg (fun z : IRInstruction => ({ z with call_args := l } : IRInstruction)) h

theorem call_add_argument_eq (d : CodegenContext) (call : Nat) (arg : Node) :
    call_add_argument d call arg = ir_call_add_arg d call (call_operand d arg) := by
  unfold call_add_argument call_operand
  split <;> rfl

theorem ir_call_add_arg_lookup {c : CodegenContext} {call : Nat} {y : IRInstruction}
    (hy : c.instructions[call]? = some y) (v : Option Nat) :
    (ir_call_add_arg c call v).instructions[call]?
      = some { y with call_args := y.call_args ++ [v] } := by
  have hlt : call < c.instructions.length := by
    by_contra hcon
    rw [List.getElem?_eq_none (Nat.le_of_not_lt hcon)] at hy
    exact Option.noConfusion hy
  unfold ir_call_add_arg
  rw [hy]
  simp only
  rw [List.getElem?_set_self hlt]

/-- The loop over the arguments of a call: what it emits and what the call instruction
receives. -/
theorem codegen_call_arguments_emitted (q : Queries) (call : Nat) :
    ∀ (arguments : List Node) (c c2 : CodegenContext) (y : IRInstruction),
      codegen_call_arguments q c call arguments = .ok c2 → c.instructions[call]? = some y →
      ∃ operands y', ArgumentsEmitted q call c arguments operands c2 ∧
        operands.length = arguments.length ∧ c2.instructions[call]? = some y' ∧
        y'.settled
          = ({ y with call_args := y.call_args ++ operands } : IRInstruction).settled
  | [], c, c2, y, h, hy => by
      rw [codegen_call_arguments] at h
      cases h
      refine ⟨[], y, ArgumentsEmitted.done c, rfl, hy, ?_⟩
      rw [List.append_nil]
  | arg :: rest, c, c2, y, h, hy => by
      rw [codegen_call_arguments] at h
      obtain ⟨d, ed, h⟩ := bind_ok h
      have hlt : call < c.instructions.length := by
        by_contra hcon
        rw [List.getElem?_eq_none (Nat.le_of_not_lt hcon)] at hy
        exact Option.noConfusion hy
      have wd : Kept c d := by
        split at ed
        · exact codegen_lvalue_keeping q arg c d ed
        · exact codegen_expr_keeping q arg c d ed
      obtain ⟨y1, hy1, hs1⟩ := settled_lookup (wd.insts call hlt) hy
      rw [call_add_argument_eq] at h
      obtain ⟨operands, y', hem, hlen, hy', hs'⟩ :=
        codegen_call_arguments_emitted q call rest _ c2 _ h
          (ir_call_add_arg_lookup hy1 (call_operand d arg))
      refine ⟨call_operand d arg :: operands, y', ArgumentsEmitted.step c d c2 arg rest operands
        ed hem, by simp [hlen], hy', ?_⟩
      rw [hs']
      have e1 : (y1.call_args ++ [call_operand d arg]) ++ operands
          = y.call_args ++ (call_operand d arg :: operands) := by
        rw [settled_call_args hs1]; simp
      have e2 : ({ ({ y1 with call_args := y1.call_args ++ [call_operand d arg] }
          : IRInstruction) with
          call_args := (y1.call_args ++ [call_operand d arg]) ++ operands } : IRInstruction)
          = ({ y1 with call_args := (y1.call_args ++ [call_operand d arg]) ++ operands }
            : IRInstruction) := rfl
      show IRInstruction.settled { ({ y1 with call_args := y1.call_args
        ++ [call_operand d arg] } : IRInstruction) with
          call_args := (y1.call_args ++ [call_operand d arg]) ++ operands } = _
      rw [e2, e1]
      exact settled_with_call_args hs1 _

/-- C23: lowering a call node that is not an intrinsic and not yet emitted, once the call
instruction `cr.2` is created (after the callee is lowered, if it is not a function) and
the loop over the arguments has returned with an open insertion point. Lowering returns,
and: the arguments were emitted one after the other in source order, a reference-typed
argument as an lvalue and any other as an rvalue, with nothing in between but the
recording of the operand in the call (`ArgumentsEmitted`); the Call has exactly one operand
per argument, in source order, the operand of a reference-typed argument being the
argument's address and that of any other argument its value, as read right after the
emission of the argument; the Call is inserted after all arguments are emitted, as the one
new last instruction of the block that is current then, and nothing else changes by the
insertion; the Call is the value of the node. -/
theorem call_operands_follow_arguments (q : Queries) (ctx c2 : CodegenContext)
    (cr : CodegenContext × Nat) (id : Nat) (type : Ty) (callee : Node)
    (arguments : List Node) (hemitted : ctx.node_emitted id = false)
    (hcreate : (if callee.kind = .NODE_FUNCTION then
        pure (ir_create_call_direct (ctx.set_emitted id)
          ((ctx.set_emitted id).function_ir callee.id))
      else do
        let c ← codegen_expr q (ctx.set_emitted id) callee
        pure (ir_create_call_indirect c (c.node_ir callee.id))) = .ok cr)
    (harguments : codegen_call_arguments q cr.1 cr.2 arguments = .ok c2)
    (hvalid : c2.insert_point < c2.blocks.length)
    (hopen : ir_is_closed c2 c2.insert_point = false) :
    ∃ c' operands x l,
      codegen_expr q ctx (.call id type callee arguments .INTRIN_COUNT) = .ok c' ∧
      ArgumentsEmitted q cr.2 cr.1 arguments operands c2 ∧
      operands.length = arguments.length ∧
      c'.instructions[cr.2]? = some x ∧ x.kind = .IR_CALL ∧ x.call_args = operands ∧
      x.parent_block = some c2.insert_point ∧
      c'.instructions.length = c2.instructions.length ∧
      (∀ i, i ≠ cr.2 → c'.instructions[i]? = c2.instructions[i]?) ∧
      block_instructions c2 c2.insert_point = some l ∧
      block_instructions c' c2.insert_point = some (l ++ [cr.2]) ∧
      (∀ b, b ≠ c2.insert_point → block_instructions c' b = block_instructions c2 b) ∧
      c'.node_ir id = some cr.2 := by
  -- the call instruction as it is created
  have hy : ∃ y, cr.1.instructions[cr.2]? = some y ∧ y.kind = .IR_CALL ∧ y.call_args = [] := by
    split at hcreate
    · cases pure_ok hcreate
      exact ⟨_, ir_create_lookup_new _ _, rfl, rfl⟩
    · obtain ⟨c, _, hcreate⟩ := bind_ok hcreate
      cases pure_ok hcreate
      exact ⟨_, ir_create_lookup_new _ _, rfl, rfl⟩
  obtain ⟨y, hy, hyk, hya⟩ := hy
  obtain ⟨operands, y', hem, hlen, hy', hs'⟩ :=
    codegen_call_arguments_emitted q cr.2 arguments cr.1 c2 y harguments hy
  obtain ⟨c3, h3⟩ := ir_insert_returns cr.2 hvalid hopen
  obtain ⟨_, hpoint, _, hilen, ⟨l, hl, hl'⟩, hother, hrest, hnew⟩ := ir_insert_ok h3
  refine ⟨c3.set_ir id (some cr.2), operands, _, l, ?_, hem, hlen, hnew y' hy', ?_, ?_, rfl,
    hilen, hrest, hl, hl', hother, ?_⟩
  · rw [codegen_expr]
    show (if ctx.node_emitted id = true then Except.ok ctx
      else codegen_expr_call (ctx.set_emitted id) id callee .INTRIN_COUNT
        (fun c => codegen_expr q c callee)
        (fun call c => codegen_call_arguments q c call arguments)) = _
    rw [hemitted, if_neg (by simp)]
    unfold codegen_expr_call
    rw [if_neg (by simp)]
    have hcreate' : (if callee.kind = .NODE_FUNCTION then
        (pure (ir_create_call_direct (ctx.set_emitted id)
          ((ctx.set_emitted id).function_ir callee.id)) : Except Fatal (CodegenContext × Nat))
      else do
        let c ← (fun c => codegen_expr q c callee) (ctx.set_emitted id)
        pure (ir_create_call_indirect c (c.node_ir callee.id))) = .ok cr := hcreate
    rw [hcreate']
    simp only [harguments, h3, bind, Except.bind, pure, Except.pure]
  · show y'.kind = _
    rw [settled_kind hs']; exact hyk
  · show y'.call_args = _
    rw [settled_call_args hs']
    show y.call_args ++ operands = operands
    rw [hya]; rfl
  · show (if id = id then some cr.2 else _) = _
    rw [if_pos rfl]

theorem call_operands_follow_arguments_witness :
    context_with_variable.node_emitted 1 = false ∧
    ir_is_closed call_example_arguments call_example_arguments.insert_point = false ∧
    ∃ c' operands x, codegen_expr example_queries context_with_variable call_with_reference
        = .ok c' ∧
      operands.length = 2 ∧ c'.instructions[1]? = some x ∧ x.kind = .IR_CALL ∧
      x.call_args = operands ∧ c'.node_ir 1 = some 1 ∧
      instruction_kinds c' = [.IR_ALLOCA, .IR_CALL, .IR_IMMEDIATE] ∧
      call_args_of c' 1 = some [some 0, some 2] ∧
      block_instructions c' 0 = some [0, 2, 1] :=
  ⟨rfl, by decide!,
    match call_operands_follow_arguments example_queries context_with_variable
      call_example_arguments
      (ir_create_call_direct (context_with_variable.set_emitted 1)
        ((context_with_variable.set_emitted 1).function_ir 2)) 1 t_integer
      (.function 2 (.function t_integer []) "g".toList .LINKAGE_INTERNAL false [] none)
      [.variable_reference 3 (.reference t_integer) 10, number_literal 4 7] rfl rfl
      (result_context_ok (by decide!)) (by decide!) (by decide!) with
    | ⟨c', operands, x, _, h0, _, h3, h4, h5, h6, _, _, _, _, _, _, h13⟩ =>
        have e : c' = result_context (codegen_expr example_queries context_with_variable
            call_with_reference) := by
          have h0' : codegen_expr example_queries context_with_variable call_with_reference
              = .ok c' := h0
          rw [h0']; rfl
        ⟨c', operands, x, h0, h3, h4, h5, h6, h13, by rw [e]; decide!, by rw [e]; decide!,
          by rw [e]; decide!⟩⟩

/-! ### Claim on array literals -/

theorem lookup_in_store {c : CodegenContext} {i : Nat} {x : IRInstruction}
    (h : c.instructions[i]? = some x) : i < c.instructions.length := by
  by_contra hcon
  rw [List.getElem?_eq_none (Nat.le_of_not_lt hcon)] at h
  exact Option.noConfusion h

/-- The loop over the elements of an array literal, run on a list that ends where the
literal ends, stores the elements as `ElementsStored` describes. -/
theorem codegen_array_elements_stored (q : Queries) (element_size size : Nat) :
    ∀ (nodes : List Node) (address : Option Nat) (index : Nat) (c c' : CodegenContext),
      nodes ≠ [] → index + nodes.length = size →
      codegen_array_elements q c element_size address index size nodes = .ok c' →
      ∃ rounds, ElementsStored q element_size address nodes c rounds c'
  | [], _, _, _, _, hne, _, _ => absurd rfl hne
  | [node], address, index, c, c', _, hsize, h => by
      rw [codegen_array_elements] at h
      obtain ⟨d, ed, h⟩ := bind_ok h
      obtain ⟨r, er, h⟩ := bind_ok h
      simp only [array_store_element] at er
      obtain ⟨s, es, er⟩ := bind_ok er
      have hlast : index = size - 1 := by
        simp only [List.length_singleton] at hsize
        omega
      rw [if_pos hlast] at er
      cases pure_ok er
      simp only at h
      cases pure_ok h
      exact ⟨_, ElementsStored.last address c d s node ed es⟩
  | node :: next :: rest, address, index, c, c', _, hsize, h => by
      rw [codegen_array_elements] at h
      obtain ⟨d, ed, h⟩ := bind_ok h
      obtain ⟨r, er, h⟩ := bind_ok h
      simp only [array_store_element] at er
      obtain ⟨s, es, er⟩ := bind_ok er
      have hmore : ¬ index = size - 1 := by
        simp only [List.length_cons] at hsize
        omega
      rw [if_neg hmore] at er
      obtain ⟨imm, ei, er⟩ := bind_ok er
      obtain ⟨a, ea, er⟩ := bind_ok er
      cases pure_ok er
      simp only at h
      obtain ⟨rounds, hr⟩ := codegen_array_elements_stored q element_size size (next :: rest)
        (some a.2) (index + 1) a.1 c' (by simp)
        (by simp only [List.length_cons] at hsize ⊢; omega) h
      exact ⟨_, ElementsStored.step address c d c' s imm a node next rest rounds ed es ei ea hr⟩

/-- What the rounds of `ElementsStored` leave in the final context: one round per element;
the first round stores to the starting pointer; the Store of every round is there with its
value and its pointer; the pointer of every later round is an Add of the pointer of the
round before and an Immediate that holds the element size. -/
theorem ElementsStored.rounds_final {q : Queries} {element_size : Nat}
    {address : Option Nat} {nodes : List Node} {c c' : CodegenContext}
    {rounds : List ElementRound}
    (h : ElementsStored q element_size address nodes c rounds c') :
    Kept c c' ∧ rounds.length = nodes.length ∧
    (∀ rd : ElementRound, rounds[0]? = some rd → rd.pointer = address) ∧
    (∀ (k : Nat) (rd : ElementRound), rounds[k]? = some rd →
      ∃ x, c'.instructions[rd.store]? = some x ∧ x.kind = .IR_STORE ∧
        x.store_value = rd.value ∧ x.store_addr = rd.pointer) ∧
    (∀ (k : Nat) (rd rd' : ElementRound), rounds[k]? = some rd → rounds[k + 1]? = some rd' →
      ∃ a i x imm, rd'.pointer = some a ∧ c'.instructions[a]? = some x ∧ x.kind = .IR_ADD ∧
        x.lhs = rd.pointer ∧ x.rhs = some i ∧ c'.instructions[i]? = some imm ∧
        imm.kind = .IR_IMMEDIATE ∧ imm.imm = element_size ∧ imm.type = t_integer) := by
  induction h with
  | last address c d s node ed es =>
    have wd : Kept c d := codegen_expr_keeping q node c d ed
    have hi := ir_insert_new_inserted es
    refine ⟨wd.insert_step_kept es, rfl, ?_, ?_, ?_⟩
    · intro rd hrd
      simp only [List.getElem?_cons_zero, Option.some.injEq] at hrd
      rw [← hrd]
    · intro k rd hrd
      cases k with
      | zero =>
        simp only [List.getElem?_cons_zero, Option.some.injEq] at hrd
        rw [← hrd]
        exact ⟨_, hi.lookup_new, rfl, rfl, rfl⟩
      | succ k => simp at hrd
    · intro k rd rd' _ hrd'
      simp at hrd'
  | step address c d c' s imm a node next rest rounds ed es ei ea _ ih =>
    obtain ⟨wr, hlen, hfirst, hstores, hadds⟩ := ih
    have wd : Kept c d := codegen_expr_keeping q node c d ed
    have hs := ir_insert_new_inserted es
    have hm := ir_insert_new_inserted ei
    have ha := ir_insert_new_inserted ea
    have wa : Kept imm.1 c' := ((Kept.refl_kept imm.1).insert_step_kept ea).trans_kept wr
    have ws : Kept s.1 c' := ((Kept.refl_kept s.1).insert_step_kept ei).trans_kept wa
    refine ⟨(wd.insert_step_kept es).trans_kept ws, by simp [hlen], ?_, ?_, ?_⟩
    · intro rd hrd
      simp only [List.getElem?_cons_zero, Option.some.injEq] at hrd
      rw [← hrd]
    · intro k rd hrd
      cases k with
      | zero =>
        simp only [List.getElem?_cons_zero, Option.some.injEq] at hrd
        rw [← hrd]
        obtain ⟨x, hx, hsx⟩ := settled_lookup (ws.insts s.2 (lookup_in_store hs.lookup_new))
          hs.lookup_new
        exact ⟨x, hx, by rw [settled_kind hsx], by rw [settled_store_value hsx],
          by rw [settled_store_addr hsx]⟩
      | succ k =>
        simp only [List.getElem?_cons_succ] at hrd
        exact hstores k rd hrd
    · intro k rd rd' hrd hrd'
      cases k with
      | zero =>
        simp only [List.getElem?_cons_zero, Option.some.injEq] at hrd
        simp only [List.getElem?_cons_succ] at hrd'
        rw [← hrd]
        obtain ⟨x, hx, hsx⟩ := settled_lookup (wr.insts a.2 (lookup_in_store ha.lookup_new))
          ha.lookup_new
        obtain ⟨y, hy, hsy⟩ := settled_lookup (wa.insts imm.2 (lookup_in_store hm.lookup_new))
          hm.lookup_new
        exact ⟨a.2, imm.2, x, y, hfirst rd' hrd', hx, by rw [settled_kind hsx],
          by rw [settled_lhs hsx], by rw [settled_rhs hsx], hy, by rw [settled_kind hsy],
          by rw [settled_imm hsy], by rw [settled_type hsy]⟩
      | succ k =>
        simp only [List.getElem?_cons_succ] at hrd hrd'
        exact hadds k rd rd' hrd hrd'

theorem ir_set_type_lookup {c c' : CodegenContext} {j : Nat} {x : IRInstruction} {ty : Ty}
    (hx : c.instructions[j]? = some x) (h : ir_set_type c (some j) ty = .ok c') :
    c'.instructions[j]? = some { x with type := ty } ∧
    c'.instructions.length = c.instructions.length ∧ c'.node_ir = c.node_ir ∧
    c'.node_emitted = c.node_emitted := by
  simp only [ir_set_type, hx] at h
  cases h
  refine ⟨?_, by simp, rfl, rfl⟩
  show (c.instructions.set j { x with type := ty })[j]? = _
  rw [List.getElem?_set_self (lookup_in_store hx)]

/-- C25: lowering an array literal with at least one element, not yet emitted, once the
Alloca `a`, its Copy `p` and the retyping of the Copy to pointer-to-element are done and
the loop over the elements has returned with an open insertion point. Lowering returns, and
in the resulting IR: the Alloca is an Alloca of the array type; the element pointer at the
start is the Copy of the Alloca, of type pointer-to-element; the elements were stored as
`ElementsStored` describes, one round per element in source order, so that the literal
itself inserts exactly one Store per element and, between two elements, exactly one
Immediate of the element size and one Add; the Store of round `k` writes the value of the
`k`-th element to the pointer of round `k`; the pointer of round 0 is the Copy, and the
pointer of round `k + 1` is the Add of the pointer of round `k` and an Immediate whose
value is the element size; finally one Load of the array type from the Alloca is inserted
last and is the value of the literal. -/
theorem array_literal_lowering (q : Queries) (ctx c1 c2 : CodegenContext)
    (a p : CodegenContext × Nat) (id : Nat) (type : Ty) (integer string_index : Nat)
    (compound : List Node) (hemitted : ctx.node_emitted id = false)
    (hnonempty : compound ≠ [])
    (halloca : ir_insert_alloca q (ctx.set_emitted id) type = .ok a)
    (hcopy : ir_insert_copy (a.1.set_ir id (some a.2)) (some a.2) = .ok p)
    (hpointer : ir_set_type p.1 (some p.2) (ast_make_type_pointer type.array_of) = .ok c1)
    (helements : codegen_array_elements q c1 (q.type_sizeof type.array_of) (some p.2) 0
      compound.length compound = .ok c2)
    (hvalid : c2.insert_point < c2.blocks.length)
    (hopen : ir_is_closed c2 c2.insert_point = false) :
    ∃ (c' : CodegenContext) (rounds : List ElementRound) (load : IRInstruction)
      (l : List Nat),
      codegen_expr q ctx (.literal id type .TK_LBRACK integer string_index compound)
        = .ok c' ∧
      a.2 = ctx.instructions.length ∧ p.2 = ctx.instructions.length + 1 ∧
      c1.instructions.length = ctx.instructions.length + 2 ∧
      (∃ x, c'.instructions[a.2]? = some x ∧ x.kind = .IR_ALLOCA ∧
        x.type = ast_make_type_pointer type ∧ x.alloca_size = q.type_sizeof type) ∧
      (∃ x, c'.instructions[p.2]? = some x ∧ x.kind = .IR_COPY ∧ x.operand = some a.2 ∧
        x.type = ast_make_type_pointer type.array_of) ∧
      ElementsStored q (q.type_sizeof type.array_of) (some p.2) compound c1 rounds c2 ∧
      rounds.length = compound.length ∧
      (∀ rd : ElementRound, rounds[0]? = some rd → rd.pointer = some p.2) ∧
      (∀ (k : Nat) (rd : ElementRound), rounds[k]? = some rd →
        ∃ x, c'.instructions[rd.store]? = some x ∧ x.kind = .IR_STORE ∧
          x.store_value = rd.value ∧ x.store_addr = rd.pointer) ∧
      (∀ (k : Nat) (rd rd' : ElementRound), rounds[k]? = some rd →
        rounds[k + 1]? = some rd' →
        ∃ b i x imm, rd'.pointer = some b ∧ c'.instructions[b]? = some x ∧
          x.kind = .IR_ADD ∧ x.lhs = rd.pointer ∧ x.rhs = some i ∧
          c'.instructions[i]? = some imm ∧ imm.kind = .IR_IMMEDIATE ∧
          imm.imm = q.type_sizeof type.array_of ∧ imm.type = t_integer) ∧
      c'.instructions = c2.instructions ++ [load] ∧ load.kind = .IR_LOAD ∧
      load.operand = some a.2 ∧ load.type = type ∧
      c'.node_ir id = some c2.instructions.length ∧
      block_instructions c2 c2.insert_point = some l ∧
      block_instructions c' c2.insert_point = some (l ++ [c2.instructions.length]) := by
  have ia := ir_insert_new_inserted halloca
  have ip := ir_insert_new_inserted hcopy
  have ha2 : a.2 = ctx.instructions.length := ia.index
  have hp2 : p.2 = ctx.instructions.length + 1 := by
    rw [ip.index]
    show a.1.instructions.length = _
    rw [ia.length]; rfl
  obtain ⟨hc1, hlen1, hnode1, hemitted1⟩ := ir_set_type_lookup ip.lookup_new hpointer
  -- what the loop over the elements keeps
  have K1 : Kept (a.1.set_ir id (some a.2)) c1 :=
    ((Kept.refl_kept _).insert_step_kept hcopy).set_type_kept (fun j hj => by
      cases hj; rw [ip.index]) hpointer
  have K2 : Kept c1 c2 :=
    codegen_array_elements_keeping q (q.type_sizeof type.array_of) compound.length compound
      (some p.2) 0 c1 c2 helements
  have K := K1.trans_kept K2
  have hem : (a.1.set_ir id (some a.2)).node_emitted id = true := by
    show a.1.node_emitted id = true
    rw [ia.node_emitted]
    show (if id = id then true else _) = true
    rw [if_pos rfl]
  have hvalue : c2.node_ir id = some a.2 := by
    rw [K.node_ir id hem]
    show (if id = id then some a.2 else _) = _
    rw [if_pos rfl]
  obtain ⟨ya, hlookA, hyk, hyt, hys⟩ : ∃ y : IRInstruction,
      (a.1.set_ir id (some a.2)).instructions[a.2]? = some y ∧ y.kind = .IR_ALLOCA ∧
      y.type = ast_make_type_pointer type ∧ y.alloca_size = q.type_sizeof type :=
    ⟨_, ia.lookup_new, rfl, rfl, rfl⟩
  obtain ⟨xa, hxa, hsa⟩ := settled_lookup (K.insts a.2 (lookup_in_store hlookA)) hlookA
  obtain ⟨xp, hxp, hsp⟩ := settled_lookup (K2.insts p.2 (lookup_in_store hc1)) hc1
  -- the load
  have htypeof : ir_typeof c2 (c2.node_ir id) = .ok (ast_make_type_pointer type) := by
    rw [hvalue]
    simp only [ir_typeof, hxa]
    rw [settled_type hsa, hyt]
  have hget : type_get_element (ast_make_type_pointer type) = .ok type := rfl
  obtain ⟨r, hr⟩ := ir_insert_new_ok
    { kind := .IR_LOAD, type := type, operand := c2.node_ir id } hvalid hopen
  have ir_ := ir_insert_new_inserted hr
  obtain ⟨l, hl, hl'⟩ := ir_.block_at
  -- the elements
  obtain ⟨rounds, hes⟩ := codegen_array_elements_stored q (q.type_sizeof type.array_of)
    compound.length compound (some p.2) 0 c1 c2 hnonempty (Nat.zero_add _) helements
  obtain ⟨_, hrl, hfirst, hstores, hadds⟩ := hes.rounds_final
  have hold : ∀ {j : Nat} {x : IRInstruction}, c2.instructions[j]? = some x →
      (r.1.set_ir id (some r.2)).instructions[j]? = some x := by
    intro j x hx
    show r.1.instructions[j]? = some x
    rw [ir_.lookup_old (lookup_in_store hx)]; exact hx
  obtain ⟨load, hload, hlk, hlo, hlt⟩ : ∃ load : IRInstruction,
      r.1.instructions = c2.instructions ++ [load] ∧ load.kind = .IR_LOAD ∧
      load.operand = c2.node_ir id ∧ load.type = type := ⟨_, ir_.instructions, rfl, rfl, rfl⟩
  refine ⟨r.1.set_ir id (some r.2), rounds, load, l, ?_, ha2, hp2, ?_, ?_, ?_, hes, hrl, hfirst,
    ?_, ?_, hload, hlk, ?_, hlt, ?_, hl, ?_⟩
  · rw [codegen_expr]
    show (if ctx.node_emitted id = true then Except.ok ctx
      else codegen_expr_literal q (ctx.set_emitted id) id type .TK_LBRACK integer string_index
        (fun address c =>
          codegen_array_elements q c (q.type_sizeof type.array_of) address 0 compound.length
            compound)) = _
    rw [hemitted, if_neg (by simp)]
    have hcopy' : ir_insert_copy (a.1.set_ir id (some a.2))
        ((a.1.set_ir id (some a.2)).node_ir id) = .ok p := by
      have e : (a.1.set_ir id (some a.2)).node_ir id = some a.2 := by
        show (if id = id then some a.2 else _) = _
        rw [if_pos rfl]
      rw [e]; exact hcopy
    have hr' : ir_insert_load c2 type (c2.node_ir id) = .ok r := hr
    simp only [codegen_expr_literal, halloca, hcopy', hpointer, helements, htypeof, hget, hr',
      bind, Except.bind, pure, Except.pure]
  · rw [hlen1, ip.length]
    show a.1.instructions.length + 1 = _
    rw [ia.length]; rfl
  · exact ⟨xa, hold hxa, by rw [settled_kind hsa]; exact hyk,
      by rw [settled_type hsa]; exact hyt, by rw [settled_alloca_size hsa]; exact hys⟩
  · refine ⟨xp, hold hxp, by rw [settled_kind hsp], ?_, by rw [settled_type hsp]⟩
    rw [settled_operand hsp]
  · intro k rd hrd
    obtain ⟨x, hx, h1, h2, h3⟩ := hstores k rd hrd
    exact ⟨x, hold hx, h1, h2, h3⟩
  · intro k rd rd' hrd hrd'
    obtain ⟨b, i, x, imm, h1, hx, h2, h3, h4, himm, h5, h6, h7⟩ := hadds k rd rd' hrd hrd'
    exact ⟨b, i, x, imm, h1, hold hx, h2, h3, h4, hold himm, h5, h6, h7⟩
  · rw [hlo, hvalue]
  · show (if id = id then some r.2 else _) = _
    rw [if_pos rfl, ir_.index]
  · rw [← ir_.index]; exact hl'

theorem array_literal_lowering_witness :
    example_context.node_emitted 1 = false ∧
    ir_is_closed array_example_elements array_example_elements.insert_point = false ∧
    ∃ (c' : CodegenContext) (rounds : List ElementRound),
      codegen_expr example_queries example_context array_literal = .ok c' ∧
      rounds.length = 3 ∧
      instruction_kinds c' = [.IR_ALLOCA, .IR_COPY, .IR_IMMEDIATE, .IR_STORE, .IR_IMMEDIATE,
        .IR_ADD, .IR_IMMEDIATE, .IR_STORE, .IR_IMMEDIATE, .IR_ADD, .IR_IMMEDIATE, .IR_STORE,
        .IR_LOAD] ∧
      c'.node_ir 1 = some 12 :=
  ⟨rfl, by decide!,
    match array_literal_lowering example_queries example_context array_example_pointer
      array_example_elements array_example_alloca array_example_copy 1 (.array t_integer 3)
      0 0 [number_literal 2 10, number_literal 3 20, number_literal 4 30] rfl (by simp)
      (result_inserted_ok (by decide!)) (result_inserted_ok (by decide!))
      (result_context_ok (by decide!)) (result_context_ok (by decide!)) (by decide!)
      (by decide!) with
    | ⟨c', rounds, _, _, h0, _, _, _, _, _, _, hr, _⟩ =>
        have e : c' = result_context (codegen_expr example_queries example_context
            array_literal) := by
          have h0' : codegen_expr example_queries example_context array_literal = .ok c' := h0
          rw [h0']; rfl
        ⟨c', rounds, h0, hr, by rw [e]; decide!, by rw [e]; decide!⟩⟩

/-! ## The lexer (`parser.c`) -/

theorem takeWhile_length_le {α : Type} (p : α → Bool) (l : List α) :
    (l.takeWhile p).length ≤ l.length := by
  induction l with
  | nil => simp
  | cons a l ih =>
    rw [List.takeWhile_cons]
    split
    · simp only [List.length_cons]; omega
    · simp

theorem takeWhile_lookup {α : Type} (p : α → Bool) (l : List α) :
    ∀ i, i < (l.takeWhile p).length → ∃ c, l[i]? = some c ∧ p c = true := by
  induction l with
  | nil => intro i h; simp at h
  | cons a l ih =>
    intro i h
    rw [List.takeWhile_cons] at h
    split at h
    · rename_i ha
      cases i with
      | zero => exact ⟨a, by simp, ha⟩
      | succ i =>
        simp only [List.length_cons, Nat.add_lt_add_iff_right] at h
        obtain ⟨c, hc, hp⟩ := ih i h
        exact ⟨c, by simpa using hc, hp⟩
    · simp at h

theorem takeWhile_stop {α : Type} (p : α → Bool) (l : List α) :
    ∀ c, l[(l.takeWhile p).length]? = some c → p c = false := by
  induction l with
  | nil => intro c h; simp at h
  | cons a l ih =>
    intro c h
    rw [List.takeWhile_cons] at h
    split at h
    · simp only [List.length_cons, List.getElem?_cons_succ] at h
      exact ih c h
    · rename_i ha
      simp only [List.length_nil, List.getElem?_cons_zero, Option.some.injEq] at h
      subst h
      simpa using ha

theorem lookup_drop (buf : CStr) (n i : Nat) : (buf.drop n)[i]? = buf[n + i]? := by
  simp [List.getElem?_drop]

/-- C38: `lex` returns the error `ERROR_ARGUMENTS` exactly when the source or the token
pointer is null. On a source pointer into the string and a token pointer that are not null
it returns no error and a token that begins at the first character from the source on that
is not a space, carriage return or newline (every character before it is one); the token
is empty exactly when it begins at the end of the string; otherwise it is either one
character long and that character is one of `,` `(` `)` `:`, or it is a non-empty run of
characters that are no delimiters which ends at a delimiter or at the end of the
string. -/
theorem lex_token (buf : CStr) (source : Nat) (token : Token) (hsource : source ≤ buf.length) :
    (∀ (s : Option Nat) (t : Option Token),
        (lex buf s t).1 = .ERROR_ARGUMENTS ↔ (s = none ∨ t = none)) ∧
    ∃ t : Token, lex buf (some source) (some token) = (.ERROR_NONE, some t) ∧
      source ≤ t.beginning ∧ t.beginning ≤ buf.length ∧
      (∀ i, source ≤ i → i < t.beginning → ∃ c, buf[i]? = some c ∧ c ∈ whitespace) ∧
      (∀ c, buf[t.beginning]? = some c → c ∉ whitespace) ∧
      (t.end_ = t.beginning ↔ t.beginning = buf.length) ∧
      (t.beginning < buf.length →
        (t.end_ = t.beginning + 1 ∧
          ∃ c, buf[t.beginning]? = some c ∧ c ∈ [',', '(', ')', ':']) ∨
        (t.beginning < t.end_ ∧ t.end_ ≤ buf.length ∧
          (∀ i, t.beginning ≤ i → i < t.end_ → ∃ c, buf[i]? = some c ∧ c ∉ delimiters) ∧
          (∀ c, buf[t.end_]? = some c → c ∈ delimiters))) := by
  constructor
  · intro s t
    cases s with
    | none => simp [lex]
    | some s =>
      cases t with
      | none => simp [lex]
      | some t =>
        simp only [lex, reduceCtorEq, or_self, iff_false]
        split
        · simp
        · split <;> simp
  · have hws : ∀ n, n ≤ buf.length →
        n + strspn (buf.drop n) whitespace ≤ buf.length := by
      intro n hn
      have := takeWhile_length_le (fun c => whitespace.contains c) (buf.drop n)
      simp only [List.length_drop] at this
      simp only [strspn]; omega
    have hb := hws source hsource
    have hbefore : ∀ i, source ≤ i → i < source + strspn (buf.drop source) whitespace →
        ∃ c, buf[i]? = some c ∧ c ∈ whitespace := by
      intro i h1 h2
      obtain ⟨c, hc, hp⟩ := takeWhile_lookup (fun c => whitespace.contains c) (buf.drop source)
        (i - source) (by simp only [strspn] at h2; omega)
      rw [lookup_drop] at hc
      have e : source + (i - source) = i := by omega
      rw [e] at hc
      exact ⟨c, hc, by simpa using hp⟩
    have hat : ∀ c, buf[source + strspn (buf.drop source) whitespace]? = some c →
        c ∉ whitespace := by
      intro c hc
      have := takeWhile_stop (fun c => whitespace.contains c) (buf.drop source) c
        (by rw [lookup_drop]; exact hc)
      simpa using this
    simp only [lex]
    split
    · rename_i hnone
      have hlen : buf.length ≤ source + strspn (buf.drop source) whitespace := by
        simpa using hnone
      refine ⟨_, rfl, by simp, hb, hbefore, hat, ?_, ?_⟩
      · simp only [true_iff]; omega
      · intro h; simp only at h; omega
    · rename_i c0 hsome
      have hlt : source + strspn (buf.drop source) whitespace < buf.length := by
        by_contra hn
        have : buf[source + strspn (buf.drop source) whitespace]? = none := by
          simp; omega
        rw [this] at hsome; cases hsome
      generalize hbeg : source + strspn (buf.drop source) whitespace = beginning at *
      have hrun := takeWhile_length_le (fun c => !delimiters.contains c) (buf.drop beginning)
      simp only [List.length_drop] at hrun
      have hin : ∀ i, beginning ≤ i → i < beginning + strcspn (buf.drop beginning) delimiters →
          ∃ c, buf[i]? = some c ∧ c ∉ delimiters := by
        intro i h1 h2
        obtain ⟨c, hc, hp⟩ := takeWhile_lookup (fun c => !delimiters.contains c)
          (buf.drop beginning) (i - beginning) (by simp only [strcspn] at h2; omega)
        rw [lookup_drop] at hc
        have e : beginning + (i - beginning) = i := by omega
        rw [e] at hc
        exact ⟨c, hc, by simpa using hp⟩
      have hend : ∀ c, buf[beginning + strcspn (buf.drop beginning) delimiters]? = some c →
          c ∈ delimiters := by
        intro c hc
        have := takeWhile_stop (fun c => !delimiters.contains c) (buf.drop beginning) c
          (by rw [lookup_drop]; exact hc)
        simpa using this
      split
      · rename_i hzero
        have hz : strcspn (buf.drop beginning) delimiters = 0 := by omega
        refine ⟨_, rfl, by simp only; omega, by simp only; omega, hbefore, hat, ?_, ?_⟩
        · simp only; constructor <;> intro h <;> omega
        · intro _
          left
          refine ⟨by simp only; omega, c0, hsome, ?_⟩
          have hd := hend c0 (by rw [hz]; simpa using hsome)
          have hw := hat c0 hsome
          simp only [delimiters, whitespace, List.mem_cons, List.mem_singleton,
            List.not_mem_nil, or_false] at hd hw ⊢
          tauto
      · rename_i hpos
        refine ⟨_, rfl, by simp only; omega, by simp only; omega, hbefore, hat, ?_, ?_⟩
        · simp only; constructor <;> intro h <;> omega
        · intro _
          right
          exact ⟨by simp only; omega, by simp only [strcspn]; omega, hin, hend⟩

theorem lex_token_witness :
    (3 : Nat) ≤ "ab  cd:e".toList.length ∧
    ∃ t : Token, lex "ab  cd:e".toList (some 3) (some {}) = (.ERROR_NONE, some t) ∧
      t.beginning = 4 ∧ t.end_ = 6 := by
  obtain ⟨_, t, h, -⟩ := lex_token "ab  cd:e".toList 3 {} (by decide)
  refine ⟨by decide, t, h, ?_, ?_⟩
  · have e : t = (lex "ab  cd:e".toList (some 3) (some {})).2.getD {} := by rw [h]; rfl
    rw [e]; decide
  · have e : t = (lex "ab  cd:e".toList (some 3) (some {})).2.getD {} := by rw [h]; rfl
    rw [e]; decide

/-! ## Comparison of a token with a string, and the integer parser (`parser.c`) -/

theorem token_string_equalp_loop_initial (buf : CStr) (token : Token)
    (hopen : token.beginning < token.end_) :
    ∀ (string : CStr) (beg : Nat),
      (token_string_equalp_loop buf token string beg = 1 ↔ string <+: buf.drop beg) ∧
      (token_string_equalp_loop buf token string beg = 1 ∨
        token_string_equalp_loop buf token string beg = 0) := by
  intro string
  induction string with
  | nil => intro beg; simp [token_string_equalp_loop]
  | cons c string ih =>
    intro beg
    simp only [token_string_equalp_loop, hopen, if_true]
    cases hb : buf[beg]? with
    | none =>
      have hd : buf.drop beg = [] := by
        have : buf.length ≤ beg := by simpa using hb
        exact List.drop_eq_nil_of_le this
      simp [hd]
    | some d =>
      have hd : buf.drop beg = d :: buf.drop (beg + 1) := by
        have hlt : beg < buf.length := by
          by_contra hn
          have : buf[beg]? = none := by simp; omega
          rw [this] at hb; cases hb
        rw [List.drop_eq_getElem_cons hlt]
        congr 1
        have := List.getElem?_eq_getElem hlt
        rw [this] at hb
        exact Option.some.inj hb
      by_cases hcd : d = c
      · subst hcd
        simp only [ne_eq, not_true_eq_false, if_false, hd, List.cons_prefix_cons, true_and]
        exact ih (beg + 1)
      · have hne : (some d : Option Char) ≠ some c := by
          intro h; exact hcd (Option.some.inj h)
        simp only [ne_eq, hne, not_false_eq_true, if_true, hd, List.cons_prefix_cons]
        constructor
        · constructor
          · intro h; cases h
          · intro h; exact absurd h.1.symm hcd
        · right; trivial

/-- C40 (the code against the claim): `token_string_equalp` returns 0 when the string or
the token pointer is null and 0 or 1 otherwise, but 1 does not mean that the text of the
token equals the string: on an empty token (`beginning >= end`) it returns 1 for every
string, and on a non-empty token it returns 1 exactly when the string is an initial
segment of the source text from the beginning of the token on, whatever the end of the
token is (the loop tests `token->beginning < token->end`, which never changes). So the
string `a` is found equal to the token `ab`, and the string `ab,c` to the token `ab` of the
text `ab,c`. -/
theorem token_string_equalp_tests_an_initial_segment (buf : CStr) (string : CStr)
    (token : Token) :
    (∀ t, token_string_equalp buf none t = 0) ∧
    (∀ s, token_string_equalp buf s none = 0) ∧
    (token_string_equalp buf (some string) (some token) = 1 ∨
      token_string_equalp buf (some string) (some token) = 0) ∧
    (token.end_ ≤ token.beginning → token_string_equalp buf (some string) (some token) = 1) ∧
    (token.beginning < token.end_ →
      (token_string_equalp buf (some string) (some token) = 1
        ↔ string <+: buf.drop token.beginning)) ∧
    (token_string_equalp "ab".toList (some "a".toList) (some { beginning := 0, end_ := 2 }) = 1 ∧
      Token.text "ab".toList { beginning := 0, end_ := 2 } = "ab".toList) ∧
    (token_string_equalp "ab,c".toList (some "ab,c".toList)
        (some { beginning := 0, end_ := 2 }) = 1 ∧
      Token.text "ab,c".toList { beginning := 0, end_ := 2 } = "ab".toList) := by
  refine ⟨fun t => by simp [token_string_equalp], fun s => ?_, ?_, ?_, ?_, by decide, by decide⟩
  · cases s <;> simp [token_string_equalp]
  · by_cases hopen : token.beginning < token.end_
    · exact (token_string_equalp_loop_initial buf token hopen string token.beginning).2
    · left
      cases string with
      | nil => simp [token_string_equalp, token_string_equalp_loop]
      | cons c s => simp [token_string_equalp, token_string_equalp_loop, hopen]
  · intro h
    have hopen : ¬ token.beginning < token.end_ := by omega
    cases string with
    | nil => simp [token_string_equalp, token_string_equalp_loop]
    | cons c s => simp [token_string_equalp, token_string_equalp_loop, hopen]
  · intro hopen
    exact (token_string_equalp_loop_initial buf token hopen string token.beginning).1

theorem token_string_equalp_tests_an_initial_segment_witness :
    (0 : Nat) < 2 ∧
    (token_string_equalp "ab".toList (some "a".toList) (some { beginning := 0, end_ := 2 }) = 1
      ↔ "a".toList <+: ("ab".toList).drop 0) :=
  ⟨by decide,
    (token_string_equalp_tests_an_initial_segment "ab".toList "a".toList
      { beginning := 0, end_ := 2 }).2.2.2.2.1 (by decide)⟩

theorem digit_not_space (c : Char) (h : is_digit c = true) : isspace c = false := by
  simp only [isspace, Bool.or_eq_false_iff, beq_eq_false_iff_ne, ne_eq]
  simp only [is_digit, Bool.and_eq_true, decide_eq_true_eq] at h
  refine ⟨⟨⟨⟨⟨?_, ?_⟩, ?_⟩, ?_⟩, ?_⟩, ?_⟩ <;> (intro e; subst e; revert h; decide)

theorem digit_not_sign (c : Char) (h : is_digit c = true) : c ≠ '-' ∧ c ≠ '+' := by
  simp only [is_digit, Bool.and_eq_true, decide_eq_true_eq] at h
  constructor <;> (intro e; subst e; revert h; decide)

theorem takeWhile_append_stop {α : Type} (p : α → Bool) (a b : List α)
    (ha : ∀ c ∈ a, p c = true) (hb : ∀ c, b.head? = some c → p c = false) :
    (a ++ b).takeWhile p = a := by
  induction a with
  | nil =>
    cases b with
    | nil => simp
    | cons c b => simp [List.takeWhile_cons, hb c (by simp)]
  | cons x a ih =>
    simp only [List.cons_append, List.takeWhile_cons, ha x (by simp), if_true]
    rw [ih (fun c hc => ha c (by simp [hc]))]

theorem dropWhile_append_stop {α : Type} (p : α → Bool) (a b : List α)
    (ha : ∀ c ∈ a, p c = true) (hb : ∀ c, b.head? = some c → p c = false) :
    (a ++ b).dropWhile p = b := by
  induction a with
  | nil =>
    cases b with
    | nil => simp
    | cons c b => simp [List.dropWhile_cons, hb c (by simp)]
  | cons x a ih =>
    simp only [List.cons_append, List.dropWhile_cons, ha x (by simp), if_true]
    exact ih (fun c hc => ha c (by simp [hc]))

theorem takeWhile_all {α : Type} (p : α → Bool) (l : List α) :
    ∀ c ∈ l.takeWhile p, p c = true := by
  intro c hc
  exact (List.mem_takeWhile_imp hc)

theorem dropWhile_head {α : Type} (p : α → Bool) (l : List α) :
    ∀ c, (l.dropWhile p).head? = some c → p c = false := by
  induction l with
  | nil => intro c h; simp at h
  | cons a l ih =>
    intro c h
    rw [List.dropWhile_cons] at h
    split at h
    · exact ih c h
    · rename_i ha
      simp only [List.head?_cons, Option.some.injEq] at h
      subst h; simpa using ha

theorem strtoll_of_parts (ws sg ds rest : CStr)
    (hws : ∀ c ∈ ws, isspace c = true)
    (hsg : sg = [] ∨ sg = ['-'] ∨ sg = ['+'])
    (hds : ds ≠ []) (hdigits : ∀ c ∈ ds, is_digit c = true)
    (hrest : ∀ c, rest.head? = some c → is_digit c = false) :
    strtoll (ws ++ (sg ++ (ds ++ rest)))
      = (clamp_long_long (if sg = ['-'] then -((value_of ds : Nat) : Int)
          else ((value_of ds : Nat) : Int)),
        ws.length + sg.length + ds.length) := by
  obtain ⟨d, ds', hcons⟩ := List.exists_cons_of_ne_nil hds
  have hd := hdigits d (by simp [hcons])
  have hdsp := digit_not_space d hd
  have hdsg := digit_not_sign d hd
  have hdig : (ds ++ rest).takeWhile is_digit = ds :=
    takeWhile_append_stop is_digit _ rest hdigits hrest
  have hhead : (ds ++ rest).head? = some d := by simp [hcons]
  generalize ds ++ rest = X at hdig hhead
  have hstop : ∀ c, (sg ++ X).head? = some c → isspace c = false := by
    intro c hc
    rcases hsg with rfl | rfl | rfl
    · rw [List.nil_append, hhead] at hc; cases hc; exact hdsp
    · simp at hc; subst hc; decide
    · simp at hc; subst hc; decide
  have htake := takeWhile_append_stop isspace ws _ hws hstop
  have h1 : ¬ (some d = some '-' ∨ some d = some '+') := by
    intro h
    rcases h with h | h
    · exact hdsg.1 (Option.some.inj h)
    · exact hdsg.2 (Option.some.inj h)
  have h2 : ¬ (some d = some '-') := fun h => hdsg.1 (Option.some.inj h)
  simp only [strtoll, htake, List.drop_left]
  rcases hsg with rfl | rfl | rfl
  · rw [List.nil_append, hhead, if_neg h1, List.drop_zero, hdig, if_neg hds, if_neg h2,
      if_neg (by decide)]
    rfl
  · have e : (['-'] ++ X).head? = some '-' := rfl
    have e2 : (['-'] ++ X).drop 1 = X := rfl
    rw [e, if_pos (Or.inl rfl), e2, hdig, if_neg hds, if_pos rfl, if_pos rfl]
    rfl
  · have e : (['+'] ++ X).head? = some '+' := rfl
    have e2 : (['+'] ++ X).drop 1 = X := rfl
    rw [e, if_pos (Or.inr rfl), e2, hdig, if_neg hds, if_neg (by decide), if_neg (by decide)]
    rfl

theorem drop_takeWhile_length {α : Type} (p : α → Bool) (l : List α) :
    l.drop (l.takeWhile p).length = l.dropWhile p := by
  induction l with
  | nil => simp
  | cons a l ih =>
    rw [List.takeWhile_cons, List.dropWhile_cons]
    split
    · simpa using ih
    · simp

theorem strtoll_parts (s : CStr) :
    strtoll s = (0, 0) ∨
    ∃ ws sg ds rest, s = ws ++ (sg ++ (ds ++ rest)) ∧ (∀ c ∈ ws, isspace c = true) ∧
      (sg = [] ∨ sg = ['-'] ∨ sg = ['+']) ∧ ds ≠ [] ∧ (∀ c ∈ ds, is_digit c = true) ∧
      (∀ c, rest.head? = some c → is_digit c = false) := by
  have hs : s = s.takeWhile isspace ++ s.dropWhile isspace :=
    (List.takeWhile_append_dropWhile isspace s).symm
  have hdrop := drop_takeWhile_length isspace s
  generalize hr : s.dropWhile isspace = r at hs hdrop
  have hsplit : ∃ sg r', r = sg ++ r' ∧ (sg = [] ∨ sg = ['-'] ∨ sg = ['+']) ∧
      sg.length = (if r.head? = some '-' ∨ r.head? = some '+' then 1 else 0) := by
    by_cases h : r.head? = some '-' ∨ r.head? = some '+'
    · cases r with
      | nil => simp at h
      | cons c r' =>
        simp only [List.head?_cons, Option.some.injEq] at h
        rcases h with rfl | rfl
        · exact ⟨['-'], r', rfl, Or.inr (Or.inl rfl), by simp⟩
        · exact ⟨['+'], r', rfl, Or.inr (Or.inr rfl), by simp⟩
    · exact ⟨[], r, rfl, Or.inl rfl, by simp [h]⟩
  obtain ⟨sg, r', hr', hsg, hlen⟩ := hsplit
  have hd2 : r.drop sg.length = r' := by rw [hr']; exact List.drop_left sg r'
  by_cases hds : r'.takeWhile is_digit = []
  · left
    simp only [strtoll, hdrop, ← hlen, hd2, hds, if_true]
  · right
    refine ⟨s.takeWhile isspace, sg, r'.takeWhile is_digit, r'.dropWhile is_digit, ?_,
      takeWhile_all isspace s, hsg, hds, takeWhile_all is_digit r', dropWhile_head is_digit r'⟩
    rw [List.takeWhile_append_dropWhile, ← hr']
    exact hs

theorem decimal_literal_of_parts (sg ds : CStr) (hsg : sg = [] ∨ sg = ['-'] ∨ sg = ['+'])
    (hds : ds ≠ []) (hdigits : ∀ c ∈ ds, is_digit c = true) :
    decimal_literal (sg ++ ds)
      = some (if sg = ['-'] then -((value_of ds : Nat) : Int) else ((value_of ds : Nat) : Int)) := by
  obtain ⟨d, ds', hcons⟩ := List.exists_cons_of_ne_nil hds
  have hd := hdigits d (by simp [hcons])
  have hdsg := digit_not_sign d hd
  have hall : ds.all is_digit = true := by simpa using hdigits
  have hhead : ds.head? = some d := by simp [hcons]
  have h1 : ¬ (some d = some '-' ∨ some d = some '+') := by
    intro h
    rcases h with h | h
    · exact hdsg.1 (Option.some.inj h)
    · exact hdsg.2 (Option.some.inj h)
  have h2 : ¬ (some d = some '-') := fun h => hdsg.1 (Option.some.inj h)
  simp only [decimal_literal]
  rcases hsg with rfl | rfl | rfl
  · rw [List.nil_append, hhead, if_neg h1, List.drop_zero, if_pos ⟨hds, hall⟩, if_neg h2,
      if_neg (by decide)]
  · have e : (['-'] ++ ds).head? = some '-' := rfl
    have e2 : (['-'] ++ ds).drop 1 = ds := rfl
    rw [e, if_pos (Or.inl rfl), e2, if_pos ⟨hds, hall⟩, if_pos rfl, if_pos rfl]
  · have e : (['+'] ++ ds).head? = some '+' := rfl
    have e2 : (['+'] ++ ds).drop 1 = ds := rfl
    rw [e, if_pos (Or.inr rfl), e2, if_pos ⟨hds, hall⟩, if_neg (by decide), if_neg (by decide)]

theorem decimal_literal_parts (l : CStr) (v : Int) (h : decimal_literal l = some v) :
    ∃ sg ds, l = sg ++ ds ∧ (sg = [] ∨ sg = ['-'] ∨ sg = ['+']) ∧ ds ≠ [] ∧
      (∀ c ∈ ds, is_digit c = true) := by
  simp only [decimal_literal] at h
  by_cases hh : l.head? = some '-' ∨ l.head? = some '+'
  · rw [if_pos hh] at h
    split at h
    · rename_i hc
      cases l with
      | nil => simp at hh
      | cons c l' =>
        simp only [List.head?_cons, Option.some.injEq] at hh
        refine ⟨[c], l', rfl, ?_, by simpa using hc.1, by simpa using hc.2⟩
        rcases hh with rfl | rfl
        · exact Or.inr (Or.inl rfl)
        · exact Or.inr (Or.inr rfl)
    · cases h
  · rw [if_neg hh] at h
    split at h
    · rename_i hc
      exact ⟨[], l, rfl, Or.inl rfl, by simpa using hc.1, by simpa using hc.2⟩
    · cases h

theorem clamp_long_long_eq_zero (v : Int) : clamp_long_long v = 0 ↔ v = 0 := by
  simp only [clamp_long_long, LLONG_MAX, LLONG_MIN]
  split
  · constructor <;> intro h <;> omega
  · split
    · constructor <;> intro h <;> omega
    · rfl

theorem sign_head_not_space (sg ds : CStr) (hsg : sg = [] ∨ sg = ['-'] ∨ sg = ['+'])
    (hds : ds ≠ []) (hdigits : ∀ c ∈ ds, is_digit c = true) :
    ∀ c, (sg ++ ds).head? = some c → isspace c = false := by
  intro c hc
  obtain ⟨d, ds', hcons⟩ := List.exists_cons_of_ne_nil hds
  rcases hsg with rfl | rfl | rfl
  · rw [List.nil_append, hcons] at hc
    simp only [List.head?_cons, Option.some.injEq] at hc
    subst hc
    exact digit_not_space _ (hdigits _ (by simp [hcons]))
  · simp at hc; subst hc; decide
  · simp at hc; subst hc; decide

theorem strtoll_of_literal (text rest : CStr) (v : Int)
    (hrest : ∀ c, rest.head? = some c → is_digit c = false)
    (h : decimal_literal (text.dropWhile isspace) = some v) :
    strtoll (text ++ rest) = (clamp_long_long v, text.length) := by
  obtain ⟨sg, ds, hl, hsg, hds, hdigits⟩ := decimal_literal_parts _ v h
  have ht : text = text.takeWhile isspace ++ (sg ++ ds) := by
    rw [← hl]; exact (List.takeWhile_append_dropWhile isspace text).symm
  have hv := decimal_literal_of_parts sg ds hsg hds hdigits
  rw [← hl, h] at hv
  have e : text ++ rest = text.takeWhile isspace ++ (sg ++ (ds ++ rest)) := by
    conv_lhs => rw [ht]
    simp only [List.append_assoc]
  rw [e, strtoll_of_parts _ sg ds rest (takeWhile_all isspace text) hsg hds hdigits hrest,
    ← Option.some.inj hv]
  congr 1
  conv_rhs => rw [ht]
  simp only [List.length_append]
  omega

theorem literal_of_strtoll (s : CStr) (h : (strtoll s).1 ≠ 0) :
    ∃ v, decimal_literal ((s.take (strtoll s).2).dropWhile isspace) = some v := by
  rcases strtoll_parts s with h0 | ⟨ws, sg, ds, rest, hs, hws, hsg, hds, hdigits, hrest⟩
  · rw [h0] at h; exact absurd rfl h
  · have e := strtoll_of_parts ws sg ds rest hws hsg hds hdigits hrest
    rw [← hs] at e
    have ht : s.take (strtoll s).2 = ws ++ (sg ++ ds) := by
      rw [e]
      conv_lhs => rw [hs]
      have : ws ++ (sg ++ (ds ++ rest)) = (ws ++ (sg ++ ds)) ++ rest := by
        simp only [List.append_assoc]
      rw [this]
      have hlen : ws.length + sg.length + ds.length = (ws ++ (sg ++ ds)).length := by
        simp only [List.length_append]; omega
      show List.take (ws.length + sg.length + ds.length) _ = _
      rw [hlen, List.take_left]
    rw [ht, dropWhile_append_stop isspace ws _ hws
      (sign_head_not_space sg ds hsg hds hdigits)]
    exact ⟨_, decimal_literal_of_parts sg ds hsg hds hdigits⟩

theorem token_text_split (buf : CStr) (token : Token)
    (hbounds : token.beginning ≤ token.end_ ∧ token.end_ ≤ buf.length) :
    buf.drop token.beginning = Token.text buf token ++ buf.drop token.end_ ∧
    (Token.text buf token).length = token.end_ - token.beginning := by
  constructor
  · have h := (List.take_append_drop (token.end_ - token.beginning)
      (buf.drop token.beginning)).symm
    rw [List.drop_drop] at h
    have e2 : token.beginning + (token.end_ - token.beginning) = token.end_ := by omega
    rw [e2] at h
    exact h
  · simp only [Token.text, List.length_take, List.length_drop]
    omega

/-- C39 (the code against the claim): on a token that lies in the source text and is not
followed by a digit, `parse_integer` returns 1 or 0, and it returns 1 exactly when the
text of the token, after the white space that `strtoll` skips at its beginning, is a decimal
integer literal (an optional sign, then one or more digits) and either the value of the
literal is not zero or the text is the single character `0`. So the literals of value zero
other than `0` itself (`00`, `-0`, `+0`) are rejected: for them `strtoll` returns 0, which
the function takes for a failed conversion. When the function returns 1 the node has the
type integer and the value of the literal, brought into the range of `long long` (a
literal beyond the range gives the nearest bound). With a null token or node it returns
0. -/
theorem parse_integer_on_delimited_token (buf : CStr) (token : Token) (node : ParseNode)
    (hbounds : token.beginning ≤ token.end_ ∧ token.end_ ≤ buf.length)
    (hnext : ∀ c, buf[token.end_]? = some c → is_digit c = false) :
    (∀ n, parse_integer buf none n = (0, n)) ∧
    (∀ t, parse_integer buf t none = (0, none)) ∧
    ((parse_integer buf (some token) (some node)).1 = 1 ∨
      (parse_integer buf (some token) (some node)).1 = 0) ∧
    ((parse_integer buf (some token) (some node)).1 = 1 ↔
      ∃ v, decimal_literal ((Token.text buf token).dropWhile isspace) = some v ∧
        (v ≠ 0 ∨ Token.text buf token = ['0'])) ∧
    (∀ v, decimal_literal ((Token.text buf token).dropWhile isspace) = some v →
      (v ≠ 0 ∨ Token.text buf token = ['0']) →
      (parse_integer buf (some token) (some node)).2
        = some { type := .NODE_TYPE_INTEGER, integer := clamp_long_long v }) := by
  obtain ⟨hsplit, hlen⟩ := token_text_split buf token hbounds
  have hrest : ∀ c, (buf.drop token.end_).head? = some c → is_digit c = false := by
    intro c hc
    apply hnext c
    rw [← hc, List.head?_drop]
  have hzero : Token.text buf token = ['0'] ↔
      ((token.end_ : Int) - token.beginning = 1 ∧ buf[token.beginning]? = some '0') := by
    have hh : buf[token.beginning]? = (buf.drop token.beginning).head? := by
      rw [List.head?_drop]
    constructor
    · intro h
      rw [h] at hlen hsplit
      simp only [List.length_singleton] at hlen
      refine ⟨by omega, ?_⟩
      rw [hh, hsplit]; rfl
    · intro h
      have h1 : token.end_ - token.beginning = 1 := by omega
      rw [h1] at hlen
      rw [hh, hsplit] at h
      cases ht : Token.text buf token with
      | nil => rw [ht] at hlen; simp at hlen
      | cons c l =>
        rw [ht] at hlen h
        simp only [List.length_cons, Nat.add_left_eq_self, List.length_eq_zero] at hlen
        simp only [List.cons_append, List.head?_cons, Option.some.injEq] at h
        rw [hlen, h.2]
  refine ⟨fun n => by cases n <;> rfl, fun t => by cases t <;> rfl, ?_⟩
  by_cases hz : ((token.end_ : Int) - token.beginning = 1 ∧ buf[token.beginning]? = some '0')
  · have hp : parse_integer buf (some token) (some node)
        = (1, some { type := .NODE_TYPE_INTEGER, integer := 0 }) := by
      simp only [parse_integer, hz, and_self, if_true]
    have ht := hzero.mpr hz
    have hd : decimal_literal ((Token.text buf token).dropWhile isspace) = some 0 := by
      rw [ht]; decide
    rw [hp]
    refine ⟨Or.inl rfl, ⟨fun _ => ⟨0, hd, Or.inr ht⟩, fun _ => rfl⟩, ?_⟩
    intro v hv _
    rw [hd] at hv
    cases hv
    rfl
  · have hnz : ¬ Token.text buf token = ['0'] := fun h => hz (hzero.mp h)
    by_cases hr : (strtoll (buf.drop token.beginning)).1 ≠ 0
    · by_cases he : token.beginning + (strtoll (buf.drop token.beginning)).2 ≠ token.end_
      · have hp : (parse_integer buf (some token) (some node)).1 = 0 := by
          simp only [parse_integer, hz, if_false, hr, he, ne_eq, not_false_eq_true, if_true]
        have hno : ∀ v, decimal_literal ((Token.text buf token).dropWhile isspace) = some v →
            False := by
          intro v hv
          have := strtoll_of_literal _ _ v hrest hv
          rw [← hsplit] at this
          rw [this] at he
          simp only at he
          omega
        refine ⟨Or.inr hp, ⟨fun h => ?_, fun ⟨v, hv, _⟩ => (hno v hv).elim⟩,
          fun v hv _ => (hno v hv).elim⟩
        rw [hp] at h; cases h
      · have he' : token.beginning + (strtoll (buf.drop token.beginning)).2 = token.end_ := by
          omega
        have hp : parse_integer buf (some token) (some node)
            = (1, some ⟨.NODE_TYPE_INTEGER, (strtoll (buf.drop token.beginning)).1⟩) := by
          simp only [parse_integer, hz, if_false, hr, he', ne_eq, not_false_eq_true, if_true,
            not_true_eq_false]
        obtain ⟨v, hv⟩ := literal_of_strtoll _ hr
        have htake : (buf.drop token.beginning).take (strtoll (buf.drop token.beginning)).2
            = Token.text buf token := by
          have : (strtoll (buf.drop token.beginning)).2 = token.end_ - token.beginning := by
            omega
          rw [this]; rfl
        rw [htake] at hv
        have hs := strtoll_of_literal _ _ v hrest hv
        rw [← hsplit] at hs
        have hv0 : v ≠ 0 := by
          intro h0
          rw [hs] at hr
          exact hr ((clamp_long_long_eq_zero v).mpr h0)
        rw [hp]
        refine ⟨Or.inl rfl, ⟨fun _ => ⟨v, hv, Or.inl hv0⟩, fun _ => rfl⟩, ?_⟩
        intro w hw _
        rw [hv] at hw
        cases hw
        rw [hs]
    · have hr0 : (strtoll (buf.drop token.beginning)).1 = 0 := by
        by_contra h; exact hr h
      have hp : (parse_integer buf (some token) (some node)).1 = 0 := by
        simp only [parse_integer, hz, if_false, hr0, ne_eq, not_true_eq_false]
      have hno : ∀ v, decimal_literal ((Token.text buf token).dropWhile isspace) = some v →
          v = 0 := by
        intro v hv
        have := strtoll_of_literal _ _ v hrest hv
        rw [← hsplit] at this
        rw [this] at hr0
        exact (clamp_long_long_eq_zero v).mp hr0
      refine ⟨Or.inr hp, ⟨fun h => ?_, fun ⟨v, hv, hc⟩ => ?_⟩, fun v hv hc => ?_⟩
      · rw [hp] at h; cases h
      · rcases hc with hc | hc
        · exact absurd (hno v hv) hc
        · exact absurd hc hnz
      · rcases hc with hc | hc
        · exact absurd (hno v hv) hc
        · exact absurd hc hnz

theorem parse_integer_on_delimited_token_witness :
    ((0 : Nat) ≤ 2 ∧ 2 ≤ "00".toList.length) ∧
    (∀ c, ("00".toList)[2]? = some c → is_digit c = false) ∧
    decimal_literal ((Token.text "00".toList { beginning := 0, end_ := 2 }).dropWhile isspace)
      = some 0 ∧
    (parse_integer "00".toList (some { beginning := 0, end_ := 2 }) (some {})).1 = 0 ∧
    ((parse_integer "00".toList (some { beginning := 0, end_ := 2 }) (some {})).1 = 1 ↔
      ∃ v, decimal_literal
          ((Token.text "00".toList { beginning := 0, end_ := 2 }).dropWhile isspace) = some v ∧
        (v ≠ 0 ∨ Token.text "00".toList { beginning := 0, end_ := 2 } = ['0'])) :=
  ⟨by decide, by decide, by decide, by decide,
    (parse_integer_on_delimited_token "00".toList { beginning := 0, end_ := 2 } {}
      (by decide) (by decide)).2.2.2.1⟩

/-! ## The operand list of a MIR instruction (`mir_add_op`, `mir_get_op`) -/

/-- The operands `ops` are what the instruction `x` holds: its count is their number, and
they lie in the inline array while they are at most `MIR_OPERAND_SSO_THRESHOLD` and in the
vector afterwards. -/
theorem mir_add_op_inst_holds (x : MIRInstruction) (ops : List MIROperand) (op : MIROperand)
    (hop : op ≠ .none)
    (hcount : x.operand_count = ops.length)
    (harr : x.operands_arr.length = MIR_OPERAND_SSO_THRESHOLD)
    (hinline : ops.length ≤ MIR_OPERAND_SSO_THRESHOLD → x.operands_arr.take ops.length = ops)
    (hvec : MIR_OPERAND_SSO_THRESHOLD < ops.length → x.operands_vec = ops) :
    ∃ y, mir_add_op_inst x op = .ok y ∧
      y.operand_count = (ops ++ [op]).length ∧
      y.operands_arr.length = MIR_OPERAND_SSO_THRESHOLD ∧
      ((ops ++ [op]).length ≤ MIR_OPERAND_SSO_THRESHOLD →
        y.operands_arr.take (ops ++ [op]).length = ops ++ [op]) ∧
      (MIR_OPERAND_SSO_THRESHOLD < (ops ++ [op]).length → y.operands_vec = ops ++ [op]) := by
  simp only [mir_add_op_inst, if_neg hop, hcount, List.length_append, List.length_singleton]
  by_cases h1 : ops.length < MIR_OPERAND_SSO_THRESHOLD
  · rw [if_pos h1]
    refine ⟨_, rfl, rfl, by simpa using harr, ?_, ?_⟩
    · intro _
      show List.take (ops.length + 1) (x.operands_arr.set ops.length op) = ops ++ [op]
      rw [List.take_succ, List.set_take,
        List.set_eq_of_length_le (by simp), hinline (Nat.le_of_lt h1)]
      have : (x.operands_arr.set ops.length op)[ops.length]? = some op := by
        rw [List.getElem?_set_self]
        simp [harr, h1]
      rw [this]; rfl
    · intro h; omega
  · rw [if_neg h1]
    by_cases h2 : ops.length = MIR_OPERAND_SSO_THRESHOLD
    · rw [if_pos h2]
      refine ⟨_, rfl, rfl, harr, ?_, ?_⟩
      · intro h; omega
      · intro _
        show List.take MIR_OPERAND_SSO_THRESHOLD x.operands_arr ++ [op] = ops ++ [op]
        rw [← h2, hinline (Nat.le_of_eq h2)]
    · rw [if_neg h2]
      refine ⟨_, rfl, rfl, harr, ?_, ?_⟩
      · intro h; omega
      · intro _
        show x.operands_vec ++ [op] = ops ++ [op]
        rw [hvec (by omega)]

theorem mir_add_ops_hold (ops : List MIROperand) :
    ∀ (x : MIRInstruction) (before : List MIROperand),
      (∀ op ∈ ops, op ≠ .none) →
      x.operand_count = before.length →
      x.operands_arr.length = MIR_OPERAND_SSO_THRESHOLD →
      (before.length ≤ MIR_OPERAND_SSO_THRESHOLD →
        x.operands_arr.take before.length = before) →
      (MIR_OPERAND_SSO_THRESHOLD < before.length → x.operands_vec = before) →
      ∃ y, ops.foldlM mir_add_op_inst x = .ok y ∧
        y.operand_count = (before ++ ops).length ∧
        y.operands_arr.length = MIR_OPERAND_SSO_THRESHOLD ∧
        ((before ++ ops).length ≤ MIR_OPERAND_SSO_THRESHOLD →
          y.operands_arr.take (before ++ ops).length = before ++ ops) ∧
        (MIR_OPERAND_SSO_THRESHOLD < (before ++ ops).length →
          y.operands_vec = before ++ ops) := by
  induction ops with
  | nil =>
    intro x before _ h1 h2 h3 h4
    exact ⟨x, rfl, by simpa using h1, h2, by simpa using h3, by simpa using h4⟩
  | cons op ops ih =>
    intro x before hk h1 h2 h3 h4
    obtain ⟨y, e, g1, g2, g3, g4⟩ :=
      mir_add_op_inst_holds x before op (hk op (by simp)) h1 h2 h3 h4
    obtain ⟨z, e', k⟩ := ih y (before ++ [op]) (fun o ho => hk o (by simp [ho])) g1 g2 g3 g4
    refine ⟨z, ?_, ?_⟩
    · rw [List.foldlM_cons, e]; exact e'
    · simpa using k

theorem mir_get_op_of_held (x : MIRInstruction) (ops : List MIROperand)
    (hcount : x.operand_count = ops.length)
    (hinline : ops.length ≤ MIR_OPERAND_SSO_THRESHOLD → x.operands_arr.take ops.length = ops)
    (hvec : MIR_OPERAND_SSO_THRESHOLD < ops.length → x.operands_vec = ops)
    (i : Nat) (op : MIROperand) (hi : ops[i]? = some op) : mir_get_op x i = .ok op := by
  have hlt : i < ops.length := by
    by_contra hn
    have : ops[i]? = none := by simp; omega
    rw [this] at hi; cases hi
  simp only [mir_get_op, hcount, if_pos hlt]
  by_cases h : ops.length ≤ MIR_OPERAND_SSO_THRESHOLD
  · rw [if_pos h]
    have e : x.operands_arr[i]? = (x.operands_arr.take ops.length)[i]? := by
      rw [List.getElem?_take_of_lt hlt]
    rw [e, hinline h, hi]
  · rw [if_neg h, hvec (by omega), hi]

/-- C35: on an instruction without operands, whose inline array has its
`MIR_OPERAND_SSO_THRESHOLD` slots, every sequence of operands none of which is of kind None
can be added with `mir_add_op` one after the other; afterwards `operand_count` is the
number of operands added and `mir_get_op(inst, i)` is the operand added at position `i`,
for every `i` below that number. The operands lie in the inline array while they are at
most `MIR_OPERAND_SSO_THRESHOLD` (four) and in the vector when they are more. One more
`mir_add_op` leaves every operand added before as it is. -/
theorem operands_follow_the_additions (inst : MIRInstruction) (ops : List MIROperand)
    (hcount : inst.operand_count = 0)
    (harr : inst.operands_arr.length = MIR_OPERAND_SSO_THRESHOLD)
    (hkinds : ∀ op ∈ ops, op ≠ .none) :
    ∃ x, ops.foldlM mir_add_op_inst inst = .ok x ∧
      x.operand_count = ops.length ∧
      (∀ (i : Nat) (op : MIROperand), ops[i]? = some op → mir_get_op x i = .ok op) ∧
      (ops.length ≤ MIR_OPERAND_SSO_THRESHOLD → x.operands_arr.take ops.length = ops) ∧
      (MIR_OPERAND_SSO_THRESHOLD < ops.length → x.operands_vec = ops) ∧
      (∀ next : MIROperand, next ≠ .none →
        ∃ y, mir_add_op_inst x next = .ok y ∧ y.operand_count = ops.length + 1 ∧
          mir_get_op y ops.length = .ok next ∧
          ∀ (i : Nat) (op : MIROperand), ops[i]? = some op →
            mir_get_op y i = .ok op ∧ mir_get_op y i = mir_get_op x i) := by
  obtain ⟨x, e, h1, h2, h3, h4⟩ := mir_add_ops_hold ops inst [] hkinds
    (by simpa using hcount) harr (by intro _; rfl) (by intro h; simp at h)
  simp only [List.nil_append] at h1 h3 h4
  refine ⟨x, e, h1, mir_get_op_of_held x ops h1 h3 h4, h3, h4, ?_⟩
  intro next hnext
  obtain ⟨y, ey, g1, _, g3, g4⟩ := mir_add_op_inst_holds x ops next hnext h1 h2 h3 h4
  refine ⟨y, ey, by simpa using g1, ?_, ?_⟩
  · exact mir_get_op_of_held y (ops ++ [next]) g1 g3 g4 ops.length next (by simp)
  · intro i op hi
    have hlt : i < ops.length := by
      by_contra hn
      have : ops[i]? = none := by simp; omega
      rw [this] at hi; cases hi
    have hy := mir_get_op_of_held y (ops ++ [next]) g1 g3 g4 i op
      (by rw [List.getElem?_append_left hlt]; exact hi)
    exact ⟨hy, by rw [hy, mir_get_op_of_held x ops h1 h3 h4 i op hi]⟩

theorem operands_follow_the_additions_witness :
    ∃ x, [MIROperand.immediate 1, .immediate 2, .immediate 3, .immediate 4,
        .immediate 5].foldlM mir_add_op_inst { opcode := .common .IR_CALL } = .ok x ∧
      x.operand_count = 5 ∧ mir_get_op x 4 = .ok (.immediate 5) ∧
      mir_get_op x 0 = .ok (.immediate 1) := by
  obtain ⟨x, e, h1, h2, -⟩ := operands_follow_the_additions { opcode := .common .IR_CALL }
    [.immediate 1, .immediate 2, .immediate 3, .immediate 4, .immediate 5] rfl rfl
    (by decide)
  exact ⟨x, e, h1, h2 4 _ rfl, h2 0 _ rfl⟩

/-! ## Virtual registers after a removal (`mir_remove_instruction`, `mir_insert_instruction`) -/

/-- C36 (the code against the claim): `mir_remove_instruction` decrements the instruction
counter of the function, and `mir_insert_instruction` takes the register from the counter.
After the instructions 0 and 1 have been pushed with the registers that the counter gives
(the conversions to `MIRRegister` of `0 + MIR_ARCH_START` and `1 + MIR_ARCH_START`), and
instruction 0 has been removed, the instruction 2 that `mir_insert_instruction` inserts
receives the register of `1 + MIR_ARCH_START` again: the block then holds the instructions
2 and 1, both with that register. This holds whatever `MIR_ARCH_START` is. -/
theorem insert_after_remove_reuses_register (arch_start : Nat) :
    ∃ st, mir_insert_after_remove arch_start = .ok st ∧
      mir_block_instructions st 0 = some [2, 1] ∧
      mir_register_of st 1 = some (to_MIRRegister ((1 + arch_start) % 2 ^ 64)) ∧
      mir_register_of st 2 = some (to_MIRRegister ((1 + arch_start) % 2 ^ 64)) :=
  ⟨_, rfl, rfl, rfl, rfl⟩

/-! ## The encoding of structural type trees (`mangle_type_to`) -/

theorem structural_well_formed (t : Ty) : is_structural t = true → well_formed t = true := by
  match t with
  | .primitive _ => intro h; simp [is_structural] at h
  | .struct _ => intro h; simp [is_structural] at h
  | .named _ none => intro h; simp [is_structural] at h
  | .named _ (some _) => intro h; simp [is_structural] at h
  | .integer _ _ => intro _; simp [well_formed]
  | .pointer to_ =>
      intro h
      simp only [is_structural] at h
      simpa [well_formed] using structural_well_formed to_ h
  | .reference to_ =>
      intro h
      simp only [is_structural] at h
      simpa [well_formed] using structural_well_formed to_ h
  | .array of_ _ =>
      intro h
      simp only [is_structural] at h
      simpa [well_formed] using structural_well_formed of_ h
  | .function r ps =>
      intro h
      simp only [is_structural, Bool.and_eq_true] at h
      simp [well_formed, structural_well_formed r h.1, structural_params_well_formed ps h.2]
where
  structural_params_well_formed (ps : List (CStr × Ty)) :
      is_structural.all_params ps = true → well_formed.all_params ps = true := by
    match ps with
    | [] => intro _; simp [well_formed.all_params]
    | p :: rest =>
        intro h
        simp only [is_structural.all_params, Bool.and_eq_true] at h
        simp [well_formed.all_params, structural_well_formed p.2 h.1,
          structural_params_well_formed rest h.2]

theorem erase_without_names (t : Ty) : erase (erase_parameter_names t) = erase t := by
  match t with
  | .primitive _ => simp [erase_parameter_names]
  | .struct _ => simp [erase_parameter_names]
  | .named _ none => simp [erase_parameter_names]
  | .named _ (some val) => simp [erase_parameter_names, erase, erase_without_names val]
  | .integer _ _ => simp [erase_parameter_names]
  | .pointer to_ => simp [erase_parameter_names, erase, erase_without_names to_]
  | .reference to_ => simp [erase_parameter_names, erase, erase_without_names to_]
  | .array of_ _ => simp [erase_parameter_names, erase, erase_without_names of_]
  | .function r ps =>
      simp [erase_parameter_names, erase, erase_without_names r, erase_params_without_names ps]
where
  erase_params_without_names (ps : List (CStr × Ty)) :
      erase.erase_params (erase_parameter_names.erase_names ps) = erase.erase_params ps := by
    match ps with
    | [] => simp [erase_parameter_names.erase_names]
    | p :: rest =>
        simp [erase_parameter_names.erase_names, erase.erase_params, erase_without_names p.2,
          erase_params_without_names rest]

theorem integer_atom_inj {s1 s2 : Bool} {w1 w2 : Nat}
    (h : (if s1 then 's' else 'u') :: format_Z w1 = (if s2 then 's' else 'u') :: format_Z w2) :
    s1 = s2 ∧ w1 = w2 := by
  simp only [List.cons.injEq] at h
  refine ⟨?_, format_Z_inj h.2⟩
  cases s1 <;> cases s2 <;> first | rfl | (exact absurd h.1 (by decide))

theorem erase_structural_inj (t1 : Ty) : ∀ (t2 : Ty), is_structural t1 = true →
    is_structural t2 = true → erase t1 = erase t2 →
    erase_parameter_names t1 = erase_parameter_names t2 := by
  match t1 with
  | .primitive _ => intro _ h; simp [is_structural] at h
  | .struct _ => intro _ h; simp [is_structural] at h
  | .named _ none => intro _ h; simp [is_structural] at h
  | .named _ (some _) => intro _ h; simp [is_structural] at h
  | .integer s1 w1 =>
      intro t2 _ h2 h
      cases t2 with
      | integer s2 w2 =>
          simp only [erase, Shape.atom.injEq] at h
          obtain ⟨rfl, rfl⟩ := integer_atom_inj h
          rfl
      | primitive _ => simp [is_structural] at h2
      | struct _ => simp [is_structural] at h2
      | named _ _ => simp [is_structural] at h2
      | pointer _ => simp [erase] at h
      | reference _ => simp [erase] at h
      | array _ _ => simp [erase] at h
      | function _ _ => simp [erase] at h
  | .pointer a =>
      intro t2 h1 h2 h
      cases t2 with
      | pointer b =>
          simp only [is_structural] at h1 h2
          simp only [erase, Shape.pointer.injEq] at h
          simp [erase_parameter_names, erase_structural_inj a b h1 h2 h]
      | primitive _ => simp [is_structural] at h2
      | struct _ => simp [is_structural] at h2
      | named _ _ => simp [is_structural] at h2
      | integer _ _ => simp [erase] at h
      | reference _ => simp [erase] at h
      | array _ _ => simp [erase] at h
      | function _ _ => simp [erase] at h
  | .reference a =>
      intro t2 h1 h2 h
      cases t2 with
      | reference b =>
          simp only [is_structural] at h1 h2
          simp only [erase, Shape.reference.injEq] at h
          simp [erase_parameter_names, erase_structural_inj a b h1 h2 h]
      | primitive _ => simp [is_structural] at h2
      | struct _ => simp [is_structural] at h2
      | named _ _ => simp [is_structural] at h2
      | integer _ _ => simp [erase] at h
      | pointer _ => simp [erase] at h
      | array _ _ => simp [erase] at h
      | function _ _ => simp [erase] at h
  | .array a n =>
      intro t2 h1 h2 h
      cases t2 with
      | array b m =>
          simp only [is_structural] at h1 h2
          simp only [erase, Shape.array.injEq] at h
          simp [erase_parameter_names, erase_structural_inj a b h1 h2 h.2, h.1]
      | primitive _ => simp [is_structural] at h2
      | struct _ => simp [is_structural] at h2
      | named _ _ => simp [is_structural] at h2
      | integer _ _ => simp [erase] at h
      | pointer _ => simp [erase] at h
      | reference _ => simp [erase] at h
      | function _ _ => simp [erase] at h
  | .function r ps =>
      intro t2 h1 h2 h
      cases t2 with
      | function r2 ps2 =>
          simp only [is_structural, Bool.and_eq_true] at h1 h2
          simp only [erase, Shape.function.injEq] at h
          simp [erase_parameter_names, erase_structural_inj r r2 h1.1 h2.1 h.1,
            erase_params_structural_inj ps ps2 h1.2 h2.2 h.2]
      | primitive _ => simp [is_structural] at h2
      | struct _ => simp [is_structural] at h2
      | named _ _ => simp [is_structural] at h2
      | integer _ _ => simp [erase] at h
      | pointer _ => simp [erase] at h
      | reference _ => simp [erase] at h
      | array _ _ => simp [erase] at h
where
  erase_params_structural_inj (ps : List (CStr × Ty)) : ∀ (qs : List (CStr × Ty)),
      is_structural.all_params ps = true → is_structural.all_params qs = true →
      erase.erase_params ps = erase.erase_params qs →
      erase_parameter_names.erase_names ps = erase_parameter_names.erase_names qs := by
    match ps with
    | [] =>
        intro qs _ _ h
        cases qs with
        | nil => rfl
        | cons _ _ => simp [erase.erase_params] at h
    | p :: rest =>
        intro qs h1 h2 h
        cases qs with
        | nil => simp [erase.erase_params] at h
        | cons q qs =>
            simp only [is_structural.all_params, Bool.and_eq_true] at h1 h2
            simp only [erase.erase_params, List.cons.injEq] at h
            simp [erase_parameter_names.erase_names, erase_structural_inj p.2 q.2 h1.1 h2.1 h.1,
              erase_params_structural_inj rest qs h1.2 h2.2 h.2]

/-- C37: for two type trees built only from integer, pointer, reference, array and
function types, `mangle_type_to` appends the same encoding exactly when the trees are equal
after the names of the function parameters have been erased: parameter names are not
encoded, and nothing else of such a tree is lost or ambiguous. -/
theorem mangle_type_determines_structural_tree (t1 t2 : Ty) (buf : List Char)
    (struct_count : Nat) (h1 : is_structural t1 = true) (h2 : is_structural t2 = true) :
    (mangle_type_to buf struct_count t1).1 = (mangle_type_to buf struct_count t2).1
      ↔ erase_parameter_names t1 = erase_parameter_names t2 := by
  have w1 := structural_well_formed t1 h1
  have w2 := structural_well_formed t2 h2
  rw [mangle_type_to_eq_shape t1 buf struct_count w1,
    mangle_type_to_eq_shape t2 buf struct_count w2]
  constructor
  · intro h
    have h' : enc_shape (erase t1) ++ [] = enc_shape (erase t2) ++ [] := by
      simpa using h
    exact erase_structural_inj t1 t2 h1 h2
      (enc_shape_prefix_free _ _ [] [] (erase_shape_ok t1 w1) (erase_shape_ok t2 w2) h').1
  · intro h
    have := congrArg erase h
    rw [erase_without_names, erase_without_names] at this
    simp [this]

theorem mangle_type_determines_structural_tree_witness :
    is_structural foo_type = true ∧
    is_structural (.function t_s64 [("x".toList, t_s64), ("y".toList, .pointer t_u8)]) = true ∧
    ((mangle_type_to [] 0 foo_type).1
        = (mangle_type_to [] 0
            (.function t_s64 [("x".toList, t_s64), ("y".toList, .pointer t_u8)])).1
      ↔ erase_parameter_names foo_type
        = erase_parameter_names
            (.function t_s64 [("x".toList, t_s64), ("y".toList, .pointer t_u8)])) :=
  ⟨by decide, by decide, mangle_type_determines_structural_tree _ _ [] 0 (by decide) (by decide)⟩

/-! ## The final Return of the root (`codegen_expr`, `NODE_ROOT`) -/

/-- C34 (the code against the claim): when the root is lowered and the insertion point is
valid and not closed after its children, lowering returns and the root appends exactly one
instruction to the insertion block, a Return whose operand is the `ir` field of the last
child of the root. When the last child has no value (the field is null: a function node,
which the root skips, or an expression without value) the Return has no operand: no
Immediate 0 is created and nothing is returned, where the comment of the source and the
claim say that the constant 0 is returned. -/
theorem root_returns_value_of_last_child (q : Queries) (ctx c1 : CodegenContext) (id : Nat)
    (type : Ty) (children : List Node) (last : Node)
    (hemitted : ctx.node_emitted id = false)
    (hchildren : codegen_children q (ctx.set_emitted id) children = .ok c1)
    (hlast : children.getLast? = some last)
    (hvalid : c1.insert_point < c1.blocks.length)
    (hopen : ir_is_closed c1 c1.insert_point = false) :
    ∃ c' x l, codegen_expr q ctx (.root id type children) = .ok c' ∧
      c'.instructions = c1.instructions ++ [x] ∧ x.kind = .IR_RETURN ∧
      x.operand = c1.node_ir last.id ∧
      (c1.node_ir last.id = none → x.operand = none) ∧
      block_instructions c1 c1.insert_point = some l ∧
      block_instructions c' c1.insert_point = some (l ++ [c1.instructions.length]) ∧
      (∀ b, b ≠ c1.insert_point → block_instructions c' b = block_instructions c1 b) := by
  obtain ⟨r, hr⟩ := ir_insert_new_ok { kind := .IR_RETURN, operand := c1.node_ir last.id }
    hvalid hopen
  have hi := ir_insert_new_inserted hr
  obtain ⟨l, hl, hl'⟩ := hi.block_at
  have hidx : r.2 = c1.instructions.length := hi.index
  obtain ⟨x, hx, hxk, hxo⟩ : ∃ x : IRInstruction, r.1.instructions = c1.instructions ++ [x] ∧
      x.kind = .IR_RETURN ∧ x.operand = c1.node_ir last.id := ⟨_, hi.instructions, rfl, rfl⟩
  refine ⟨r.1, x, l, ?_, hx, hxk, hxo, fun h => hxo.trans h, hl, ?_, hi.block_other⟩
  · rw [codegen_expr]
    show (if ctx.node_emitted id = true then Except.ok ctx
      else codegen_expr_root (ctx.set_emitted id) children
        (fun c => codegen_children q c children)) = _
    rw [hemitted, if_neg (by simp)]
    have hr' : ir_insert_return c1 (c1.node_ir last.id) = .ok r := hr
    simp only [codegen_expr_root, hchildren, bind, Except.bind, hopen, hlast, hr', pure,
      Except.pure, Bool.not_false, if_true]
  · rw [← hidx]; exact hl'

theorem root_returns_value_of_last_child_witness :
    ∃ c', codegen_expr example_queries example_context root_ending_in_function = .ok c' ∧
      instruction_kinds c' = [.IR_IMMEDIATE, .IR_RETURN] ∧
      return_operands c' = [none] := by
  have h0 : codegen_children example_queries (example_context.set_emitted 1)
      [number_literal 2 5, plain_function]
      = .ok (result_context (codegen_children example_queries (example_context.set_emitted 1)
          [number_literal 2 5, plain_function])) := result_context_ok (by decide!)
  obtain ⟨c', x, l, h, h1, h2, h3, h4, -⟩ := root_returns_value_of_last_child example_queries
    example_context _ 1 t_integer [number_literal 2 5, plain_function] plain_function
    (by decide) h0 rfl (by decide!) (by decide!)
  have e : c' = result_context
      (codegen_expr example_queries example_context root_ending_in_function) := by
    have h' : codegen_expr example_queries example_context root_ending_in_function
        = .ok c' := h
    rw [h']; rfl
  exact ⟨c', h, by rw [e]; decide!, by rw [e]; decide!⟩

/-! ## The subscript of an array or pointer (`codegen_expr`, `NODE_BINARY`, `TK_LBRACK`) -/

/-- C33: a subscript whose left side has an array or pointer type (after references are
stripped), once its base address is computed (`subscript_base`: the address of the
variable or lvalue on the left, so the left side is no string literal with a literal index)
and has gone through the decay from pointer-to-array to pointer-to-element. If the index is
the numeric literal 0, lowering returns, the value of the node is the base address and
nothing is inserted after the base: no Mul and no Add. Otherwise, once the index is lowered
and leaves a valid and open insertion point, lowering returns and inserts exactly three
instructions after the index, in this order: an Immediate `e` of type `t_integer`, a Mul
of the index value and that Immediate, and an Add of the base address and the Mul, which is
the value of the node; `e` is the byte size of the element type when the
reference-stripped left type is an array, and the byte size of the pointee when it is a
pointer. -/
theorem subscript_scales_the_index (q : Queries) (ctx c1 : CodegenContext)
    (d : CodegenContext × Option Nat) (id : Nat) (type : Ty) (lhs rhs : Node)
    (subs_lhs : Option Nat)
    (hemitted : ctx.node_emitted id = false)
    (htype : type_is_array (type_strip_references lhs.type) = true
      ∨ type_is_pointer (type_strip_references lhs.type) = true)
    (hbase : subscript_base q (ctx.set_emitted id) id lhs rhs (fun c => codegen_lvalue q c lhs)
      (fun c => codegen_expr q c lhs) = .ok (c1, some subs_lhs))
    (hdecay : subscript_array_decay c1 subs_lhs = .ok d) :
    ((rhs.kind = .NODE_LITERAL ∧ rhs.literal_type = .TK_NUMBER ∧ rhs.literal_integer = 0) →
      ∃ c', codegen_expr q ctx (.binary id type .TK_LBRACK lhs rhs) = .ok c' ∧
        c'.node_ir id = d.2 ∧ c'.instructions = d.1.instructions ∧ c'.blocks = d.1.blocks) ∧
    (¬ (rhs.kind = .NODE_LITERAL ∧ rhs.literal_type = .TK_NUMBER ∧ rhs.literal_integer = 0) →
      ∀ c2, codegen_expr q d.1 rhs = .ok c2 → c2.insert_point < c2.blocks.length →
        ir_is_closed c2 c2.insert_point = false →
        ∃ c' imm mul add l, codegen_expr q ctx (.binary id type .TK_LBRACK lhs rhs) = .ok c' ∧
          c'.instructions = c2.instructions ++ [imm, mul, add] ∧
          imm.kind = .IR_IMMEDIATE ∧ imm.type = t_integer ∧
          imm.imm = (if type_is_array (type_strip_references lhs.type) = true
            then q.type_sizeof (type_strip_references lhs.type).array_of
            else q.type_sizeof (type_strip_references lhs.type).pointer_to) ∧
          mul.kind = .IR_MUL ∧ mul.lhs = c2.node_ir rhs.id ∧
          mul.rhs = some c2.instructions.length ∧
          add.kind = .IR_ADD ∧ add.lhs = d.2 ∧ add.rhs = some (c2.instructions.length + 1) ∧
          c'.node_ir id = some (c2.instructions.length + 2) ∧
          block_instructions c2 c2.insert_point = some l ∧
          block_instructions c' c2.insert_point
            = some (l ++ [c2.instructions.length, c2.instructions.length + 1,
                c2.instructions.length + 2])) := by
  have hty : (!type_is_array (type_strip_references lhs.type)
      && !type_is_pointer (type_strip_references lhs.type)) = false := by
    rcases htype with h | h <;> simp [h]
  have hunfold : codegen_expr q ctx (.binary id type .TK_LBRACK lhs rhs)
      = (do
          let d ← subscript_array_decay c1 subs_lhs
          if rhs.kind = .NODE_LITERAL ∧ rhs.literal_type = .TK_NUMBER ∧ rhs.literal_integer = 0
          then pure (d.1.set_ir id d.2)
          else do
            let ctx ← codegen_expr q d.1 rhs
            if type_is_array (type_strip_references lhs.type) then do
              let immediate ← ir_insert_immediate ctx t_integer
                (q.type_sizeof (type_strip_references lhs.type).array_of)
              let scaled_rhs ← ir_insert_binary immediate.1 .IR_MUL
                (immediate.1.node_ir rhs.id) (some immediate.2)
              let r ← ir_insert_binary scaled_rhs.1 .IR_ADD d.2 (some scaled_rhs.2)
              pure (r.1.set_ir id (some r.2))
            else if type_is_pointer (type_strip_references lhs.type) then do
              let immediate ← ir_insert_immediate ctx t_integer
                (q.type_sizeof (type_strip_references lhs.type).pointer_to)
              let scaled_rhs ← ir_insert_binary immediate.1 .IR_MUL
                (immediate.1.node_ir rhs.id) (some immediate.2)
              let r ← ir_insert_binary scaled_rhs.1 .IR_ADD d.2 (some scaled_rhs.2)
              pure (r.1.set_ir id (some r.2))
            else do
              let r ← ir_insert_binary ctx .IR_ADD d.2 none
              pure (r.1.set_ir id (some r.2))) := by
    rw [codegen_expr]
    show (if ctx.node_emitted id = true then Except.ok ctx
      else codegen_expr_binary q (ctx.set_emitted id) id .TK_LBRACK lhs rhs
        (fun c => codegen_lvalue q c lhs) (fun c => codegen_expr q c lhs)
        (fun c => codegen_expr q c rhs)) = _
    rw [hemitted, if_neg (by simp)]
    simp only [codegen_expr_binary, reduceCtorEq, if_false, if_true, codegen_expr_subscript,
      hty, Bool.false_eq_true]
    rw [hbase]
    rfl
  constructor
  · intro hz
    refine ⟨d.1.set_ir id d.2, ?_, ?_, rfl, rfl⟩
    · rw [hunfold, hdecay]
      simp only [bind, Except.bind, hz, and_self, if_true, pure, Except.pure]
    · show (if id = id then d.2 else _) = _
      rw [if_pos rfl]
  · intro hnz c2 hrhs hvalid hopen
    obtain ⟨imm, himm⟩ := ir_insert_new_ok
      { kind := .IR_IMMEDIATE, type := t_integer,
        imm := (if type_is_array (type_strip_references lhs.type) = true
          then q.type_sizeof (type_strip_references lhs.type).array_of
          else q.type_sizeof (type_strip_references lhs.type).pointer_to) } hvalid hopen
    have ii := ir_insert_new_inserted himm
    have hvalid2 : imm.1.insert_point < imm.1.blocks.length := by
      rw [ii.point, ii.blocks_length]; exact hvalid
    have hopen2 : ir_is_closed imm.1 imm.1.insert_point = false := by
      rw [ii.point, ii.closed_inserted]; rfl
    obtain ⟨m, hm⟩ := ir_insert_new_ok
      { kind := .IR_MUL, type := operand_type imm.1 (imm.1.node_ir rhs.id),
        lhs := imm.1.node_ir rhs.id, rhs := some imm.2 } hvalid2 hopen2
    have im := ir_insert_new_inserted hm
    have hvalid3 : m.1.insert_point < m.1.blocks.length := by
      rw [im.point, im.blocks_length]; exact hvalid2
    have hopen3 : ir_is_closed m.1 m.1.insert_point = false := by
      rw [im.point, im.closed_inserted]; rfl
    obtain ⟨r, hr⟩ := ir_insert_new_ok
      { kind := .IR_ADD, type := operand_type m.1 d.2, lhs := d.2, rhs := some m.2 }
      hvalid3 hopen3
    have ir_ := ir_insert_new_inserted hr
    obtain ⟨x, hx, hxk, hxt, hxi⟩ : ∃ x : IRInstruction,
        imm.1.instructions = c2.instructions ++ [x] ∧ x.kind = .IR_IMMEDIATE ∧
        x.type = t_integer ∧
        x.imm = (if type_is_array (type_strip_references lhs.type) = true
          then q.type_sizeof (type_strip_references lhs.type).array_of
          else q.type_sizeof (type_strip_references lhs.type).pointer_to) :=
      ⟨_, ii.instructions, rfl, rfl, rfl⟩
    obtain ⟨y, hy, hyk, hyl, hyr⟩ : ∃ y : IRInstruction,
        m.1.instructions = imm.1.instructions ++ [y] ∧ y.kind = .IR_MUL ∧
        y.lhs = imm.1.node_ir rhs.id ∧ y.rhs = some imm.2 := ⟨_, im.instructions, rfl, rfl, rfl⟩
    obtain ⟨z, hz, hzk, hzl, hzr⟩ : ∃ z : IRInstruction,
        r.1.instructions = m.1.instructions ++ [z] ∧ z.kind = .IR_ADD ∧
        z.lhs = d.2 ∧ z.rhs = some m.2 := ⟨_, ir_.instructions, rfl, rfl, rfl⟩
    obtain ⟨l, hl, hl1⟩ := ii.block_at
    obtain ⟨l2, hl2, hl2'⟩ := im.block_at
    obtain ⟨l3, hl3, hl3'⟩ := ir_.block_at
    have hlen1 : imm.1.instructions.length = c2.instructions.length + 1 := by
      rw [hx, List.length_append]; rfl
    have hlen2 : m.1.instructions.length = c2.instructions.length + 2 := by
      rw [hy, List.length_append, hlen1]; rfl
    have hm' : ir_insert_binary imm.1 .IR_MUL (imm.1.node_ir rhs.id) (some imm.2) = .ok m := hm
    have hr' : ir_insert_binary m.1 .IR_ADD d.2 (some m.2) = .ok r := hr
    refine ⟨r.1.set_ir id (some r.2), x, y, z, l, ?_, ?_, hxk, hxt, hxi, hyk, ?_, ?_, hzk, hzl,
      ?_, ?_, hl, ?_⟩
    · rw [hunfold, hdecay]
      simp only [bind, Except.bind, hnz, if_false, hrhs]
      by_cases harr : type_is_array (type_strip_references lhs.type) = true
      · have himm' : ir_insert_immediate c2 t_integer
            (q.type_sizeof (type_strip_references lhs.type).array_of) = .ok imm := by
          have := himm
          rw [if_pos harr] at this
          exact this
        simp only [harr, if_true, himm', hm', hr', pure, Except.pure]
      · have hptr : type_is_pointer (type_strip_references lhs.type) = true := by
          rcases htype with h | h
          · exact absurd h harr
          · exact h
        have himm' : ir_insert_immediate c2 t_integer
            (q.type_sizeof (type_strip_references lhs.type).pointer_to) = .ok imm := by
          have := himm
          rw [if_neg harr] at this
          exact this
        simp only [harr, if_false, hptr, if_true, himm', hm', hr', pure, Except.pure,
          Bool.false_eq_true]
    · show r.1.instructions = _
      rw [hz, hy, hx]
      simp
    · rw [hyl, ii.node_ir]
    · rw [hyr, ii.index]
    · rw [hzr, im.index, hlen1]
    · show (if id = id then some r.2 else _) = _
      rw [if_pos rfl, ir_.index, hlen2]
    · show block_instructions r.1 c2.insert_point = _
      have p1 : imm.1.insert_point = c2.insert_point := ii.point
      have p2 : m.1.insert_point = c2.insert_point := by rw [im.point, p1]
      rw [p1] at hl2 hl2'
      rw [p2] at hl3 hl3'
      rw [hl1] at hl2
      cases hl2
      rw [hl2'] at hl3
      cases hl3
      rw [hl3', ii.index, im.index, ir_.index, hlen1, hlen2]
      simp

theorem result_value_ok {r : Except Fatal (CodegenContext × Option Nat)}
    (h : fatal_of r = none) : r = .ok (result_value r) := by
  cases r with
  | error e => exact Option.noConfusion h
  | ok c => rfl

theorem subscript_scales_the_index_witness :
    (∃ c', codegen_expr example_queries context_with_array (array_subscript 0) = .ok c' ∧
      instruction_kinds c' = [.IR_ALLOCA, .IR_BITCAST] ∧ c'.node_ir 1 = some 1) ∧
    (∃ c', codegen_expr example_queries context_with_array (array_subscript 2) = .ok c' ∧
      instruction_kinds c'
        = [.IR_ALLOCA, .IR_BITCAST, .IR_IMMEDIATE, .IR_IMMEDIATE, .IR_MUL, .IR_ADD] ∧
      instruction_immediates c' = [0, 0, 2, 8, 0, 0] ∧ c'.node_ir 1 = some 5) := by
  have hd : subscript_array_decay (context_with_array.set_emitted 1) (some 0)
      = .ok subscript_example_decay := result_value_ok (by decide!)
  have hi : codegen_expr example_queries subscript_example_decay.1 (number_literal 4 2)
      = .ok subscript_example_index := result_context_ok (by decide!)
  constructor
  · obtain ⟨c', h, -⟩ := (subscript_scales_the_index example_queries context_with_array
      (context_with_array.set_emitted 1) subscript_example_decay 1 t_integer
      (.variable_reference 3 (.array t_integer 3) 10) (number_literal 4 0) (some 0)
      (by decide!) (by decide) rfl hd).1 (by decide)
    have e : c' = result_context
        (codegen_expr example_queries context_with_array (array_subscript 0)) := by
      have h' : codegen_expr example_queries context_with_array (array_subscript 0)
          = .ok c' := h
      rw [h']; rfl
    exact ⟨c', h, by rw [e]; decide!, by rw [e]; decide!⟩
  · obtain ⟨c', _, _, _, _, h, -⟩ := (subscript_scales_the_index example_queries
      context_with_array (context_with_array.set_emitted 1) subscript_example_decay 1 t_integer
      (.variable_reference 3 (.array t_integer 3) 10) (number_literal 4 2) (some 0)
      (by decide!) (by decide) rfl hd).2 (by decide) subscript_example_index hi (by decide!)
      (by decide!)
    have e : c' = result_context
        (codegen_expr example_queries context_with_array (array_subscript 2)) := by
      have h' : codegen_expr example_queries context_with_array (array_subscript 2)
          = .ok c' := h
      rw [h']; rfl
    exact ⟨c', h, by rw [e]; decide!, by rw [e]; decide!, by rw [e]; decide!⟩

/-! ## The names of static variables (`codegen_lvalue`, `NODE_DECLARATION`, and
`codegen_expr`, `TK_STRING`) -/

theorem static_names_init (c : CodegenContext) (var : Nat) (init : StaticInit) :
    static_names (ir_static_var_init c var init) = static_names c := by
  unfold ir_static_var_init static_names
  split
  · rfl
  · rename_i v hv
    show List.map _ (c.static_vars.set var _) = _
    apply List.ext_getElem?
    intro i
    by_cases h : var = i
    · subst h
      simp only [List.getElem?_map, List.getElem?_set_self', hv, Option.map_some']
      rfl
    · simp only [List.getElem?_map, List.getElem?_set_ne h]

/-- Rvalue emission of a declaration without initialiser whose linkage is not
`LINKAGE_LOCALVAR`, at a valid and open insertion point: one static variable with the name
of the declaration is created. -/
theorem codegen_expr_global_declaration (q : Queries) (ctx : CodegenContext) (id : Nat)
    (type : Ty) (name : CStr) (linkage : SymbolLinkage)
    (hlinkage : linkage ≠ .LINKAGE_LOCALVAR)
    (hemitted : ctx.node_emitted id = false) (haddress : ctx.node_address id = none)
    (hvalid : ctx.insert_point < ctx.blocks.length)
    (hopen : ir_is_closed ctx ctx.insert_point = false) :
    ∃ c1, codegen_expr q ctx (.declaration id type name linkage none) = .ok c1 ∧
      static_names c1 = static_names ctx ++ [name] ∧
      c1.string_literal_count = ctx.string_literal_count ∧
      c1.insert_point < c1.blocks.length ∧ ir_is_closed c1 c1.insert_point = false ∧
      (∀ n, n ≠ id → c1.node_emitted n = ctx.node_emitted n) ∧
      (∀ n, n ≠ id → c1.node_address n = ctx.node_address n) := by
  have hvalid0 : (ir_create_static (ctx.set_emitted id) id type name).1.insert_point
      < (ir_create_static (ctx.set_emitted id) id type name).1.blocks.length := hvalid
  have hopen0 : ir_is_closed (ir_create_static (ctx.set_emitted id) id type name).1
      (ir_create_static (ctx.set_emitted id) id type name).1.insert_point = false := hopen
  obtain ⟨r, hr⟩ := ir_insert_new_ok
    { kind := .IR_STATIC_REF,
      type := ast_make_type_pointer
        (static_var_type (ir_create_static (ctx.set_emitted id) id type name).1
          (ir_create_static (ctx.set_emitted id) id type name).2),
      static_ref_var := some (ir_create_static (ctx.set_emitted id) id type name).2 }
    hvalid0 hopen0
  have hi := ir_insert_new_inserted hr
  obtain ⟨_, _, _, f4, f5⟩ := ir_insert_new_flags hr
  have hr' : ir_insert_static_ref (ir_create_static (ctx.set_emitted id) id type name).1
      (ir_create_static (ctx.set_emitted id) id type name).2 = .ok r := hr
  refine ⟨r.1.set_address id (some r.2), ?_, ?_, ?_, ?_, ?_, ?_, ?_⟩
  · rw [codegen_expr]
    show (if ctx.node_emitted id = true then Except.ok ctx
      else if ((ctx.set_emitted id).node_address id).isSome = true
        then Except.ok (ctx.set_emitted id)
        else codegen_lvalue_declaration q (ctx.set_emitted id) id type name linkage none
          (fun c => codegen_optional q c none)) = _
    have ha : ((ctx.set_emitted id).node_address id).isSome = false := by
      show (ctx.node_address id).isSome = false
      rw [haddress]; rfl
    rw [hemitted, if_neg (by simp), ha, if_neg (by simp)]
    simp only [codegen_lvalue_declaration, if_pos hlinkage, hr', bind, Except.bind, pure,
      Except.pure]
  · show List.map _ r.1.static_vars = _
    rw [f4]
    simp [ir_create_static, static_names, CodegenContext.set_emitted]
  · show r.1.string_literal_count = _
    rw [f5]; rfl
  · show r.1.insert_point < r.1.blocks.length
    rw [hi.point, hi.blocks_length]; exact hvalid
  · show ir_is_closed (r.1.set_address id (some r.2)) r.1.insert_point = false
    have : ir_is_closed (r.1.set_address id (some r.2)) r.1.insert_point
        = ir_is_closed r.1 r.1.insert_point := rfl
    rw [this, hi.point, hi.closed_inserted]; rfl
  · intro n hn
    show r.1.node_emitted n = _
    rw [hi.node_emitted]
    show (if n = id then true else ctx.node_emitted n) = _
    rw [if_neg hn]
  · intro n hn
    show (if n = id then some r.2 else r.1.node_address n) = _
    rw [if_neg hn, hi.node_address]; rfl

/-- Rvalue emission of a string literal, at a valid and open insertion point: one static
variable is created, named `__str_lit` followed by the value of the counter in decimal, and
the counter goes up by one. -/
theorem codegen_expr_literal_static (q : Queries) (ctx : CodegenContext) (id : Nat)
    (type : Ty) (integer string_index : Nat) (compound : List Node)
    (hemitted : ctx.node_emitted id = false)
    (hvalid : ctx.insert_point < ctx.blocks.length)
    (hopen : ir_is_closed ctx ctx.insert_point = false) :
    ∃ c1, codegen_expr q ctx (.literal id type .TK_STRING integer string_index compound)
        = .ok c1 ∧
      static_names c1
        = static_names ctx ++ ["__str_lit".toList ++ format_Z ctx.string_literal_count] ∧
      c1.string_literal_count = (ctx.string_literal_count + 1) % 2 ^ 64 ∧
      c1.insert_point < c1.blocks.length ∧ ir_is_closed c1 c1.insert_point = false ∧
      (∀ n, n ≠ id → c1.node_emitted n = ctx.node_emitted n) ∧
      (∀ n, c1.node_address n = ctx.node_address n) := by
  let c0 : CodegenContext :=
    { ctx.set_emitted id with
      string_literal_count := ((ctx.set_emitted id).string_literal_count + 1) % 2 ^ 64 }
  let name : CStr := "__str_lit".toList ++ format_Z (ctx.set_emitted id).string_literal_count
  have hvalid0 : (ir_create_static c0 id type name).1.insert_point
      < (ir_create_static c0 id type name).1.blocks.length := hvalid
  have hopen0 : ir_is_closed (ir_create_static c0 id type name).1
      (ir_create_static c0 id type name).1.insert_point = false := hopen
  obtain ⟨r, hr⟩ := ir_insert_new_ok
    { kind := .IR_STATIC_REF,
      type := ast_make_type_pointer
        (static_var_type (ir_create_static c0 id type name).1 (ir_create_static c0 id type name).2),
      static_ref_var := some (ir_create_static c0 id type name).2 } hvalid0 hopen0
  have hi := ir_insert_new_inserted hr
  obtain ⟨_, _, _, f4, f5⟩ := ir_insert_new_flags hr
  obtain ⟨_, _, _, _, g5⟩ := ir_static_var_init_fields (r.1.set_ir id (some r.2))
    (ir_create_static c0 id type name).2 (.str_lit string_index)
  obtain ⟨s1, s2, s3⟩ := ir_static_var_init_frame (r.1.set_ir id (some r.2))
    (ir_create_static c0 id type name).2 (.str_lit string_index)
  refine ⟨ir_static_var_init (r.1.set_ir id (some r.2)) (ir_create_static c0 id type name).2
    (.str_lit string_index), ?_, ?_, ?_, ?_, ?_, ?_, ?_⟩
  · rw [codegen_expr]
    simp only [Node.id, hemitted, Bool.false_eq_true, if_false]
    have hr' : ir_insert_static_ref (ir_create_static c0 id type name).1
        (ir_create_static c0 id type name).2 = .ok r := hr
    simp only [codegen_expr_literal, bind, Except.bind, pure, Except.pure]
    split
    · rename_i e he
      exact Except.noConfusion (hr'.symm.trans he)
    · rename_i v hv
      have hrv : Except.ok r = Except.ok v := hr'.symm.trans hv
      cases hrv
      rfl
  · rw [static_names_init]
    show List.map _ r.1.static_vars = _
    rw [f4]
    simp [ir_create_static, static_names, CodegenContext.set_emitted, c0, name]
  · have e : (ir_static_var_init (r.1.set_ir id (some r.2)) (ir_create_static c0 id type name).2
        (.str_lit string_index)).string_literal_count = r.1.string_literal_count := by
      unfold ir_static_var_init; split <;> rfl
    rw [e, f5]; rfl
  · rw [s3, s1]
    show r.1.insert_point < r.1.blocks.length
    rw [hi.point, hi.blocks_length]; exact hvalid
  · rw [ir_is_closed_congr s1 s2, s3]
    show ir_is_closed r.1 r.1.insert_point = false
    rw [hi.point, hi.closed_inserted]; rfl
  · intro n hn
    rw [g5]
    show r.1.node_emitted n = _
    rw [hi.node_emitted]
    show (if n = id then true else ctx.node_emitted n) = _
    rw [if_neg hn]
  · intro n
    have e : (ir_static_var_init (r.1.set_ir id (some r.2)) (ir_create_static c0 id type name).2
        (.str_lit string_index)).node_address = r.1.node_address := by
      unfold ir_static_var_init; split <;> rfl
    rw [e, hi.node_address]; rfl

/-- C32 (the code against the claim): the builder gives a static variable the name of its
declaration, or the next name `__str_lit<N>` for a string literal, and never looks at the
names that exist. From any context with a valid and open insertion point, where the nodes
are not yet emitted: (1) a declaration at global scope whose name is `__str_lit<N>` for the
current value `N` of the counter, followed by a string literal, gives two static variables
with that same name; (2) two declarations at global scope with the same name give two
static variables with that name; (3) two string literals in succession get the names
`__str_lit<N>` and `__str_lit<N+1>`, which differ as long as the counter does not wrap. -/
theorem static_names_may_collide (q : Queries) (ctx : CodegenContext) (a b : Nat)
    (aty bty : Ty) (name : CStr) (linkage linkage2 : SymbolLinkage) (integer string_index : Nat)
    (integer2 string_index2 : Nat) (compound compound2 : List Node)
    (hlinkage : linkage ≠ .LINKAGE_LOCALVAR) (hlinkage2 : linkage2 ≠ .LINKAGE_LOCALVAR)
    (hdistinct : b ≠ a)
    (hemitted : ctx.node_emitted a = false) (haddress : ctx.node_address a = none)
    (hemitted2 : ctx.node_emitted b = false) (haddress2 : ctx.node_address b = none)
    (hvalid : ctx.insert_point < ctx.blocks.length)
    (hopen : ir_is_closed ctx ctx.insert_point = false) :
    (∃ c1 c2,
      codegen_expr q ctx (.declaration a aty
        ("__str_lit".toList ++ format_Z ctx.string_literal_count) linkage none) = .ok c1 ∧
      codegen_expr q c1 (.literal b bty .TK_STRING integer string_index compound) = .ok c2 ∧
      static_names c2 = static_names ctx ++
        ["__str_lit".toList ++ format_Z ctx.string_literal_count,
          "__str_lit".toList ++ format_Z ctx.string_literal_count]) ∧
    (∃ c1 c2,
      codegen_expr q ctx (.declaration a aty name linkage none) = .ok c1 ∧
      codegen_expr q c1 (.declaration b bty name linkage2 none) = .ok c2 ∧
      static_names c2 = static_names ctx ++ [name, name]) ∧
    (∃ c1 c2,
      codegen_expr q ctx (.literal a aty .TK_STRING integer string_index compound) = .ok c1 ∧
      codegen_expr q c1 (.literal b bty .TK_STRING integer2 string_index2 compound2) = .ok c2 ∧
      static_names c2 = static_names ctx ++
        ["__str_lit".toList ++ format_Z ctx.string_literal_count,
          "__str_lit".toList ++ format_Z ((ctx.string_literal_count + 1) % 2 ^ 64)] ∧
      (ctx.string_literal_count + 1 < 2 ^ 64 →
        "__str_lit".toList ++ format_Z ctx.string_literal_count
          ≠ "__str_lit".toList ++ format_Z ((ctx.string_literal_count + 1) % 2 ^ 64))) := by
  refine ⟨?_, ?_, ?_⟩
  · obtain ⟨c1, e1, n1, k1, v1, o1, m1, _⟩ := codegen_expr_global_declaration q ctx a aty
      ("__str_lit".toList ++ format_Z ctx.string_literal_count) linkage hlinkage hemitted
      haddress hvalid hopen
    obtain ⟨c2, e2, n2, _⟩ := codegen_expr_literal_static q c1 b bty integer string_index
      compound (by rw [m1 b hdistinct]; exact hemitted2) v1 o1
    refine ⟨c1, c2, e1, e2, ?_⟩
    rw [n2, n1, k1]
    simp
  · obtain ⟨c1, e1, n1, _, v1, o1, m1, a1⟩ := codegen_expr_global_declaration q ctx a aty
      name linkage hlinkage hemitted haddress hvalid hopen
    obtain ⟨c2, e2, n2, _⟩ := codegen_expr_global_declaration q c1 b bty name linkage2
      hlinkage2 (by rw [m1 b hdistinct]; exact hemitted2)
      (by rw [a1 b hdistinct]; exact haddress2) v1 o1
    refine ⟨c1, c2, e1, e2, ?_⟩
    rw [n2, n1]
    simp
  · obtain ⟨c1, e1, n1, k1, v1, o1, m1, _⟩ := codegen_expr_literal_static q ctx a aty integer
      string_index compound hemitted hvalid hopen
    obtain ⟨c2, e2, n2, _⟩ := codegen_expr_literal_static q c1 b bty integer2 string_index2
      compound2 (by rw [m1 b hdistinct]; exact hemitted2) v1 o1
    refine ⟨c1, c2, e1, e2, ?_, ?_⟩
    · rw [n2, n1, k1]
      simp
    · intro hlt h
      have h' := format_Z_inj (List.append_cancel_left h)
      rw [Nat.mod_eq_of_lt hlt] at h'
      omega

theorem static_names_may_collide_witness :
    (∃ c1 c2,
      codegen_expr example_queries example_context global_named_like_a_literal = .ok c1 ∧
      codegen_expr example_queries c1 (.literal 3 (.array t_byte 5) .TK_STRING 0 0 [])
        = .ok c2 ∧
      static_names c2 = ["__str_lit0".toList, "__str_lit0".toList]) ∧
    (result_context
      (codegen_expr example_queries example_context root_with_clashing_names)).static_vars.map
        (fun v => (v.name, v.decl))
      = [("__str_lit0".toList, 2), ("__str_lit0".toList, 3)] := by
  refine ⟨?_, by decide!⟩
  obtain ⟨c1, c2, h1, h2, h3⟩ := (static_names_may_collide example_queries example_context 2 3
    t_integer (.array t_byte 5) [] .LINKAGE_INTERNAL .LINKAGE_INTERNAL 0 0 0 0 [] []
    (by decide) (by decide) (by decide) (by decide) (by decide) (by decide) (by decide)
    (by decide) (by decide!)).1
  exact ⟨c1, c2, h1, h2, h3⟩

/-! ## Lowering clears no `emitted` flag -/

theorem Marked.refl_marked (c : CodegenContext) : Marked c c := fun _ h => h

theorem Marked.trans_marked {c0 c1 c2 : CodegenContext} (h1 : Marked c0 c1)
    (h2 : Marked c1 c2) : Marked c0 c2 :=
  fun n hn => h2 n (h1 n hn)

theorem Marked.sub_marked {c0 c c' : CodegenContext} {k : Lowering} (h : Marked c0 c)
    (hk : Keeping k) (e : k c = .ok c') : Marked c0 c' :=
  h.trans_marked (hk c c' e).emitted

theorem Marked.congr_marked {c0 c c' : CodegenContext} (h : Marked c0 c)
    (he : c'.node_emitted = c.node_emitted) : Marked c0 c' :=
  fun n hn => by rw [he]; exact h n hn

theorem Marked.set_ir_marked {c0 c : CodegenContext} (h : Marked c0 c) (id : Nat)
    (v : Option Nat) : Marked c0 (c.set_ir id v) :=
  h.congr_marked rfl

theorem Marked.insert_step_marked {c0 c : CodegenContext} {x : IRInstruction}
    {r : CodegenContext × Nat} (h : Marked c0 c) (e : ir_insert_new c x = .ok r) :
    Marked c0 r.1 :=
  h.congr_marked (ir_insert_new_inserted e).node_emitted

theorem Marked.insert_pure_marked {c0 c c' : CodegenContext} {x : IRInstruction}
    (h : Marked c0 c) {f : CodegenContext × Nat → CodegenContext}
    (e : (ir_insert_new c x >>= fun r => pure (f r)) = .ok c')
    (hf : ∀ r, (f r).node_emitted = r.1.node_emitted) : Marked c0 c' := by
  obtain ⟨r, er, e⟩ := bind_ok e
  cases pure_ok e
  exact (h.insert_step_marked er).congr_marked (hf r)

theorem Marked.insert_ir_marked {c0 c c' : CodegenContext} {x : IRInstruction}
    (h : Marked c0 c) {id : Nat}
    (e : (ir_insert_new c x >>= fun r => pure (r.1.set_ir id (some r.2))) = .ok c') :
    Marked c0 c' :=
  h.insert_pure_marked e (fun _ => rfl)

theorem Marked.created_marked {c0 c : CodegenContext} (h : Marked c0 c) (x : IRInstruction) :
    Marked c0 (ir_create c x).1 :=
  h.congr_marked rfl

theorem Marked.set_type_marked {c0 c c' : CodegenContext} (h : Marked c0 c)
    {inst : Option Nat} {ty : Ty} (e : ir_set_type c inst ty = .ok c') : Marked c0 c' := by
  unfold ir_set_type at e
  cases inst with
  | none => exact Except.noConfusion e
  | some j =>
    simp only at e
    split at e
    · exact Except.noConfusion e
    · cases e
      exact h.congr_marked rfl

theorem Marked.phi_add_arg_marked {c0 c : CodegenContext} (h : Marked c0 c) (phi blk : Nat)
    (v : Option Nat) : Marked c0 (ir_phi_add_arg c phi blk v) := by
  unfold ir_phi_add_arg
  split
  · exact h
  · exact h.congr_marked rfl

theorem Marked.force_inline_marked {c0 c c' : CodegenContext} (h : Marked c0 c)
    {call : Option Nat} {force : Bool} (e : ir_call_force_inline c call force = .ok c') :
    Marked c0 c' := by
  unfold ir_call_force_inline at e
  cases call with
  | none => exact Except.noConfusion e
  | some j =>
    simp only at e
    split at e
    · exact Except.noConfusion e
    · cases e
      exact h.congr_marked rfl

theorem Marked.insert_old_marked {c0 c c' : CodegenContext} (h : Marked c0 c) {j : Nat}
    (e : ir_insert c j = .ok c') : Marked c0 c' := by
  unfold ir_insert at e
  split at e
  · exact Except.noConfusion e
  · split at e
    · exact Except.noConfusion e
    · cases e
      exact h.congr_marked rfl

theorem Marked.branch_if_open_marked {c0 c c' : CodegenContext} {b : Nat} (h : Marked c0 c)
    (e : branch_if_open c b = .ok c') : Marked c0 c' := by
  unfold branch_if_open at e
  split at e
  · obtain ⟨r, er, e⟩ := bind_ok e
    cases pure_ok e
    exact h.insert_step_marked er
  · cases pure_ok e; exact h

theorem Marked.static_init_marked {c0 c : CodegenContext} (h : Marked c0 c) (var : Nat)
    (init : StaticInit) : Marked c0 (ir_static_var_init c var init) := by
  unfold ir_static_var_init
  split
  · exact h
  · exact h.congr_marked rfl

theorem Marked.block_marked {c0 c : CodegenContext} (h : Marked c0 c) :
    Marked c0 (ir_block c).1 :=
  h.congr_marked rfl

theorem Marked.attach_marked {c0 c : CodegenContext} (h : Marked c0 c) (block : Nat) :
    Marked c0 (ir_block_attach c block) :=
  h.congr_marked rfl

/-- The loop over the arguments of a call clears no flag: it keeps the older state of the
context cut down to the instructions before the call. -/
theorem Marked.call_marked {c0 c c' : CodegenContext} {ka : Nat → Lowering} (h : Marked c0 c)
    (hka : KeepingCall ka) {call : Nat} (e : ka call c = .ok c') : Marked c0 c' := by
  have w : Kept { c with instructions := c.instructions.take call } c :=
    { insts_le := by simp
      insts := fun i hi => by
        have hi' : i < (c.instructions.take call).length := hi
        show _ = ((c.instructions.take call)[i]?).map IRInstruction.settled
        rw [List.getElem?_take_of_lt (by simp at hi'; omega)]
      emitted := fun _ hn => hn
      node_ir := fun _ _ => rfl }
  have k := hka call _ c c' w (by simp) e
  exact h.trans_marked k.emitted

/-! ### The cases of `codegen_expr` clear no `emitted` flag -/

theorem codegen_expr_function_marking (id : Nat) (attr_inline : Bool) :
    Marking (fun c => codegen_expr_function c id attr_inline) := by
  intro c c' h
  simp only [codegen_expr_function] at h
  obtain ⟨r, er, h⟩ := bind_ok h
  have w := ((Marked.refl_marked c).insert_step_marked er).set_ir_marked id (some r.2)
  split at h
  · cases pure_ok h; exact w.congr_marked rfl
  · cases pure_ok h; exact w

theorem codegen_expr_root_marking (children : List Node) {k : Lowering}
    (hk : Keeping k) : Marking (fun c => codegen_expr_root c children k) := by
  intro c c' h
  simp only [codegen_expr_root] at h
  obtain ⟨c1, e1, h⟩ := bind_ok h
  have w1 := (Marked.refl_marked c).sub_marked hk e1
  split at h
  · split at h
    · exact Except.noConfusion h
    · exact w1.insert_pure_marked h (fun _ => rfl)
  · cases pure_ok h; exact w1

theorem codegen_expr_load_marking (id : Nat) {k : Lowering} (hk : Keeping k) :
    Marking (fun c => codegen_expr_load c id k) := by
  intro c c' h
  simp only [codegen_expr_load] at h
  obtain ⟨c1, e1, h⟩ := bind_ok h
  obtain ⟨ty, _, h⟩ := bind_ok h
  obtain ⟨e, _, h⟩ := bind_ok h
  exact ((Marked.refl_marked c).sub_marked hk e1).insert_ir_marked h

theorem codegen_expr_block_marking (q : Queries) (id : Nat) (type : Ty) (children : List Node)
    {k : Lowering} (hk : Keeping k) :
    Marking (fun c => codegen_expr_block q c id type children k) := by
  intro c c' h
  simp only [codegen_expr_block] at h
  obtain ⟨c1, e1, h⟩ := bind_ok h
  have w1 := (Marked.refl_marked c).sub_marked hk e1
  split at h
  · split at h
    · exact Except.noConfusion h
    · split at h
      · exact Except.noConfusion h
      · cases pure_ok h; exact w1.set_ir_marked id _
  · cases pure_ok h; exact w1

theorem codegen_expr_cast_marking (q : Queries) (id : Nat) (type : Ty) (value : Node)
    {k : Lowering} (hk : Keeping k) :
    Marking (fun c => codegen_expr_cast q c id type value k) := by
  intro c c' h
  simp only [codegen_expr_cast] at h
  obtain ⟨c1, e1, h⟩ := bind_ok h
  have w1 := (Marked.refl_marked c).sub_marked hk e1
  split at h
  · exact w1.insert_ir_marked h
  · split at h
    · split at h
      · exact w1.insert_ir_marked h
      · exact w1.insert_ir_marked h
    · split at h
      · exact w1.insert_ir_marked h
      · exact Except.noConfusion h

theorem codegen_expr_call_marking (id : Nat) (callee : Node) (intrinsic : IntrinsicKind)
    {k : Lowering} {ka : Nat → Lowering} (hk : Keeping k) (hka : KeepingCall ka) :
    Marking (fun c => codegen_expr_call c id callee intrinsic k ka) := by
  intro c c' h
  simp only [codegen_expr_call] at h
  split at h
  · exact Except.noConfusion h
  · obtain ⟨cr, ec, h⟩ := bind_ok h
    obtain ⟨c2, e2, h⟩ := bind_ok h
    obtain ⟨c3, e3, h⟩ := bind_ok h
    cases pure_ok h
    have hcr : Marked c cr.1 := by
      split at ec
      · cases pure_ok ec
        exact (Marked.refl_marked c).created_marked _
      · obtain ⟨c1, e1, ec⟩ := bind_ok ec
        cases pure_ok ec
        exact ((Marked.refl_marked c).sub_marked hk e1).created_marked _
    exact ((hcr.call_marked hka e2).insert_old_marked e3).set_ir_marked id _

theorem codegen_expr_intrinsic_call_marking (id : Nat) (intrinsic : IntrinsicKind)
    (first_argument : Option Node) {k : Lowering} {ka : Nat → Lowering} (hk : Keeping k)
    (hka : KeepingCall ka) :
    Marking (fun c => codegen_expr_intrinsic_call c id intrinsic first_argument k ka) := by
  intro c c' h
  cases intrinsic with
  | INTRIN_COUNT => exact Except.noConfusion h
  | INTRIN_BACKEND_COUNT => exact Except.noConfusion h
  | INTRIN_BUILTIN_LINE => exact Except.noConfusion h
  | INTRIN_BUILTIN_FILENAME => exact Except.noConfusion h
  | INTRIN_BUILTIN_SYSCALL =>
    simp only [codegen_expr_intrinsic_call] at h
    split at h
    · cases pure_ok h; exact (Marked.refl_marked c).congr_marked rfl
    · obtain ⟨c2, e2, h⟩ := bind_ok h
      have w : Marked c ((ir_create_intrinsic (c) t_integer
          .INTRIN_BUILTIN_SYSCALL).1.set_ir id
          (some (ir_create_intrinsic (c) t_integer
            .INTRIN_BUILTIN_SYSCALL).2)) :=
        ((Marked.refl_marked c).created_marked _).set_ir_marked id _
      exact (w.call_marked hka e2).insert_old_marked h
  | INTRIN_BUILTIN_INLINE =>
    simp only [codegen_expr_intrinsic_call] at h
    split at h
    · exact Except.noConfusion h
    · obtain ⟨c1, e1, h⟩ := bind_ok h
      obtain ⟨c2, e2, h⟩ := bind_ok h
      cases pure_ok h
      have w2 := ((Marked.refl_marked c).sub_marked hk e1).force_inline_marked e2
      exact w2.congr_marked rfl
  | INTRIN_BUILTIN_DEBUGTRAP =>
    simp only [codegen_expr_intrinsic_call] at h
    exact (Marked.refl_marked c).insert_ir_marked h
  | INTRIN_BUILTIN_MEMCPY =>
    simp only [codegen_expr_intrinsic_call] at h
    obtain ⟨c2, e2, h⟩ := bind_ok h
    have w : Marked c ((ir_create_intrinsic (c) t_void
        .INTRIN_BUILTIN_MEMCPY).1.set_ir id
        (some (ir_create_intrinsic (c) t_void .INTRIN_BUILTIN_MEMCPY).2)) :=
      ((Marked.refl_marked c).created_marked _).set_ir_marked id _
    exact (w.call_marked hka e2).insert_old_marked h

theorem subscript_variable_base_marked {c0 c : CodegenContext} {decl : Nat}
    {r : CodegenContext × Option (Option Nat)} (w : Marked c0 c)
    (h : subscript_variable_base c decl = .ok r) : Marked c0 r.1 := by
  simp only [subscript_variable_base] at h
  obtain ⟨kd, _, h⟩ := bind_ok h
  obtain ⟨ty, _, h⟩ := bind_ok h
  split at h
  · split at h
    · obtain ⟨e, _, h⟩ := bind_ok h
      obtain ⟨x, ex, h⟩ := bind_ok h
      cases pure_ok h
      exact w.insert_step_marked ex
    · cases pure_ok h; exact w
  · cases pure_ok h; exact w.congr_marked rfl

theorem subscript_array_decay_marked {c0 c : CodegenContext} {subs_lhs : Option Nat}
    {r : CodegenContext × Option Nat} (w : Marked c0 c)
    (h : subscript_array_decay c subs_lhs = .ok r) : Marked c0 r.1 := by
  simp only [subscript_array_decay] at h
  obtain ⟨ty, _, h⟩ := bind_ok h
  split at h
  · obtain ⟨x, ex, h⟩ := bind_ok h
    cases pure_ok h
    exact w.insert_step_marked ex
  · cases pure_ok h; exact w

theorem subscript_base_marked (q : Queries) {c0 c : CodegenContext} {id : Nat} {lhs rhs : Node}
    {kl ke : Lowering} {r : CodegenContext × Option (Option Nat)} (w : Marked c0 c)
    (hkl : Keeping kl) (hke : Keeping ke)
    (h : subscript_base q c id lhs rhs kl ke = .ok r) : Marked c0 r.1 := by
  simp only [subscript_base] at h
  split at h
  · exact subscript_variable_base_marked w h
  · split at h
    · obtain ⟨c1, e1, h⟩ := bind_ok h
      cases pure_ok h
      exact w.sub_marked hkl e1
    · split at h
      · obtain ⟨c1, e1, h⟩ := bind_ok h
        have w1 := w.sub_marked hke e1
        split at h
        · split at h
          · exact Except.noConfusion h
          · split at h
            · cases pure_ok h; exact w1.congr_marked rfl
            · split at h
              · obtain ⟨imm, ei, h⟩ := bind_ok h
                obtain ⟨x, ex, h⟩ := bind_ok h
                cases pure_ok h
                exact ((w1.insert_step_marked ei).insert_step_marked ex).set_ir_marked id _
              · cases pure_ok h; exact w1.set_ir_marked id _
        · cases pure_ok h; exact w1
      · cases pure_ok h; exact w.congr_marked rfl

theorem codegen_expr_subscript_marking (q : Queries) (id : Nat) (lhs rhs : Node)
    {kl ke kr : Lowering} (hkl : Keeping kl) (hke : Keeping ke) (hkr : Keeping kr) :
    Marking (fun c => codegen_expr_subscript q c id lhs rhs kl ke kr) := by
  intro c c' h
  simp only [codegen_expr_subscript] at h
  split at h
  · cases pure_ok h; exact (Marked.refl_marked c).congr_marked rfl
  · obtain ⟨base, eb, h⟩ := bind_ok h
    have wb := subscript_base_marked q (Marked.refl_marked c) hkl hke eb
    split at h
    · cases pure_ok h; exact wb
    · obtain ⟨d, ed, h⟩ := bind_ok h
      have wd := subscript_array_decay_marked wb ed
      split at h
      · cases pure_ok h; exact wd.set_ir_marked id _
      · obtain ⟨c1, e1, h⟩ := bind_ok h
        have w1 := wd.sub_marked hkr e1
        split at h
        · obtain ⟨imm, ei, h⟩ := bind_ok h
          obtain ⟨sc, es, h⟩ := bind_ok h
          exact ((w1.insert_step_marked ei).insert_step_marked es).insert_ir_marked h
        · split at h
          · obtain ⟨imm, ei, h⟩ := bind_ok h
            obtain ⟨sc, es, h⟩ := bind_ok h
            exact ((w1.insert_step_marked ei).insert_step_marked es).insert_ir_marked h
          · exact w1.insert_ir_marked h

theorem codegen_expr_binary_marking (q : Queries) (id : Nat) (op : TokenType)
    (lhs rhs : Node) {kl ke kr : Lowering} (hkl : Keeping kl) (hke : Keeping ke)
    (hkr : Keeping kr) :
    Marking (fun c => codegen_expr_binary q c id op lhs rhs kl ke kr) := by
  intro c c' h
  simp only [codegen_expr_binary] at h
  split at h
  · obtain ⟨c1, e1, h⟩ := bind_ok h
    obtain ⟨c2, e2, h⟩ := bind_ok h
    exact (((Marked.refl_marked c).sub_marked hkr e1).sub_marked hkl e2).insert_ir_marked h
  · split at h
    · exact codegen_expr_subscript_marking q id lhs rhs hkl hke hkr c c' h
    · obtain ⟨c1, e1, h⟩ := bind_ok h
      obtain ⟨c2, e2, h⟩ := bind_ok h
      obtain ⟨kd, ek, h⟩ := bind_ok h
      exact (((Marked.refl_marked c).sub_marked hke e1).sub_marked hkr e2).insert_ir_marked h

theorem codegen_expr_unary_marking (id : Nat) (op : TokenType) (post : Bool) (value : Node)
    {kl ke : Lowering} (hkl : Keeping kl) (hke : Keeping ke) :
    Marking (fun c => codegen_expr_unary c id op post value kl ke) := by
  intro c c' h
  simp only [codegen_expr_unary] at h
  split at h
  · split at h
    · exact Except.noConfusion h
    · obtain ⟨c1, e1, h⟩ := bind_ok h
      cases pure_ok h
      exact ((Marked.refl_marked c).sub_marked hkl e1).set_ir_marked id _
  · obtain ⟨c1, e1, h⟩ := bind_ok h
    have w1 := (Marked.refl_marked c).sub_marked hke e1
    split at h
    · split at h
      · split at h
        · cases pure_ok h; exact w1.set_ir_marked id _
        · obtain ⟨ty, _, h⟩ := bind_ok h
          obtain ⟨e, _, h⟩ := bind_ok h
          exact w1.insert_ir_marked h
      · exact w1.insert_ir_marked h
      · exact Except.noConfusion h
    · exact Except.noConfusion h

theorem codegen_expr_return_marking (id : Nat) (value_id : Option Nat) {k : Lowering}
    (hk : Keeping k) : Marking (fun c => codegen_expr_return c id value_id k) := by
  intro c c' h
  simp only [codegen_expr_return] at h
  split at h
  · obtain ⟨c1, e1, h⟩ := bind_ok h
    exact ((Marked.refl_marked c).sub_marked hk e1).insert_ir_marked h
  · exact (Marked.refl_marked c).insert_ir_marked h

theorem codegen_expr_literal_marking (q : Queries) (id : Nat) (type : Ty)
    (lit_type : TokenType) (integer string_index : Nat) {ka : Option Nat → Lowering}
    (hka : ∀ a, Keeping (ka a)) :
    Marking (fun c => codegen_expr_literal q c id type lit_type integer string_index ka) := by
  intro c c' h
  simp only [codegen_expr_literal] at h
  split at h
  · exact (Marked.refl_marked c).insert_ir_marked h
  · obtain ⟨r, er, h⟩ := bind_ok h
    cases pure_ok h
    have w0 : Marked c (ir_create_static
        { c with
          string_literal_count := ((c).string_literal_count + 1) % 2 ^ 64 }
        id type ("__str_lit".toList ++ format_Z (c).string_literal_count)).1 :=
      (Marked.refl_marked c).congr_marked rfl
    have w1 : Marked c (r.1.set_ir id (some r.2)) :=
      (w0.insert_step_marked er).set_ir_marked id _
    exact w1.static_init_marked _ _
  · obtain ⟨r, er, h⟩ := bind_ok h
    obtain ⟨a, ea, h⟩ := bind_ok h
    obtain ⟨c1, e1, h⟩ := bind_ok h
    obtain ⟨c2, e2, h⟩ := bind_ok h
    obtain ⟨ty, _, h⟩ := bind_ok h
    obtain ⟨e, _, h⟩ := bind_ok h
    have w1 : Marked c (r.1.set_ir id (some r.2)) :=
      ((Marked.refl_marked c).insert_step_marked er).set_ir_marked id _
    have w2 := (w1.insert_step_marked ea).set_type_marked e1
    exact (w2.sub_marked (hka _) e2).insert_ir_marked h
  · cases pure_ok h; exact (Marked.refl_marked c).congr_marked rfl

theorem codegen_expr_while_marking (condition_id : Nat) (body_size : Option Nat)
    {kc kb : Lowering} (hkc : Keeping kc) (hkb : Keeping kb) :
    Marking (fun c => codegen_expr_while c condition_id body_size kc kb) := by
  intro c c' h
  simp only [codegen_expr_while] at h
  obtain ⟨r, er, h⟩ := bind_ok h
  obtain ⟨c2, e2, h⟩ := bind_ok h
  have w1 := ((Marked.refl_marked c).block_marked.block_marked).insert_step_marked er
  have w2 := (w1.attach_marked _).sub_marked hkc e2
  split at h
  · exact Except.noConfusion h
  · split at h
    · obtain ⟨r2, er2, h⟩ := bind_ok h
      cases pure_ok h
      exact (w2.insert_step_marked er2).attach_marked _
    · obtain ⟨r2, er2, h⟩ := bind_ok h
      obtain ⟨c4, e4, h⟩ := bind_ok h
      obtain ⟨c5, e5, h⟩ := bind_ok h
      cases pure_ok h
      exact (((((w2.block_marked).insert_step_marked er2).attach_marked _).sub_marked hkb
        e4).branch_if_open_marked e5).attach_marked _

theorem codegen_expr_for_marking (condition_id : Nat) {ki kc kb kt : Lowering}
    (hki : Keeping ki) (hkc : Keeping kc) (hkb : Keeping kb) (hkt : Keeping kt) :
    Marking (fun c => codegen_expr_for c condition_id ki kc kb kt) := by
  intro c c' h
  simp only [codegen_expr_for] at h
  obtain ⟨c1, e1, h⟩ := bind_ok h
  obtain ⟨r1, er1, h⟩ := bind_ok h
  obtain ⟨c2, e2, h⟩ := bind_ok h
  obtain ⟨r2, er2, h⟩ := bind_ok h
  obtain ⟨c3, e3, h⟩ := bind_ok h
  obtain ⟨c4, e4, h⟩ := bind_ok h
  obtain ⟨r3, er3, h⟩ := bind_ok h
  cases pure_ok h
  have w1 := ((Marked.refl_marked c).block_marked.block_marked.block_marked).sub_marked hki e1
  have w2 := ((w1.insert_step_marked er1).attach_marked _).sub_marked hkc e2
  have w3 := ((w2.insert_step_marked er2).attach_marked _).sub_marked hkb e3
  exact ((w3.sub_marked hkt e4).insert_step_marked er3).attach_marked _

theorem codegen_expr_if_marking (q : Queries) (id : Nat) (type : Ty)
    (condition_id then_id : Nat) (else_id : Option Nat) {kc kt ke : Lowering}
    (hkc : Keeping kc) (hkt : Keeping kt) (hke : Keeping ke) :
    Marking (fun c => codegen_expr_if q c id type condition_id then_id else_id kc kt ke) := by
  intro c c' h
  simp only [codegen_expr_if] at h
  obtain ⟨c1, e1, h⟩ := bind_ok h
  obtain ⟨r, er, h⟩ := bind_ok h
  obtain ⟨c2, e2, h⟩ := bind_ok h
  obtain ⟨c2', e2', h⟩ := bind_ok h
  obtain ⟨e, ee, h⟩ := bind_ok h
  obtain ⟨c3', e3', h⟩ := bind_ok h
  have w1 := (Marked.refl_marked c).sub_marked hkc e1
  have w2 := (w1.block_marked.block_marked.block_marked).insert_step_marked er
  have w3 := ((w2.attach_marked _).sub_marked hkt e2).branch_if_open_marked e2'
  have w4 : Marked c e.1 := by
    split at ee
    · obtain ⟨c3, e3, ee⟩ := bind_ok ee
      cases pure_ok ee
      exact (w3.attach_marked _).sub_marked hke e3
    · cases pure_ok ee
      exact w3.attach_marked _
  have w5 := (w4.branch_if_open_marked e3').attach_marked
    (ir_block (ir_block (ir_block c1).1).1).2
  split at h
  · obtain ⟨phi, ephi, h⟩ := bind_ok h
    have w6 := w5.insert_step_marked ephi
    split at h
    · exact Except.noConfusion h
    · cases pure_ok h
      exact ((w6.phi_add_arg_marked _ _ _).phi_add_arg_marked _ _ _).set_ir_marked id _
  · cases pure_ok h
    exact w5

/-! ## A node is emitted once (`codegen_expr`, `codegen_lvalue`) -/

theorem set_emitted_self (c : CodegenContext) (id : Nat) :
    (c.set_emitted id).node_emitted id = true := by
  show (if id = id then true else c.node_emitted id) = true
  rw [if_pos rfl]

/-- When `codegen_expr` returns, the node is marked as emitted. -/
theorem codegen_expr_marks (q : Queries) (expr : Node) (c c' : CodegenContext)
    (h : codegen_expr q c expr = .ok c') : c'.node_emitted expr.id = true := by
  cases expr with
  | function id _ _ _ attr_inline _ _ =>
    rw [codegen_expr] at h
    split at h
    · rename_i hn; cases h; exact hn
    · exact codegen_expr_function_marking id attr_inline _ c' h id (set_emitted_self c id)
  | module_reference id _ =>
    rw [codegen_expr] at h
    split at h
    · rename_i hn; cases h; exact hn
    · cases pure_ok h; exact set_emitted_self c id
  | root id _ children =>
    rw [codegen_expr] at h
    split at h
    · rename_i hn; cases h; exact hn
    · exact codegen_expr_root_marking children (codegen_children_keeping q children) _ c' h id
        (set_emitted_self c id)
  | declaration id type name linkage init =>
    rw [codegen_expr] at h
    split at h
    · rename_i hn; cases h; exact hn
    · split at h
      · cases h; exact set_emitted_self c id
      · exact (codegen_lvalue_declaration_keeping q id type name linkage init
          (codegen_optional_keeping q init) _ c' h).emitted id (set_emitted_self c id)
  | member_access id _ struct_ off mty =>
    rw [codegen_expr] at h
    split at h
    · rename_i hn; cases h; exact hn
    · exact codegen_expr_load_marking id
        ((codegen_lvalue_member_access_keeping id struct_.id off mty
          (codegen_lvalue_keeping q struct_)).guard_keeping
            (fun c => (c.node_address id).isSome)) _ c' h id (set_emitted_self c id)
  | variable_reference id _ decl =>
    rw [codegen_expr] at h
    split at h
    · rename_i hn; cases h; exact hn
    · exact codegen_expr_load_marking id
        ((codegen_lvalue_variable_reference_keeping id decl).guard_keeping
          (fun c => (c.node_address id).isSome)) _ c' h id (set_emitted_self c id)
  | structure_declaration id _ =>
    rw [codegen_expr] at h
    split at h
    · rename_i hn; cases h; exact hn
    · cases pure_ok h; exact set_emitted_self c id
  | if_ id type condition then_ else_ =>
    rw [codegen_expr] at h
    split at h
    · rename_i hn; cases h; exact hn
    · exact codegen_expr_if_marking q id type condition.id then_.id
        (else_.map (fun e => e.id)) (codegen_expr_keeping q condition)
        (codegen_expr_keeping q then_) (codegen_optional_keeping q else_) _ c' h id
        (set_emitted_self c id)
  | while_ id _ condition body =>
    rw [codegen_expr] at h
    split at h
    · rename_i hn; cases h; exact hn
    · exact codegen_expr_while_marking condition.id body.block_children_size
        (codegen_expr_keeping q condition) (codegen_expr_keeping q body) _ c' h id
        (set_emitted_self c id)
  | block id type children =>
    rw [codegen_expr] at h
    split at h
    · rename_i hn; cases h; exact hn
    · exact codegen_expr_block_marking q id type children
        (codegen_children_keeping q children) _ c' h id (set_emitted_self c id)
  | call id _ callee arguments intrinsic =>
    rw [codegen_expr] at h
    split at h
    · rename_i hn; cases h; exact hn
    · exact codegen_expr_call_marking id callee intrinsic (codegen_expr_keeping q callee)
        (codegen_call_arguments_keeping q arguments) _ c' h id (set_emitted_self c id)
  | intrinsic_call id _ _ arguments intrinsic =>
    rw [codegen_expr] at h
    split at h
    · rename_i hn; cases h; exact hn
    · exact codegen_expr_intrinsic_call_marking id intrinsic arguments.head?
        (codegen_first_keeping q arguments)
        (codegen_call_arguments_keeping q arguments) _ c' h id (set_emitted_self c id)
  | cast id type value =>
    rw [codegen_expr] at h
    split at h
    · rename_i hn; cases h; exact hn
    · exact codegen_expr_cast_marking q id type value (codegen_expr_keeping q value) _ c' h id
        (set_emitted_self c id)
  | binary id _ op lhs rhs =>
    rw [codegen_expr] at h
    split at h
    · rename_i hn; cases h; exact hn
    · exact codegen_expr_binary_marking q id op lhs rhs (codegen_lvalue_keeping q lhs)
        (codegen_expr_keeping q lhs) (codegen_expr_keeping q rhs) _ c' h id
        (set_emitted_self c id)
  | unary id _ op post value =>
    rw [codegen_expr] at h
    split at h
    · rename_i hn; cases h; exact hn
    · exact codegen_expr_unary_marking id op post value (codegen_lvalue_keeping q value)
        (codegen_expr_keeping q value) _ c' h id (set_emitted_self c id)
  | literal id type lit_type integer string_index compound =>
    rw [codegen_expr] at h
    split at h
    · rename_i hn; cases h; exact hn
    · exact codegen_expr_literal_marking q id type lit_type integer string_index
        (fun address => codegen_array_elements_keeping q (q.type_sizeof type.array_of)
          compound.length compound address 0) _ c' h id (set_emitted_self c id)
  | for_ id _ init condition iterator body =>
    rw [codegen_expr] at h
    split at h
    · rename_i hn; cases h; exact hn
    · exact codegen_expr_for_marking condition.id (codegen_expr_keeping q init)
        (codegen_expr_keeping q condition) (codegen_expr_keeping q body)
        (codegen_expr_keeping q iterator) _ c' h id (set_emitted_self c id)
  | return_ id _ value =>
    rw [codegen_expr] at h
    split at h
    · rename_i hn; cases h; exact hn
    · exact codegen_expr_return_marking id (value.map (fun v => v.id))
        (codegen_optional_keeping q value) _ c' h id (set_emitted_self c id)
  | function_reference _ _ =>
    rw [codegen_expr] at h
    split at h
    · rename_i hn; cases h; exact hn
    · exact Except.noConfusion h

/-- C31: lowering is idempotent per node. When `codegen_expr` has returned for a node, a
second `codegen_expr` on that node returns the context as it is: no instruction is
inserted, no block or static variable is created, and the `ir` and `address` fields of
every node are unchanged; so does any `codegen_expr` on a node whose `emitted` flag is
set. A `codegen_lvalue` on a node whose address is set returns the context as it is. -/
theorem lowering_is_idempotent (q : Queries) (ctx c' : CodegenContext) (expr : Node)
    (hfirst : codegen_expr q ctx expr = .ok c') :
    codegen_expr q c' expr = .ok c' ∧
    (∀ (c : CodegenContext) (e : Node), c.node_emitted e.id = true →
      codegen_expr q c e = .ok c) ∧
    (∀ (c : CodegenContext) (lval : Node), (c.node_address lval.id).isSome = true →
      codegen_lvalue q c lval = .ok c) := by
  have hguard : ∀ (c : CodegenContext) (e : Node), c.node_emitted e.id = true →
      codegen_expr q c e = .ok c := by
    intro c e he
    cases e <;> (rw [codegen_expr]; exact if_pos he)
  refine ⟨hguard c' expr (codegen_expr_marks q expr ctx c' hfirst), hguard, ?_⟩
  intro c lval ha
  cases lval <;> (rw [codegen_lvalue] <;> first | exact if_pos ha | (intros; contradiction))

theorem lowering_is_idempotent_witness :
    ∃ c', codegen_expr example_queries example_context if_with_open_arms = .ok c' ∧
      codegen_expr example_queries c' if_with_open_arms = .ok c' ∧
      c'.node_emitted 1 = true :=
  ⟨result_context (codegen_expr example_queries example_context if_with_open_arms),
    result_context_ok (by decide!),
    (lowering_is_idempotent example_queries example_context _ if_with_open_arms
      (result_context_ok (by decide!))).1,
    by decide!⟩

end Intercept
